import Mathlib

/-!
# Zilliqa contract storage and proof of work: a shallow embedding

Lean model of `src/libPersistence/ContractStorage2.cpp`: the layered key/value
store for contract state (persistent database, committed overlay, temporary
overlay, snapshot buffer and revert journal), and of the hash helpers and the
difficulty boundary of `src/libPOW/pow.cpp`, followed by theorems about them.

Strings and byte arrays are lists of byte values.  `std::map`, `std::set` and
the LevelDB table are association lists kept in ascending byte order of key;
every operation of the source is written against that representation.
-/

namespace Zilliqa

/-! ## Byte strings and ordered tables -/

/-- Byte string (`bytes` and `std::string` of the source). -/
abbrev Bytes := List Nat

/-- Storage key: a `std::string`. -/
abbrev Key := List Nat

/-- Bytewise lexicographic order, the order of `std::map<std::string, _>` and of
the LevelDB default comparator. -/
def keyLt : Key → Key → Bool
  | [], [] => false
  | [], _ :: _ => true
  | _ :: _, [] => false
  | a :: as, b :: bs => if a < b then true else if b < a then false else keyLt as bs

/-- The test `s.compare(0, p.size(), p) == 0`: `s` starts with `p`. -/
def startsWith (s p : Key) : Bool := p.isPrefixOf s

/-- Ordered table with unique keys (`std::map<std::string, β>`, LevelDB). -/
abbrev SMap (β : Type) := List (Key × β)

namespace SMap

variable {β : Type}

/-- Value stored under `k` (`find`), if any. -/
def find? : SMap β → Key → Option β
  | [], _ => none
  | (k', v) :: tl, k => if k' = k then some v else find? tl k

/-- Membership test (`find(k) != end()`, `Exists(k)`). -/
def contains (m : SMap β) (k : Key) : Bool := (m.find? k).isSome

/-- The assignment `m[k] = v`: insert in key order, overwriting an existing entry. -/
def insert : SMap β → Key → β → SMap β
  | [], k, v => [(k, v)]
  | (k', v') :: tl, k, v =>
    if keyLt k k' then (k, v) :: (k', v') :: tl
    else if k' = k then (k, v) :: tl
    else (k', v') :: insert tl k v

/-- The call `m.emplace(k, v)`: insert unless the key is already present. -/
def emplace (m : SMap β) (k : Key) (v : β) : SMap β :=
  if m.contains k then m else m.insert k v

/-- The call `m.erase(k)`. -/
def erase (m : SMap β) (k : Key) : SMap β := m.filter (fun e => !decide (e.1 = k))

/-- The iterator `m.lower_bound(k)` (LevelDB `Seek`): the entries from the first
key not below `k` on. -/
def lowerBound (m : SMap β) (k : Key) : SMap β := m.dropWhile (fun e => keyLt e.1 k)

/-- The scan `p = lower_bound(prefix); while (p != end && p->first starts with prefix) ++p`. -/
def scanPrefix (m : SMap β) (pre : Key) : SMap β :=
  (m.lowerBound pre).takeWhile (fun e => startsWith e.1 pre)

/-- Keys strictly ascending: the representation invariant of an ordered table. -/
def WF (m : SMap β) : Prop := m.Pairwise (fun a b => keyLt a.1 b.1 = true)

end SMap

/-- Ordered set of keys (`std::set<std::string>`). -/
abbrev SSet := SMap Unit

namespace SSet

/-- Membership (`find(k) != end()`). -/
def mem (d : SSet) (k : Key) : Bool := SMap.contains d k

/-- The call `d.emplace(k)`. -/
def add (d : SSet) (k : Key) : SSet := SMap.emplace d k ()

/-- The call `d.erase(k)`. -/
def remove (d : SSet) (k : Key) : SSet := SMap.erase d k

end SSet

/-! ## Constants and keys -/

/-- Modelled from the spec: the constant `SCILLA_INDEX_SEPARATOR` (declared outside
the given sources), the fixed 1-byte separator `SEP` of storage keys. -/
def SCILLA_INDEX_SEPARATOR : Nat := 0x16

/-- Modelled from the spec: the constant `FIELDS_MAP_DEPTH_INDICATOR` (declared
outside the given sources), the reserved name `_depth`. -/
def FIELDS_MAP_DEPTH_INDICATOR : Bytes := [95, 100, 101, 112, 116, 104]

/-- Modelled from the spec: the constant `SHARDING_INFO_INDICATOR` (declared outside
the given sources), the reserved name `_sharding`. -/
def SHARDING_INFO_INDICATOR : Bytes := [95, 115, 104, 97, 114, 100, 105, 110, 103]

/-- Contract address (`dev::h160`): its 20 bytes. -/
abbrev Address := List Nat

/-- One lowercase hexadecimal digit as an ASCII byte. -/
def hexDigit (n : Nat) : Nat := if n % 16 < 10 then 48 + n % 16 else 87 + n % 16

/-- The call `addr.hex()`: two lowercase hexadecimal digits per byte. -/
def Address.hex (a : Address) : Key :=
  a.flatMap (fun b => [hexDigit (b % 256 / 16), hexDigit (b % 256 % 16)])

/-- The loop `for (index : indices) key += index + SCILLA_INDEX_SEPARATOR`. -/
def appendIndices (key : Key) (indices : List Bytes) : Key :=
  indices.foldl (fun acc index => acc ++ index ++ [SCILLA_INDEX_SEPARATOR]) key

/-- The function `ContractStorage2::GenerateStorageKey`. -/
def GenerateStorageKey (addr : Address) (vname : Bytes) (indices : List Bytes) : Key :=
  if vname = [] then addr.hex
  else appendIndices (addr.hex ++ [SCILLA_INDEX_SEPARATOR] ++ vname ++ [SCILLA_INDEX_SEPARATOR]) indices

/-- The call `boost::split(out, s, is_separator)`: one token per separator plus one,
empty tokens kept. -/
def split (sep : Nat) : Bytes → List Bytes
  | [] => [[]]
  | c :: cs =>
    if c = sep then [] :: split sep cs
    else match split sep cs with
      | [] => [[c]]
      | t :: ts => (c :: t) :: ts

/-- The statement `if (v.size() > 0 && v.back().empty()) v.pop_back()`. -/
def popBackIfEmpty (v : List Bytes) : List Bytes :=
  match v.getLast? with
  | some [] => v.dropLast
  | _ => v

/-! ## Protocol messages -/

/-- The message `ProtoScillaQuery`, parsed. -/
structure ProtoScillaQuery where
  name : Bytes
  mapdepth : Nat
  indices : List Bytes
  ignoreval : Bool
deriving DecidableEq

/-- The message `ProtoScillaVal`: a `oneof` of `bval` and `mval`, possibly with
neither member set. The protobuf map is kept in ascending key order. -/
inductive ProtoScillaVal where
  | unset
  | bval (b : Bytes)
  | mval (m : List (Key × ProtoScillaVal))

namespace ProtoScillaVal

mutual
/-- Equality of values is decidable. -/
def decEq : (a b : ProtoScillaVal) → Decidable (a = b)
  | unset, unset => isTrue rfl
  | bval a, bval b =>
    if h : a = b then isTrue (by rw [h]) else isFalse (by intro e; cases e; exact h rfl)
  | mval a, mval b =>
    match decEqEntries a b with
    | isTrue h => isTrue (by rw [h])
    | isFalse h => isFalse (by intro e; cases e; exact h rfl)
  | unset, bval _ => isFalse (by intro e; cases e)
  | unset, mval _ => isFalse (by intro e; cases e)
  | bval _, unset => isFalse (by intro e; cases e)
  | bval _, mval _ => isFalse (by intro e; cases e)
  | mval _, unset => isFalse (by intro e; cases e)
  | mval _, bval _ => isFalse (by intro e; cases e)
/-- Equality of entry lists is decidable. -/
def decEqEntries : (a b : List (Key × ProtoScillaVal)) → Decidable (a = b)
  | [], [] => isTrue rfl
  | [], _ :: _ => isFalse (by intro e; cases e)
  | _ :: _, [] => isFalse (by intro e; cases e)
  | (k, v) :: as, (k', v') :: bs =>
    if hk : k = k' then
      match decEq v v' with
      | isTrue hv =>
        match decEqEntries as bs with
        | isTrue ht => isTrue (by rw [hk, hv, ht])
        | isFalse ht => isFalse (by intro e; cases e; exact ht rfl)
      | isFalse hv => isFalse (by intro e; cases e; exact hv rfl)
    else isFalse (by intro e; cases e; exact hk rfl)
end

instance : DecidableEq ProtoScillaVal := decEq

/-- The accessor `has_mval()`. -/
def has_mval : ProtoScillaVal → Bool
  | mval _ => true
  | _ => false

/-- The accessor `bval()`: the bytes, empty when `bval` is not the member set. -/
def getBval : ProtoScillaVal → Bytes
  | bval b => b
  | _ => []

/-- The accessor `mutable_mval()->mutable_m()`: the map held, a fresh empty map when
`mval` was not the member set. -/
def mutableM : ProtoScillaVal → SMap ProtoScillaVal
  | mval m => m
  | _ => []

end ProtoScillaVal

/-- What the fetch loop does to the node it reached: `mutable_mval()->mutable_m()`
or `set_bval`. -/
inductive NodeOp where
  | createMap
  | setBval (b : Bytes)
deriving DecidableEq

/-- Walk `t_value = &(*t_value->mutable_mval()->mutable_m())[index]` along `indices`
from the root, then apply `op` to the node reached. -/
def applyAt : List Bytes → NodeOp → ProtoScillaVal → ProtoScillaVal
  | [], .createMap, v => .mval v.mutableM
  | [], .setBval b, _ => .bval b
  | i :: rest, op, v =>
    .mval (SMap.insert v.mutableM i (applyAt rest op ((SMap.find? v.mutableM i).getD .unset)))

/-- The protobuf wire codec, as far as the store depends on it. -/
structure ProtoCodec where
  /-- `SerializeToArray` of a `ProtoScillaVal` holding an empty `mval`. -/
  emptyMapBytes : Bytes
  /-- `ParseFromArray` followed by `has_mval() && mval().m().empty()`. -/
  isEmptyMap : Bytes → Bool

/-- The codec reads back its own encoding of the empty map. -/
def ProtoCodec.Lawful (c : ProtoCodec) : Prop := c.isEmptyMap c.emptyMapBytes = true

/-- The wire encoding of the empty map (field 2, length 0), recognised literally. -/
def wireCodec : ProtoCodec where
  emptyMapBytes := [0x12, 0x00]
  isEmptyMap := fun b => decide (b = [0x12, 0x00])

/-! ## The store -/

/-- The state-data members of `ContractStorage2`. -/
structure ContractStorage2 where
  m_stateDataDB : SMap Bytes
  m_stateDataMap : SMap Bytes
  m_indexToBeDeleted : SSet
  t_stateDataMap : SMap Bytes
  t_indexToBeDeleted : SSet
  p_stateDataMap : SMap Bytes
  p_indexToBeDeleted : SSet
  r_stateDataMap : SMap Bytes
  r_indexToBeDeleted : SMap Bool
deriving DecidableEq

/-- The store after `Reset`: every table empty. -/
def ContractStorage2.empty : ContractStorage2 :=
  ⟨[], [], [], [], [], [], [], [], []⟩

/-- Every table of the store is in ascending key order. -/
structure ContractStorage2.WF (s : ContractStorage2) : Prop where
  db : s.m_stateDataDB.WF
  m : s.m_stateDataMap.WF
  md : SMap.WF s.m_indexToBeDeleted
  t : s.t_stateDataMap.WF
  td : SMap.WF s.t_indexToBeDeleted
  p : s.p_stateDataMap.WF
  pd : SMap.WF s.p_indexToBeDeleted
  r : s.r_stateDataMap.WF
  rd : s.r_indexToBeDeleted.WF

/-! ## Operations of `ContractStorage2` -/

/-- Result of `FetchStateValue`: the return value, the out-parameter `foundVal`, and
the value serialized into `dst` (`none` when `dst` is left untouched). -/
structure FetchResult where
  ok : Bool
  foundVal : Bool
  dst : Option ProtoScillaVal
deriving DecidableEq

/-- The key `addr.hex() + SEP + name + SEP` that fetches and updates start from. -/
def nameKey (addr : Address) (name : Bytes) : Key :=
  addr.hex ++ [SCILLA_INDEX_SEPARATOR] ++ name ++ [SCILLA_INDEX_SEPARATOR]

/-- The loops `entries.emplace(p->first, p->second)` guarded by
`entries.find(p->first) == entries.end()`. -/
def emplaceAll {β : Type} (entries : SMap β) (scan : SMap β) : SMap β :=
  scan.foldl (fun acc e => SMap.emplace acc e.1 e.2) entries

/-- The residual index path of a stored key below the queried key
(`FetchStateValue`, the `substr` / `boost::split` / `pop_back` lines). -/
def residualIndices (key entryKey : Key) : List Bytes :=
  if entryKey.length > key.length then
    popBackIfEmpty (split SCILLA_INDEX_SEPARATOR (entryKey.drop key.length))
  else []

/-- The loop `for (const auto& entry : entries)` of `FetchStateValue`, run over the
entries in ascending key order with the value under construction and the 32-bit
`counter`; `none` is the `return false` inside the loop. -/
def fetchLoop (c : ProtoCodec) (s : ContractStorage2) (query : ProtoScillaQuery) (key : Key) :
    List (Key × Bytes) → ProtoScillaVal → Nat → Option (ProtoScillaVal × Nat)
  | [], value, counter => some (value, counter)
  | (k, b) :: tl, value, counter =>
    if s.t_indexToBeDeleted.mem k then fetchLoop c s query key tl value counter
    else if s.m_indexToBeDeleted.mem k && !s.t_stateDataMap.contains k then
      fetchLoop c s query key tl value counter
    else if !startsWith k key then none
    else
      let indices := residualIndices key k
      if query.indices.length + indices.length < query.mapdepth then
        if c.isEmptyMap b then
          fetchLoop c s query key tl (applyAt indices .createMap value) ((counter + 1) % 2 ^ 32)
        else none
      else
        fetchLoop c s query key tl (applyAt indices (.setBval b) value) ((counter + 1) % 2 ^ 32)

/-- The map branch of `ContractStorage2::FetchStateValue` (from the comment
"We're fetching a Map value" on). -/
def fetchMap (c : ProtoCodec) (s : ContractStorage2) (query : ProtoScillaQuery) (key : Key) :
    FetchResult :=
  let tScan := s.t_stateDataMap.scanPrefix key
  if query.ignoreval && !tScan.isEmpty then ⟨true, true, none⟩
  else
    let entries := emplaceAll [] tScan
    let mScan := s.m_stateDataMap.scanPrefix key
    if query.ignoreval && !mScan.isEmpty then ⟨true, true, none⟩
    else
      let entries := emplaceAll entries mScan
      let dbScan := s.m_stateDataDB.scanPrefix key
      if dbScan.isEmpty && entries.isEmpty then ⟨!query.indices.isEmpty, false, none⟩
      else if !dbScan.isEmpty && query.ignoreval then ⟨true, true, none⟩
      else
        let entries := emplaceAll entries dbScan
        match fetchLoop c s query key entries .unset 0 with
        | none => ⟨false, true, none⟩
        | some (value, counter) =>
          if counter = 0 then ⟨true, false, none⟩ else ⟨true, true, some value⟩

/-- The function `ContractStorage2::FetchStateValue`, on a parsed query. -/
def FetchStateValue (c : ProtoCodec) (s : ContractStorage2) (addr : Address)
    (query : ProtoScillaQuery) : FetchResult :=
  if query.name = FIELDS_MAP_DEPTH_INDICATOR ∨ query.name = SHARDING_INFO_INDICATOR then
    ⟨false, true, none⟩
  else
    let key := appendIndices (nameKey addr query.name) query.indices
    if query.indices.length > query.mapdepth then ⟨false, true, none⟩
    else if s.t_indexToBeDeleted.mem key && decide (query.indices.length = query.mapdepth) then
      ⟨true, false, none⟩
    else if s.m_indexToBeDeleted.mem key && !s.t_stateDataMap.contains key
        && decide (query.indices.length = query.mapdepth) then
      ⟨true, false, none⟩
    else if query.indices.length = query.mapdepth then
      match s.t_stateDataMap.find? key with
      | some bval => ⟨true, true, some (.bval bval)⟩
      | none =>
        match s.m_stateDataMap.find? key with
        | some bval => ⟨true, true, some (.bval bval)⟩
        | none =>
          match s.m_stateDataDB.find? key with
          | some bval =>
            if query.ignoreval then ⟨true, true, none⟩ else ⟨true, true, some (.bval bval)⟩
          | none =>
            if query.mapdepth = 0 then ⟨false, true, none⟩ else ⟨true, false, none⟩
    else fetchMap c s query key

/-- The keys of a scan, added to `t_indexToBeDeleted` one by one. -/
def markDeleted {β : Type} (d : SSet) (scan : SMap β) : SSet :=
  scan.foldl (fun acc e => SSet.add acc e.1) d

/-- The function `ContractStorage2::DeleteByPrefix`. -/
def DeleteByPrefix (s : ContractStorage2) (pre : Key) : ContractStorage2 :=
  let d := markDeleted s.t_indexToBeDeleted (s.t_stateDataMap.scanPrefix pre)
  let d := markDeleted d (s.m_stateDataMap.scanPrefix pre)
  let d := markDeleted d (s.m_stateDataDB.scanPrefix pre)
  { s with t_indexToBeDeleted := d }

/-- The function `ContractStorage2::DeleteByIndex`. -/
def DeleteByIndex (s : ContractStorage2) (index : Key) : ContractStorage2 :=
  if s.t_stateDataMap.contains index then
    { s with t_indexToBeDeleted := s.t_indexToBeDeleted.add index }
  else if s.m_stateDataMap.contains index then
    { s with t_indexToBeDeleted := s.t_indexToBeDeleted.add index }
  else if s.m_stateDataDB.contains index then
    { s with t_indexToBeDeleted := s.t_indexToBeDeleted.add index }
  else s

/-- The loop `for (i = 2; i < indices.size() - 1; ++i)` of `CleanEmptyMapPlaceholders`,
over the fragments it visits. -/
def cleanLoop (s : ContractStorage2) (scankey : Key) : List Bytes → ContractStorage2
  | [] => s
  | i :: rest =>
    let scankey := scankey ++ i ++ [SCILLA_INDEX_SEPARATOR]
    cleanLoop (DeleteByIndex s scankey) scankey rest

/-- The function `ContractStorage2::CleanEmptyMapPlaceholders`. The accesses
`indices.at(0)` and `indices.at(1)` are total here; every key the store passes in
holds two separators, so they do not throw. -/
def CleanEmptyMapPlaceholders (s : ContractStorage2) (key : Key) : Bool × ContractStorage2 :=
  let indices := split SCILLA_INDEX_SEPARATOR key
  if indices.length < 2 then (false, s)
  else
    let indices := popBackIfEmpty indices
    let scankey := indices.getD 0 [] ++ [SCILLA_INDEX_SEPARATOR] ++ indices.getD 1 []
      ++ [SCILLA_INDEX_SEPARATOR]
    let s := DeleteByIndex s scankey
    (true, cleanLoop s scankey (indices.drop 2).dropLast)

/-- Modelled from the spec: the default of the parameter `cleanEmpty` of
`UpdateStateData`, which is declared in the header (not among the given sources);
placeholder cleanup is described for write mode only, so the default is off. -/
def cleanEmptyDefault : Bool := false

/-- The function `ContractStorage2::UpdateStateData`. -/
def UpdateStateData (s : ContractStorage2) (key : Key) (value : Bytes) (cleanEmpty : Bool) :
    ContractStorage2 :=
  let s := if cleanEmpty then (CleanEmptyMapPlaceholders s key).2 else s
  { s with
    t_indexToBeDeleted := s.t_indexToBeDeleted.remove key
    t_stateDataMap := s.t_stateDataMap.insert key value }

/-- The function `ContractStorage2::FetchStateDataForKey`, called with an empty
`states` as every caller does. -/
def FetchStateDataForKey (s : ContractStorage2) (key : Key) (temp : Bool) : SMap Bytes :=
  let states : SMap Bytes := if temp then emplaceAll [] (s.t_stateDataMap.scanPrefix key) else []
  let states := emplaceAll states (s.m_stateDataMap.scanPrefix key)
  let states := emplaceAll states (s.m_stateDataDB.scanPrefix key)
  let states :=
    if temp then states.filter (fun e => !s.t_indexToBeDeleted.mem e.1) else states
  states.filter (fun e =>
    !(s.m_indexToBeDeleted.mem e.1 && ((temp && !s.t_stateDataMap.contains e.1) || !temp)))

mutual
/-- The recursive lambda `mapHandler` of `UpdateStateValue`. -/
def mapHandler (c : ProtoCodec) (keyAcc : Key) :
    ProtoScillaVal → ContractStorage2 → Bool × ContractStorage2
  | .mval [], s => (true, UpdateStateData s keyAcc c.emptyMapBytes true)
  | .mval (e :: es), s => mapHandlerEntries c keyAcc (e :: es) s
  | _, s => (false, s)
/-- The loop `for (const auto& entry : value.mval().m())` of `mapHandler`. -/
def mapHandlerEntries (c : ProtoCodec) (keyAcc : Key) :
    List (Key × ProtoScillaVal) → ContractStorage2 → Bool × ContractStorage2
  | [], s => (true, s)
  | (k, .mval m) :: es, s =>
    match mapHandler c (keyAcc ++ k ++ [SCILLA_INDEX_SEPARATOR]) (.mval m) s with
    | (false, s') => (false, s')
    | (true, s') => mapHandlerEntries c keyAcc es s'
  | (k, v) :: es, s =>
    mapHandlerEntries c keyAcc es
      (UpdateStateData s (keyAcc ++ k ++ [SCILLA_INDEX_SEPARATOR]) v.getBval true)
end

/-- The function `ContractStorage2::UpdateStateValue`, on a parsed query and value. -/
def UpdateStateValue (c : ProtoCodec) (s : ContractStorage2) (addr : Address)
    (query : ProtoScillaQuery) (value : ProtoScillaVal) : Bool × ContractStorage2 :=
  if query.name = FIELDS_MAP_DEPTH_INDICATOR ∨ query.name = SHARDING_INFO_INDICATOR then
    (false, s)
  else
    let key := nameKey addr query.name
    if query.ignoreval then
      if query.indices.length < 1 then (false, s)
      else
        let parent_key := appendIndices key query.indices.dropLast
        let key := parent_key ++ query.indices.getLast?.getD [] ++ [SCILLA_INDEX_SEPARATOR]
        let s := DeleteByPrefix s key
        let t_states := FetchStateDataForKey s parent_key true
        if t_states.isEmpty then
          (true, UpdateStateData s parent_key c.emptyMapBytes cleanEmptyDefault)
        else (true, s)
    else
      let key := appendIndices key query.indices
      if query.indices.length > query.mapdepth then (false, s)
      else if query.indices.length = query.mapdepth then
        if value.has_mval then (false, s)
        else (true, UpdateStateData s key value.getBval true)
      else mapHandler c key value (DeleteByPrefix s key)

/-- The function `ContractStorage2::InitTempStateCore`. -/
def InitTempStateCore (s : ContractStorage2) : ContractStorage2 :=
  { s with t_stateDataMap := [], t_indexToBeDeleted := [] }

/-- The function `ContractStorage2::BufferCurrentState`. -/
def BufferCurrentState (s : ContractStorage2) : ContractStorage2 :=
  { s with p_stateDataMap := s.t_stateDataMap, p_indexToBeDeleted := s.m_indexToBeDeleted }

/-- The function `ContractStorage2::RevertPrevState`; the moved-from buffers are
left empty. -/
def RevertPrevState (s : ContractStorage2) : ContractStorage2 :=
  { s with
    t_stateDataMap := s.p_stateDataMap
    m_indexToBeDeleted := s.p_indexToBeDeleted
    p_stateDataMap := []
    p_indexToBeDeleted := [] }

/-- The function `ContractStorage2::InitRevertibles`. -/
def InitRevertibles (s : ContractStorage2) : ContractStorage2 :=
  { s with r_stateDataMap := [], r_indexToBeDeleted := [] }

/-- The function `ContractStorage2::RevertContractStates`. -/
def RevertContractStates (s : ContractStorage2) : ContractStorage2 :=
  let m := s.r_stateDataMap.foldl
    (fun m data => if data.2.isEmpty then SMap.erase m data.1 else SMap.insert m data.1 data.2)
    s.m_stateDataMap
  let d := s.r_indexToBeDeleted.foldl
    (fun d index => if index.2 then SSet.remove d index.1 else SSet.add d index.1)
    s.m_indexToBeDeleted
  { s with m_stateDataMap := m, m_indexToBeDeleted := d }

/-- The loop `for (const auto& state : t_states)` of the commit branch of
`UpdateStateDatasAndToDeletes`. -/
def commitStates (revertible : Bool) :
    List (Key × Bytes) → ContractStorage2 → ContractStorage2
  | [], s => s
  | (k, v) :: rest, s =>
    let r := if revertible then s.r_stateDataMap.insert k ((s.m_stateDataMap.find? k).getD [])
      else s.r_stateDataMap
    let m := s.m_stateDataMap.insert k v
    if s.m_indexToBeDeleted.mem k then
      commitStates revertible rest
        { s with
          r_stateDataMap := r
          m_stateDataMap := m
          m_indexToBeDeleted := s.m_indexToBeDeleted.remove k
          r_indexToBeDeleted :=
            if revertible then s.r_indexToBeDeleted.emplace k false else s.r_indexToBeDeleted }
    else
      commitStates revertible rest { s with r_stateDataMap := r, m_stateDataMap := m }

/-- The loop `for (const auto& toDelete : toDeleteIndices)` of the commit branch. -/
def commitDeletes (revertible : Bool) : List Key → ContractStorage2 → ContractStorage2
  | [], s => s
  | k :: rest, s =>
    commitDeletes revertible rest
      { s with
        r_indexToBeDeleted :=
          if revertible then s.r_indexToBeDeleted.emplace k true else s.r_indexToBeDeleted
        m_indexToBeDeleted := s.m_indexToBeDeleted.add k }

/-- The overwrite loop (case 2) of `UpdateStateDatasAndToDeletes`. -/
def overwriteTemp : List (Key × Bytes) → ContractStorage2 → ContractStorage2
  | [], s => s
  | (k, v) :: rest, s =>
    overwriteTemp rest
      { s with
        t_stateDataMap := s.t_stateDataMap.insert k v
        t_indexToBeDeleted := s.t_indexToBeDeleted.remove k }

/-- The loop `for (const auto& index : toDeleteIndices) t_indexToBeDeleted.emplace(index)`. -/
def tempDeletes (toDeleteIndices : List Key) (s : ContractStorage2) : ContractStorage2 :=
  { s with t_indexToBeDeleted := toDeleteIndices.foldl SSet.add s.t_indexToBeDeleted }

/-- What the sharded merge depends on outside the store: two configuration
constants, the JSON parser, and the call to the merger of the contract execution
process (request building, account lookup, IPC and response parsing), which yields
the merged `states` or fails. -/
structure MergeEnv where
  SEMANTIC_SHARDING : Bool
  UNKNOWN_SHARD_ID : Nat
  jsonParses : Bytes → Bool
  callMerger : Address → Nat → Nat → Bytes → List (Key × Bytes × Bytes × Bytes) →
    Option (SMap Bytes)

/-- The function `ContractStorage2::FetchContractShardingInfo`: the raw sharding
metadata when the call returns true. -/
def FetchContractShardingInfo (env : MergeEnv) (s : ContractStorage2) (address : Address) :
    Option Bytes :=
  let sharding_info :=
    FetchStateDataForKey s (GenerateStorageKey address SHARDING_INFO_INDICATOR []) false
  let key := nameKey address SHARDING_INFO_INDICATOR
  if sharding_info.length = 1 ∧ sharding_info.contains key then
    let sh_str := (sharding_info.find? key).getD []
    if !sharding_info.isEmpty && !env.jsonParses sh_str then none else some sh_str
  else none

/-- The address test `IsNullAddress`. -/
def IsNullAddress (address : Address) : Bool := address.all (fun b => b % 256 = 0)

/-- The function `ContractStorage2::GetContractStateHashCore`; `sha256` is the digest
of everything fed to `SHA2::Update`. -/
def GetContractStateHashCore (sha256 : Bytes → Bytes) (s : ContractStorage2)
    (address : Address) (temp : Bool) : Bytes :=
  if IsNullAddress address then List.replicate 32 0
  else
    let states := FetchStateDataForKey s (GenerateStorageKey address [] []) temp
    sha256 (states.flatMap (fun state => state.1 ++ state.2))

/-- The function `ContractStorage2::UpdateStateDatasAndToDeletes`: the new store and
the state hash; `none` is the fatal abort after a failed merge. -/
def UpdateStateDatasAndToDeletes (env : MergeEnv) (sha256 : Bytes → Bytes)
    (s : ContractStorage2) (addr : Address) (t_states : SMap Bytes)
    (toDeleteIndices : List Key) (temp revertible : Bool) (shardId numShards : Nat) :
    Option (ContractStorage2 × Bytes) :=
  if temp then
    match (if env.SEMANTIC_SHARDING && !t_states.isEmpty && decide (shardId ≠ env.UNKNOWN_SHARD_ID)
        && decide (numShards ≠ env.UNKNOWN_SHARD_ID) then FetchContractShardingInfo env s addr
        else none) with
    | some sh_info =>
      let req := t_states.map (fun state =>
        (state.1, ((FetchStateDataForKey s state.1 false).find? state.1).getD [],
          ((FetchStateDataForKey s state.1 true).find? state.1).getD [], state.2))
      match env.callMerger addr shardId numShards sh_info req with
      | some merged =>
        let s := { s with
          t_stateDataMap := merged.foldl (fun t e => SMap.insert t e.1 e.2) s.t_stateDataMap }
        let s := tempDeletes toDeleteIndices s
        some (s, GetContractStateHashCore sha256 s addr temp)
      | none => none
    | none =>
      let s := tempDeletes toDeleteIndices (overwriteTemp t_states s)
      some (s, GetContractStateHashCore sha256 s addr temp)
  else
    let s := commitDeletes revertible toDeleteIndices (commitStates revertible t_states s)
    some (s, GetContractStateHashCore sha256 s addr temp)

/-- The loop `for (const auto& index : m_indexToBeDeleted)` of `CommitStateDB`:
`DeleteKey` on each key until one fails. -/
def deleteKeys (deleteOk : Key → Bool) : List Key → SMap Bytes → Bool × SMap Bytes
  | [], db => (true, db)
  | k :: ks, db => if deleteOk k then deleteKeys deleteOk ks (db.erase k) else (false, db)

/-- The function `ContractStorage2::CommitStateDB`. The outcome of the LevelDB calls
is given: `batchOk` for `BatchInsert`, `deleteOk` for `DeleteKey`. -/
def CommitStateDB (batchOk : Bool) (deleteOk : Key → Bool) (s : ContractStorage2) :
    Bool × ContractStorage2 :=
  if !batchOk then (false, s)
  else
    let db := s.m_stateDataMap.foldl (fun db i => SMap.insert db i.1 i.2) s.m_stateDataDB
    match deleteKeys deleteOk (s.m_indexToBeDeleted.map Prod.fst) db with
    | (false, db) => (false, { s with m_stateDataDB := db })
    | (true, db) =>
      (true, InitTempStateCore
        { s with m_stateDataDB := db, m_stateDataMap := [], m_indexToBeDeleted := [] })

/-! ## Specification-side definitions and sample data -/

/-- The storage key a query addresses: `addr.hex() + SEP + name + SEP` followed by
each index and a separator. -/
def queryKey (addr : Address) (query : ProtoScillaQuery) : Key :=
  appendIndices (nameKey addr query.name) query.indices

/-- The lookup precedence in the words of the specification: `t_state[k]` if present,
else `m_state[k]` if present and `k ∉ m_deleted`, else `db[k]` if present and
`k ∉ m_deleted`. -/
def specLookup (s : ContractStorage2) (k : Key) : Option Bytes :=
  match s.t_stateDataMap.find? k with
  | some v => some v
  | none =>
    match (if s.m_indexToBeDeleted.mem k then none else s.m_stateDataMap.find? k) with
    | some v => some v
    | none => if s.m_indexToBeDeleted.mem k then none else s.m_stateDataDB.find? k

/-- Sample contract address `0xAA…AA`. -/
def addrAA : Address := List.replicate 20 0xAA

/-- Sample store: the database alone holds the scalar field `c` of `addrAA`. -/
def dbOnlyStore : ContractStorage2 :=
  { ContractStorage2.empty with m_stateDataDB := [(nameKey addrAA [99], [7])] }


/-- The table `entries` that the map branch of `FetchStateValue` has assembled when it
enters its loop: the scans of `t_state`, `m_state` and the database, first writer wins. -/
def fetchEntries (s : ContractStorage2) (key : Key) : SMap Bytes :=
  emplaceAll (emplaceAll (emplaceAll [] (s.t_stateDataMap.scanPrefix key))
    (s.m_stateDataMap.scanPrefix key)) (s.m_stateDataDB.scanPrefix key)

/-- What the end of the map branch writes to `dst` for a given outcome of its loop. -/
def loopDst : Option (ProtoScillaVal × Nat) → Option ProtoScillaVal
  | none => none
  | some (value, counter) => if counter = 0 then none else some value

/-- Visibility of a stored key in the temporary view, as tested inside the loops of
`FetchStateValue` and `FetchStateDataForKey`: not tombstoned in `t_deleted`, and not
tombstoned in `m_deleted` unless rewritten in `t_state`. -/
def visible (s : ContractStorage2) (k : Key) : Bool :=
  !s.t_indexToBeDeleted.mem k && !(s.m_indexToBeDeleted.mem k && !s.t_stateDataMap.contains k)

/-- Sample store: `m_state` and the database hold an entry of the map field `m` of
`addrAA` that is tombstoned in `t_deleted`; `t_state` holds a sibling entry. -/
def tombstonedStore : ContractStorage2 :=
  { ContractStorage2.empty with
    m_stateDataDB := [(nameKey addrAA [109] ++ [120, 22], [1])]
    m_stateDataMap := [(nameKey addrAA [109] ++ [120, 22], [2])]
    t_stateDataMap := [(nameKey addrAA [109] ++ [121, 22], [3])]
    t_indexToBeDeleted := [(nameKey addrAA [109] ++ [120, 22], ())] }


/-- Sample store: `tombstonedStore` with other contents of `m_state` and the database
under the tombstoned key. -/
def tombstonedStoreAlt : ContractStorage2 :=
  { tombstonedStore with
    m_stateDataDB := []
    m_stateDataMap := [(nameKey addrAA [109] ++ [120, 22], [9, 9])] }


/-- The store `s'` differs from `s` at most in `t_indexToBeDeleted`. -/
def onlyTDeletedChanged (s s' : ContractStorage2) : Prop :=
  s' = { s with t_indexToBeDeleted := s'.t_indexToBeDeleted }


/-- Sample environment: semantic sharding switched off, so no merge is ever requested. -/
def noMergeEnv : MergeEnv where
  SEMANTIC_SHARDING := false
  UNKNOWN_SHARD_ID := 2 ^ 32 - 1
  jsonParses := fun _ => true
  callMerger := fun _ _ _ _ _ => none

/-- Sample digest function standing in for SHA-256 where the digest is not looked at. -/
def constDigest : Bytes → Bytes := fun _ => List.replicate 32 0

/-- Sample store: the committed overlay holds the field `c` of `addrAA` with an empty
value. -/
def emptyValueStore : ContractStorage2 :=
  { ContractStorage2.empty with m_stateDataMap := [(nameKey addrAA [99], [])] }

/-- Sample store: the field `c` of `addrAA` is tombstoned in `m_deleted`. -/
def committedTombstoneStore : ContractStorage2 :=
  { ContractStorage2.empty with m_indexToBeDeleted := [(nameKey addrAA [99], ())] }

/-- Sample store: the committed overlay holds `c ↦ [5]` and a tombstone for `d`. -/
def committedStore : ContractStorage2 :=
  { ContractStorage2.empty with
    m_stateDataMap := [(nameKey addrAA [99], [5])]
    m_indexToBeDeleted := [(nameKey addrAA [100], ())] }


/-- The key of the parent map of a query position: the query key without its last
index (`parent_key` of `UpdateStateValue`). -/
def parentKey (addr : Address) (query : ProtoScillaQuery) : Key :=
  appendIndices (nameKey addr query.name) query.indices.dropLast

/-- Sample store: the depth-2 map `m` of `addrAA` with `m[x][y] = 0x2A` and
`m[x][z] = 0x2B` in the temporary overlay (scenario S2). -/
def nestedMapStore : ContractStorage2 :=
  { ContractStorage2.empty with
    t_stateDataMap :=
      [(nameKey addrAA [109] ++ [120, 22, 121, 22], [0x2A]),
       (nameKey addrAA [109] ++ [120, 22, 122, 22], [0x2B])] }


/-- Sample store: the empty store after the write `m := {}` to the depth-2 map `m` of
`addrAA`. -/
def emptyMapWritten : ContractStorage2 :=
  (UpdateStateValue wireCodec ContractStorage2.empty addrAA ⟨[109], 2, [], false⟩ (.mval [])).2

/-- Sample store: `emptyMapWritten` after the tombstone-mode call for `m[x][y]`. -/
def emptyMapThenDelete : ContractStorage2 :=
  (UpdateStateValue wireCodec emptyMapWritten addrAA ⟨[109], 2, [[120], [121]], true⟩ .unset).2


/-- The byte string holds no separator byte. -/
def sepFree (b : Bytes) : Prop := SCILLA_INDEX_SEPARATOR ∉ b

/-- Some tier (`t_state`, `m_state` or the database) stores `b` under `x`. -/
def stored (s : ContractStorage2) (x : Key) (b : Bytes) : Prop :=
  s.t_stateDataMap.find? x = some b ∨ s.m_stateDataMap.find? x = some b
    ∨ s.m_stateDataDB.find? x = some b

/-- The entries under a prefix that the loop of the map branch does not skip. -/
def visibleEntries (s : ContractStorage2) (key : Key) : SMap Bytes :=
  (fetchEntries s key).filter (fun e => visible s e.1)

/-- The entry of the map returned by a fetch under the index `idx`, if the fetch wrote
a map holding one. -/
def mapEntry (r : FetchResult) (idx : Bytes) : Option ProtoScillaVal :=
  match r.dst with
  | some (.mval m) => SMap.find? m idx
  | _ => none


/-- The `w` hexadecimal digits of `i`, most significant first, in lowercase ASCII. -/
def hexIndex : Nat → Nat → Bytes
  | 0, _ => []
  | w + 1, i => hexIndex w (i / 16) ++ [hexDigit (i % 16)]

/-- Table with one leaf `P idx SEP ↦ [1]` for each of the first `n` eight-digit
hexadecimal indices, in ascending key order. -/
@[irreducible] def leafTable (P : Key) (n : Nat) : SMap Bytes :=
  (List.range n).map (fun i => (P ++ hexIndex 8 i ++ [SCILLA_INDEX_SEPARATOR], [1]))

/-- Sample store: the database holds 2^32 entries of the depth-1 map `m` of `addrAA`. -/
def fullCounterStore : ContractStorage2 :=
  { ContractStorage2.empty with m_stateDataDB := leafTable (nameKey addrAA [109]) (2 ^ 32) }


mutual
/-- The writes `mapHandler` issues for a value, in order: the index path below the key
the handler starts from, and the bytes stored there. -/
def writes (c : ProtoCodec) : ProtoScillaVal → List (List Bytes × Bytes)
  | .mval [] => [([], c.emptyMapBytes)]
  | .mval (e :: es) => writesEntries c (e :: es)
  | _ => []
/-- The writes of the loop over the entries of a map. -/
def writesEntries (c : ProtoCodec) : List (Key × ProtoScillaVal) → List (List Bytes × Bytes)
  | [] => []
  | (k, .mval m) :: es =>
    (writes c (.mval m)).map (fun w => (k :: w.1, w.2)) ++ writesEntries c es
  | (k, v) :: es => ([k], v.getBval) :: writesEntries c es
end

/-- The store after a list of writes below `key`, each through
`UpdateStateData(key + path, bytes, true)`. -/
def applyWrites (key : Key) (ws : List (List Bytes × Bytes)) (s : ContractStorage2) :
    ContractStorage2 :=
  ws.foldl (fun s w => UpdateStateData s (appendIndices key w.1) w.2 true) s

/-- A value of map depth `D` in canonical form: below `D` levels of maps, each in
ascending key order with separator-free keys, every leaf is a `bval`. -/
def Shaped : Nat → ProtoScillaVal → Prop
  | 0, v => ∃ b, v = .bval b
  | D + 1, v => ∃ m, v = .mval m ∧ SMap.WF m ∧ ∀ e ∈ m, sepFree e.1 ∧ Shaped D e.2


/-- Fragments joined with one separator between neighbours (the inverse of `split`). -/
def joinSep : List Bytes → Bytes
  | [] => []
  | [f] => f
  | f :: g :: r => f ++ SCILLA_INDEX_SEPARATOR :: joinSep (g :: r)


/-- The store after a list of keyed writes, each through
`UpdateStateData(key, bytes, true)`. -/
def applyKeyed (kv : List (Key × Bytes)) (s : ContractStorage2) : ContractStorage2 :=
  kv.foldl (fun s e => UpdateStateData s e.1 e.2 true) s


/-- Neither key is a prefix of the other. -/
def incomparable (a b : Key) : Prop := startsWith b a = false ∧ startsWith a b = false


/-- Neither index path is a prefix of the other. -/
def pathInc (a b : List Bytes × Bytes) : Prop := ¬ a.1 <+: b.1 ∧ ¬ b.1 <+: a.1

/-- A list of writes for a value of map depth `D`: paths of separator-free indices no
longer than `D`, the shorter ones holding the encoded empty map, pairwise incomparable,
and at least one of them. -/
def GoodWrites (c : ProtoCodec) (D : Nat) (ws : List (List Bytes × Bytes)) : Prop :=
  (∀ w ∈ ws, w.1.length ≤ D ∧ (∀ i ∈ w.1, sepFree i)
      ∧ (w.1.length < D → w.2 = c.emptyMapBytes))
    ∧ ws.Pairwise pathInc ∧ ws ≠ []


/-- The node operation of the fetch loop for an entry at index path `w.1` below a prefix
with `D` levels left: create a map above the leaves, set the bytes at a leaf. -/
def opFor (D : Nat) (w : List Bytes × Bytes) : NodeOp :=
  if w.1.length < D then .createMap else .setBval w.2

/-- The value the fetch loop builds from a list of entries given by index path. -/
def buildW (D : Nat) (ws : List (List Bytes × Bytes)) (v : ProtoScillaVal) : ProtoScillaVal :=
  ws.foldl (fun v w => applyAt w.1 (opFor D w) v) v

/-- Every map inside the value is in ascending key order. -/
inductive HWF : ProtoScillaVal → Prop where
  | unset : HWF .unset
  | bval (b : Bytes) : HWF (.bval b)
  | mval (m : List (Key × ProtoScillaVal)) : SMap.WF m → (∀ e ∈ m, HWF e.2) → HWF (.mval m)


/-- Sample value: the depth-2 map `{a ↦ {}, b ↦ {c ↦ 0x07}}`. -/
def sampleMap : ProtoScillaVal :=
  .mval [([97], .mval []), ([98], .mval [([99], .bval [7])])]


/-- One call of a sequence of state updates: `UpdateStateValue` on a parsed query and
value, or `UpdateStateDatasAndToDeletes`. -/
inductive StorageCall where
  | updateValue (addr : Address) (query : ProtoScillaQuery) (value : ProtoScillaVal)
  | updateDatas (addr : Address) (t_states : SMap Bytes) (toDeleteIndices : List Key)
      (temp revertible : Bool) (shardId numShards : Nat)

/-- The store after a sequence of calls, made one after the other; `none` when a call of
`UpdateStateDatasAndToDeletes` ends in the fatal abort. -/
def runCalls (c : ProtoCodec) (env : MergeEnv) (sha256 : Bytes → Bytes) :
    List StorageCall → ContractStorage2 → Option ContractStorage2
  | [], s => some s
  | .updateValue addr query value :: rest, s =>
    runCalls c env sha256 rest (UpdateStateValue c s addr query value).2
  | .updateDatas addr t_states toDeleteIndices temp revertible shardId numShards :: rest, s =>
    match UpdateStateDatasAndToDeletes env sha256 s addr t_states toDeleteIndices temp
        revertible shardId numShards with
    | some r => runCalls c env sha256 rest r.1
    | none => none

/-- The key is hidden by a tombstone, as tested at the head of `FetchStateValue`: it is in
`t_deleted`, or in `m_deleted` and not in `t_state`. -/
def hiddenKey (s : ContractStorage2) (k : Key) : Prop :=
  s.t_indexToBeDeleted.mem k = true
    ∨ (s.m_indexToBeDeleted.mem k = true ∧ s.t_stateDataMap.contains k = false)

/-- Sample store: `nestedMapStore` after the tombstone-mode call for `m[x]`
(the statement `delete m[x]`). -/
def deletedSubmapStore : ContractStorage2 :=
  (UpdateStateValue wireCodec nestedMapStore addrAA ⟨[109], 2, [[120]], true⟩ .unset).2


/-- The snapshot buffer (`p_stateDataMap`, `p_indexToBeDeleted`) of `s'` is that of `s`. -/
def bufferKept (s s' : ContractStorage2) : Prop :=
  s'.p_stateDataMap = s.p_stateDataMap ∧ s'.p_indexToBeDeleted = s.p_indexToBeDeleted

/-- Sample sequence of calls: a scalar write, a map write, a tombstone-mode call, a
temporary overwrite and a revertible commit. -/
def sampleCalls : List StorageCall :=
  [.updateValue addrAA ⟨[99], 0, [], false⟩ (.bval [1]),
   .updateValue addrAA ⟨[109], 2, [[120]], false⟩ (.mval [([119], .bval [9])]),
   .updateValue addrAA ⟨[109], 2, [[120], [121]], true⟩ .unset,
   .updateDatas addrAA [(nameKey addrAA [100], [4])] [nameKey addrAA [99]] true false 0 1,
   .updateDatas addrAA [(nameKey addrAA [101], [5])] [nameKey addrAA [102]] false true 0 1]


/-- The temporary overlay of `s'` treats the key `x` as that of `s` does: the same
`t_state` entry and the same membership in `t_deleted`. -/
def untouched (x : Key) (s s' : ContractStorage2) : Prop :=
  s'.t_stateDataMap.find? x = s.t_stateDataMap.find? x
    ∧ s'.t_indexToBeDeleted.mem x = s.t_indexToBeDeleted.mem x

/-- Sample store: the database holds the `_depth` entry (`{}`) of `addrAA`. -/
def depthEntryStore : ContractStorage2 :=
  { ContractStorage2.empty with
    m_stateDataDB := [(nameKey addrAA FIELDS_MAP_DEPTH_INDICATOR, [123, 125])] }


/-- The function `ContractStorage2::GetContractStateHash`: the core function, under the
state mutex when called from outside (the mutex is not part of this model). -/
def GetContractStateHash (sha256 : Bytes → Bytes) (s : ContractStorage2) (address : Address)
    (temp callFromExternal : Bool) : Bytes :=
  if callFromExternal then GetContractStateHashCore sha256 s address temp
  else GetContractStateHashCore sha256 s address temp

/-- The value of the key `k` in the selected view, in the words of the specification. In
the temporary view: nothing when `k` is hidden by a tombstone, else `t_state[k]`, else
`m_state[k]`, else `db[k]`. In the committed view: nothing when `k` is in `m_deleted`, else
`m_state[k]`, else `db[k]`. -/
def viewLookup (s : ContractStorage2) (temp : Bool) (k : Key) : Option Bytes :=
  if temp then
    if visible s k then
      ((s.t_stateDataMap.find? k).orElse (fun _ => s.m_stateDataMap.find? k)).orElse
        (fun _ => s.m_stateDataDB.find? k)
    else none
  else
    if s.m_indexToBeDeleted.mem k then none
    else (s.m_stateDataMap.find? k).orElse (fun _ => s.m_stateDataDB.find? k)

/-- The input of the digest in the words of the specification: key bytes followed by value
bytes, entry after entry. -/
def hashInput (L : SMap Bytes) : Bytes := L.flatMap (fun e => e.1 ++ e.2)

/-- Sample address `0xBB…BB`. -/
def addrBB : Address := List.replicate 20 0xBB

/-- Sample store with entries of two contracts in the three tiers, one of them tombstoned
in `t_deleted` and one in `m_deleted`. -/
def twoContractStore : ContractStorage2 :=
  { ContractStorage2.empty with
    m_stateDataDB := [(nameKey addrAA [99], [1]), (nameKey addrAA [100], [2]),
      (nameKey addrBB [99], [3])]
    m_stateDataMap := [(nameKey addrAA [99], [4]), (nameKey addrAA [101], [5])]
    m_indexToBeDeleted := [(nameKey addrAA [100], ())]
    t_stateDataMap := [(nameKey addrAA [102], [6]), (nameKey addrAA [103], [7])]
    t_indexToBeDeleted := [(nameKey addrAA [103], ())] }

/-- Sample digest function that shows its input: the identity. -/
def idDigest : Bytes → Bytes := fun b => b


/-! ## Proof of work: hashes and the difficulty boundary (`src/libPOW/pow.cpp`) -/

/-- Modelled from the spec: the constant `UINT256_SIZE` (declared outside the given
sources), the 32 bytes of a 256-bit value. -/
def UINT256_SIZE : Nat := 32

namespace POW

/-- The function `POW::BytesToHexString`: two lowercase hexadecimal digits for each of
the first `s` bytes. -/
def BytesToHexString (str : Bytes) (s : Nat) : Bytes :=
  (str.take s).flatMap (fun b => [hexDigit (b % 256 / 16), hexDigit (b % 256 % 16)])

/-- The function `POW::FromHex`: the value of a hexadecimal digit, `-1` for any other
character. -/
def FromHex (i : Nat) : Int :=
  if 48 ≤ i ∧ i ≤ 57 then (i : Int) - 48
  else if 97 ≤ i ∧ i ≤ 102 then (i : Int) - 97 + 10
  else if 65 ≤ i ∧ i ≤ 70 then (i : Int) - 65 + 10
  else -1

/-- The conversion of an `int` to `uint8_t`. -/
def toUint8 (x : Int) : Nat := (x % 256).toNat

/-- The loop `for (i = s; i < _s.size(); i += 2)` of `HexStringToBytes` over the
characters from position `s` on; past the end `_s[i + 1]` reads the terminating zero. -/
def hexPairs : Bytes → Bytes
  | [] => []
  | [a] => [toUint8 (FromHex a * 16 + FromHex 0)]
  | a :: b :: rest => toUint8 (FromHex a * 16 + FromHex b) :: hexPairs rest

/-- The function `POW::HexStringToBytes`; `FromHex` does not throw, so the `catch`
branches are never taken. -/
def HexStringToBytes (str : Bytes) : Bytes :=
  let s := if str.getD 0 0 = 48 ∧ str.getD 1 0 = 120 then 2 else 0
  if str.length % 2 = 1 then
    toUint8 (FromHex (str.getD s 0)) :: hexPairs (str.drop (s + 1))
  else hexPairs (str.drop s)

/-- The function `POW::BlockhashToHexString`. -/
def BlockhashToHexString (hash : Bytes) : Bytes := BytesToHexString hash 32

/-- The function `POW::StringToBlockhash`: the 32 bytes of the hash; `none` is the
uninitialized `ethash_hash256` returned for an input that is not 32 bytes long. -/
def StringToBlockhash (str : Bytes) : Option Bytes :=
  let b := HexStringToBytes str
  if b.length ≠ 32 then none else some b

/-- The table `masks` of `DifficultyLevelInInt`. -/
def masks : List Nat := [0xFF, 0x7F, 0x3F, 0x1F, 0x0F, 0x07, 0x03, 0x01]

/-- The function `POW::DifficultyLevelInInt`; the parameter is a `uint8_t`. -/
def DifficultyLevelInInt (difficulty : Nat) : Option Bytes :=
  let b := List.replicate UINT256_SIZE 0xFF
  let firstNbytesToSet := difficulty % 256 / 8
  let nBytesBitsToSet := difficulty % 256 % 8
  let b := (List.range firstNbytesToSet).foldl (fun b i => b.set i 0) b
  let b := b.set firstNbytesToSet (masks.getD nBytesBitsToSet 0)
  StringToBlockhash (BytesToHexString b UINT256_SIZE)

end POW

/-- The bytes read as a big-endian unsigned integer. -/
def beNat (b : Bytes) : Nat := b.foldl (fun acc x => acc * 256 + x) 0

/-- The byte at index `i` of the boundary for difficulty `d`, in the words of the
specification: `0x00` below index `d / 8`, the table entry `d mod 8` at index `d / 8`,
`0xFF` above. -/
def boundaryByte (d i : Nat) : Nat :=
  if i < d / 8 then 0x00
  else if i = d / 8 then [0xFF, 0x7F, 0x3F, 0x1F, 0x0F, 0x07, 0x03, 0x01].getD (d % 8) 0
  else 0xFF


/-- The node of a value at an index path: the value itself for the empty path, else the
node at the rest of the path inside the entry of the map under the first index. -/
def nodeAt : List Bytes → ProtoScillaVal → Option ProtoScillaVal
  | [], v => some v
  | i :: rest, v =>
    match SMap.find? v.mutableM i with
    | some x => nodeAt rest x
    | none => none


/-- The stored entry has fewer residual indices below `key` than the query has map levels
left (`mapdepth - |indices|`): it stands for a map, not for a leaf. -/
def interiorEntry (q : ProtoScillaQuery) (key : Key) (e : Key × Bytes) : Bool :=
  decide ((residualIndices key e.1).length < q.mapdepth - q.indices.length)


/-- The key is out of the temporary view: it is tombstoned in `t_deleted`, or no tier
(`t_state`, `m_state`, the database) holds it. -/
def hiddenOrAbsent (s : ContractStorage2) (x : Key) : Prop :=
  s.t_indexToBeDeleted.mem x = true
    ∨ (s.t_stateDataMap.contains x = false ∧ s.m_stateDataMap.contains x = false
      ∧ s.m_stateDataDB.contains x = false)


mutual
/-- Every map inside the value has separator-free keys, no two of them equal. -/
def keysOK : ProtoScillaVal → Prop
  | .mval m => keysOKEntries m
  | _ => True
/-- The entries have separator-free keys, no two of them equal, and values whose maps do. -/
def keysOKEntries : List (Key × ProtoScillaVal) → Prop
  | [] => True
  | (k, v) :: es => sepFree k ∧ (∀ e ∈ es, e.1 ≠ k) ∧ keysOK v ∧ keysOKEntries es
end

/-- The index lists of the keys a write-mode `UpdateStateValue` writes: the indices of the
query for a scalar, and for a map the indices of the query followed by the path of each
write of `mapHandler`. -/
def writtenPaths (c : ProtoCodec) (q : ProtoScillaQuery) (value : ProtoScillaVal) :
    List (List Bytes) :=
  if q.indices.length = q.mapdepth then [q.indices]
  else (writes c value).map (fun w => q.indices ++ w.1)

/-- Sample value: the depth-3 map `{a ↦ {b ↦ {c ↦ 0x01}}, a SEP b ↦ {}}`, whose second
key holds the separator byte. -/
def sepKeyValue : ProtoScillaVal :=
  .mval [([97], .mval [([98], .mval [([99], .bval [1])])]),
    ([97, SCILLA_INDEX_SEPARATOR, 98], .mval [])]

/-- Sample store: the empty store after the write of `sepKeyValue` to the depth-3 map `m`
of `addrAA`. -/
def sepKeyWritten : ContractStorage2 :=
  (UpdateStateValue wireCodec ContractStorage2.empty addrAA ⟨[109], 3, [], false⟩
    sepKeyValue).2


/-! ## Proof of work: the engine (`src/libPOW/pow.cpp`) -/

/-- An epoch context of the ethash library, light or full, known by the epoch number it
was created for (`create_epoch_context`, `create_epoch_context_full`). -/
structure EpochContext where
  epoch : Nat
  full : Bool
deriving DecidableEq

/-- The type `ethash::result`. -/
structure EthashResult where
  final_hash : Bytes
  mix_hash : Bytes
deriving DecidableEq

/-- The type `ethash_mining_result_t`. -/
structure ethash_mining_result_t where
  result : Bytes
  mix_hash : Bytes
  winning_nonce : Nat
  success : Bool
deriving DecidableEq

/-- What the engine takes from outside the given sources: the ethash library
(`get_epoch_number`, `hash`, `verify`) and the configuration constants. -/
structure PowEnv where
  get_epoch_number : Nat → Nat
  hash : EpochContext → Bytes → Nat → EthashResult
  verify : EpochContext → Bytes → Bytes → Nat → Bytes → Bool
  REMOTE_MINE : Bool
  FULL_DATASET_MINE : Bool
  CUDA_GPU_MINE : Bool
  OPENCL_GPU_MINE : Bool

/-- Modelled from the spec: the function `ethash::is_less_or_equal` of the ethash library,
the test `hash ≤ boundary` on 256-bit values, most significant byte first. -/
def is_less_or_equal (a b : Bytes) : Bool := decide (beNat a ≤ beNat b)

/-- Modelled from the spec: the default of the parameter `fullDataset` of
`EthashConfigureClient`, which is declared in the header (not among the given sources);
verification and `LightHash` use the light context only, so the default is off. -/
def fullDatasetDefault : Bool := false

/-- The members of `POW` that hold the epoch contexts. The flag `m_shouldMine` is written
by other threads while a mining loop runs; what a loop reads from it is given to the loop. -/
structure POW where
  m_currentBlockNum : Nat
  m_epochContextLight : EpochContext
  m_epochContextFull : Option EpochContext
deriving DecidableEq

namespace POW

/-- The constructor `POW::POW`. -/
def new (env : PowEnv) : POW where
  m_currentBlockNum := 0
  m_epochContextLight := ⟨env.get_epoch_number 0, false⟩
  m_epochContextFull :=
    if env.FULL_DATASET_MINE && !env.CUDA_GPU_MINE && !env.OPENCL_GPU_MINE then
      some ⟨env.get_epoch_number 0, true⟩
    else none

/-- The function `POW::EthashConfigureClient`: the return value and the engine after it. -/
def EthashConfigureClient (env : PowEnv) (s : POW) (block_number : Nat) (fullDataset : Bool) :
    Bool × POW :=
  let light :=
    if env.get_epoch_number block_number ≠ env.get_epoch_number s.m_currentBlockNum then
      ⟨env.get_epoch_number block_number, false⟩
    else s.m_epochContextLight
  let isMineFullCpu := fullDataset && !env.CUDA_GPU_MINE && !env.OPENCL_GPU_MINE
  let full :=
    if isMineFullCpu && (s.m_epochContextFull.isNone
        || decide (env.get_epoch_number block_number
            ≠ env.get_epoch_number s.m_currentBlockNum)) then
      some ⟨env.get_epoch_number block_number, true⟩
    else s.m_epochContextFull
  (true, { m_currentBlockNum := block_number, m_epochContextLight := light,
           m_epochContextFull := full })

/-- The result `{"", "", 0, false}`. -/
def failure_result : ethash_mining_result_t := ⟨[], [], 0, false⟩

/-- The loop `while (m_shouldMine)` of `MineLight` and `MineFull`, with the hash function
of the context in use. The list holds what the successive tests of `m_shouldMine` read;
`none` means the loop is still running when the list ends. The nonce is a `uint64_t`. -/
def mineLoop (h : Nat → EthashResult) (boundary : Bytes) :
    List Bool → Nat → Option ethash_mining_result_t
  | [], _ => none
  | false :: _, _ => some failure_result
  | true :: rest, nonce =>
    let mineResult := h nonce
    if is_less_or_equal mineResult.final_hash boundary then
      some ⟨BlockhashToHexString mineResult.final_hash,
        BlockhashToHexString mineResult.mix_hash, nonce, true⟩
    else mineLoop h boundary rest ((nonce + 1) % 2 ^ 64)

/-- The function `POW::MineLight`. -/
def MineLight (env : PowEnv) (s : POW) (headerHash boundary : Bytes) (startNonce : Nat)
    (shouldMine : List Bool) : Option ethash_mining_result_t :=
  mineLoop (env.hash s.m_epochContextLight headerHash) boundary shouldMine startNonce

/-- The function `POW::MineFull`; `none` also when the loop body runs without a full
context (a null pointer). -/
def MineFull (env : PowEnv) (s : POW) (headerHash boundary : Bytes) (startNonce : Nat)
    (shouldMine : List Bool) : Option ethash_mining_result_t :=
  match s.m_epochContextFull with
  | some ctx => mineLoop (env.hash ctx headerHash) boundary shouldMine startNonce
  | none =>
    match shouldMine with
    | false :: _ => some failure_result
    | _ => none

/-- The function `POW::LightHash`: the hash and the engine after it. -/
def LightHash (env : PowEnv) (s : POW) (blockNum : Nat) (headerHash : Bytes) (nonce : Nat) :
    EthashResult × POW :=
  let s := (EthashConfigureClient env s blockNum fullDatasetDefault).2
  (env.hash s.m_epochContextLight headerHash nonce, s)

/-- The function `POW::PoWVerify`: the return value and the engine after it; `none` when
the outcome depends on an uninitialized hash (a string that is not 32 bytes long). -/
def PoWVerify (env : PowEnv) (s : POW) (blockNum difficulty : Nat) (headerHash : Bytes)
    (winning_nonce : Nat) (winning_result winning_mixhash : Bytes) : Option (Bool × POW) :=
  let s := (EthashConfigureClient env s blockNum fullDatasetDefault).2
  match DifficultyLevelInInt difficulty, StringToBlockhash winning_result with
  | some boundary, some winnning_result =>
    if !is_less_or_equal winnning_result boundary then some (false, s)
    else
      match StringToBlockhash winning_mixhash with
      | some winningMixhash =>
        some (env.verify s.m_epochContextLight headerHash winningMixhash winning_nonce
          boundary, s)
      | none => none
  | _, _ => none

/-- The function `POW::CheckSolnAgainstsTargetedDifficulty` on a hash. -/
def CheckSolnAgainstsTargetedDifficulty (result : Bytes) (difficulty : Nat) : Option Bool :=
  (DifficultyLevelInInt difficulty).map (fun boundary => is_less_or_equal result boundary)

end POW


/-- Bit `i` of a hash, counted from the most significant bit of byte 0. -/
def msbit (h : Bytes) (i : Nat) : Nat := h.getD (i / 8) 0 / 2 ^ (7 - i % 8) % 2


/-- One answer of the mining proxy to the call `zil_checkWorkStatus`: an exception (of the
JSON-RPC client or of an accessor of the answer), or the array `ret` by what the code reads
from it: `ret[0]` as a boolean, the size of the array, the number `strtoull` reads from
`ret[1]` (a `uint64_t`), and the strings `ret[2]` and `ret[3]`. -/
inductive ProxyReply where
  | exception
  | ret (workDone : Bool) (size : Nat) (nonce : Nat) (ret2 ret3 : Bytes)
deriving DecidableEq

/-- What a run of `PoWMine` meets outside the engine. -/
structure MiningRun where
  /-- The successive reads of `m_shouldMine` by the loops of `MineLight` and `MineFull`. -/
  shouldMine : List Bool
  /-- What `MineFullGPU` returns (threads and GPU miners); `none` while it has not. -/
  gpu : Option ethash_mining_result_t
  /-- What `SendWorkToProxy` returns (signature and the call `zil_requestWork`). -/
  sendWork : Bool
  /-- Whether `Schnorr::Sign` succeeds on a message. -/
  sign : Bytes → Bool
  /-- The rounds of the poll loop of `CheckMiningResult`: the read of `m_shouldMine` and
  the answer of the proxy. -/
  rounds : List (Bool × ProxyReply)

namespace POW

/-- The function `POW::VerifyRemoteSoln`: the return value, `hashResult` and the engine
after it. -/
def VerifyRemoteSoln (env : PowEnv) (s : POW) (blockNum : Nat) (boundary : Bytes) (nonce : Nat)
    (headerHash mixHash : Bytes) : Bool × Bytes × POW :=
  let r := LightHash env s blockNum headerHash nonce
  let hashResult := r.1.final_hash
  if !is_less_or_equal hashResult boundary then (false, hashResult, r.2)
  else (env.verify r.2.m_epochContextLight headerHash mixHash nonce boundary, hashResult, r.2)

/-- The loop `while (m_shouldMine)` of `CheckMiningResult`: the return value, `miningResult`
and the engine after it; `none` when the loop is still polling at the end of the list, or
when the outcome depends on an uninitialized hash. The declaration
`ethash_hash256 headerHash = StringToBlockhash(ret[2].asString())` inside the loop hides
the parameter `headerHash` of the function. -/
def pollLoop (env : PowEnv) (blockNum : Nat) (boundary : Bytes)
    (miningResult : ethash_mining_result_t) :
    List (Bool × ProxyReply) → POW → Option (Bool × ethash_mining_result_t × POW)
  | [], _ => none
  | (false, _) :: _, s => some (false, miningResult, s)
  | (true, .exception) :: _, s => some (false, miningResult, s)
  | (true, .ret workDone size nonce ret2 ret3) :: rest, s =>
    if !workDone then pollLoop env blockNum boundary miningResult rest s
    else if size < 4 then some (false, miningResult, s)
    else
      match StringToBlockhash ret2, StringToBlockhash ret3 with
      | some headerHash, some mixHash =>
        let v := VerifyRemoteSoln env s blockNum boundary nonce headerHash mixHash
        if !v.1 then some (false, miningResult, v.2.2)
        else
          some (true, ⟨BlockhashToHexString v.2.1, BlockhashToHexString mixHash, nonce, true⟩,
            v.2.2)
      | _, _ => none

/-- The function `POW::CheckMiningResult`; `pubKeyData` is the serialized public key of
`pairOfKey`. -/
def CheckMiningResult (env : PowEnv) (s : POW) (run : MiningRun) (pubKeyData : Bytes)
    (blockNum : Nat) (headerHash boundary : Bytes) (miningResult : ethash_mining_result_t) :
    Option (Bool × ethash_mining_result_t × POW) :=
  let tmp := pubKeyData ++ headerHash ++ boundary
  if !run.sign tmp then some (false, miningResult, s)
  else pollLoop env blockNum boundary miningResult run.rounds s

/-- The function `POW::RemoteMine`: the result and the engine after it. What
`SendVerifyResult` returns is only logged. -/
def RemoteMine (env : PowEnv) (s : POW) (run : MiningRun) (pubKeyData : Bytes) (blockNum : Nat)
    (headerHash boundary : Bytes) : Option (ethash_mining_result_t × POW) :=
  let miningResult := failure_result
  if !run.sendWork then some (miningResult, s)
  else
    match CheckMiningResult env s run pubKeyData blockNum headerHash boundary miningResult with
    | some r => some (r.2.1, r.2.2)
    | none => none

/-- The function `POW::PoWMine`: the result and the engine after it; `none` while the
mining function in use has not returned. -/
def PoWMine (env : PowEnv) (s : POW) (run : MiningRun) (blockNum difficulty : Nat)
    (pubKeyData headerHash : Bytes) (fullDataset : Bool) (startNonce : Nat) :
    Option (ethash_mining_result_t × POW) :=
  let s := (EthashConfigureClient env s blockNum fullDataset).2
  match DifficultyLevelInInt difficulty with
  | none => none
  | some boundary =>
    if env.REMOTE_MINE then RemoteMine env s run pubKeyData blockNum headerHash boundary
    else if env.OPENCL_GPU_MINE || env.CUDA_GPU_MINE then run.gpu.map (fun r => (r, s))
    else if fullDataset then
      (MineFull env s headerHash boundary startNonce run.shouldMine).map (fun r => (r, s))
    else (MineLight env s headerHash boundary startNonce run.shouldMine).map (fun r => (r, s))

/-- A sequence of calls of `EthashConfigureClient`, each with its block number and its
flag `fullDataset`. -/
def runConfigure (env : PowEnv) (calls : List (Nat × Bool)) (s : POW) : POW :=
  calls.foldl (fun s c => (EthashConfigureClient env s c.1 c.2).2) s

end POW

/-- The light context of the engine is the one for the epoch of `m_currentBlockNum`. -/
def LightInv (env : PowEnv) (s : POW) : Prop :=
  s.m_epochContextLight = ⟨env.get_epoch_number s.m_currentBlockNum, false⟩

/-- The bytes of an `ethash_hash256`: 32 values of type `uint8_t`. -/
def IsHash256 (b : Bytes) : Prop := b.length = 32 ∧ ∀ x ∈ b, x < 256

/-- The hashes of the library have the type `ethash_hash256`. -/
def PowEnv.Typed (env : PowEnv) : Prop :=
  ∀ ctx header nonce, IsHash256 (env.hash ctx header nonce).final_hash
    ∧ IsHash256 (env.hash ctx header nonce).mix_hash

/-- Sample hash function: byte `i` of the final hash is byte `i` of the header plus the
nonce, byte `i` of the mix hash is byte `i` of the header plus twice the nonce plus the
epoch, each modulo 256. -/
def sampleHash (ctx : EpochContext) (header : Bytes) (nonce : Nat) : EthashResult where
  final_hash := (List.range 32).map (fun i => (header.getD i 0 + nonce) % 256)
  mix_hash := (List.range 32).map (fun i => (header.getD i 0 + 2 * nonce + ctx.epoch) % 256)

/-- Sample library and configuration: epochs of 30000 blocks, `sampleHash`, a `verify` that
recomputes the hash, and light CPU mining. -/
def sampleEnv : PowEnv where
  get_epoch_number := fun b => b / 30000
  hash := sampleHash
  verify := fun ctx header mix nonce boundary =>
    decide ((sampleHash ctx header nonce).mix_hash = mix)
      && is_less_or_equal (sampleHash ctx header nonce).final_hash boundary
  REMOTE_MINE := false
  FULL_DATASET_MINE := false
  CUDA_GPU_MINE := false
  OPENCL_GPU_MINE := false

/-- Sample run: the flag `m_shouldMine` stays set for four tests; no proxy, no GPU. -/
def sampleRun : MiningRun where
  shouldMine := [true, true, true, true]
  gpu := none
  sendWork := false
  sign := fun _ => false
  rounds := []


/-- Sample library and configuration: `sampleEnv` with full-dataset CPU mining. -/
def fullCpuEnv : PowEnv := { sampleEnv with FULL_DATASET_MINE := true }


/-- Sample library and configuration: `sampleEnv` with mining through the proxy. -/
def remoteEnv : PowEnv := { sampleEnv with REMOTE_MINE := true }

/-- Sample serialized public key: 33 bytes. -/
def samplePubKey : Bytes := 2 :: List.replicate 32 17

/-- Sample run with a proxy that takes the work and answers the first poll with a finished
solution (nonce 0) for the header `00 … 00`, whatever header the work was for. -/
def otherHeaderRun : MiningRun where
  shouldMine := []
  gpu := none
  sendWork := true
  sign := fun _ => true
  rounds := [(true, .ret true 4 0 (POW.BlockhashToHexString (List.replicate 32 0))
    (POW.BlockhashToHexString (List.replicate 32 0)))]

/-! ## Proof of work: the header hash -/

/-- Modelled from the spec: the constant `UINT128_SIZE` (declared outside the given
sources), the 16 bytes of a 128-bit value. -/
def UINT128_SIZE : Nat := 16

/-- The `size` low-order bytes of a number, most significant byte first. -/
def bigEndianBytes (value : Nat) : Nat → Bytes
  | 0 => []
  | size + 1 => bigEndianBytes (value / 256) size ++ [value % 256]

/-- Modelled from the spec: the function `Serializable::SetNumber` (outside the given
sources), called with the offset at the end of the vector: it appends the number as `size`
bytes, "big-endian fixed-width". -/
def SetNumber (dst : Bytes) (value size : Nat) : Bytes := dst ++ bigEndianBytes value size

/-- An uppercase hexadecimal digit. -/
def hexDigitUpper (n : Nat) : Nat := if n % 16 < 10 then 48 + n % 16 else 55 + n % 16

/-- Modelled from the spec: the function `DataConversion::Uint8VecToHexStr` (outside the
given sources): the hexadecimal string of the bytes, two uppercase digits for each, from
which the digest "is cast to a 32-byte `Hash256`". -/
def Uint8VecToHexStr (hex_vec : Bytes) : Bytes :=
  hex_vec.flatMap (fun b => [hexDigitUpper (b % 256 / 16), hexDigitUpper (b % 256 % 16)])

namespace POW

/-- The vector `vec` that `POW::ConcatAndhash` hands to `sha2.Update`; `pubKey` is the
public key by the bytes that `PubKey::Serialize` appends, `lookupId` is a `uint32_t`. -/
def ConcatAndhashVec (rand1 rand2 : Bytes) (ipAddr : Nat) (pubKey : Bytes)
    (lookupId gasPrice : Nat) : Bytes :=
  let vec := rand1 ++ rand2
  let ipAddrVec := SetNumber [] ipAddr UINT128_SIZE
  let vec := vec ++ ipAddrVec
  let vec := vec ++ pubKey
  let vec := SetNumber vec lookupId 4
  SetNumber vec gasPrice UINT128_SIZE

/-- The function `POW::ConcatAndhash`; `sha256` is the digest `SHA2<256>`. -/
def ConcatAndhash (sha256 : Bytes → Bytes) (rand1 rand2 : Bytes) (ipAddr : Nat)
    (pubKey : Bytes) (lookupId gasPrice : Nat) : Bytes :=
  sha256 (ConcatAndhashVec rand1 rand2 ipAddr pubKey lookupId gasPrice)

/-- The function `POW::GenHeaderHash`. -/
def GenHeaderHash (sha256 : Bytes → Bytes) (rand1 rand2 : Bytes) (ipAddr : Nat)
    (pubKey : Bytes) (lookupId gasPrice : Nat) : Option Bytes :=
  let sha2_result := ConcatAndhash sha256 rand1 rand2 ipAddr pubKey lookupId gasPrice
  StringToBlockhash (Uint8VecToHexStr sha2_result)

end POW

/-- Sample digest function with 32-byte digests: byte `i` is byte `i` of the input plus the
length of the input, modulo 256. -/
def sampleDigest (x : Bytes) : Bytes :=
  (List.range 32).map (fun i => (x.getD i 0 + x.length) % 256)


/-- The function `ContractStorage2::FetchUpdatedStateValuesForAddress`, called with empty
`t_states` and `toDeletedIndices` as every caller does: the two tables it fills. -/
def FetchUpdatedStateValuesForAddress (s : ContractStorage2) (address : Address)
    (temp : Bool) : SMap Bytes × List Key :=
  if IsNullAddress address then ([], [])
  else if temp then
    (emplaceAll [] (s.t_stateDataMap.scanPrefix address.hex),
      (SMap.scanPrefix s.t_indexToBeDeleted address.hex).map Prod.fst)
  else
    (emplaceAll (emplaceAll [] (s.m_stateDataMap.scanPrefix address.hex))
        (s.m_stateDataDB.scanPrefix address.hex),
      (SMap.scanPrefix s.m_indexToBeDeleted address.hex).map Prod.fst)

/-! ## The account store (`src/libData/AccountData/AccountStore.cpp`) -/

/-- Modelled from the spec: the class `Account` (declared outside the given sources), the
tuple of balance, nonce, code (empty for a non-contract), init data and storage root. -/
structure Account where
  balance : Nat
  nonce : Nat
  code : Bytes
  initData : Bytes
  storageRoot : Bytes
deriving DecidableEq

/-- Modelled from the spec: the function `Account::isContract` (outside the given sources):
"an account is a contract iff code is non-empty". -/
def Account.isContract (a : Account) : Bool := !a.code.isEmpty

/-- The members of `AccountStore` and of the stores it drives: the account map, the trie
`m_state` by the accounts it holds under each address, the root saved by the last move to
disk, the revert buffers, the serialized delta, and of `ContractStorage2` the state tables
and the code and init-data databases. -/
structure AccountStore where
  m_addressToAccount : SMap Account
  m_state : SMap Account
  m_prevRoot : Bytes
  m_addressToAccountRevChanged : SMap Account
  m_addressToAccountRevCreated : SMap Account
  m_stateDeltaSerialized : Bytes
  contractStorage : ContractStorage2
  m_codeDB : SMap Bytes
  m_initDataDB : SMap Bytes
deriving DecidableEq

namespace AccountStore

/-- Modelled from the spec: the function `UpdateStateTrie` of the base class (outside the
given sources), `update_trie(addr, acc)`: the trie holds the account under the address. -/
def UpdateStateTrie (a : AccountStore) (address : Address) (account : Account) : AccountStore :=
  { a with m_state := a.m_state.insert address account }

/-- Modelled from the spec: the function `RemoveFromTrie` of the base class (outside the
given sources), `remove_from_trie(addr)`. -/
def RemoveFromTrie (a : AccountStore) (address : Address) : AccountStore :=
  { a with m_state := a.m_state.erase address }

/-- Modelled from the spec: the function `RemoveAccount` of the base class (outside the
given sources): the account map loses the address. -/
def RemoveAccount (a : AccountStore) (address : Address) : AccountStore :=
  { a with m_addressToAccount := a.m_addressToAccount.erase address }

/-- The function `AccountStore::RevertCommitTemp`. -/
def RevertCommitTemp (a : AccountStore) : AccountStore :=
  let a := a.m_addressToAccountRevChanged.foldl
    (fun a entry =>
      UpdateStateTrie
        { a with m_addressToAccount := a.m_addressToAccount.insert entry.1 entry.2 }
        entry.1 entry.2) a
  let a := a.m_addressToAccountRevCreated.foldl
    (fun a entry => RemoveFromTrie (RemoveAccount a entry.1) entry.1) a
  { a with contractStorage := RevertContractStates a.contractStorage }

/-- The function `AccountStore::GetStateDeltaHash`: the hash and the store after the call;
`sha256` is the digest `SHA2<HASH_VARIANT_256>`, and `StateHash()` is the all-zero hash. -/
def GetStateDeltaHash (sha256 : Bytes → Bytes) (a : AccountStore) : Bytes × AccountStore :=
  let isEmpty := a.m_stateDeltaSerialized.all (fun i => !decide (i ≠ 0))
  if isEmpty then (List.replicate 32 0, a)
  else (sha256 a.m_stateDeltaSerialized, a)

/-- The function `ContractStorage2::GetContractCode`. -/
def GetContractCode (a : AccountStore) (address : Address) : Bytes :=
  (a.m_codeDB.find? address.hex).getD []

/-- The function `ContractStorage2::GetInitData`. -/
def GetInitData (a : AccountStore) (address : Address) : Bytes :=
  (a.m_initDataDB.find? address.hex).getD []

end AccountStore

/-- The outcome of the calls that `MoveUpdatesToDisk` makes outside the given sources: the
batch inserts into the code and init-data databases, the LevelDB calls of `CommitStateDB`,
the deletions of code keys, the commit of the trie database (`none` when it throws), the
call `PutStateRoot`, and the root of the trie. -/
structure DiskRun where
  putCodeOk : Bool
  putInitDataOk : Bool
  batchOk : Bool
  deleteOk : Key → Bool
  deleteCodeOk : Key → Bool
  trieCommit : Option Bool
  putStateRootOk : Bool
  root : SMap Account → Bytes

namespace AccountStore

/-- The loop `for (const auto& it : code_batch)` of `MoveUpdatesToDisk`: `DeleteContractCode`
on each key; a failure is logged and the loop goes on. -/
def deleteCodeKeys (deleteCodeOk : Key → Bool) (keys : List Key) (db : SMap Bytes) : SMap Bytes :=
  keys.foldl (fun db k => if deleteCodeOk k then db.erase k else db) db

/-- The function `AccountStore::MoveUpdatesToDisk`: the return value and the store after it. -/
def MoveUpdatesToDisk (run : DiskRun) (a : AccountStore) : Bool × AccountStore :=
  let contracts := a.m_addressToAccount.filter (fun i => i.2.isContract)
  let code_batch : SMap Bytes :=
    (contracts.filter (fun i => (GetContractCode a i.1).isEmpty)).foldl
      (fun b i => SMap.emplace b (Address.hex i.1) i.2.code) []
  let initdata_batch : SMap Bytes :=
    (contracts.filter (fun i => (GetInitData a i.1).isEmpty)).foldl
      (fun b i => SMap.emplace b (Address.hex i.1) i.2.initData) []
  if !run.putCodeOk then (false, a)
  else
    let a := { a with
      m_codeDB :=
        code_batch.foldl (fun (db : SMap Bytes) (i : Key × Bytes) => SMap.insert db i.1 i.2)
          a.m_codeDB }
    if !run.putInitDataOk then (false, a)
    else
      let a := { a with
        m_initDataDB :=
          initdata_batch.foldl
            (fun (db : SMap Bytes) (i : Key × Bytes) => SMap.insert db i.1 i.2) a.m_initDataDB }
      let commit := CommitStateDB run.batchOk run.deleteOk a.contractStorage
      let ret := commit.1
      let a := { a with contractStorage := commit.2 }
      let a :=
        if !ret then
          { a with
            m_codeDB :=
              deleteCodeKeys run.deleteCodeOk (code_batch.map Prod.fst) a.m_codeDB }
        else a
      match run.trieCommit with
      | none => (false, a)
      | some _ =>
        if !run.putStateRootOk then (false, a)
        else (true, { a with m_prevRoot := run.root a.m_state, m_addressToAccount := [] })

end AccountStore

/-- Sample contract account with code and init data. -/
def sampleContract : Account := ⟨0, 0, [1, 2, 3], [4, 5], []⟩

/-- Sample account store: the account map holds the sample contract under `addrAA`, whose
code and init data are not on disk yet; the committed overlay of the contract storage holds
its field `c`. -/
def sampleAccountStore : AccountStore where
  m_addressToAccount := [(addrAA, sampleContract)]
  m_state := [(addrAA, sampleContract)]
  m_prevRoot := []
  m_addressToAccountRevChanged := []
  m_addressToAccountRevCreated := []
  m_stateDeltaSerialized := []
  contractStorage := committedStore
  m_codeDB := []
  m_initDataDB := []

/-- Sample run of a move to disk: `BatchInsert` of `CommitStateDB` fails, every other call
succeeds. -/
def commitFailsRun : DiskRun where
  putCodeOk := true
  putInitDataOk := true
  batchOk := false
  deleteOk := fun _ => true
  deleteCodeOk := fun _ => true
  trieCommit := some true
  putStateRootOk := true
  root := fun _ => List.replicate 32 1

/-- Sample store: the database holds the entry `m[x] = 0x01` of the depth-1 map `m` of
`addrAA`. -/
def dbMapStore : ContractStorage2 :=
  { ContractStorage2.empty with m_stateDataDB := [(nameKey addrAA [109] ++ [120, 22], [1])] }

/-- Sample store: the temporary overlay holds the field `c` of the null address. -/
def nullAddressStore : ContractStorage2 :=
  { ContractStorage2.empty with
    t_stateDataMap := [(nameKey (List.replicate 20 0) [99], [1])] }


/-- Sample account store after a revertible commit (scenario S4): the commit has created the
account `0xBB…BB` with nonce 5 and changed the balance of the sample contract under
`addrAA` from 0 to 9. -/
def revertSample : AccountStore :=
  { sampleAccountStore with
    m_addressToAccount :=
      [(addrAA, { sampleContract with balance := 9 }), (addrBB, ⟨0, 5, [], [], []⟩)]
    m_state := [(addrAA, { sampleContract with balance := 9 }), (addrBB, ⟨0, 5, [], [], []⟩)]
    m_addressToAccountRevChanged := [(addrAA, sampleContract)]
    m_addressToAccountRevCreated := [(addrBB, ⟨0, 0, [], [], []⟩)] }


/-! # Theorems -/

/-! ## Order and prefix facts -/

theorem keyLt_irrefl (a : Key) : keyLt a a = false := by
  induction a with
  | nil => rfl
  | cons x xs ih => simp [keyLt, ih]

theorem keyLt_trans {a b c : Key} (h1 : keyLt a b = true) (h2 : keyLt b c = true) :
    keyLt a c = true := by
  induction a generalizing b c with
  | nil =>
    cases b with
    | nil => simp [keyLt] at h1
    | cons y ys =>
      cases c with
      | nil => simp [keyLt] at h2
      | cons z zs => simp [keyLt]
  | cons x xs ih =>
    cases b with
    | nil => simp [keyLt] at h1
    | cons y ys =>
      cases c with
      | nil => simp [keyLt] at h2
      | cons z zs =>
        simp only [keyLt] at h1 h2 ⊢
        split_ifs at h1 h2 ⊢ <;> first | rfl | omega | exact ih h1 h2

theorem keyLt_total {a b : Key} (h : a ≠ b) : keyLt a b = true ∨ keyLt b a = true := by
  induction a generalizing b with
  | nil =>
    cases b with
    | nil => exact absurd rfl h
    | cons y ys => left; rfl
  | cons x xs ih =>
    cases b with
    | nil => right; rfl
    | cons y ys =>
      simp only [keyLt]
      rcases Nat.lt_trichotomy x y with hxy | hxy | hxy
      · left; simp [hxy]
      · subst hxy
        have : xs ≠ ys := fun e => h (by rw [e])
        simpa using ih this
      · right; simp [hxy]

theorem keyLt_ne {a b : Key} (h : keyLt a b = true) : a ≠ b := by
  intro e; subst e; rw [keyLt_irrefl] at h; exact Bool.false_ne_true h

theorem keyLt_asymm {a b : Key} (h : keyLt a b = true) : keyLt b a = false := by
  cases hb : keyLt b a with
  | false => rfl
  | true => have := keyLt_trans h hb; rw [keyLt_irrefl] at this; exact absurd this Bool.false_ne_true

theorem startsWith_iff {s p : Key} : startsWith s p = true ↔ ∃ t, s = p ++ t := by
  unfold startsWith
  rw [List.isPrefixOf_iff_prefix]
  constructor
  · rintro ⟨t, ht⟩; exact ⟨t, ht.symm⟩
  · rintro ⟨t, ht⟩; exact ⟨t, ht.symm⟩

theorem startsWith_refl (p : Key) : startsWith p p = true :=
  startsWith_iff.2 ⟨[], by simp⟩

theorem startsWith_append (p t : Key) : startsWith (p ++ t) p = true :=
  startsWith_iff.2 ⟨t, rfl⟩

theorem startsWith_trans {a b c : Key} (h1 : startsWith a b = true) (h2 : startsWith b c = true) :
    startsWith a c = true := by
  obtain ⟨t, rfl⟩ := startsWith_iff.1 h1
  obtain ⟨u, rfl⟩ := startsWith_iff.1 h2
  exact startsWith_iff.2 ⟨u ++ t, by simp⟩

theorem not_keyLt_of_startsWith {s p : Key} (h : startsWith s p = true) : keyLt s p = false := by
  obtain ⟨t, rfl⟩ := startsWith_iff.1 h
  induction p with
  | nil => cases t <;> rfl
  | cons x xs ih => simp [keyLt, ih (startsWith_append _ _)]

/-- A key lying between a prefix and one of its extensions has the prefix too. -/
theorem startsWith_of_between {p a b : Key} (hpa : keyLt a p = false) (hab : keyLt a b = true)
    (hb : startsWith b p = true) : startsWith a p = true := by
  obtain ⟨t, rfl⟩ := startsWith_iff.1 hb
  induction p generalizing a with
  | nil => exact startsWith_iff.2 ⟨a, rfl⟩
  | cons x xs ih =>
    cases a with
    | nil => simp [keyLt] at hpa
    | cons y ys =>
      simp only [List.cons_append, keyLt] at hpa hab
      have hxy : y = x := by
        by_contra hne
        split_ifs at hpa hab
        all_goals omega
      subst hxy
      simp only [lt_self_iff_false, if_false] at hpa hab
      have := ih hpa hab (startsWith_append _ _)
      obtain ⟨u, hu⟩ := startsWith_iff.1 this
      exact startsWith_iff.2 ⟨u, by rw [hu]; rfl⟩

namespace SMap
variable {β : Type}

/-! ## Lookup after update -/

theorem find?_insert (m : SMap β) (k : Key) (v : β) (x : Key) :
    (m.insert k v).find? x = if k = x then some v else m.find? x := by
  induction m with
  | nil => simp [insert, find?]
  | cons e tl ih =>
    obtain ⟨k', v'⟩ := e
    simp only [insert]
    by_cases h1 : keyLt k k' = true
    · simp only [h1, if_true, find?]
    · simp only [h1, if_false]
      by_cases h2 : k' = k
      · subst h2
        simp only [if_true, find?]
        split_ifs <;> rfl
      · simp only [h2, if_false, find?, ih]
        by_cases h3 : k' = x
        · subst h3
          have : ¬ k = k' := fun e => h2 e.symm
          simp [this]
        · simp [h3]

theorem find?_erase (m : SMap β) (k x : Key) :
    (m.erase k).find? x = if k = x then none else m.find? x := by
  induction m with
  | nil => simp [erase, find?]
  | cons e tl ih =>
    obtain ⟨k', v'⟩ := e
    unfold erase at ih ⊢
    rw [List.filter_cons]
    by_cases hk : k' = k
    · subst hk
      simp only [decide_True, Bool.not_true, if_false, Bool.false_eq_true, ih, find?]
      split_ifs <;> rfl
    · simp only [hk, decide_False, Bool.not_false, if_true, find?, ih]
      by_cases hx : k' = x
      · subst hx
        have : ¬ k = k' := fun e => hk e.symm
        simp [this]
      · simp [hx]

theorem contains_insert (m : SMap β) (k : Key) (v : β) (x : Key) :
    (m.insert k v).contains x = (decide (k = x) || m.contains x) := by
  unfold contains; rw [find?_insert]; split_ifs with h <;> simp [h]

theorem contains_erase (m : SMap β) (k x : Key) :
    (m.erase k).contains x = (!decide (k = x) && m.contains x) := by
  unfold contains; rw [find?_erase]; split_ifs with h <;> simp [h]

theorem find?_emplace (m : SMap β) (k : Key) (v : β) (x : Key) :
    (m.emplace k v).find? x = if m.contains k then m.find? x
      else if k = x then some v else m.find? x := by
  unfold emplace; split_ifs <;> simp_all [find?_insert]

theorem contains_emplace (m : SMap β) (k : Key) (v : β) (x : Key) :
    (m.emplace k v).contains x = (decide (k = x) || m.contains x) := by
  unfold emplace
  split_ifs with h
  · by_cases hx : k = x
    · subst hx; simp [h]
    · simp [hx]
  · exact contains_insert m k v x

theorem find?_eq_none_of_forall_ne {m : SMap β} {k : Key} (h : ∀ e ∈ m, e.1 ≠ k) :
    m.find? k = none := by
  induction m with
  | nil => rfl
  | cons e tl ih =>
    obtain ⟨k', v'⟩ := e
    have h1 : k' ≠ k := h (k', v') (List.mem_cons_self _ _)
    simp only [find?, h1, if_false]
    exact ih (fun e he => h e (List.mem_cons_of_mem _ he))

theorem mem_of_find? {m : SMap β} {k : Key} {v : β} (h : m.find? k = some v) : (k, v) ∈ m := by
  induction m with
  | nil => simp [find?] at h
  | cons e tl ih =>
    obtain ⟨k', v'⟩ := e
    simp only [find?] at h
    split_ifs at h with hk
    · subst hk; cases h; exact List.mem_cons_self _ _
    · exact List.mem_cons_of_mem _ (ih h)

/-! ## Well-formed tables -/

theorem WF.nil : WF ([] : SMap β) := List.Pairwise.nil

theorem WF.tail {e : Key × β} {m : SMap β} (h : WF (e :: m)) : WF m :=
  (List.pairwise_cons.1 h).2

theorem WF.head_lt {e : Key × β} {m : SMap β} (h : WF (e :: m)) :
    ∀ x ∈ m, keyLt e.1 x.1 = true :=
  (List.pairwise_cons.1 h).1

theorem WF.find?_tail {e : Key × β} {m : SMap β} (h : WF (e :: m)) : m.find? e.1 = none :=
  find?_eq_none_of_forall_ne (fun x hx => (keyLt_ne (h.head_lt x hx)).symm)

theorem WF.find?_of_mem {m : SMap β} (h : WF m) {k : Key} {v : β} (hm : (k, v) ∈ m) :
    m.find? k = some v := by
  induction m with
  | nil => cases hm
  | cons e tl ih =>
    obtain ⟨k', v'⟩ := e
    rcases List.mem_cons.1 hm with heq | hmem
    · cases heq; simp [find?]
    · have hlt := h.head_lt _ hmem
      have : k' ≠ k := keyLt_ne hlt
      simp only [find?, this, if_false]
      exact ih h.tail hmem

theorem WF.filter {m : SMap β} (h : WF m) (f : Key × β → Bool) : WF (m.filter f) :=
  List.Pairwise.sublist (List.filter_sublist m) h

theorem WF.erase {m : SMap β} (h : WF m) (k : Key) : WF (m.erase k) := h.filter _

theorem mem_insert {m : SMap β} {k : Key} {v : β} {x : Key × β} (h : x ∈ m.insert k v) :
    x = (k, v) ∨ x ∈ m := by
  induction m with
  | nil => simp [insert] at h; exact Or.inl h
  | cons e tl ih =>
    obtain ⟨k', v'⟩ := e
    simp only [insert] at h
    split_ifs at h with h1 h2
    · rcases List.mem_cons.1 h with h | h
      · exact Or.inl h
      · exact Or.inr h
    · rcases List.mem_cons.1 h with h | h
      · exact Or.inl h
      · exact Or.inr (List.mem_cons_of_mem _ h)
    · rcases List.mem_cons.1 h with h | h
      · exact Or.inr (h ▸ List.mem_cons_self _ _)
      · rcases ih h with h | h
        · exact Or.inl h
        · exact Or.inr (List.mem_cons_of_mem _ h)

theorem WF.insert {m : SMap β} (h : WF m) (k : Key) (v : β) : WF (m.insert k v) := by
  induction m with
  | nil => exact List.pairwise_singleton _ _
  | cons e tl ih =>
    obtain ⟨k', v'⟩ := e
    simp only [SMap.insert]
    split_ifs with h1 h2
    · refine List.pairwise_cons.2 ⟨?_, h⟩
      intro x hx
      rcases List.mem_cons.1 hx with hx | hx
      · subst hx; exact h1
      · exact keyLt_trans h1 (h.head_lt x hx)
    · subst h2
      exact List.pairwise_cons.2 ⟨h.head_lt, h.tail⟩
    · refine List.pairwise_cons.2 ⟨?_, ih h.tail⟩
      intro x hx
      rcases mem_insert hx with hx | hx
      · subst hx
        rcases keyLt_total h2 with h3 | h3
        · exact h3
        · simp at h1; rw [h1] at h3; exact absurd h3 Bool.false_ne_true
      · exact h.head_lt x hx

theorem WF.emplace {m : SMap β} (h : WF m) (k : Key) (v : β) : WF (m.emplace k v) := by
  unfold SMap.emplace; split_ifs
  · exact h
  · exact h.insert k v

/-- Two well-formed tables with the same lookups are the same table. -/
theorem WF.ext {a b : SMap β} (ha : WF a) (hb : WF b) (h : ∀ k, a.find? k = b.find? k) :
    a = b := by
  induction a generalizing b with
  | nil =>
    cases b with
    | nil => rfl
    | cons e tl =>
      have := h e.1
      simp [find?] at this
  | cons e tl ih =>
    obtain ⟨k, v⟩ := e
    cases b with
    | nil =>
      have := h k
      simp [find?] at this
    | cons e' tl' =>
      obtain ⟨k', v'⟩ := e'
      have hk : k = k' := by
        by_contra hne
        rcases keyLt_total hne with hlt | hlt
        · have h1 := h k
          have h2 : find? ((k', v') :: tl') k = none :=
            find?_eq_none_of_forall_ne (fun x hx => by
              rcases List.mem_cons.1 hx with hx | hx
              · subst hx; exact (keyLt_ne hlt).symm
              · exact (keyLt_ne (keyLt_trans hlt (hb.head_lt x hx))).symm)
          rw [h2] at h1; simp [find?] at h1
        · have h1 := h k'
          have h2 : find? ((k, v) :: tl) k' = none :=
            find?_eq_none_of_forall_ne (fun x hx => by
              rcases List.mem_cons.1 hx with hx | hx
              · subst hx; exact (keyLt_ne hlt).symm
              · exact (keyLt_ne (keyLt_trans hlt (ha.head_lt x hx))).symm)
          rw [h2] at h1; simp [find?] at h1
      subst hk
      have hv : v = v' := by
        have := h k
        simpa [find?] using this
      subst hv
      have htl : tl = tl' := by
        apply ih ha.tail hb.tail
        intro x
        by_cases hx : k = x
        · subst hx
          rw [ha.find?_tail, hb.find?_tail]
        · have := h x
          simpa [find?, hx] using this
      rw [htl]

end SMap
namespace SMap
variable {β : Type}

/-! ## Prefix scans -/

theorem takeWhile_startsWith_eq_filter {m : SMap β} {pre : Key} (h : WF m)
    (hge : ∀ e ∈ m, keyLt e.1 pre = false) :
    m.takeWhile (fun e => startsWith e.1 pre) = m.filter (fun e => startsWith e.1 pre) := by
  induction m with
  | nil => rfl
  | cons e tl ih =>
    have hge' : ∀ x ∈ tl, keyLt x.1 pre = false := fun x hx => hge x (List.mem_cons_of_mem _ hx)
    by_cases hs : startsWith e.1 pre = true
    · simp only [List.takeWhile_cons, List.filter_cons, hs, if_true, ih h.tail hge']
    · simp only [List.takeWhile_cons, List.filter_cons, hs, if_false, Bool.false_eq_true]
      symm
      rw [List.filter_eq_nil_iff]
      intro x hx hsx
      exact hs (startsWith_of_between (hge e (List.mem_cons_self _ _)) (h.head_lt x hx) hsx)

/-- On a table in key order the scan from `lower_bound` visits exactly the entries
whose key starts with the prefix. -/
theorem scanPrefix_eq_filter {m : SMap β} (h : WF m) (pre : Key) :
    m.scanPrefix pre = m.filter (fun e => startsWith e.1 pre) := by
  induction m with
  | nil => rfl
  | cons e tl ih =>
    unfold scanPrefix lowerBound at ih ⊢
    by_cases hlt : keyLt e.1 pre = true
    · have hns : ¬ startsWith e.1 pre = true := by
        intro hs; rw [not_keyLt_of_startsWith hs] at hlt; exact Bool.false_ne_true hlt
      simp only [List.dropWhile_cons, hlt, if_true, ih h.tail, List.filter_cons, hns, if_false,
        Bool.false_eq_true]
    · simp only [List.dropWhile_cons, hlt, if_false, Bool.false_eq_true]
      apply takeWhile_startsWith_eq_filter h
      intro x hx
      rcases List.mem_cons.1 hx with hx | hx
      · subst hx; simpa using hlt
      · cases hxp : keyLt x.1 pre with
        | false => rfl
        | true => exact absurd (keyLt_trans (h.head_lt x hx) hxp) hlt

theorem WF.scanPrefix {m : SMap β} (h : WF m) (pre : Key) : WF (m.scanPrefix pre) := by
  rw [scanPrefix_eq_filter h]; exact h.filter _

theorem mem_scanPrefix {m : SMap β} (h : WF m) {pre : Key} {e : Key × β} :
    e ∈ m.scanPrefix pre ↔ e ∈ m ∧ startsWith e.1 pre = true := by
  rw [scanPrefix_eq_filter h, List.mem_filter]

theorem find?_filter_key (m : SMap β) (f : Key → Bool) (x : Key) :
    find? (m.filter (fun e => f e.1)) x = if f x then m.find? x else none := by
  induction m with
  | nil => simp [find?]
  | cons e tl ih =>
    obtain ⟨k, v⟩ := e
    rw [List.filter_cons]
    by_cases hk : k = x
    · subst hk
      by_cases hf : f k = true
      · simp [hf, find?]
      · simp only [hf, if_false, Bool.false_eq_true, ih]
    · by_cases hf : f k = true
      · simp only [hf, if_true, find?, hk, if_false, ih]
      · simp only [hf, if_false, Bool.false_eq_true, ih, find?, hk]

theorem find?_scanPrefix {m : SMap β} (h : WF m) (pre x : Key) :
    (m.scanPrefix pre).find? x = if startsWith x pre then m.find? x else none := by
  rw [scanPrefix_eq_filter h]
  exact find?_filter_key m (fun k => startsWith k pre) x

end SMap

/-! ## Bulk insertion -/

theorem find?_emplaceAll {β : Type} (scan acc : SMap β) (x : Key) :
    (emplaceAll acc scan).find? x = (acc.find? x).orElse (fun _ => scan.find? x) := by
  induction scan generalizing acc with
  | nil =>
    simp only [emplaceAll, List.foldl_nil, SMap.find?]
    cases acc.find? x <;> rfl
  | cons e tl ih =>
    obtain ⟨k, v⟩ := e
    have := ih (SMap.emplace acc k v)
    unfold emplaceAll at this ⊢
    rw [List.foldl_cons, this, SMap.find?_emplace]
    by_cases hk : k = x
    · subst hk
      cases hc : acc.find? k with
      | none => simp [SMap.contains, hc, SMap.find?]
      | some w => simp [SMap.contains, hc]
    · simp only [hk, if_false, ite_self, SMap.find?]

theorem WF_emplaceAll {β : Type} (scan : SMap β) {acc : SMap β} (h : SMap.WF acc) :
    SMap.WF (emplaceAll acc scan) := by
  induction scan generalizing acc with
  | nil => exact h
  | cons e tl ih =>
    unfold emplaceAll at ih ⊢
    rw [List.foldl_cons]
    exact ih (h.emplace _ _)

theorem mem_markDeleted {β : Type} (scan : SMap β) (d : SSet) (x : Key) :
    (markDeleted d scan).mem x = (d.mem x || scan.contains x) := by
  induction scan generalizing d with
  | nil => simp [markDeleted, SMap.contains, SMap.find?]
  | cons e tl ih =>
    obtain ⟨k, v⟩ := e
    have := ih (SSet.add d k)
    unfold markDeleted at this ⊢
    rw [List.foldl_cons, this]
    unfold SSet.mem SSet.add
    rw [SMap.contains_emplace]
    by_cases hk : k = x
    · subst hk; simp [SMap.contains, SMap.find?]
    · simp [SMap.contains, SMap.find?, hk]

theorem WF_markDeleted {β : Type} (scan : SMap β) {d : SSet} (h : SMap.WF d) :
    SMap.WF (markDeleted d scan) := by
  induction scan generalizing d with
  | nil => exact h
  | cons e tl ih =>
    unfold markDeleted at ih ⊢
    rw [List.foldl_cons]
    exact ih (h.emplace _ _)

theorem SSet.mem_add (d : SSet) (k x : Key) : (d.add k).mem x = (decide (k = x) || d.mem x) :=
  SMap.contains_emplace d k () x

theorem SSet.mem_remove (d : SSet) (k x : Key) :
    (d.remove k).mem x = (!decide (k = x) && d.mem x) :=
  SMap.contains_erase d k x


/-! ## C1: scalar lookup precedence -/

/-- C1 (as stated) fails: a scalar query with `ignoreval = true` whose key is held by
the database alone satisfies every premise of the claim, the precedence rule selects
`db[k] = [7]`, yet the call returns found = true and writes no value. -/
theorem C1_counterexample :
    ((⟨[99], 0, [], true⟩ : ProtoScillaQuery).name ≠ FIELDS_MAP_DEPTH_INDICATOR
      ∧ (⟨[99], 0, [], true⟩ : ProtoScillaQuery).name ≠ SHARDING_INFO_INDICATOR)
    ∧ (⟨[99], 0, [], true⟩ : ProtoScillaQuery).indices.length
        = (⟨[99], 0, [], true⟩ : ProtoScillaQuery).mapdepth
    ∧ dbOnlyStore.t_indexToBeDeleted.mem (queryKey addrAA ⟨[99], 0, [], true⟩) = false
    ∧ specLookup dbOnlyStore (queryKey addrAA ⟨[99], 0, [], true⟩) = some [7]
    ∧ FetchStateValue wireCodec dbOnlyStore addrAA ⟨[99], 0, [], true⟩ = ⟨true, true, none⟩
    ∧ FetchStateValue wireCodec dbOnlyStore addrAA ⟨[99], 0, [], true⟩
        ≠ ⟨true, true, some (.bval [7])⟩ := by
  decide

/-- C1 (amended): for a scalar query (non-reserved name, `|indices| = mapdepth`) whose
key `k` is not in `t_deleted`, if the precedence rule of the specification selects the
value `v` for `k`, then `FetchStateValue` returns ok with found = true and `bval = v`,
except that with `ignoreval = true` and `k` in neither `t_state` nor `m_state` (the value
comes from the database) it returns ok with found = true and writes no value. -/
theorem C1_scalar_precedence (c : ProtoCodec) (s : ContractStorage2) (addr : Address)
    (q : ProtoScillaQuery) (v : Bytes)
    (hname : q.name ≠ FIELDS_MAP_DEPTH_INDICATOR ∧ q.name ≠ SHARDING_INFO_INDICATOR)
    (hdepth : q.indices.length = q.mapdepth)
    (hdel : s.t_indexToBeDeleted.mem (queryKey addr q) = false)
    (hv : specLookup s (queryKey addr q) = some v) :
    FetchStateValue c s addr q =
      if q.ignoreval = true ∧ s.t_stateDataMap.contains (queryKey addr q) = false
          ∧ s.m_stateDataMap.contains (queryKey addr q) = false
      then ⟨true, true, none⟩ else ⟨true, true, some (.bval v)⟩ := by
  unfold queryKey at hdel hv ⊢
  unfold specLookup at hv
  unfold FetchStateValue
  simp only [hname.1, hname.2, or_self, if_false, hdepth, lt_irrefl, gt_iff_lt, hdel,
    Bool.false_and, Bool.false_eq_true, decide_True, Bool.and_true]
  cases ht : s.t_stateDataMap.find? (appendIndices (nameKey addr q.name) q.indices) with
  | some tv =>
    rw [ht] at hv
    simp only [Option.some.injEq] at hv
    subst hv
    simp [SMap.contains, ht]
  | none =>
    rw [ht] at hv
    simp only at hv
    cases hmd : s.m_indexToBeDeleted.mem (appendIndices (nameKey addr q.name) q.indices) with
    | true => simp [hmd] at hv
    | false =>
      simp only [hmd, Bool.false_eq_true, if_false] at hv
      simp only [Bool.false_and, Bool.false_eq_true, if_false]
      cases hm : s.m_stateDataMap.find? (appendIndices (nameKey addr q.name) q.indices) with
      | some mv =>
        rw [hm] at hv
        simp only [Option.some.injEq] at hv
        subst hv
        simp [SMap.contains, hm]
      | none =>
        rw [hm] at hv
        simp only at hv
        rw [hv]
        simp only [SMap.contains, ht, hm, Option.isSome_none, and_self, and_true]
        cases q.ignoreval <;> simp

/-- C1 witness: the database value is returned for `ignoreval = false`. -/
theorem C1_scalar_precedence_witness :
    ((⟨[99], 0, [], false⟩ : ProtoScillaQuery).name ≠ FIELDS_MAP_DEPTH_INDICATOR
      ∧ (⟨[99], 0, [], false⟩ : ProtoScillaQuery).name ≠ SHARDING_INFO_INDICATOR)
    ∧ specLookup dbOnlyStore (queryKey addrAA ⟨[99], 0, [], false⟩) = some [7]
    ∧ FetchStateValue wireCodec dbOnlyStore addrAA ⟨[99], 0, [], false⟩
        = ⟨true, true, some (.bval [7])⟩ :=
  ⟨by decide, by decide,
    (C1_scalar_precedence wireCodec dbOnlyStore addrAA ⟨[99], 0, [], false⟩ [7]
      (by decide) (by decide) (by decide) (by decide)).trans (by decide)⟩


/-! ## The map branch of `FetchStateValue` -/

theorem find?_fetchEntries {s : ContractStorage2} (h : s.WF) (key x : Key) :
    (fetchEntries s key).find? x =
      if startsWith x key then
        ((s.t_stateDataMap.find? x).orElse (fun _ => s.m_stateDataMap.find? x)).orElse
          (fun _ => s.m_stateDataDB.find? x)
      else none := by
  unfold fetchEntries
  simp only [find?_emplaceAll, SMap.find?_scanPrefix h.t, SMap.find?_scanPrefix h.m,
    SMap.find?_scanPrefix h.db, SMap.find?]
  split_ifs <;> simp

theorem WF_fetchEntries (s : ContractStorage2) (key : Key) : SMap.WF (fetchEntries s key) :=
  WF_emplaceAll _ (WF_emplaceAll _ (WF_emplaceAll _ SMap.WF.nil))

/-- The loop reads the store only through `t_deleted`, `m_deleted` and `t_state`. -/
theorem fetchLoop_congr (c : ProtoCodec) {s s' : ContractStorage2} (q : ProtoScillaQuery)
    (key : Key) (h1 : s'.t_indexToBeDeleted = s.t_indexToBeDeleted)
    (h2 : s'.m_indexToBeDeleted = s.m_indexToBeDeleted)
    (h3 : s'.t_stateDataMap = s.t_stateDataMap) (l : List (Key × Bytes))
    (value : ProtoScillaVal) (n : Nat) :
    fetchLoop c s' q key l value n = fetchLoop c s q key l value n := by
  induction l generalizing value n with
  | nil => rfl
  | cons e tl ih =>
    obtain ⟨k, b⟩ := e
    simp only [fetchLoop, h1, h2, h3, ih]

/-- Entries that are not visible contribute nothing to the loop. -/
theorem fetchLoop_filter_visible (c : ProtoCodec) (s : ContractStorage2) (q : ProtoScillaQuery)
    (key : Key) (l : List (Key × Bytes)) (value : ProtoScillaVal) (n : Nat) :
    fetchLoop c s q key (l.filter (fun e => visible s e.1)) value n
      = fetchLoop c s q key l value n := by
  induction l generalizing value n with
  | nil => rfl
  | cons e tl ih =>
    obtain ⟨k, b⟩ := e
    rw [List.filter_cons]
    by_cases hv : visible s k = true
    · simp only [hv, if_true]
      unfold visible at hv
      simp only [Bool.and_eq_true, Bool.not_eq_true'] at hv
      simp only [fetchLoop, hv.1, hv.2, Bool.false_eq_true, if_false, ih]
    · simp only [hv, if_false, Bool.false_eq_true, ih]
      unfold visible at hv
      by_cases h1 : s.t_indexToBeDeleted.mem k = true
      · simp only [fetchLoop, h1, if_true]
      · simp only [Bool.not_eq_true] at h1
        simp only [h1, Bool.not_false, Bool.true_and, Bool.not_eq_true', Bool.not_eq_false] at hv
        simp only [fetchLoop, h1, hv, Bool.false_eq_true, if_false, if_true]

theorem fetchMap_dst (c : ProtoCodec) (s : ContractStorage2) (q : ProtoScillaQuery) (key : Key)
    (hig : q.ignoreval = false) :
    (fetchMap c s q key).dst
      = loopDst (fetchLoop c s q key (fetchEntries s key) .unset 0) := by
  unfold fetchMap fetchEntries
  simp only [hig, Bool.false_and, Bool.false_eq_true, if_false, Bool.and_false]
  by_cases hce : ((s.m_stateDataDB.scanPrefix key).isEmpty
      && (emplaceAll (emplaceAll [] (s.t_stateDataMap.scanPrefix key))
        (s.m_stateDataMap.scanPrefix key)).isEmpty) = true
  · simp only [hce, if_true]
    simp only [Bool.and_eq_true, List.isEmpty_iff] at hce
    rw [hce.1, hce.2]
    simp [emplaceAll, fetchLoop, loopDst]
  · simp only [hce, if_false, Bool.false_eq_true]
    cases fetchLoop c s q key (emplaceAll (emplaceAll (emplaceAll [] (s.t_stateDataMap.scanPrefix key))
        (s.m_stateDataMap.scanPrefix key)) (s.m_stateDataDB.scanPrefix key)) .unset 0 with
    | none => rfl
    | some r =>
      obtain ⟨value, counter⟩ := r
      simp only [loopDst]
      split_ifs <;> rfl


/-! ## C2: a temporary tombstone hides the key -/

theorem visible_congr {s s' : ContractStorage2}
    (h1 : s'.t_indexToBeDeleted = s.t_indexToBeDeleted)
    (h2 : s'.m_indexToBeDeleted = s.m_indexToBeDeleted)
    (h3 : s'.t_stateDataMap = s.t_stateDataMap) (x : Key) : visible s' x = visible s x := by
  simp only [visible, h1, h2, h3]

/-- The visible entries under a prefix do not depend on what `m_state` and the database
hold under a key tombstoned in `t_deleted`. -/
theorem visible_fetchEntries_eq {s s' : ContractStorage2} {k : Key} (hwf : s.WF) (hwf' : s'.WF)
    (hdel : s.t_indexToBeDeleted.mem k = true)
    (ht : s'.t_stateDataMap = s.t_stateDataMap)
    (htd : s'.t_indexToBeDeleted = s.t_indexToBeDeleted)
    (hmd : s'.m_indexToBeDeleted = s.m_indexToBeDeleted)
    (hm : ∀ x, x ≠ k → s'.m_stateDataMap.find? x = s.m_stateDataMap.find? x)
    (hdb : ∀ x, x ≠ k → s'.m_stateDataDB.find? x = s.m_stateDataDB.find? x) (key : Key) :
    (fetchEntries s' key).filter (fun e => visible s' e.1)
      = (fetchEntries s key).filter (fun e => visible s e.1) := by
  apply SMap.WF.ext ((WF_fetchEntries s' key).filter _) ((WF_fetchEntries s key).filter _)
  intro x
  rw [SMap.find?_filter_key _ (fun k => visible s' k), SMap.find?_filter_key _ (fun k => visible s k),
    visible_congr htd hmd ht]
  by_cases hx : x = k
  · subst hx
    simp [visible, hdel]
  · rw [find?_fetchEntries hwf', find?_fetchEntries hwf, ht, hm x hx, hdb x hx]

/-- C2: if `k` is in `t_deleted`, no `FetchStateValue` call returns a value for `k`,
whatever `m_state` and the database hold. A scalar fetch whose key is `k` writes no value
and, for a non-reserved name, returns ok with found = false; and a map fetch
(`ignoreval = false`) writes the same value on any store `s'` that differs from `s` only
in what `m_state` and the database hold under `k`, so the map it returns has no entry
built from `k`. (The premise `k ∉ t_state` of the claim is not needed.) -/
theorem C2_tombstone_hides (c : ProtoCodec) (s s' : ContractStorage2) (addr : Address)
    (k : Key) (q : ProtoScillaQuery) (hwf : s.WF) (hwf' : s'.WF)
    (hdel : s.t_indexToBeDeleted.mem k = true)
    (ht : s'.t_stateDataMap = s.t_stateDataMap)
    (htd : s'.t_indexToBeDeleted = s.t_indexToBeDeleted)
    (hmd : s'.m_indexToBeDeleted = s.m_indexToBeDeleted)
    (hm : ∀ x, x ≠ k → s'.m_stateDataMap.find? x = s.m_stateDataMap.find? x)
    (hdb : ∀ x, x ≠ k → s'.m_stateDataDB.find? x = s.m_stateDataDB.find? x) :
    (q.indices.length = q.mapdepth → queryKey addr q = k →
      (FetchStateValue c s addr q).dst = none
      ∧ (q.name ≠ FIELDS_MAP_DEPTH_INDICATOR ∧ q.name ≠ SHARDING_INFO_INDICATOR →
          FetchStateValue c s addr q = ⟨true, false, none⟩))
    ∧ (q.indices.length < q.mapdepth → q.ignoreval = false →
      (FetchStateValue c s' addr q).dst = (FetchStateValue c s addr q).dst) := by
  constructor
  · intro hdepth hk
    unfold queryKey at hk
    by_cases hres : q.name = FIELDS_MAP_DEPTH_INDICATOR ∨ q.name = SHARDING_INFO_INDICATOR
    · refine ⟨by simp [FetchStateValue, hres], fun hn => ?_⟩
      rcases hres with h | h
      · exact absurd h hn.1
      · exact absurd h hn.2
    · have hfetch : FetchStateValue c s addr q = ⟨true, false, none⟩ := by
        unfold FetchStateValue
        simp only [hres, if_false, hk, hdepth, lt_irrefl, gt_iff_lt, hdel, decide_True,
          Bool.and_self, if_true]
      exact ⟨by rw [hfetch], fun _ => hfetch⟩
  · intro hdepth hig
    have hne : ¬ q.indices.length = q.mapdepth := Nat.ne_of_lt hdepth
    have hng : ¬ q.indices.length > q.mapdepth := Nat.not_lt.2 (Nat.le_of_lt hdepth)
    unfold FetchStateValue
    by_cases hres : q.name = FIELDS_MAP_DEPTH_INDICATOR ∨ q.name = SHARDING_INFO_INDICATOR
    · simp only [hres, if_true]
    · simp only [hres, if_false, hng, hne, decide_False, Bool.and_false, Bool.false_eq_true]
      rw [fetchMap_dst c s' q _ hig, fetchMap_dst c s q _ hig,
        ← fetchLoop_filter_visible c s', ← fetchLoop_filter_visible c s,
        visible_fetchEntries_eq hwf hwf' hdel ht htd hmd hm hdb,
        fetchLoop_congr c q _ htd hmd ht]

theorem tombstonedStore_WF : tombstonedStore.WF :=
  ⟨by unfold SMap.WF; decide, by unfold SMap.WF; decide, by unfold SMap.WF; decide,
    by unfold SMap.WF; decide, by unfold SMap.WF; decide, by unfold SMap.WF; decide,
    by unfold SMap.WF; decide, by unfold SMap.WF; decide, by unfold SMap.WF; decide⟩

theorem tombstonedStoreAlt_WF : tombstonedStoreAlt.WF :=
  ⟨by unfold SMap.WF; decide, by unfold SMap.WF; decide, by unfold SMap.WF; decide,
    by unfold SMap.WF; decide, by unfold SMap.WF; decide, by unfold SMap.WF; decide,
    by unfold SMap.WF; decide, by unfold SMap.WF; decide, by unfold SMap.WF; decide⟩

/-- C2 witness: with `m[x]` tombstoned, the fetch of the depth-1 map `m` returns the
sibling entry alone, on the sample store and on its variant. -/
theorem C2_tombstone_hides_witness :
    tombstonedStore.t_indexToBeDeleted.mem (nameKey addrAA [109] ++ [120, 22]) = true
    ∧ (FetchStateValue wireCodec tombstonedStoreAlt addrAA ⟨[109], 1, [], false⟩).dst
        = (FetchStateValue wireCodec tombstonedStore addrAA ⟨[109], 1, [], false⟩).dst
    ∧ (FetchStateValue wireCodec tombstonedStore addrAA ⟨[109], 1, [], false⟩).dst
        = some (.mval [([121], .bval [3])]) :=
  ⟨by decide,
    (C2_tombstone_hides wireCodec tombstonedStore tombstonedStoreAlt addrAA
      (nameKey addrAA [109] ++ [120, 22]) ⟨[109], 1, [], false⟩
      tombstonedStore_WF tombstonedStoreAlt_WF (by decide) rfl rfl rfl
      (fun x hx => by
        have h1 : ¬ (nameKey addrAA [109] ++ [120, 22]) = x := fun e => hx e.symm
        simp [tombstonedStoreAlt, tombstonedStore, SMap.find?, h1])
      (fun x hx => by
        have h1 : ¬ (nameKey addrAA [109] ++ [120, 22]) = x := fun e => hx e.symm
        simp [tombstonedStoreAlt, tombstonedStore, SMap.find?, h1])).2 (by decide) rfl,
    by decide⟩


/-! ## Placeholder cleanup touches `t_deleted` only -/

theorem onlyTDeletedChanged.refl (s : ContractStorage2) : onlyTDeletedChanged s s := rfl

theorem onlyTDeletedChanged.trans {a b c : ContractStorage2} (h1 : onlyTDeletedChanged a b)
    (h2 : onlyTDeletedChanged b c) : onlyTDeletedChanged a c := by
  unfold onlyTDeletedChanged at *
  rw [h2, h1]

theorem DeleteByIndex_frame (s : ContractStorage2) (index : Key) :
    onlyTDeletedChanged s (DeleteByIndex s index) := by
  unfold DeleteByIndex onlyTDeletedChanged
  split_ifs <;> rfl

theorem cleanLoop_frame (l : List Bytes) (s : ContractStorage2) (scankey : Key) :
    onlyTDeletedChanged s (cleanLoop s scankey l) := by
  induction l generalizing s scankey with
  | nil => exact onlyTDeletedChanged.refl s
  | cons i rest ih =>
    simp only [cleanLoop]
    exact (DeleteByIndex_frame s _).trans (ih _ _)

theorem CleanEmptyMapPlaceholders_frame (s : ContractStorage2) (key : Key) :
    onlyTDeletedChanged s (CleanEmptyMapPlaceholders s key).2 := by
  unfold CleanEmptyMapPlaceholders
  simp only
  split_ifs
  · exact onlyTDeletedChanged.refl s
  · exact (DeleteByIndex_frame s _).trans (cleanLoop_frame _ _ _)

theorem DeleteByPrefix_frame (s : ContractStorage2) (pre : Key) :
    onlyTDeletedChanged s (DeleteByPrefix s pre) := rfl

theorem UpdateStateData_t_state (s : ContractStorage2) (key : Key) (value : Bytes) (b : Bool) :
    (UpdateStateData s key value b).t_stateDataMap = s.t_stateDataMap.insert key value := by
  unfold UpdateStateData
  cases b with
  | false => rfl
  | true =>
    have h := CleanEmptyMapPlaceholders_frame s key
    unfold onlyTDeletedChanged at h
    simp only [if_true]
    rw [h]

theorem UpdateStateData_t_deleted_key (s : ContractStorage2) (key : Key) (value : Bytes)
    (b : Bool) : (UpdateStateData s key value b).t_indexToBeDeleted.mem key = false := by
  unfold UpdateStateData
  simp [SSet.mem_remove]

/-! ## C3: a scalar write is read back -/

/-- C3: after `UpdateStateValue` in write mode on a scalar position (non-reserved name,
`|indices| = mapdepth`) with value `bval = v`, which returns true, `FetchStateValue`
with the same name, indices and mapdepth (either `ignoreval`) returns ok with
found = true and `bval = v`. -/
theorem C3_write_then_read (c : ProtoCodec) (s : ContractStorage2) (addr : Address)
    (q : ProtoScillaQuery) (v : Bytes) (ig : Bool)
    (hname : q.name ≠ FIELDS_MAP_DEPTH_INDICATOR ∧ q.name ≠ SHARDING_INFO_INDICATOR)
    (hdepth : q.indices.length = q.mapdepth) (hig : q.ignoreval = false) :
    (UpdateStateValue c s addr q (.bval v)).1 = true
    ∧ FetchStateValue c (UpdateStateValue c s addr q (.bval v)).2 addr
        ⟨q.name, q.mapdepth, q.indices, ig⟩ = ⟨true, true, some (.bval v)⟩ := by
  have hupd : UpdateStateValue c s addr q (.bval v)
      = (true, UpdateStateData s (appendIndices (nameKey addr q.name) q.indices) v true) := by
    unfold UpdateStateValue
    simp [hname.1, hname.2, hig, hdepth, ProtoScillaVal.has_mval, ProtoScillaVal.getBval]
  rw [hupd]
  refine ⟨rfl, ?_⟩
  unfold FetchStateValue
  simp only [hname.1, hname.2, or_self, if_false, hdepth, lt_irrefl, gt_iff_lt,
    UpdateStateData_t_deleted_key, Bool.false_and, Bool.false_eq_true, decide_True,
    Bool.and_true, UpdateStateData_t_state, SMap.contains_insert, Bool.true_or, Bool.not_true,
    Bool.and_false, SMap.find?_insert, if_true]

/-- C3 witness: scenario S1, the depth-0 field `counter ↦ 0x01` on the empty store. -/
theorem C3_write_then_read_witness :
    (UpdateStateValue wireCodec ContractStorage2.empty addrAA
        ⟨[99, 111, 117, 110, 116, 101, 114], 0, [], false⟩ (.bval [1])).1 = true
    ∧ FetchStateValue wireCodec
        (UpdateStateValue wireCodec ContractStorage2.empty addrAA
          ⟨[99, 111, 117, 110, 116, 101, 114], 0, [], false⟩ (.bval [1])).2 addrAA
        ⟨[99, 111, 117, 110, 116, 101, 114], 0, [], false⟩ = ⟨true, true, some (.bval [1])⟩ :=
  C3_write_then_read wireCodec ContractStorage2.empty addrAA
    ⟨[99, 111, 117, 110, 116, 101, 114], 0, [], false⟩ [1] false (by decide) rfl rfl


/-! ## The commit loops and the revert journal -/

theorem SSet.ext_of_mem {a b : SSet} (ha : SMap.WF a) (hb : SMap.WF b)
    (h : ∀ x, a.mem x = b.mem x) : a = b := by
  apply SMap.WF.ext ha hb
  intro x
  have := h x
  unfold SSet.mem SMap.contains at this
  cases h1 : SMap.find? a x <;> cases h2 : SMap.find? b x <;> simp_all

theorem SMap.contains_cons {β : Type} (k : Key) (v : β) (tl : SMap β) (x : Key) :
    SMap.contains ((k, v) :: tl) x = (decide (k = x) || SMap.contains tl x) := by
  unfold SMap.contains
  simp only [SMap.find?]
  split_ifs with h <;> simp [h]

theorem SMap.WF.contains_tail {β : Type} {e : Key × β} {m : SMap β} (h : SMap.WF (e :: m)) :
    SMap.contains m e.1 = false := by
  unfold SMap.contains; rw [h.find?_tail]; rfl

theorem commitStates_m_state (S : List (Key × Bytes)) (s : ContractStorage2) (b : Bool)
    (hS : SMap.WF S) (x : Key) :
    (commitStates b S s).m_stateDataMap.find? x
      = (SMap.find? S x).orElse (fun _ => s.m_stateDataMap.find? x) := by
  induction S generalizing s with
  | nil => simp [commitStates, SMap.find?]
  | cons e tl ih =>
    obtain ⟨k, v⟩ := e
    simp only [commitStates]
    have htl := hS.find?_tail
    simp only at htl
    split_ifs
    all_goals
      rw [ih _ hS.tail]
      simp only [SMap.find?_insert, SMap.find?]
      by_cases hk : k = x
      · subst hk; simp [htl]
      · simp [hk]

theorem commitStates_WF (S : List (Key × Bytes)) (s : ContractStorage2) (b : Bool)
    (h : s.WF) : (commitStates b S s).WF := by
  induction S generalizing s with
  | nil => exact h
  | cons e tl ih =>
    obtain ⟨k, v⟩ := e
    simp only [commitStates]
    cases b
    all_goals
      simp only [if_true, if_false, Bool.false_eq_true]
      split_ifs
      all_goals
        apply ih
        constructor <;> first
          | exact h.db | exact h.m.insert _ _ | exact h.md.erase _ | exact h.md | exact h.t
          | exact h.td | exact h.p | exact h.pd | exact h.r.insert _ _ | exact h.r
          | exact h.rd.emplace _ _ | exact h.rd

theorem commitStates_r_state (S : List (Key × Bytes)) (s : ContractStorage2)
    (hS : SMap.WF S) (x : Key) :
    (commitStates true S s).r_stateDataMap.find? x
      = if SMap.contains S x then some ((s.m_stateDataMap.find? x).getD [])
        else s.r_stateDataMap.find? x := by
  induction S generalizing s with
  | nil => simp [commitStates, SMap.contains, SMap.find?]
  | cons e tl ih =>
    obtain ⟨k, v⟩ := e
    simp only [commitStates]
    have htl := hS.contains_tail
    simp only at htl
    by_cases hmem : s.m_indexToBeDeleted.mem k = true
    · simp only [hmem, if_true]
      rw [ih _ hS.tail]
      simp only [SMap.find?_insert, SMap.contains_cons]
      by_cases hk : k = x
      · subst hk; simp [htl]
      · simp [hk]
    · simp only [hmem, if_false, if_true, Bool.false_eq_true]
      rw [ih _ hS.tail]
      simp only [SMap.find?_insert, SMap.contains_cons]
      by_cases hk : k = x
      · subst hk; simp [htl]
      · simp [hk]

theorem commitStates_m_deleted (S : List (Key × Bytes)) (s : ContractStorage2) (b : Bool)
    (x : Key) :
    (commitStates b S s).m_indexToBeDeleted.mem x
      = (s.m_indexToBeDeleted.mem x && !SMap.contains S x) := by
  induction S generalizing s with
  | nil => simp [commitStates, SMap.contains, SMap.find?]
  | cons e tl ih =>
    obtain ⟨k, v⟩ := e
    simp only [commitStates]
    by_cases hmem : s.m_indexToBeDeleted.mem k = true
    · simp only [hmem, if_true]
      rw [ih]
      simp only [SSet.mem_remove, SMap.contains_cons]
      by_cases hk : k = x
      · subst hk; simp
      · simp [hk]
    · simp only [hmem, if_false, if_true, Bool.false_eq_true]
      rw [ih]
      simp only [SMap.contains_cons]
      by_cases hk : k = x
      · subst hk; simp at hmem; simp [hmem]
      · simp [hk]

theorem commitStates_r_deleted (S : List (Key × Bytes)) (s : ContractStorage2)
    (hS : SMap.WF S) (hr : ∀ x, SMap.contains S x = true → s.r_indexToBeDeleted.contains x = false)
    (x : Key) :
    (commitStates true S s).r_indexToBeDeleted.find? x
      = if SMap.contains S x && s.m_indexToBeDeleted.mem x then some false
        else s.r_indexToBeDeleted.find? x := by
  induction S generalizing s with
  | nil => simp [commitStates, SMap.contains, SMap.find?]
  | cons e tl ih =>
    obtain ⟨k, v⟩ := e
    have htl := hS.contains_tail
    simp only at htl
    have hrk : s.r_indexToBeDeleted.contains k = false := hr k (by simp [SMap.contains_cons])
    simp only [commitStates]
    by_cases hmem : s.m_indexToBeDeleted.mem k = true
    · simp only [hmem, if_true]
      rw [ih _ hS.tail]
      · simp only [SMap.contains_cons, SMap.find?_emplace, hrk, Bool.false_eq_true, if_false,
          SSet.mem_remove]
        by_cases hk : k = x
        · subst hk; simp [htl, hmem]
        · simp [hk]
      · intro y hy
        simp only [SMap.contains_emplace]
        have hky : ¬ k = y := by
          intro e; subst e; rw [htl] at hy; exact Bool.false_ne_true hy
        simp only [hky, decide_False, Bool.false_or]
        exact hr y (by simp [SMap.contains_cons, hy])
    · simp only [hmem, if_false, if_true, Bool.false_eq_true]
      rw [ih _ hS.tail]
      · simp only [SMap.contains_cons]
        by_cases hk : k = x
        · subst hk
          simp only [Bool.not_eq_true] at hmem
          simp [htl, hmem]
        · simp [hk]
      · intro y hy
        exact hr y (by simp [SMap.contains_cons, hy])

theorem commitDeletes_m_state (D : List Key) (s : ContractStorage2) (b : Bool) :
    (commitDeletes b D s).m_stateDataMap = s.m_stateDataMap
    ∧ (commitDeletes b D s).r_stateDataMap = s.r_stateDataMap := by
  induction D generalizing s with
  | nil => exact ⟨rfl, rfl⟩
  | cons k rest ih =>
    simp only [commitDeletes]
    exact ih _

theorem commitDeletes_WF (D : List Key) (s : ContractStorage2) (b : Bool) (h : s.WF) :
    (commitDeletes b D s).WF := by
  induction D generalizing s with
  | nil => exact h
  | cons k rest ih =>
    simp only [commitDeletes]
    cases b
    all_goals
      simp only [if_true, if_false, Bool.false_eq_true]
      apply ih
      constructor <;> first
        | exact h.db | exact h.m | exact h.md.emplace _ _ | exact h.t
        | exact h.td | exact h.p | exact h.pd | exact h.r
        | exact h.rd.emplace _ _ | exact h.rd

theorem commitDeletes_m_deleted (D : List Key) (s : ContractStorage2) (b : Bool) (x : Key) :
    (commitDeletes b D s).m_indexToBeDeleted.mem x
      = (s.m_indexToBeDeleted.mem x || decide (x ∈ D)) := by
  induction D generalizing s with
  | nil => simp [commitDeletes]
  | cons k rest ih =>
    simp only [commitDeletes]
    rw [ih]
    simp only [SSet.mem_add, List.mem_cons]
    by_cases hk : k = x
    · subst hk; simp
    · have : ¬ x = k := fun e => hk e.symm
      simp [hk, this]

theorem commitDeletes_r_deleted (D : List Key) (s : ContractStorage2) (x : Key) :
    (commitDeletes true D s).r_indexToBeDeleted.find? x
      = if s.r_indexToBeDeleted.contains x then s.r_indexToBeDeleted.find? x
        else if x ∈ D then some true else none := by
  induction D generalizing s with
  | nil =>
    simp only [commitDeletes, List.not_mem_nil, if_false]
    unfold SMap.contains
    cases s.r_indexToBeDeleted.find? x <;> simp
  | cons k rest ih =>
    simp only [commitDeletes]
    rw [ih]
    simp only [if_true, SMap.contains_emplace, SMap.find?_emplace, List.mem_cons]
    by_cases hk : k = x
    · subst hk
      by_cases hc : s.r_indexToBeDeleted.contains k = true
      · simp [hc]
      · simp [hc]
    · have : ¬ x = k := fun e => hk e.symm
      simp only [hk, decide_False, Bool.false_or, if_false, this, false_or, ite_self]


theorem revert_m_state_find? (r : SMap Bytes) (hr : SMap.WF r) (m : SMap Bytes) (x : Key) :
    SMap.find? (r.foldl (fun m data =>
        if data.2.isEmpty then SMap.erase m data.1 else SMap.insert m data.1 data.2) m) x
      = match SMap.find? r x with
        | none => m.find? x
        | some v => if v.isEmpty then none else some v := by
  induction r generalizing m with
  | nil => rfl
  | cons e tl ih =>
    obtain ⟨k, v⟩ := e
    rw [List.foldl_cons, ih hr.tail]
    have htl := hr.find?_tail
    simp only at htl
    by_cases hk : k = x
    · subst hk
      rw [htl]
      simp only [SMap.find?, if_true]
      split_ifs
      · simp [SMap.find?_erase]
      · simp [SMap.find?_insert]
    · simp only [SMap.find?, hk, if_false]
      cases SMap.find? tl x with
      | some w => rfl
      | none =>
        simp only
        split_ifs
        · simp [SMap.find?_erase, hk]
        · simp [SMap.find?_insert, hk]

theorem revert_m_state_WF (r : SMap Bytes) (m : SMap Bytes) (hm : SMap.WF m) :
    SMap.WF (r.foldl (fun m data =>
        if data.2.isEmpty then SMap.erase m data.1 else SMap.insert m data.1 data.2) m) := by
  induction r generalizing m with
  | nil => exact hm
  | cons e tl ih =>
    rw [List.foldl_cons]
    apply ih
    split_ifs
    · exact hm.erase _
    · exact hm.insert _ _

theorem revert_m_deleted_mem (r : SMap Bool) (hr : SMap.WF r) (d : SSet) (x : Key) :
    SSet.mem (r.foldl (fun d index =>
        if index.2 then SSet.remove d index.1 else SSet.add d index.1) d) x
      = match SMap.find? r x with
        | none => d.mem x
        | some b => !b := by
  induction r generalizing d with
  | nil => rfl
  | cons e tl ih =>
    obtain ⟨k, b⟩ := e
    rw [List.foldl_cons, ih hr.tail]
    have htl := hr.find?_tail
    simp only at htl
    by_cases hk : k = x
    · subst hk
      rw [htl]
      simp only [SMap.find?, if_true]
      cases b <;> simp [SSet.mem_add, SSet.mem_remove]
    · simp only [SMap.find?, hk, if_false]
      cases SMap.find? tl x with
      | some w => rfl
      | none =>
        simp only
        cases b <;> simp [SSet.mem_add, SSet.mem_remove, hk]

theorem revert_m_deleted_WF (r : SMap Bool) (d : SSet) (hd : SMap.WF d) :
    SMap.WF (r.foldl (fun d index =>
        if index.2 then SSet.remove d index.1 else SSet.add d index.1) d) := by
  induction r generalizing d with
  | nil => exact hd
  | cons e tl ih =>
    rw [List.foldl_cons]
    apply ih
    split_ifs
    · exact hd.erase _
    · exact hd.emplace _ _

/-! ## C4: reverting a revertible commit -/

/-- C4 (as stated) fails, in two ways, on stores with an empty revert journal.
(1) `m_state` holds `c` with an empty value and the batch overwrites `c`: the journal
records the empty sentinel, so the revert erases `c` instead of restoring it.
(2) `c` is already tombstoned in `m_deleted` and the batch deletes it again: the journal
records the tombstone as newly added, so the revert removes it. -/
theorem C4_counterexample :
    (emptyValueStore.r_stateDataMap = [] ∧ emptyValueStore.r_indexToBeDeleted = []
      ∧ (UpdateStateDatasAndToDeletes noMergeEnv constDigest emptyValueStore addrAA
            [(nameKey addrAA [99], [1])] [] false true 0 1).map
          (fun r => (RevertContractStates r.1).m_stateDataMap) = some []
      ∧ emptyValueStore.m_stateDataMap ≠ [])
    ∧ (committedTombstoneStore.r_stateDataMap = []
      ∧ committedTombstoneStore.r_indexToBeDeleted = []
      ∧ (UpdateStateDatasAndToDeletes noMergeEnv constDigest committedTombstoneStore addrAA
            [] [nameKey addrAA [99]] false true 0 1).map
          (fun r => (RevertContractStates r.1).m_indexToBeDeleted) = some []
      ∧ committedTombstoneStore.m_indexToBeDeleted ≠ []) := by
  decide

/-- C4 (amended): on a store with an empty revert journal, a revertible commit
`UpdateStateDatasAndToDeletes(addr, S, D, temp = false, revertible = true)` followed by
`RevertContractStates` leaves `m_state` and `m_deleted` exactly as they were, provided
that no key of `S` is held by `m_state` with an empty value and that every key of `D`
already tombstoned in `m_deleted` is also a key of `S`. -/
theorem C4_revert_undoes_commit (env : MergeEnv) (sha256 : Bytes → Bytes)
    (s : ContractStorage2) (addr : Address) (S : SMap Bytes) (D : List Key)
    (shardId numShards : Nat) (hwf : s.WF) (hS : S.WF)
    (hr : s.r_stateDataMap = []) (hrd : s.r_indexToBeDeleted = [])
    (hne : ∀ k, S.contains k = true → s.m_stateDataMap.find? k ≠ some [])
    (hD : ∀ k, k ∈ D → s.m_indexToBeDeleted.mem k = true → S.contains k = true) :
    (UpdateStateDatasAndToDeletes env sha256 s addr S D false true shardId numShards).map
        (fun r => ((RevertContractStates r.1).m_stateDataMap,
          (RevertContractStates r.1).m_indexToBeDeleted))
      = some (s.m_stateDataMap, s.m_indexToBeDeleted) := by
  have hwf1 := commitStates_WF S s true hwf
  have hwf2 := commitDeletes_WF D _ true hwf1
  simp only [UpdateStateDatasAndToDeletes, Bool.false_eq_true, if_false, Option.map_some',
    Option.some.injEq, Prod.mk.injEq]
  constructor
  · apply SMap.WF.ext (revert_m_state_WF _ _ hwf2.m) hwf.m
    intro x
    rw [revert_m_state_find? _ hwf2.r, (commitDeletes_m_state D _ true).1,
      (commitDeletes_m_state D _ true).2, commitStates_r_state S s hS,
      commitStates_m_state S s true hS, hr]
    by_cases hc : S.contains x = true
    · simp only [hc, if_true]
      have := hne x hc
      cases hm : s.m_stateDataMap.find? x with
      | none => simp
      | some w =>
        rw [hm] at this
        have hw : w ≠ [] := fun e => this (by rw [e])
        simp [hw]
    · simp only [hc, if_false, Bool.false_eq_true, SMap.find?]
      unfold SMap.contains at hc
      cases hf : SMap.find? S x with
      | none => rfl
      | some w => rw [hf] at hc; simp at hc
  · apply SSet.ext_of_mem (revert_m_deleted_WF _ _ hwf2.md) hwf.md
    intro x
    rw [revert_m_deleted_mem _ hwf2.rd, commitDeletes_r_deleted, commitDeletes_m_deleted,
      commitStates_m_deleted]
    have hrc : ∀ y, (commitStates true S s).r_indexToBeDeleted.find? y
        = if SMap.contains S y && s.m_indexToBeDeleted.mem y then some false else none := by
      intro y
      rw [commitStates_r_deleted S s hS (by intro z _; rw [hrd]; rfl), hrd]
      rfl
    unfold SMap.contains at hrc ⊢
    rw [hrc]
    have hD' := hD x
    unfold SMap.contains at hD'
    cases hSx : SMap.find? S x with
    | some w =>
      cases hmd : s.m_indexToBeDeleted.mem x with
      | true => simp
      | false =>
        by_cases hx : x ∈ D
        · simp [hx]
        · simp [hx]
    | none =>
      rw [hSx] at hD'
      by_cases hx : x ∈ D
      · have : s.m_indexToBeDeleted.mem x = false := by
          cases hmd : s.m_indexToBeDeleted.mem x with
          | false => rfl
          | true => have := hD' hx hmd; simp at this
        simp [hx, this]
      · simp [hx]

theorem committedStore_WF : committedStore.WF :=
  ⟨by unfold SMap.WF; decide, by unfold SMap.WF; decide, by unfold SMap.WF; decide,
    by unfold SMap.WF; decide, by unfold SMap.WF; decide, by unfold SMap.WF; decide,
    by unfold SMap.WF; decide, by unfold SMap.WF; decide, by unfold SMap.WF; decide⟩

/-- C4 witness: a batch that overwrites `c`, adds `e`, clears the tombstone of `d` and
tombstones `f` is undone by the revert. -/
theorem C4_revert_undoes_commit_witness :
    (UpdateStateDatasAndToDeletes noMergeEnv constDigest committedStore addrAA
        [(nameKey addrAA [99], [6]), (nameKey addrAA [100], [7]), (nameKey addrAA [101], [8])]
        [nameKey addrAA [100], nameKey addrAA [102]] false true 0 1).map
        (fun r => ((RevertContractStates r.1).m_stateDataMap,
          (RevertContractStates r.1).m_indexToBeDeleted))
      = some ([(nameKey addrAA [99], [5])], [(nameKey addrAA [100], ())]) :=
  C4_revert_undoes_commit noMergeEnv constDigest committedStore addrAA
    [(nameKey addrAA [99], [6]), (nameKey addrAA [100], [7]), (nameKey addrAA [101], [8])]
    [nameKey addrAA [100], nameKey addrAA [102]] 0 1 committedStore_WF
    (by unfold SMap.WF; decide) rfl rfl
    (fun k _ h => by
      have hk : SMap.find? ([(nameKey addrAA [99], [5])] : SMap Bytes) k = some [] := h
      simp only [SMap.find?] at hk
      split_ifs at hk
      exact absurd hk (by decide))
    (fun k hk hm => by
      have h1 : SSet.mem [(nameKey addrAA [100], ())] k = true := hm
      simp only [SSet.mem, SMap.contains, SMap.find?] at h1
      split_ifs at h1 with h2
      · subst h2; decide
      · simp at h1)


/-! ## C5: commit to the database -/

theorem SMap.contains_iff_mem_keys {β : Type} (m : SMap β) (x : Key) :
    SMap.contains m x = true ↔ x ∈ m.map Prod.fst := by
  induction m with
  | nil => simp [SMap.contains, SMap.find?]
  | cons e tl ih =>
    obtain ⟨k, v⟩ := e
    rw [SMap.contains_cons, List.map_cons, List.mem_cons, Bool.or_eq_true, ih]
    simp only [decide_eq_true_eq]
    constructor
    · rintro (h | h)
      · exact Or.inl h.symm
      · exact Or.inr h
    · rintro (h | h)
      · exact Or.inl h.symm
      · exact Or.inr h

theorem foldl_insert_find? (l : SMap Bytes) (hl : SMap.WF l) (db : SMap Bytes) (x : Key) :
    SMap.find? (l.foldl (fun db i => SMap.insert db i.1 i.2) db) x
      = (SMap.find? l x).orElse (fun _ => db.find? x) := by
  induction l generalizing db with
  | nil => rfl
  | cons e tl ih =>
    obtain ⟨k, v⟩ := e
    rw [List.foldl_cons, ih hl.tail]
    have htl := hl.find?_tail
    simp only at htl
    by_cases hk : k = x
    · subst hk; simp [htl, SMap.find?, SMap.find?_insert]
    · simp [SMap.find?, SMap.find?_insert, hk]

theorem deleteKeys_find? (deleteOk : Key → Bool) (ks : List Key) (db : SMap Bytes)
    (h : (deleteKeys deleteOk ks db).1 = true) (x : Key) :
    SMap.find? (deleteKeys deleteOk ks db).2 x = if x ∈ ks then none else db.find? x := by
  induction ks generalizing db with
  | nil => simp [deleteKeys]
  | cons k rest ih =>
    simp only [deleteKeys] at h ⊢
    by_cases hok : deleteOk k = true
    · simp only [hok, if_true] at h ⊢
      rw [ih _ h, SMap.find?_erase]
      by_cases hk : k = x
      · subst hk; simp
      · have : ¬ x = k := fun e => hk e.symm
        simp [hk, this]
    · simp [hok] at h

/-- C5: `UpdateStateDatasAndToDeletes(addr, S, D, temp = false)` returns, and if the
`CommitStateDB` that follows returns true, then the database holds `S[k]` for every key
`k` of `S` not listed in `D`, holds no key listed in `D`, and `m_state`, `m_deleted`,
`t_state` and `t_deleted` are all empty. -/
theorem C5_commit_reaches_db (env : MergeEnv) (sha256 : Bytes → Bytes) (s : ContractStorage2)
    (addr : Address) (S : SMap Bytes) (D : List Key) (revertible : Bool)
    (shardId numShards : Nat) (batchOk : Bool) (deleteOk : Key → Bool) (k : Key)
    (hwf : s.WF) (hS : S.WF) :
    ∃ s1 h, UpdateStateDatasAndToDeletes env sha256 s addr S D false revertible shardId
        numShards = some (s1, h)
      ∧ ((CommitStateDB batchOk deleteOk s1).1 = true →
        (S.contains k = true → k ∉ D →
          (CommitStateDB batchOk deleteOk s1).2.m_stateDataDB.find? k = S.find? k)
        ∧ (k ∈ D → (CommitStateDB batchOk deleteOk s1).2.m_stateDataDB.find? k = none)
        ∧ (CommitStateDB batchOk deleteOk s1).2.m_stateDataMap = []
        ∧ (CommitStateDB batchOk deleteOk s1).2.m_indexToBeDeleted = []
        ∧ (CommitStateDB batchOk deleteOk s1).2.t_stateDataMap = []
        ∧ (CommitStateDB batchOk deleteOk s1).2.t_indexToBeDeleted = []) := by
  refine ⟨commitDeletes revertible D (commitStates revertible S s),
    GetContractStateHashCore sha256 (commitDeletes revertible D (commitStates revertible S s))
      addr false, ?_, ?_⟩
  · simp only [UpdateStateDatasAndToDeletes, Bool.false_eq_true, if_false]
  · intro hc
    have hwf1 := commitStates_WF S s revertible hwf
    have hwf2 := commitDeletes_WF D _ revertible hwf1
    unfold CommitStateDB at hc ⊢
    cases batchOk with
    | false => simp at hc
    | true =>
      simp only [Bool.not_true, Bool.false_eq_true, if_false] at hc ⊢
      generalize hdk : deleteKeys deleteOk
        ((commitDeletes revertible D (commitStates revertible S s)).m_indexToBeDeleted.map Prod.fst)
        ((commitDeletes revertible D (commitStates revertible S s)).m_stateDataMap.foldl
          (fun db i => SMap.insert db i.1 i.2)
          (commitDeletes revertible D (commitStates revertible S s)).m_stateDataDB) = r at hc ⊢
      obtain ⟨ok, db⟩ := r
      cases ok with
      | false => simp at hc
      | true =>
        simp only [InitTempStateCore, and_self, and_true]
        have hfind := deleteKeys_find? deleteOk _ _ (by rw [hdk]) k
        rw [hdk] at hfind
        simp only at hfind
        have hmd : SMap.contains (commitDeletes revertible D
            (commitStates revertible S s)).m_indexToBeDeleted k
            = ((s.m_indexToBeDeleted.mem k && !SMap.contains S k) || decide (k ∈ D)) := by
          have := commitDeletes_m_deleted D (commitStates revertible S s) revertible k
          rw [commitStates_m_deleted] at this
          exact this
        have hkeys := SMap.contains_iff_mem_keys
          (commitDeletes revertible D (commitStates revertible S s)).m_indexToBeDeleted k
        rw [hmd] at hkeys
        constructor
        · intro hSk hkD
          have hn : ¬ k ∈ List.map Prod.fst
              (commitDeletes revertible D (commitStates revertible S s)).m_indexToBeDeleted := by
            rw [← hkeys]; simp [hSk, hkD]
          rw [hfind]
          simp only [hn, if_false]
          rw [foldl_insert_find? _ hwf2.m, (commitDeletes_m_state D _ revertible).1,
            commitStates_m_state S s revertible hS]
          unfold SMap.contains at hSk
          cases hf : SMap.find? S k with
          | none => rw [hf] at hSk; simp at hSk
          | some w => rfl
        · intro hkD
          have hy : k ∈ List.map Prod.fst
              (commitDeletes revertible D (commitStates revertible S s)).m_indexToBeDeleted := by
            rw [← hkeys]; simp [hkD]
          rw [hfind]
          simp only [hy, if_true]

/-- C5 witness: committing `c ↦ [6]`, `d ↦ [7]` with `d` to delete leaves `c ↦ [6]` in the
database and no `d`. -/
theorem C5_commit_reaches_db_witness :
    (UpdateStateDatasAndToDeletes noMergeEnv constDigest committedStore addrAA
        [(nameKey addrAA [99], [6]), (nameKey addrAA [100], [7])] [nameKey addrAA [100]]
        false false 0 1).map (fun r => (CommitStateDB true (fun _ => true) r.1).1) = some true
    ∧ (UpdateStateDatasAndToDeletes noMergeEnv constDigest committedStore addrAA
        [(nameKey addrAA [99], [6]), (nameKey addrAA [100], [7])] [nameKey addrAA [100]]
        false false 0 1).map
          (fun r => (CommitStateDB true (fun _ => true) r.1).2.m_stateDataDB.find?
            (nameKey addrAA [99])) = some (some [6]) := by
  obtain ⟨s1, h, hU, hP⟩ := C5_commit_reaches_db noMergeEnv constDigest committedStore addrAA
    [(nameKey addrAA [99], [6]), (nameKey addrAA [100], [7])] [nameKey addrAA [100]]
    false 0 1 true (fun _ => true) (nameKey addrAA [99]) committedStore_WF
    (by unfold SMap.WF; decide)
  rw [hU]
  have hc : (CommitStateDB true (fun _ => true) s1).1 = true := by
    have : (UpdateStateDatasAndToDeletes noMergeEnv constDigest committedStore addrAA
        [(nameKey addrAA [99], [6]), (nameKey addrAA [100], [7])] [nameKey addrAA [100]]
        false false 0 1).map (fun r => (CommitStateDB true (fun _ => true) r.1).1)
        = some true := by decide
    rw [hU] at this
    simpa using this
  refine ⟨by simp [hc], ?_⟩
  simp only [Option.map_some', Option.some.injEq]
  rw [(hP hc).1 (by decide) (by decide)]
  decide


/-! ## Keys -/

theorem appendIndices_append (key : Key) (a b : List Bytes) :
    appendIndices key (a ++ b) = appendIndices (appendIndices key a) b := by
  unfold appendIndices; rw [List.foldl_append]

theorem appendIndices_cons (key : Key) (i : Bytes) (l : List Bytes) :
    appendIndices key (i :: l) = appendIndices (key ++ i ++ [SCILLA_INDEX_SEPARATOR]) l := rfl

theorem appendIndices_dropLast (key : Key) (l : List Bytes) (h : l ≠ []) :
    appendIndices key l.dropLast ++ l.getLast?.getD [] ++ [SCILLA_INDEX_SEPARATOR]
      = appendIndices key l := by
  obtain ⟨a, i, rfl⟩ : ∃ a i, l = a ++ [i] := ⟨l.dropLast, l.getLast h, (List.dropLast_append_getLast h).symm⟩
  rw [List.dropLast_concat, List.getLast?_concat, appendIndices_append]
  rfl

theorem appendIndices_eq_append (key : Key) (l : List Bytes) :
    appendIndices key l = key ++ appendIndices [] l := by
  induction l generalizing key with
  | nil => simp [appendIndices]
  | cons i rest ih =>
    rw [appendIndices_cons, ih, appendIndices_cons, ih ([] ++ i ++ [SCILLA_INDEX_SEPARATOR])]
    simp

theorem startsWith_appendIndices (key : Key) (l : List Bytes) :
    startsWith (appendIndices key l) key = true := by
  rw [appendIndices_eq_append]; exact startsWith_append _ _

theorem startsWith_length {s p : Key} (h : startsWith s p = true) : p.length ≤ s.length := by
  obtain ⟨t, rfl⟩ := startsWith_iff.1 h
  simp

/-! ## `DeleteByPrefix` -/

theorem SMap.contains_scanPrefix {β : Type} {m : SMap β} (h : m.WF) (pre x : Key) :
    SMap.contains (m.scanPrefix pre) x = (startsWith x pre && m.contains x) := by
  unfold SMap.contains
  rw [SMap.find?_scanPrefix h]
  split_ifs with hs <;> simp [hs]

/-- A key existing in some tier of the temporary view. -/
theorem mem_DeleteByPrefix {s : ContractStorage2} (h : s.WF) (pre x : Key) :
    (DeleteByPrefix s pre).t_indexToBeDeleted.mem x
      = (s.t_indexToBeDeleted.mem x || (startsWith x pre
          && (s.t_stateDataMap.contains x || s.m_stateDataMap.contains x
            || s.m_stateDataDB.contains x))) := by
  simp only [DeleteByPrefix, mem_markDeleted, SMap.contains_scanPrefix h.t,
    SMap.contains_scanPrefix h.m, SMap.contains_scanPrefix h.db]
  cases startsWith x pre <;> simp [Bool.or_assoc]

theorem DeleteByPrefix_WF {s : ContractStorage2} (h : s.WF) (pre : Key) :
    (DeleteByPrefix s pre).WF :=
  ⟨h.db, h.m, h.md, h.t, WF_markDeleted _ (WF_markDeleted _ (WF_markDeleted _ h.td)), h.p, h.pd,
    h.r, h.rd⟩

/-- A scalar fetch reads the store only through five lookups at its key. -/
theorem FetchStateValue_scalar_congr (c : ProtoCodec) (s s' : ContractStorage2) (addr : Address)
    (q : ProtoScillaQuery) (hdepth : q.indices.length = q.mapdepth)
    (h1 : s'.t_indexToBeDeleted.mem (queryKey addr q) = s.t_indexToBeDeleted.mem (queryKey addr q))
    (h2 : s'.m_indexToBeDeleted.mem (queryKey addr q) = s.m_indexToBeDeleted.mem (queryKey addr q))
    (h3 : s'.t_stateDataMap.find? (queryKey addr q) = s.t_stateDataMap.find? (queryKey addr q))
    (h4 : s'.m_stateDataMap.find? (queryKey addr q) = s.m_stateDataMap.find? (queryKey addr q))
    (h5 : s'.m_stateDataDB.find? (queryKey addr q) = s.m_stateDataDB.find? (queryKey addr q)) :
    FetchStateValue c s' addr q = FetchStateValue c s addr q := by
  unfold queryKey at h1 h2 h3 h4 h5
  unfold FetchStateValue
  simp only [hdepth, if_true, SMap.contains, h1, h2, h3, h4, h5]


/-! ## C8: tombstone mode -/

theorem UpdateStateValue_tombstone (c : ProtoCodec) (s : ContractStorage2) (addr : Address)
    (q : ProtoScillaQuery) (value : ProtoScillaVal)
    (hname : q.name ≠ FIELDS_MAP_DEPTH_INDICATOR ∧ q.name ≠ SHARDING_INFO_INDICATOR)
    (hig : q.ignoreval = true) (hne : q.indices ≠ []) :
    UpdateStateValue c s addr q value
      = (true,
        if (FetchStateDataForKey (DeleteByPrefix s (queryKey addr q)) (parentKey addr q) true).isEmpty
        then UpdateStateData (DeleteByPrefix s (queryKey addr q)) (parentKey addr q)
          c.emptyMapBytes false
        else DeleteByPrefix s (queryKey addr q)) := by
  have hlen : ¬ q.indices.length < 1 := by
    cases hq : q.indices with
    | nil => exact absurd hq hne
    | cons a l => simp
  unfold UpdateStateValue
  simp only [hname.1, hname.2, or_self, if_false, hig, if_true, hlen,
    appendIndices_dropLast _ _ hne, cleanEmptyDefault]
  unfold queryKey parentKey
  split_ifs <;> rfl

/-- In tombstone mode the tiers change only in `t_deleted` (the keys under the deleted key
that exist in some tier are added) and, at the parent key, in `t_state`. -/
theorem tombstone_state (c : ProtoCodec) {s : ContractStorage2} (addr : Address)
    (q : ProtoScillaQuery) (value : ProtoScillaVal) (hwf : s.WF)
    (hname : q.name ≠ FIELDS_MAP_DEPTH_INDICATOR ∧ q.name ≠ SHARDING_INFO_INDICATOR)
    (hig : q.ignoreval = true) (hne : q.indices ≠ []) (x : Key) (hx : x ≠ parentKey addr q) :
    (UpdateStateValue c s addr q value).2.t_indexToBeDeleted.mem x
        = (s.t_indexToBeDeleted.mem x || (startsWith x (queryKey addr q)
          && (s.t_stateDataMap.contains x || s.m_stateDataMap.contains x
            || s.m_stateDataDB.contains x)))
    ∧ (UpdateStateValue c s addr q value).2.t_stateDataMap.find? x = s.t_stateDataMap.find? x
    ∧ (UpdateStateValue c s addr q value).2.m_stateDataMap = s.m_stateDataMap
    ∧ (UpdateStateValue c s addr q value).2.m_stateDataDB = s.m_stateDataDB
    ∧ (UpdateStateValue c s addr q value).2.m_indexToBeDeleted = s.m_indexToBeDeleted := by
  have hx' : ¬ parentKey addr q = x := fun e => hx e.symm
  rw [UpdateStateValue_tombstone c s addr q value hname hig hne]
  simp only
  split_ifs
  · refine ⟨?_, ?_, rfl, rfl, rfl⟩
    · simp only [UpdateStateData, Bool.false_eq_true, if_false, SSet.mem_remove, hx',
        decide_False, Bool.not_false, Bool.true_and]
      exact mem_DeleteByPrefix hwf _ _
    · simp only [UpdateStateData, Bool.false_eq_true, if_false, SMap.find?_insert, hx']
      rfl
  · exact ⟨mem_DeleteByPrefix hwf _ _, rfl, rfl, rfl, rfl⟩

theorem parentKey_ne_of_startsWith (addr : Address) (q : ProtoScillaQuery) (hne : q.indices ≠ [])
    {x : Key} (hx : startsWith x (queryKey addr q) = true) : x ≠ parentKey addr q := by
  intro e
  have hlen := startsWith_length hx
  have hk : queryKey addr q
      = parentKey addr q ++ q.indices.getLast?.getD [] ++ [SCILLA_INDEX_SEPARATOR] := by
    unfold queryKey parentKey
    exact (appendIndices_dropLast _ _ hne).symm
  rw [hk, e] at hlen
  simp at hlen

/-- C8: `UpdateStateValue` with `ignoreval = true` and a non-reserved name returns false
when there is no index. With at least one index it returns true, and afterwards: a scalar
fetch at the deleted indices reports found = false; no scalar fetch whose key has the
deleted key as prefix writes a value; and every scalar fetch at any other key, the parent
prefix key excepted, returns what it returned before. -/
theorem C8_tombstone_mode (c : ProtoCodec) (s : ContractStorage2) (addr : Address)
    (q : ProtoScillaQuery) (value : ProtoScillaVal) (ig : Bool) (q' : ProtoScillaQuery)
    (hwf : s.WF)
    (hname : q.name ≠ FIELDS_MAP_DEPTH_INDICATOR ∧ q.name ≠ SHARDING_INFO_INDICATOR)
    (hig : q.ignoreval = true) :
    (q.indices = [] → (UpdateStateValue c s addr q value).1 = false)
    ∧ (q.indices ≠ [] →
      (UpdateStateValue c s addr q value).1 = true
      ∧ FetchStateValue c (UpdateStateValue c s addr q value).2 addr
          ⟨q.name, q.indices.length, q.indices, ig⟩ = ⟨true, false, none⟩
      ∧ (q'.indices.length = q'.mapdepth →
          startsWith (queryKey addr q') (queryKey addr q) = true →
          (FetchStateValue c (UpdateStateValue c s addr q value).2 addr q').dst = none)
      ∧ (q'.indices.length = q'.mapdepth →
          startsWith (queryKey addr q') (queryKey addr q) = false →
          queryKey addr q' ≠ parentKey addr q →
          FetchStateValue c (UpdateStateValue c s addr q value).2 addr q'
            = FetchStateValue c s addr q')) := by
  constructor
  · intro h0
    unfold UpdateStateValue
    simp [hname.1, hname.2, hig, h0]
  · intro hne
    have hhidden : ∀ p : ProtoScillaQuery, p.indices.length = p.mapdepth →
        startsWith (queryKey addr p) (queryKey addr q) = true →
        (FetchStateValue c (UpdateStateValue c s addr q value).2 addr p).dst = none
        ∧ (p.name ≠ FIELDS_MAP_DEPTH_INDICATOR ∧ p.name ≠ SHARDING_INFO_INDICATOR →
            p.mapdepth ≠ 0 →
            FetchStateValue c (UpdateStateValue c s addr q value).2 addr p
              = ⟨true, false, none⟩) := by
      intro p hdepth hsw
      have hxp := parentKey_ne_of_startsWith addr q hne hsw
      obtain ⟨h1, h2, h3, h4, h5⟩ := tombstone_state c addr q value hwf hname hig hne _ hxp
      unfold queryKey at h1 h2 hsw
      rw [hsw] at h1
      simp only [Bool.true_and] at h1
      unfold FetchStateValue
      by_cases hres : p.name = FIELDS_MAP_DEPTH_INDICATOR ∨ p.name = SHARDING_INFO_INDICATOR
      · refine ⟨by simp only [hres, if_true], fun hn => ?_⟩
        rcases hres with h | h
        · exact absurd h hn.1
        · exact absurd h hn.2
      · simp only [hres, if_false, hdepth, lt_irrefl, gt_iff_lt, decide_True, Bool.and_true,
          if_true, h1, h2, h3, h4, h5, SMap.contains]
        cases htd : s.t_indexToBeDeleted.mem (appendIndices (nameKey addr p.name) p.indices)
        · cases ht : s.t_stateDataMap.find? (appendIndices (nameKey addr p.name) p.indices)
          · cases hm : s.m_stateDataMap.find? (appendIndices (nameKey addr p.name) p.indices)
            · cases hdb : s.m_stateDataDB.find? (appendIndices (nameKey addr p.name) p.indices)
              · simp only [Option.isSome_none, Bool.or_self, Bool.false_eq_true, if_false,
                  Bool.not_false, Bool.and_true]
                split_ifs <;> simp_all
              · simp
            · simp
          · simp
        · simp
    refine ⟨by rw [UpdateStateValue_tombstone c s addr q value hname hig hne], ?_, ?_, ?_⟩
    · have hlen : q.indices.length ≠ 0 := by
        cases hq : q.indices with
        | nil => exact absurd hq hne
        | cons a l => simp
      exact (hhidden ⟨q.name, q.indices.length, q.indices, ig⟩ rfl (startsWith_refl _)).2
        hname hlen
    · intro hdepth hsw
      exact (hhidden q' hdepth hsw).1
    · intro hdepth hsw hpar
      obtain ⟨h1, h2, h3, h4, h5⟩ := tombstone_state c addr q value hwf hname hig hne _ hpar
      rw [hsw] at h1
      simp only [Bool.false_and, Bool.or_false] at h1
      exact FetchStateValue_scalar_congr c s _ addr q' hdepth h1 (by rw [h5]) h2 (by rw [h3])
        (by rw [h4])

theorem nestedMapStore_WF : nestedMapStore.WF :=
  ⟨by unfold SMap.WF; decide, by unfold SMap.WF; decide, by unfold SMap.WF; decide,
    by unfold SMap.WF; decide, by unfold SMap.WF; decide, by unfold SMap.WF; decide,
    by unfold SMap.WF; decide, by unfold SMap.WF; decide, by unfold SMap.WF; decide⟩

/-- C8 witness: scenario S3. After deleting `m[x][y]` the fetch of `m[x][y]` reports
found = false and the fetch of `m[x][z]` still returns `0x2B`. -/
theorem C8_tombstone_mode_witness :
    FetchStateValue wireCodec
        (UpdateStateValue wireCodec nestedMapStore addrAA ⟨[109], 2, [[120], [121]], true⟩
          .unset).2 addrAA ⟨[109], 2, [[120], [121]], false⟩ = ⟨true, false, none⟩
    ∧ FetchStateValue wireCodec
        (UpdateStateValue wireCodec nestedMapStore addrAA ⟨[109], 2, [[120], [121]], true⟩
          .unset).2 addrAA ⟨[109], 2, [[120], [122]], false⟩ = ⟨true, true, some (.bval [0x2B])⟩ :=
  ⟨((C8_tombstone_mode wireCodec nestedMapStore addrAA ⟨[109], 2, [[120], [121]], true⟩ .unset
      false ⟨[109], 2, [[120], [122]], false⟩ nestedMapStore_WF (by decide) rfl).2
      (by decide)).2.1,
    (((C8_tombstone_mode wireCodec nestedMapStore addrAA ⟨[109], 2, [[120], [121]], true⟩ .unset
      false ⟨[109], 2, [[120], [122]], false⟩ nestedMapStore_WF (by decide) rfl).2
      (by decide)).2.2.2 rfl (by decide) (by decide)).trans (by decide)⟩


/-! ## The map branch, continued -/

theorem SMap.insert_ne_nil {β : Type} (m : SMap β) (k : Key) (v : β) : m.insert k v ≠ [] := by
  cases m with
  | nil => simp [SMap.insert]
  | cons e tl =>
    obtain ⟨k', v'⟩ := e
    simp only [SMap.insert]
    split_ifs <;> simp

theorem SMap.emplace_ne_nil {β : Type} (m : SMap β) (k : Key) (v : β) : m.emplace k v ≠ [] := by
  unfold SMap.emplace
  split_ifs with h
  · intro e; rw [e] at h; simp [SMap.contains, SMap.find?] at h
  · exact SMap.insert_ne_nil m k v

theorem emplaceAll_ne_nil {β : Type} (scan acc : SMap β) (h : acc ≠ [] ∨ scan ≠ []) :
    emplaceAll acc scan ≠ [] := by
  induction scan generalizing acc with
  | nil =>
    rcases h with h | h
    · exact h
    · exact absurd rfl h
  | cons e tl ih =>
    unfold emplaceAll at ih ⊢
    rw [List.foldl_cons]
    exact ih _ (Or.inl (SMap.emplace_ne_nil _ _ _))

theorem isEmpty_emplaceAll {β : Type} (scan acc : SMap β) :
    (emplaceAll acc scan).isEmpty = (acc.isEmpty && scan.isEmpty) := by
  cases acc with
  | nil =>
    cases scan with
    | nil => rfl
    | cons e tl =>
      have := emplaceAll_ne_nil (e :: tl) ([] : SMap β) (Or.inr (by simp))
      simp only [List.isEmpty_nil, List.isEmpty_cons, Bool.and_false, List.isEmpty_eq_false]
      exact this
  | cons a l =>
    have := emplaceAll_ne_nil scan (a :: l) (Or.inl (by simp))
    simp only [List.isEmpty_cons, Bool.false_and, List.isEmpty_eq_false]
    exact this

/-- The map branch for `ignoreval = false`, in terms of its loop over `fetchEntries`. -/
theorem fetchMap_eq (c : ProtoCodec) (s : ContractStorage2) (q : ProtoScillaQuery) (key : Key)
    (hig : q.ignoreval = false) :
    fetchMap c s q key =
      if (fetchEntries s key).isEmpty then ⟨!q.indices.isEmpty, false, none⟩
      else match fetchLoop c s q key (fetchEntries s key) .unset 0 with
        | none => ⟨false, true, none⟩
        | some (value, counter) =>
          if counter = 0 then ⟨true, false, none⟩ else ⟨true, true, some value⟩ := by
  unfold fetchMap fetchEntries
  simp only [hig, Bool.false_and, Bool.false_eq_true, if_false, Bool.and_false]
  rw [isEmpty_emplaceAll (s.m_stateDataDB.scanPrefix key), Bool.and_comm]

theorem FetchStateValue_map (c : ProtoCodec) (s : ContractStorage2) (addr : Address)
    (q : ProtoScillaQuery)
    (hname : q.name ≠ FIELDS_MAP_DEPTH_INDICATOR ∧ q.name ≠ SHARDING_INFO_INDICATOR)
    (hdepth : q.indices.length < q.mapdepth) :
    FetchStateValue c s addr q = fetchMap c s q (queryKey addr q) := by
  have hne : ¬ q.indices.length = q.mapdepth := Nat.ne_of_lt hdepth
  have hng : ¬ q.indices.length > q.mapdepth := Nat.not_lt.2 (Nat.le_of_lt hdepth)
  unfold FetchStateValue queryKey
  simp only [hname.1, hname.2, or_self, if_false, hng, hne, decide_False, Bool.and_false,
    Bool.false_eq_true]

theorem FetchStateDataForKey_temp (s : ContractStorage2) (key : Key) :
    FetchStateDataForKey s key true = (fetchEntries s key).filter (fun e => visible s e.1) := by
  unfold FetchStateDataForKey fetchEntries visible
  simp only [if_true, Bool.true_and, Bool.not_true, Bool.or_false, List.filter_filter]
  congr 1
  funext e
  rw [Bool.and_comm]

theorem residualIndices_self (key : Key) : residualIndices key key = [] := by
  simp [residualIndices]


/-! ## C9: deleting the last entry leaves an empty map -/

theorem UpdateStateData_noclean_WF {s : ContractStorage2} (h : s.WF) (key : Key) (value : Bytes) :
    (UpdateStateData s key value false).WF :=
  ⟨h.db, h.m, h.md, h.t.insert _ _, h.td.erase _, h.p, h.pd, h.r, h.rd⟩

/-- After the placeholder is written at a prefix under which nothing was visible, the
placeholder is the only visible entry under that prefix. -/
theorem visible_entries_after_placeholder {s1 : ContractStorage2} (hwf : s1.WF) (P eb : Key)
    (hempty : FetchStateDataForKey s1 P true = []) :
    (fetchEntries (UpdateStateData s1 P eb false) P).filter
        (fun e => visible (UpdateStateData s1 P eb false) e.1) = [(P, eb)] := by
  have hwf' := UpdateStateData_noclean_WF hwf P eb
  apply SMap.WF.ext ((WF_fetchEntries _ P).filter _) (List.pairwise_singleton _ _)
  intro x
  rw [SMap.find?_filter_key _ (fun k => visible (UpdateStateData s1 P eb false) k),
    find?_fetchEntries hwf']
  by_cases hx : P = x
  · subst hx
    simp [visible, UpdateStateData, SSet.mem_remove, SMap.contains_insert, SMap.find?_insert,
      startsWith_refl, SMap.find?]
  · have hold : SMap.find? ((fetchEntries s1 P).filter (fun e => visible s1 e.1)) x = none := by
      rw [← FetchStateDataForKey_temp, hempty]; rfl
    rw [SMap.find?_filter_key _ (fun k => visible s1 k), find?_fetchEntries hwf] at hold
    have hvis : visible (UpdateStateData s1 P eb false) x = visible s1 x := by
      simp [visible, UpdateStateData, SSet.mem_remove, SMap.contains_insert, hx]
    rw [hvis]
    simp only [UpdateStateData, Bool.false_eq_true, if_false, SMap.find?_insert, hx, SMap.find?]
    exact hold

/-- C9: in tombstone mode (non-reserved name, at least one index), if after the deletion
no visible entry remains under the parent prefix, the empty-map placeholder is written at
the parent key and `FetchStateValue` at the parent indices (any mapdepth `d ≥ |I|`)
returns found = true with an empty map; if visible entries remain, `t_state` is left as
it was (no placeholder is written). -/
theorem C9_last_entry_leaves_empty_map (c : ProtoCodec) (s : ContractStorage2) (addr : Address)
    (q : ProtoScillaQuery) (value : ProtoScillaVal) (d : Nat) (hwf : s.WF) (hlaw : c.Lawful)
    (hname : q.name ≠ FIELDS_MAP_DEPTH_INDICATOR ∧ q.name ≠ SHARDING_INFO_INDICATOR)
    (hig : q.ignoreval = true) (hne : q.indices ≠ []) (hd : q.indices.length ≤ d) :
    (FetchStateDataForKey (DeleteByPrefix s (queryKey addr q)) (parentKey addr q) true = [] →
      (UpdateStateValue c s addr q value).2.t_stateDataMap.find? (parentKey addr q)
          = some c.emptyMapBytes
      ∧ FetchStateValue c (UpdateStateValue c s addr q value).2 addr
          ⟨q.name, d, q.indices.dropLast, false⟩ = ⟨true, true, some (.mval [])⟩)
    ∧ (FetchStateDataForKey (DeleteByPrefix s (queryKey addr q)) (parentKey addr q) true ≠ [] →
      (UpdateStateValue c s addr q value).2.t_stateDataMap = s.t_stateDataMap) := by
  rw [UpdateStateValue_tombstone c s addr q value hname hig hne]
  constructor
  · intro hempty
    have hwf1 := DeleteByPrefix_WF hwf (queryKey addr q)
    simp only [hempty, List.isEmpty_nil, if_true]
    refine ⟨by simp [UpdateStateData, SMap.find?_insert], ?_⟩
    have hlen : q.indices.dropLast.length < d := by
      rw [List.length_dropLast]
      have : 0 < q.indices.length := List.length_pos.2 hne
      omega
    have hvis := visible_entries_after_placeholder hwf1 (parentKey addr q) c.emptyMapBytes hempty
    have hnonempty : (fetchEntries (UpdateStateData (DeleteByPrefix s (queryKey addr q))
        (parentKey addr q) c.emptyMapBytes false) (parentKey addr q)).isEmpty = false := by
      cases hE : fetchEntries (UpdateStateData (DeleteByPrefix s (queryKey addr q))
          (parentKey addr q) c.emptyMapBytes false) (parentKey addr q) with
      | nil => rw [hE] at hvis; simp at hvis
      | cons a l => rfl
    rw [FetchStateValue_map c _ addr ⟨q.name, d, q.indices.dropLast, false⟩ hname hlen,
      fetchMap_eq c _ _ _ rfl]
    have hqk : queryKey addr ⟨q.name, d, q.indices.dropLast, false⟩ = parentKey addr q := rfl
    rw [hqk, hnonempty, ← fetchLoop_filter_visible, hvis]
    have hv : visible (UpdateStateData (DeleteByPrefix s (queryKey addr q))
        (parentKey addr q) c.emptyMapBytes false) (parentKey addr q) = true := by
      simp [visible, UpdateStateData, SSet.mem_remove, SMap.contains_insert]
    unfold visible at hv
    simp only [Bool.and_eq_true, Bool.not_eq_true'] at hv
    have hl : c.isEmptyMap c.emptyMapBytes = true := hlaw
    have hlen2 : q.indices.length - 1 < d := by
      have : 0 < q.indices.length := List.length_pos.2 hne
      omega
    simp [fetchLoop, hv.1, hv.2, startsWith_refl, residualIndices_self, hlen2, hl, applyAt,
      ProtoScillaVal.mutableM]
  · intro hnon
    have : (FetchStateDataForKey (DeleteByPrefix s (queryKey addr q)) (parentKey addr q)
        true).isEmpty = false := by
      cases hE : FetchStateDataForKey (DeleteByPrefix s (queryKey addr q)) (parentKey addr q)
          true with
      | nil => exact absurd hE hnon
      | cons a l => rfl
    simp only [this, Bool.false_eq_true, if_false]
    rfl

theorem wireCodec_Lawful : wireCodec.Lawful := by
  unfold ProtoCodec.Lawful; decide

/-- C9 witness: once `m[x][y]` and then `m[x][z]` are deleted from the sample map, the
fetch of `m[x]` returns an empty map. -/
theorem C9_last_entry_leaves_empty_map_witness :
    FetchStateValue wireCodec
      (UpdateStateValue wireCodec
        (UpdateStateValue wireCodec nestedMapStore addrAA ⟨[109], 2, [[120], [121]], true⟩
          .unset).2 addrAA ⟨[109], 2, [[120], [122]], true⟩ .unset).2 addrAA
      ⟨[109], 2, [[120]], false⟩ = ⟨true, true, some (.mval [])⟩ :=
  ((C9_last_entry_leaves_empty_map wireCodec
    (UpdateStateValue wireCodec nestedMapStore addrAA ⟨[109], 2, [[120], [121]], true⟩
      .unset).2 addrAA ⟨[109], 2, [[120], [122]], true⟩ .unset 2
    (by
      have h : (UpdateStateValue wireCodec nestedMapStore addrAA
          ⟨[109], 2, [[120], [121]], true⟩ .unset).2
          = { nestedMapStore with
              t_indexToBeDeleted := [(nameKey addrAA [109] ++ [120, 22, 121, 22], ())] } := by
        decide
      rw [h]
      exact ⟨by unfold SMap.WF; decide, by unfold SMap.WF; decide, by unfold SMap.WF; decide,
        by unfold SMap.WF; decide, by unfold SMap.WF; decide, by unfold SMap.WF; decide,
        by unfold SMap.WF; decide, by unfold SMap.WF; decide, by unfold SMap.WF; decide⟩)
    wireCodec_Lawful (by decide) rfl (by decide) (by decide)).1 (by decide)).2


/-! ## C10: the placeholder invariant -/

/-- C10 (the code at the failing input): starting from the empty store, the write
`m := {}` to a depth-2 map followed by the tombstone-mode call for the absent entry
`m[x][y]` both return true, and afterwards the visible empty-map placeholder at the root
key of `m` coexists with the visible deeper key of `m[x]` (itself a placeholder, written
without cleanup of its ancestors); the fetch of `m` now returns `{x ↦ {}}`. -/
theorem C10_placeholder_coexists :
    (UpdateStateValue wireCodec ContractStorage2.empty addrAA ⟨[109], 2, [], false⟩
        (.mval [])).1 = true
    ∧ (UpdateStateValue wireCodec emptyMapWritten addrAA ⟨[109], 2, [[120], [121]], true⟩
        .unset).1 = true
    ∧ visible emptyMapThenDelete (nameKey addrAA [109]) = true
    ∧ specLookup emptyMapThenDelete (nameKey addrAA [109]) = some wireCodec.emptyMapBytes
    ∧ visible emptyMapThenDelete (nameKey addrAA [109] ++ [120, 22]) = true
    ∧ specLookup emptyMapThenDelete (nameKey addrAA [109] ++ [120, 22])
        = some wireCodec.emptyMapBytes
    ∧ startsWith (nameKey addrAA [109] ++ [120, 22]) (nameKey addrAA [109]) = true
    ∧ FetchStateValue wireCodec emptyMapWritten addrAA ⟨[109], 2, [], false⟩
        = ⟨true, true, some (.mval [])⟩
    ∧ FetchStateValue wireCodec emptyMapThenDelete addrAA ⟨[109], 2, [], false⟩
        = ⟨true, true, some (.mval [([120], .mval [])])⟩ := by
  decide


/-! ## Splitting keys at the separator -/

theorem split_ne_nil (sep : Nat) (l : Bytes) : split sep l ≠ [] := by
  cases l with
  | nil => simp [split]
  | cons c cs =>
    simp only [split]
    split_ifs
    · simp
    · cases split sep cs <;> simp

theorem split_sepFree (sep : Nat) (a : Bytes) (h : sep ∉ a) : split sep a = [a] := by
  induction a with
  | nil => rfl
  | cons c cs ih =>
    have hc : ¬ c = sep := fun e => h (by rw [e]; exact List.mem_cons_self _ _)
    have hcs : sep ∉ cs := fun m => h (List.mem_cons_of_mem _ m)
    simp only [split, hc, if_false, ih hcs]

theorem split_sepFree_append (sep : Nat) (a rest : Bytes) (h : sep ∉ a) :
    split sep (a ++ sep :: rest) = a :: split sep rest := by
  induction a with
  | nil => simp [split]
  | cons c cs ih =>
    have hc : ¬ c = sep := fun e => h (by rw [e]; exact List.mem_cons_self _ _)
    have hcs : sep ∉ cs := fun m => h (List.mem_cons_of_mem _ m)
    have ih' := ih hcs
    show split sep (c :: (cs ++ sep :: rest)) = (c :: cs) :: split sep rest
    simp only [split, hc, if_false, ih']

theorem residualIndices_leaf (P idx : Bytes) (h : sepFree idx) :
    residualIndices P (P ++ idx ++ [SCILLA_INDEX_SEPARATOR]) = [idx] := by
  unfold residualIndices
  have hlen : (P ++ idx ++ [SCILLA_INDEX_SEPARATOR]).length > P.length := by simp
  simp only [hlen, if_true, List.append_assoc, List.drop_left]
  rw [split_sepFree_append _ _ _ h]
  simp [split, popBackIfEmpty]

/-! ## Scalar fetches -/

/-- A scalar fetch below depth 0 with `ignoreval = false`, in terms of visibility and
the three tiers. -/
theorem FetchStateValue_scalar (c : ProtoCodec) (s : ContractStorage2) (addr : Address)
    (q : ProtoScillaQuery)
    (hname : q.name ≠ FIELDS_MAP_DEPTH_INDICATOR ∧ q.name ≠ SHARDING_INFO_INDICATOR)
    (hdepth : q.indices.length = q.mapdepth) (hpos : q.mapdepth ≠ 0) (hig : q.ignoreval = false) :
    FetchStateValue c s addr q =
      if visible s (queryKey addr q) then
        match ((s.t_stateDataMap.find? (queryKey addr q)).orElse
            (fun _ => s.m_stateDataMap.find? (queryKey addr q))).orElse
            (fun _ => s.m_stateDataDB.find? (queryKey addr q)) with
        | some b => ⟨true, true, some (.bval b)⟩
        | none => ⟨true, false, none⟩
      else ⟨true, false, none⟩ := by
  unfold FetchStateValue queryKey visible
  simp only [hname.1, hname.2, or_self, if_false, hdepth, lt_irrefl, gt_iff_lt, decide_True,
    Bool.and_true, if_true, hpos, hig, Bool.false_eq_true]
  cases htd : s.t_indexToBeDeleted.mem (appendIndices (nameKey addr q.name) q.indices)
  · cases ht : s.t_stateDataMap.find? (appendIndices (nameKey addr q.name) q.indices)
    · cases hmd : s.m_indexToBeDeleted.mem (appendIndices (nameKey addr q.name) q.indices)
      · cases hm : s.m_stateDataMap.find? (appendIndices (nameKey addr q.name) q.indices)
        · cases hdb : s.m_stateDataDB.find? (appendIndices (nameKey addr q.name) q.indices)
          · simp [SMap.contains, ht]
          · simp [SMap.contains, ht]
        · simp [SMap.contains, ht]
      · simp [SMap.contains, ht]
    · simp [SMap.contains, ht]
  · simp

theorem find?_visibleEntries {s : ContractStorage2} (h : s.WF) (key x : Key) :
    (visibleEntries s key).find? x =
      if visible s x && startsWith x key then
        ((s.t_stateDataMap.find? x).orElse (fun _ => s.m_stateDataMap.find? x)).orElse
          (fun _ => s.m_stateDataDB.find? x)
      else none := by
  unfold visibleEntries
  rw [SMap.find?_filter_key _ (fun k => visible s k), find?_fetchEntries h]
  cases visible s x <;> simp

theorem WF_visibleEntries (s : ContractStorage2) (key : Key) :
    SMap.WF (visibleEntries s key) := (WF_fetchEntries s key).filter _


/-! ## C7: map fetch against pointwise scalar fetch -/

theorem key_ne_leaf (P idx : Bytes) : P ≠ P ++ idx ++ [SCILLA_INDEX_SEPARATOR] := by
  intro e
  have := congrArg List.length e
  simp at this

theorem leaf_inj (P a b : Bytes)
    (h : P ++ a ++ [SCILLA_INDEX_SEPARATOR] = P ++ b ++ [SCILLA_INDEX_SEPARATOR]) : a = b := by
  rw [List.append_assoc, List.append_assoc] at h
  have h1 := List.append_cancel_left h
  exact List.append_cancel_right h1

theorem counter_step (n len : Nat) :
    ((n + 1) % 2 ^ 32 + len) % 2 ^ 32 = (n + (len + 1)) % 2 ^ 32 := by
  rw [Nat.mod_add_mod]
  congr 1
  omega

/-- The loop of the map branch one level above the leaves: every visible entry is the
queried key itself, holding an empty map, or a leaf one index below it. -/
theorem fetchLoop_depth1 (c : ProtoCodec) (s : ContractStorage2) (q : ProtoScillaQuery)
    (P : Key) (hq : q.mapdepth = q.indices.length + 1) (l : SMap Bytes) (hl : SMap.WF l)
    (hform : ∀ e ∈ l, visible s e.1 = true →
      (e.1 = P ∧ c.isEmptyMap e.2 = true)
        ∨ ∃ idx, sepFree idx ∧ e.1 = P ++ idx ++ [SCILLA_INDEX_SEPARATOR])
    (v : ProtoScillaVal) (n : Nat) (hn : n < 2 ^ 32) :
    ∃ v', fetchLoop c s q P l v n
        = some (v', (n + (l.filter (fun e => visible s e.1)).length) % 2 ^ 32)
      ∧ (∀ idx, SMap.find? v'.mutableM idx =
          match SMap.find? (l.filter (fun e => visible s e.1))
              (P ++ idx ++ [SCILLA_INDEX_SEPARATOR]) with
          | some b => some (.bval b)
          | none => SMap.find? v.mutableM idx)
      ∧ (l.filter (fun e => visible s e.1) = [] → v' = v)
      ∧ (l.filter (fun e => visible s e.1) ≠ [] → v' = .mval v'.mutableM) := by
  induction l generalizing v n with
  | nil =>
    refine ⟨v, ?_, ?_, fun _ => rfl, fun h => absurd rfl h⟩
    · simp only [fetchLoop, List.filter_nil, List.length_nil, Nat.add_zero,
        Nat.mod_eq_of_lt hn]
    · intro idx; simp [SMap.find?]
  | cons e tl ih =>
    obtain ⟨k, b⟩ := e
    have hform' : ∀ e ∈ tl, visible s e.1 = true →
        (e.1 = P ∧ c.isEmptyMap e.2 = true)
          ∨ ∃ idx, sepFree idx ∧ e.1 = P ++ idx ++ [SCILLA_INDEX_SEPARATOR] :=
      fun e he => hform e (List.mem_cons_of_mem _ he)
    by_cases hv : visible s k = true
    · have hv2 := hv
      unfold visible at hv2
      simp only [Bool.and_eq_true, Bool.not_eq_true'] at hv2
      have hlt : (n + 1) % 2 ^ 32 < 2 ^ 32 := Nat.mod_lt _ (by decide)
      have hktl : SMap.find? (tl.filter (fun e => visible s e.1)) k = none := by
        rw [SMap.find?_filter_key tl (fun x => visible s x)]
        have := hl.find?_tail
        simp only at this
        simp [this]
      rcases hform (k, b) (List.mem_cons_self _ _) hv with ⟨hk, hb⟩ | ⟨idx0, hsf, hk⟩
      · simp only at hk hb
        subst hk
        obtain ⟨v', h1, h2, h3, h4⟩ := ih hl.tail hform' (.mval v.mutableM) ((n + 1) % 2 ^ 32) hlt
        refine ⟨v', ?_, ?_, ?_, ?_⟩
        · simp only [fetchLoop, hv2.1, hv2.2, Bool.false_eq_true, if_false, startsWith_refl,
            Bool.not_true, residualIndices_self, List.length_nil, Nat.add_zero, hq,
            Nat.lt_succ_self, if_true, hb, applyAt, h1, List.filter_cons, hv, List.length_cons]
          rw [counter_step]
        · intro idx
          rw [h2 idx]
          simp only [List.filter_cons, hv, if_true, SMap.find?, key_ne_leaf k idx, if_false,
            ProtoScillaVal.mutableM]
        · intro hnil
          rw [List.filter_cons] at hnil
          simp only [hv, if_true] at hnil
          exact absurd hnil (List.cons_ne_nil _ _)
        · intro _
          by_cases htl : tl.filter (fun e => visible s e.1) = []
          · rw [h3 htl]; rfl
          · exact h4 htl
      · simp only at hk
        subst hk
        obtain ⟨v', h1, h2, h3, h4⟩ := ih hl.tail hform'
          (.mval (SMap.insert v.mutableM idx0 (.bval b))) ((n + 1) % 2 ^ 32) hlt
        refine ⟨v', ?_, ?_, ?_, ?_⟩
        · have hnlt : ¬ q.indices.length + 1 < q.indices.length + 1 := lt_irrefl _
          have hsw : startsWith (P ++ idx0 ++ [SCILLA_INDEX_SEPARATOR]) P = true := by
            rw [List.append_assoc]; exact startsWith_append _ _
          simp only [fetchLoop, hv2.1, hv2.2, Bool.false_eq_true, if_false, hsw, Bool.not_true,
            residualIndices_leaf _ _ hsf, List.length_nil, Nat.zero_add, hq, hnlt, applyAt, h1,
            List.filter_cons, hv, if_true, List.length_cons]
          rw [counter_step]
        · intro idx
          rw [h2 idx]
          simp only [List.filter_cons, hv, if_true, SMap.find?, ProtoScillaVal.mutableM]
          by_cases hi : idx0 = idx
          · subst hi
            rw [hktl]
            simp [SMap.find?_insert]
          · have hne : ¬ P ++ idx0 ++ [SCILLA_INDEX_SEPARATOR]
                = P ++ idx ++ [SCILLA_INDEX_SEPARATOR] := fun e => hi (leaf_inj P _ _ e)
            simp only [hne, if_false, SMap.find?_insert, hi]
        · intro hnil
          rw [List.filter_cons] at hnil
          simp only [hv, if_true] at hnil
          exact absurd hnil (List.cons_ne_nil _ _)
        · intro _
          by_cases htl : tl.filter (fun e => visible s e.1) = []
          · rw [h3 htl]; rfl
          · exact h4 htl
    · have hskip : fetchLoop c s q P ((k, b) :: tl) v n = fetchLoop c s q P tl v n := by
        unfold visible at hv
        by_cases h1 : s.t_indexToBeDeleted.mem k = true
        · simp only [fetchLoop, h1, if_true]
        · simp only [Bool.not_eq_true] at h1
          simp only [h1, Bool.not_false, Bool.true_and, Bool.not_eq_true', Bool.not_eq_false]
            at hv
          simp only [fetchLoop, h1, hv, Bool.false_eq_true, if_false, if_true]
      obtain ⟨v', h1, h2, h3, h4⟩ := ih hl.tail hform' v n hn
      refine ⟨v', ?_, ?_, ?_, ?_⟩
      · rw [hskip, h1]; simp only [List.filter_cons, hv, if_false, Bool.false_eq_true]
      · intro idx; rw [h2 idx]; simp only [List.filter_cons, hv, if_false, Bool.false_eq_true]
      · intro hnil; apply h3; simpa [List.filter_cons, hv] using hnil
      · intro hnn; apply h4; simpa [List.filter_cons, hv] using hnn


theorem stored_of_find?_fetchEntries {s : ContractStorage2} (h : s.WF) {key x : Key} {b : Bytes}
    (hf : (fetchEntries s key).find? x = some b) : startsWith x key = true ∧ stored s x b := by
  rw [find?_fetchEntries h] at hf
  by_cases hs : startsWith x key = true
  · refine ⟨hs, ?_⟩
    simp only [hs, if_true] at hf
    unfold stored
    cases ht : s.t_stateDataMap.find? x with
    | some w => rw [ht] at hf; simp at hf; exact Or.inl (by rw [hf])
    | none =>
      rw [ht] at hf
      cases hm : s.m_stateDataMap.find? x with
      | some w => rw [hm] at hf; simp at hf; exact Or.inr (Or.inl (by rw [hf]))
      | none => rw [hm] at hf; simp at hf; exact Or.inr (Or.inr hf)
  · simp [hs] at hf

/-- A scalar fetch one index below a prefix returns the visible entry stored there. -/
theorem FetchStateValue_leaf (c : ProtoCodec) {s : ContractStorage2} (hwf : s.WF)
    (addr : Address) (q : ProtoScillaQuery) (idx : Bytes)
    (hname : q.name ≠ FIELDS_MAP_DEPTH_INDICATOR ∧ q.name ≠ SHARDING_INFO_INDICATOR)
    (hq : q.mapdepth = q.indices.length + 1) :
    FetchStateValue c s addr ⟨q.name, q.mapdepth, q.indices ++ [idx], false⟩ =
      match (visibleEntries s (queryKey addr q)).find?
          (queryKey addr q ++ idx ++ [SCILLA_INDEX_SEPARATOR]) with
      | some b => ⟨true, true, some (.bval b)⟩
      | none => ⟨true, false, none⟩ := by
  have hk : queryKey addr ⟨q.name, q.mapdepth, q.indices ++ [idx], false⟩
      = queryKey addr q ++ idx ++ [SCILLA_INDEX_SEPARATOR] := by
    unfold queryKey
    rw [appendIndices_append]
    rfl
  rw [FetchStateValue_scalar c s addr ⟨q.name, q.mapdepth, q.indices ++ [idx], false⟩ hname
    (by simp [hq]) (by simp [hq]) rfl, hk, find?_visibleEntries hwf]
  have hsw : startsWith (queryKey addr q ++ idx ++ [SCILLA_INDEX_SEPARATOR]) (queryKey addr q)
      = true := by
    rw [List.append_assoc]; exact startsWith_append _ _
  rw [hsw, Bool.and_true]
  cases visible s (queryKey addr q ++ idx ++ [SCILLA_INDEX_SEPARATOR]) <;> simp

/-- C7 (amended): for a query with `ignoreval = false`, a non-reserved name and
`mapdepth = |indices| + 1`, over a store in which every stored key under the queried
prefix `P` is `P` itself (holding an encoded empty map) or `P` followed by one
separator-free index and the separator, and in which fewer than 2^32 entries are visible
under `P`: the map returned by `FetchStateValue` holds `idx ↦ bval v` exactly when the
scalar fetch at `indices ++ [idx]` returns found = true with `bval = v`, and the map fetch
reports found = false only when that scalar fetch reports found = false. -/
theorem C7_map_fetch_pointwise (c : ProtoCodec) (s : ContractStorage2) (addr : Address)
    (q : ProtoScillaQuery) (idx v : Bytes) (hwf : s.WF)
    (hname : q.name ≠ FIELDS_MAP_DEPTH_INDICATOR ∧ q.name ≠ SHARDING_INFO_INDICATOR)
    (hig : q.ignoreval = false) (hq : q.mapdepth = q.indices.length + 1)
    (hform : ∀ x b, startsWith x (queryKey addr q) = true → stored s x b →
      (x = queryKey addr q ∧ c.isEmptyMap b = true)
        ∨ ∃ i, sepFree i ∧ x = queryKey addr q ++ i ++ [SCILLA_INDEX_SEPARATOR])
    (hcount : (visibleEntries s (queryKey addr q)).length < 2 ^ 32) :
    (mapEntry (FetchStateValue c s addr q) idx = some (.bval v) ↔
      FetchStateValue c s addr ⟨q.name, q.mapdepth, q.indices ++ [idx], false⟩
        = ⟨true, true, some (.bval v)⟩)
    ∧ ((FetchStateValue c s addr q).foundVal = false →
      (FetchStateValue c s addr ⟨q.name, q.mapdepth, q.indices ++ [idx], false⟩).foundVal
        = false) := by
  have hformE : ∀ e ∈ fetchEntries s (queryKey addr q), visible s e.1 = true →
      (e.1 = queryKey addr q ∧ c.isEmptyMap e.2 = true)
        ∨ ∃ i, sepFree i ∧ e.1 = queryKey addr q ++ i ++ [SCILLA_INDEX_SEPARATOR] := by
    intro e he _
    have hf := (WF_fetchEntries s (queryKey addr q)).find?_of_mem (k := e.1) (v := e.2) he
    obtain ⟨hs, hst⟩ := stored_of_find?_fetchEntries hwf hf
    exact hform e.1 e.2 hs hst
  obtain ⟨v', h1, h2, h3, h4⟩ := fetchLoop_depth1 c s q (queryKey addr q) hq
    (fetchEntries s (queryKey addr q)) (WF_fetchEntries s _) hformE .unset 0 (by decide)
  have hmap : FetchStateValue c s addr q =
      if (fetchEntries s (queryKey addr q)).isEmpty then ⟨!q.indices.isEmpty, false, none⟩
      else if (visibleEntries s (queryKey addr q)).length = 0 then ⟨true, false, none⟩
      else ⟨true, true, some v'⟩ := by
    rw [FetchStateValue_map c s addr q hname (by omega), fetchMap_eq c s q _ hig, h1]
    unfold visibleEntries at hcount ⊢
    simp only [Nat.zero_add, Nat.mod_eq_of_lt hcount]
  rw [FetchStateValue_leaf c hwf addr q idx hname hq]
  have h2' := h2 idx
  change SMap.find? v'.mutableM idx = match SMap.find? (visibleEntries s (queryKey addr q))
      (queryKey addr q ++ idx ++ [SCILLA_INDEX_SEPARATOR]) with
    | some b => some (.bval b)
    | none => SMap.find? ProtoScillaVal.unset.mutableM idx at h2'
  by_cases hE : (fetchEntries s (queryKey addr q)).isEmpty = true
  · have hVE : visibleEntries s (queryKey addr q) = [] := by
      unfold visibleEntries
      rw [List.isEmpty_iff.1 hE]; rfl
    rw [hmap]
    simp only [hE, if_true, hVE, SMap.find?, mapEntry]
    simp
  · by_cases hz : (visibleEntries s (queryKey addr q)).length = 0
    · have hVE : visibleEntries s (queryKey addr q) = [] := List.length_eq_zero.1 hz
      rw [hmap]
      simp only [hE, if_false, hz, if_true, hVE, SMap.find?, mapEntry]
      simp
    · have hVE : visibleEntries s (queryKey addr q) ≠ [] := fun e => hz (by rw [e]; rfl)
      have hv' := h4 hVE
      rw [hmap]
      simp only [hE, if_false, hz, Bool.false_eq_true]
      constructor
      · unfold mapEntry
        simp only
        rw [hv']
        simp only [ProtoScillaVal.mutableM] at h2' ⊢
        rw [h2']
        cases SMap.find? (visibleEntries s (queryKey addr q))
            (queryKey addr q ++ idx ++ [SCILLA_INDEX_SEPARATOR]) with
        | none => simp [SMap.find?]
        | some b => simp
      · intro hfalse
        simp at hfalse


/-! ## A table that fills the 32-bit counter -/

theorem keyLt_append_left (a u v : Key) : keyLt (a ++ u) (a ++ v) = keyLt u v := by
  induction a with
  | nil => rfl
  | cons x xs ih => simp [keyLt, ih]

theorem hexDigit_lt {a b : Nat} (hab : a < b) (hb : b < 16) : hexDigit a < hexDigit b := by
  unfold hexDigit
  have ha : a % 16 = a := Nat.mod_eq_of_lt (by omega)
  have hb' : b % 16 = b := Nat.mod_eq_of_lt hb
  rw [ha, hb']
  split_ifs <;> omega

theorem hexDigit_ne_sep (a : Nat) : hexDigit a ≠ SCILLA_INDEX_SEPARATOR := by
  unfold hexDigit SCILLA_INDEX_SEPARATOR
  split_ifs <;> omega

theorem sepFree_hexIndex (w i : Nat) : sepFree (hexIndex w i) := by
  induction w generalizing i with
  | zero => simp [sepFree, hexIndex]
  | succ w ih =>
    unfold sepFree at *
    simp only [hexIndex, List.mem_append, List.mem_singleton, not_or]
    exact ⟨ih _, fun e => hexDigit_ne_sep _ e.symm⟩

theorem hexIndex_lt (w : Nat) : ∀ (i j : Nat) (t1 t2 : Key), i < j → j < 16 ^ w →
    keyLt (hexIndex w i ++ t1) (hexIndex w j ++ t2) = true := by
  induction w with
  | zero => intro i j t1 t2 hij hj; simp at hj; omega
  | succ w ih =>
    intro i j t1 t2 hij hj
    simp only [hexIndex, List.append_assoc, List.singleton_append]
    by_cases hq : i / 16 < j / 16
    · apply ih _ _ _ _ hq
      rw [Nat.pow_succ] at hj
      exact Nat.div_lt_of_lt_mul (by rw [Nat.mul_comm]; exact hj)
    · have hqe : i / 16 = j / 16 := by
        have : i / 16 ≤ j / 16 := Nat.div_le_div_right (Nat.le_of_lt hij)
        omega
      have hr : i % 16 < j % 16 := by omega
      rw [hqe, keyLt_append_left]
      have := hexDigit_lt hr (Nat.mod_lt _ (by decide))
      simp [keyLt, this]

theorem leafTable_WF (P : Key) (n : Nat) (hn : n ≤ 16 ^ 8) : SMap.WF (leafTable P n) := by
  unfold SMap.WF leafTable
  rw [List.pairwise_map]
  apply List.Pairwise.imp_of_mem _ (List.pairwise_lt_range n)
  intro i j _ hj hij
  simp only [List.append_assoc]
  rw [keyLt_append_left]
  exact hexIndex_lt 8 i j _ _ hij (lt_of_lt_of_le (List.mem_range.1 hj) hn)

theorem mem_leafTable {P : Key} {n : Nat} {e : Key × Bytes} (h : e ∈ leafTable P n) :
    ∃ i, i < n ∧ e = (P ++ hexIndex 8 i ++ [SCILLA_INDEX_SEPARATOR], [1]) := by
  unfold leafTable at h
  obtain ⟨i, hi, rfl⟩ := List.mem_map.1 h
  exact ⟨i, List.mem_range.1 hi, rfl⟩

theorem emplaceAll_nil_of_WF {β : Type} {l : SMap β} (h : SMap.WF l) : emplaceAll [] l = l := by
  apply SMap.WF.ext (WF_emplaceAll l SMap.WF.nil) h
  intro x
  rw [find?_emplaceAll]
  simp [SMap.find?]

theorem emplaceAll_nil_right {β : Type} (acc : SMap β) : emplaceAll acc [] = acc := rfl

theorem SMap.scanPrefix_nil {β : Type} (pre : Key) : SMap.scanPrefix ([] : SMap β) pre = [] := rfl

theorem scanPrefix_leafTable (P : Key) (n : Nat) (hn : n ≤ 16 ^ 8) :
    SMap.scanPrefix (leafTable P n) P = leafTable P n := by
  rw [SMap.scanPrefix_eq_filter (leafTable_WF P n hn), List.filter_eq_self]
  intro e he
  obtain ⟨i, _, rfl⟩ := mem_leafTable he
  simp only [List.append_assoc]
  exact startsWith_append _ _


theorem fullCounterStore_WF : fullCounterStore.WF :=
  ⟨leafTable_WF _ _ (by norm_num), SMap.WF.nil, SMap.WF.nil, SMap.WF.nil, SMap.WF.nil,
    SMap.WF.nil, SMap.WF.nil, SMap.WF.nil, SMap.WF.nil⟩

theorem visible_fullCounterStore (x : Key) : visible fullCounterStore x = true := rfl

theorem fetchEntries_fullCounterStore :
    fetchEntries fullCounterStore (nameKey addrAA [109])
      = leafTable (nameKey addrAA [109]) (2 ^ 32) := by
  have h1 : fullCounterStore.t_stateDataMap = [] := rfl
  have h2 : fullCounterStore.m_stateDataMap = [] := rfl
  have h3 : fullCounterStore.m_stateDataDB = leafTable (nameKey addrAA [109]) (2 ^ 32) := rfl
  unfold fetchEntries
  rw [h1, h2, h3, SMap.scanPrefix_nil, emplaceAll_nil_right, emplaceAll_nil_right,
    scanPrefix_leafTable _ _ (by norm_num), emplaceAll_nil_of_WF (leafTable_WF _ _ (by norm_num))]

theorem visibleEntries_fullCounterStore :
    visibleEntries fullCounterStore (nameKey addrAA [109])
      = leafTable (nameKey addrAA [109]) (2 ^ 32) := by
  unfold visibleEntries
  rw [fetchEntries_fullCounterStore, List.filter_eq_self]
  intro e _
  exact visible_fullCounterStore e.1

theorem form_fullCounterStore (x : Key) (b : Bytes) (hst : stored fullCounterStore x b) :
    ∃ i, sepFree i ∧ x = nameKey addrAA [109] ++ i ++ [SCILLA_INDEX_SEPARATOR] := by
  have h1 : fullCounterStore.t_stateDataMap = [] := rfl
  have h2 : fullCounterStore.m_stateDataMap = [] := rfl
  have h3 : fullCounterStore.m_stateDataDB = leafTable (nameKey addrAA [109]) (2 ^ 32) := rfl
  unfold stored at hst
  rw [h1, h2, h3] at hst
  rcases hst with h | h | h
  · simp [SMap.find?] at h
  · simp [SMap.find?] at h
  · obtain ⟨i, _, he⟩ := mem_leafTable (SMap.mem_of_find? h)
    exact ⟨hexIndex 8 i, sepFree_hexIndex 8 i, (Prod.mk.inj he).1⟩

/-- C7 (as stated) fails on a well-formed store whose database holds 2^32 leaves of the
depth-1 map `m` (every stored key under the prefix has the required form): the 32-bit
counter of the map branch wraps to 0, so the map fetch reports found = false and returns
no map, although the scalar fetch at the first index returns found = true with a value. -/
theorem C7_counterexample :
    fullCounterStore.WF
    ∧ (∀ x b, startsWith x (queryKey addrAA ⟨[109], 1, [], false⟩) = true →
        stored fullCounterStore x b →
        (x = queryKey addrAA ⟨[109], 1, [], false⟩ ∧ wireCodec.isEmptyMap b = true)
          ∨ ∃ i, sepFree i
            ∧ x = queryKey addrAA ⟨[109], 1, [], false⟩ ++ i ++ [SCILLA_INDEX_SEPARATOR])
    ∧ FetchStateValue wireCodec fullCounterStore addrAA ⟨[109], 1, [], false⟩
        = ⟨true, false, none⟩
    ∧ FetchStateValue wireCodec fullCounterStore addrAA ⟨[109], 1, [hexIndex 8 0], false⟩
        = ⟨true, true, some (.bval [1])⟩ := by
  have hP : queryKey addrAA ⟨[109], 1, [], false⟩ = nameKey addrAA [109] := rfl
  have hlen : (leafTable (nameKey addrAA [109]) (2 ^ 32)).length = 2 ^ 32 := by
    unfold leafTable; rw [List.length_map, List.length_range]
  refine ⟨fullCounterStore_WF, ?_, ?_, ?_⟩
  · intro x b _ hst
    rw [hP]
    exact Or.inr (form_fullCounterStore x b hst)
  · obtain ⟨v', h1, _, _, _⟩ := fetchLoop_depth1 wireCodec fullCounterStore ⟨[109], 1, [], false⟩
      (nameKey addrAA [109]) rfl (fetchEntries fullCounterStore (nameKey addrAA [109]))
      (WF_fetchEntries _ _)
      (fun e he _ => by
        have hf := (WF_fetchEntries fullCounterStore (nameKey addrAA [109])).find?_of_mem
          (k := e.1) (v := e.2) he
        exact Or.inr (form_fullCounterStore e.1 e.2
          (stored_of_find?_fetchEntries fullCounterStore_WF hf).2))
      .unset 0 (by norm_num)
    have hvis : (fetchEntries fullCounterStore (nameKey addrAA [109])).filter
        (fun e => visible fullCounterStore e.1)
        = leafTable (nameKey addrAA [109]) (2 ^ 32) := visibleEntries_fullCounterStore
    rw [hvis, hlen] at h1
    have hne : (fetchEntries fullCounterStore (nameKey addrAA [109])).isEmpty = false := by
      rw [fetchEntries_fullCounterStore, List.isEmpty_eq_false]
      intro e
      rw [e] at hlen
      simp at hlen
    rw [FetchStateValue_map wireCodec fullCounterStore addrAA ⟨[109], 1, [], false⟩
      (by decide) (by decide), fetchMap_eq _ _ _ _ rfl, hP, hne, h1]
    simp
  · have h := FetchStateValue_leaf wireCodec fullCounterStore_WF addrAA ⟨[109], 1, [], false⟩
      (hexIndex 8 0) (by decide) rfl
    have hmem : (nameKey addrAA [109] ++ hexIndex 8 0 ++ [SCILLA_INDEX_SEPARATOR], [1])
        ∈ leafTable (nameKey addrAA [109]) (2 ^ 32) := by
      unfold leafTable
      exact List.mem_map.2 ⟨0, List.mem_range.2 (by norm_num), rfl⟩
    rw [hP, visibleEntries_fullCounterStore,
      (leafTable_WF _ _ (by norm_num)).find?_of_mem hmem] at h
    exact h

theorem form_tombstonedStore (x : Key) (b : Bytes) (hst : stored tombstonedStore x b) :
    ∃ i, sepFree i ∧ x = nameKey addrAA [109] ++ i ++ [SCILLA_INDEX_SEPARATOR] := by
  unfold stored at hst
  have h1 : tombstonedStore.t_stateDataMap = [(nameKey addrAA [109] ++ [121, 22], [3])] := rfl
  have h2 : tombstonedStore.m_stateDataMap = [(nameKey addrAA [109] ++ [120, 22], [2])] := rfl
  have h3 : tombstonedStore.m_stateDataDB = [(nameKey addrAA [109] ++ [120, 22], [1])] := rfl
  rw [h1, h2, h3] at hst
  simp only [SMap.find?] at hst
  rcases hst with h | h | h
  · split_ifs at h with hk
    exact ⟨[121], by unfold sepFree; decide, by rw [← hk]; decide⟩
  · split_ifs at h with hk
    exact ⟨[120], by unfold sepFree; decide, by rw [← hk]; decide⟩
  · split_ifs at h with hk
    exact ⟨[120], by unfold sepFree; decide, by rw [← hk]; decide⟩

/-- C7 witness: on the sample store the fetch of the depth-1 map `m` holds `y ↦ 3`, as
the scalar fetch of `m[y]` returns. -/
theorem C7_map_fetch_pointwise_witness :
    mapEntry (FetchStateValue wireCodec tombstonedStore addrAA ⟨[109], 1, [], false⟩) [121]
        = some (.bval [3])
    ∧ FetchStateValue wireCodec tombstonedStore addrAA ⟨[109], 1, [[121]], false⟩
        = ⟨true, true, some (.bval [3])⟩ :=
  ⟨by decide,
    (C7_map_fetch_pointwise wireCodec tombstonedStore addrAA ⟨[109], 1, [], false⟩ [121] [3]
      tombstonedStore_WF (by decide) rfl rfl
      (fun x b _ hst => Or.inr (form_tombstonedStore x b hst)) (by decide)).1.1 (by decide)⟩


/-! ## C6: writing a map and reading it back -/

theorem applyWrites_append (key : Key) (a b : List (List Bytes × Bytes)) (s : ContractStorage2) :
    applyWrites key (a ++ b) s = applyWrites key b (applyWrites key a s) := by
  unfold applyWrites; rw [List.foldl_append]

theorem applyWrites_map_cons (key k : Key) (ws : List (List Bytes × Bytes))
    (s : ContractStorage2) :
    applyWrites key (ws.map (fun w => (k :: w.1, w.2))) s
      = applyWrites (key ++ k ++ [SCILLA_INDEX_SEPARATOR]) ws s := by
  unfold applyWrites
  rw [List.foldl_map]
  rfl

mutual
/-- The handler of a map value succeeds and performs exactly its list of writes. -/
theorem mapHandler_eq (c : ProtoCodec) (keyAcc : Key) :
    ∀ (m : List (Key × ProtoScillaVal)) (s : ContractStorage2),
      mapHandler c keyAcc (.mval m) s = (true, applyWrites keyAcc (writes c (.mval m)) s)
  | [], s => by simp [mapHandler, writes, applyWrites, appendIndices]
  | e :: es, s => by
    rw [mapHandler, writes]
    exact mapHandlerEntries_eq c keyAcc (e :: es) s
theorem mapHandlerEntries_eq (c : ProtoCodec) (keyAcc : Key) :
    ∀ (es : List (Key × ProtoScillaVal)) (s : ContractStorage2),
      mapHandlerEntries c keyAcc es s = (true, applyWrites keyAcc (writesEntries c es) s)
  | [], s => by simp [mapHandlerEntries, writesEntries, applyWrites]
  | (k, .mval m) :: es, s => by
    rw [mapHandlerEntries, writesEntries, mapHandler_eq c _ m s, applyWrites_append,
      applyWrites_map_cons]
    exact mapHandlerEntries_eq c keyAcc es _
  | (k, .bval b) :: es, s => by
    rw [mapHandlerEntries, writesEntries]
    · exact mapHandlerEntries_eq c keyAcc es _
    all_goals (intro m h; cases h)
  | (k, .unset) :: es, s => by
    rw [mapHandlerEntries, writesEntries]
    · exact mapHandlerEntries_eq c keyAcc es _
    all_goals (intro m h; cases h)
end


/-! ## What placeholder cleanup can tombstone -/

theorem joinSep_split (K : Bytes) : joinSep (split SCILLA_INDEX_SEPARATOR K) = K := by
  induction K with
  | nil => rfl
  | cons c cs ih =>
    simp only [split]
    split_ifs with h
    · subst h
      cases hs : split SCILLA_INDEX_SEPARATOR cs with
      | nil => exact absurd hs (split_ne_nil _ _)
      | cons t ts => rw [hs] at ih; simp [joinSep, ih]
    · cases hs : split SCILLA_INDEX_SEPARATOR cs with
      | nil => exact absurd hs (split_ne_nil _ _)
      | cons t ts =>
        rw [hs] at ih
        cases ts with
        | nil => simp only [joinSep] at ih ⊢; rw [ih]
        | cons u us => simp only [joinSep, List.cons_append] at ih ⊢; rw [ih]

theorem startsWith_joinSep_take (l : List Bytes) (j : Nat) (hj : j < l.length) :
    startsWith (joinSep l) (appendIndices [] (l.take j)) = true := by
  induction l generalizing j with
  | nil => simp at hj
  | cons g l2 ih =>
    cases j with
    | zero => exact startsWith_iff.2 ⟨_, rfl⟩
    | succ j =>
      have hj2 : j < l2.length := by simpa using hj
      cases l2 with
      | nil => simp at hj2
      | cons h r =>
        obtain ⟨t, ht⟩ := startsWith_iff.1 (ih j hj2)
        rw [List.take_succ_cons, appendIndices_cons, appendIndices_eq_append]
        apply startsWith_iff.2
        refine ⟨t, ?_⟩
        simp only [joinSep, List.nil_append, List.append_assoc, List.singleton_append]
        rw [ht]
        simp

theorem popBackIfEmpty_initial (l : List Bytes) : popBackIfEmpty l <+: l := by
  unfold popBackIfEmpty
  split
  · exact List.dropLast_prefix l
  · exact List.prefix_refl l

theorem take_of_initial {α : Type} {X l : List α} (h : X <+: l) (j : Nat) :
    X.take j = l.take (min j X.length) := by
  obtain ⟨t, rfl⟩ := h
  rw [List.take_append_eq_append_take]
  have : min j X.length - X.length = 0 := by omega
  rw [this, List.take_zero, List.append_nil, List.take_eq_take]
  omega

theorem mem_DeleteByIndex (s : ContractStorage2) (index x : Key) :
    (DeleteByIndex s index).t_indexToBeDeleted.mem x
      = (s.t_indexToBeDeleted.mem x || (decide (index = x)
          && (s.t_stateDataMap.contains index || s.m_stateDataMap.contains index
            || s.m_stateDataDB.contains index))) := by
  unfold DeleteByIndex
  split_ifs with h1 h2 h3
  · simp [SSet.mem_add, h1, Bool.or_comm]
  · simp [SSet.mem_add, h2, Bool.or_comm]
  · simp [SSet.mem_add, h3, Bool.or_comm]
  · simp only [Bool.not_eq_true] at h1 h2 h3
    simp [h1, h2, h3]

/-- The loop of the cleanup tombstones only scan keys. -/
theorem cleanLoop_mem (l : List Bytes) (s : ContractStorage2) (scankey x : Key)
    (h : (cleanLoop s scankey l).t_indexToBeDeleted.mem x = true) :
    s.t_indexToBeDeleted.mem x = true
      ∨ ∃ j, x = appendIndices scankey (l.take j) := by
  induction l generalizing s scankey with
  | nil => exact Or.inl h
  | cons i rest ih =>
    simp only [cleanLoop] at h
    rcases ih _ _ h with h1 | ⟨j, hj⟩
    · rw [mem_DeleteByIndex] at h1
      simp only [Bool.or_eq_true, Bool.and_eq_true, decide_eq_true_eq] at h1
      rcases h1 with h1 | ⟨h1, _⟩
      · exact Or.inl h1
      · exact Or.inr ⟨1, by rw [← h1]; rfl⟩
    · exact Or.inr ⟨j + 1, by rw [hj]; rfl⟩

/-- Placeholder cleanup for a key with two leading separator-free fragments tombstones
only prefixes of that key. -/
theorem CleanEmptyMapPlaceholders_mem (s : ContractStorage2) (a b rest x : Bytes)
    (ha : sepFree a) (hb : sepFree b)
    (h : SSet.mem (CleanEmptyMapPlaceholders s
        (a ++ SCILLA_INDEX_SEPARATOR :: (b ++ SCILLA_INDEX_SEPARATOR :: rest))).2.t_indexToBeDeleted
          x = true) :
    s.t_indexToBeDeleted.mem x = true
      ∨ startsWith (a ++ SCILLA_INDEX_SEPARATOR :: (b ++ SCILLA_INDEX_SEPARATOR :: rest)) x
          = true := by
  have hsplit : split SCILLA_INDEX_SEPARATOR
      (a ++ SCILLA_INDEX_SEPARATOR :: (b ++ SCILLA_INDEX_SEPARATOR :: rest))
      = a :: b :: split SCILLA_INDEX_SEPARATOR rest := by
    rw [split_sepFree_append _ _ _ ha, split_sepFree_append _ _ _ hb]
  obtain ⟨g, gs, hg⟩ : ∃ g gs, split SCILLA_INDEX_SEPARATOR rest = g :: gs := by
    cases hs : split SCILLA_INDEX_SEPARATOR rest with
    | nil => exact absurd hs (split_ne_nil _ _)
    | cons g gs => exact ⟨g, gs, rfl⟩
  have hpop : popBackIfEmpty (a :: b :: g :: gs) = a :: b :: popBackIfEmpty (g :: gs) := by
    unfold popBackIfEmpty
    have h1 : (a :: b :: g :: gs).getLast? = (g :: gs).getLast? := by
      simp [List.getLast?_cons_cons]
    rw [h1]
    split <;> simp_all [List.dropLast]
  unfold CleanEmptyMapPlaceholders at h
  rw [hsplit, hg] at h
  simp only [List.length_cons, hpop, List.getD_cons_zero, List.getD_cons_succ,
    List.drop_succ_cons, List.drop_zero] at h
  have hlen : ¬ gs.length + 1 + 1 + 1 < 2 := by omega
  simp only [hlen, if_false] at h
  rcases cleanLoop_mem _ _ _ _ h with h1 | ⟨j, hj⟩
  · rw [mem_DeleteByIndex] at h1
    simp only [Bool.or_eq_true, Bool.and_eq_true, decide_eq_true_eq] at h1
    rcases h1 with h1 | ⟨h1, _⟩
    · exact Or.inl h1
    · right
      rw [← h1]
      apply startsWith_iff.2
      exact ⟨rest, by simp⟩
  · right
    have hpre : (popBackIfEmpty (g :: gs)).dropLast <+: (g :: gs) :=
      (List.dropLast_prefix _).trans (popBackIfEmpty_initial _)
    have hlt : (popBackIfEmpty (g :: gs)).dropLast.length < (g :: gs).length := by
      have h1 := (popBackIfEmpty_initial (g :: gs)).length_le
      rw [List.length_dropLast]
      simp only [List.length_cons] at h1 ⊢
      omega
    rw [take_of_initial hpre] at hj
    have hsw := startsWith_joinSep_take (g :: gs)
      (min j (popBackIfEmpty (g :: gs)).dropLast.length) (by omega)
    have hjoin : joinSep (g :: gs) = rest := by rw [← hg, joinSep_split]
    rw [hjoin] at hsw
    obtain ⟨t, ht⟩ := startsWith_iff.1 hsw
    rw [hj, appendIndices_eq_append]
    apply startsWith_iff.2
    refine ⟨t, ?_⟩
    conv_lhs => rw [ht]
    simp


theorem exists_first_fragment (X : Bytes) (h : SCILLA_INDEX_SEPARATOR ∈ X) :
    ∃ b r, sepFree b ∧ X = b ++ SCILLA_INDEX_SEPARATOR :: r := by
  induction X with
  | nil => cases h
  | cons c cs ih =>
    by_cases hc : c = SCILLA_INDEX_SEPARATOR
    · exact ⟨[], cs, by simp [sepFree], by simp [hc]⟩
    · have hcs : SCILLA_INDEX_SEPARATOR ∈ cs := by
        rcases List.mem_cons.1 h with h | h
        · exact absurd h.symm hc
        · exact h
      obtain ⟨b, r, hb, hX⟩ := ih hcs
      refine ⟨c :: b, r, ?_, by rw [hX]; rfl⟩
      unfold sepFree at *
      simp only [List.mem_cons, not_or]
      exact ⟨fun e => hc e.symm, hb⟩

theorem sepFree_hex (a : Address) : sepFree a.hex := by
  unfold sepFree Address.hex
  simp only [List.mem_flatMap, List.mem_cons, List.mem_singleton, List.not_mem_nil, or_false,
    not_exists, not_and, not_or]
  intro x _
  exact ⟨fun e => hexDigit_ne_sep _ e.symm, fun e => hexDigit_ne_sep _ e.symm⟩

/-- Cleanup for a key below `nameKey addr name` tombstones only prefixes of that key. -/
theorem Clean_mem_nameKey (s : ContractStorage2) (addr : Address) (name tail x : Bytes)
    (h : (CleanEmptyMapPlaceholders s (nameKey addr name ++ tail)).2.t_indexToBeDeleted.mem x
      = true) :
    s.t_indexToBeDeleted.mem x = true ∨ startsWith (nameKey addr name ++ tail) x = true := by
  obtain ⟨b, r, hb, hX⟩ := exists_first_fragment (name ++ SCILLA_INDEX_SEPARATOR :: tail)
    (by simp)
  have hK : nameKey addr name ++ tail
      = addr.hex ++ SCILLA_INDEX_SEPARATOR :: (b ++ SCILLA_INDEX_SEPARATOR :: r) := by
    rw [← hX]; simp [nameKey]
  rw [hK] at h ⊢
  exact CleanEmptyMapPlaceholders_mem s _ _ _ _ (sepFree_hex addr) hb h

theorem DeleteByIndex_mono (s : ContractStorage2) (index x : Key)
    (h : s.t_indexToBeDeleted.mem x = true) :
    (DeleteByIndex s index).t_indexToBeDeleted.mem x = true := by
  rw [mem_DeleteByIndex, h]; rfl

theorem cleanLoop_mono (l : List Bytes) (s : ContractStorage2) (scankey x : Key)
    (h : s.t_indexToBeDeleted.mem x = true) :
    (cleanLoop s scankey l).t_indexToBeDeleted.mem x = true := by
  induction l generalizing s scankey with
  | nil => exact h
  | cons i rest ih =>
    simp only [cleanLoop]
    exact ih _ _ (DeleteByIndex_mono s _ x h)

theorem Clean_mono (s : ContractStorage2) (key x : Key)
    (h : s.t_indexToBeDeleted.mem x = true) :
    (CleanEmptyMapPlaceholders s key).2.t_indexToBeDeleted.mem x = true := by
  unfold CleanEmptyMapPlaceholders
  simp only
  split_ifs
  · exact h
  · exact cleanLoop_mono _ _ _ _ (DeleteByIndex_mono s _ x h)

theorem DeleteByIndex_WF {s : ContractStorage2} (h : s.WF) (index : Key) :
    (DeleteByIndex s index).WF := by
  unfold DeleteByIndex
  split_ifs
  · exact ⟨h.db, h.m, h.md, h.t, h.td.emplace _ _, h.p, h.pd, h.r, h.rd⟩
  · exact ⟨h.db, h.m, h.md, h.t, h.td.emplace _ _, h.p, h.pd, h.r, h.rd⟩
  · exact ⟨h.db, h.m, h.md, h.t, h.td.emplace _ _, h.p, h.pd, h.r, h.rd⟩
  · exact h

theorem cleanLoop_WF (l : List Bytes) {s : ContractStorage2} (h : s.WF) (scankey : Key) :
    (cleanLoop s scankey l).WF := by
  induction l generalizing s scankey with
  | nil => exact h
  | cons i rest ih =>
    simp only [cleanLoop]
    exact ih (DeleteByIndex_WF h _) _

theorem Clean_WF {s : ContractStorage2} (h : s.WF) (key : Key) :
    (CleanEmptyMapPlaceholders s key).2.WF := by
  unfold CleanEmptyMapPlaceholders
  simp only
  split_ifs
  · exact h
  · exact cleanLoop_WF _ (DeleteByIndex_WF h _) _

theorem UpdateStateData_WF {s : ContractStorage2} (h : s.WF) (key : Key) (value : Bytes)
    (b : Bool) : (UpdateStateData s key value b).WF := by
  cases b with
  | false => exact UpdateStateData_noclean_WF h key value
  | true =>
    have hc := Clean_WF h key
    exact ⟨hc.db, hc.m, hc.md, hc.t.insert _ _, hc.td.erase _, hc.p, hc.pd, hc.r, hc.rd⟩

theorem UpdateStateData_frame (s : ContractStorage2) (key : Key) (value : Bytes) (b : Bool) :
    (UpdateStateData s key value b).m_stateDataMap = s.m_stateDataMap
    ∧ (UpdateStateData s key value b).m_stateDataDB = s.m_stateDataDB
    ∧ (UpdateStateData s key value b).m_indexToBeDeleted = s.m_indexToBeDeleted := by
  cases b with
  | false => exact ⟨rfl, rfl, rfl⟩
  | true =>
    have h := CleanEmptyMapPlaceholders_frame s key
    unfold onlyTDeletedChanged at h
    unfold UpdateStateData
    simp only [if_true]
    rw [h]
    exact ⟨rfl, rfl, rfl⟩

theorem UpdateStateData_mem (s : ContractStorage2) (key : Key) (value : Bytes) (x : Key) :
    (UpdateStateData s key value true).t_indexToBeDeleted.mem x
      = (!decide (key = x)
        && (CleanEmptyMapPlaceholders s key).2.t_indexToBeDeleted.mem x) := by
  unfold UpdateStateData
  simp only [if_true, SSet.mem_remove]


/-! ## A batch of writes to pairwise incomparable keys -/

theorem SMap.find?_ne_none_of_mem {β : Type} {m : List (Key × β)} {e : Key × β} (h : e ∈ m) :
    SMap.find? m e.1 ≠ none := by
  induction m with
  | nil => cases h
  | cons a tl ih =>
    obtain ⟨ka, va⟩ := a
    simp only [SMap.find?]
    split_ifs with hka
    · simp
    · rcases List.mem_cons.1 h with h | h
      · rw [h] at hka; exact absurd rfl hka
      · exact ih h

theorem applyKeyed_cons (e : Key × Bytes) (kv : List (Key × Bytes)) (s : ContractStorage2) :
    applyKeyed (e :: kv) s = applyKeyed kv (UpdateStateData s e.1 e.2 true) := rfl

theorem applyKeyed_frame (kv : List (Key × Bytes)) (s : ContractStorage2) :
    (applyKeyed kv s).m_stateDataMap = s.m_stateDataMap
    ∧ (applyKeyed kv s).m_stateDataDB = s.m_stateDataDB
    ∧ (applyKeyed kv s).m_indexToBeDeleted = s.m_indexToBeDeleted := by
  induction kv generalizing s with
  | nil => exact ⟨rfl, rfl, rfl⟩
  | cons e tl ih =>
    rw [applyKeyed_cons]
    obtain ⟨h1, h2, h3⟩ := ih (UpdateStateData s e.1 e.2 true)
    obtain ⟨g1, g2, g3⟩ := UpdateStateData_frame s e.1 e.2 true
    exact ⟨h1.trans g1, h2.trans g2, h3.trans g3⟩

theorem applyKeyed_WF (kv : List (Key × Bytes)) {s : ContractStorage2} (h : s.WF) :
    (applyKeyed kv s).WF := by
  induction kv generalizing s with
  | nil => exact h
  | cons e tl ih =>
    rw [applyKeyed_cons]
    exact ih (UpdateStateData_WF h _ _ _)

theorem applyKeyed_t_state (kv : List (Key × Bytes)) (s : ContractStorage2)
    (hinc : kv.Pairwise (fun a b => incomparable a.1 b.1)) (x : Key) :
    (applyKeyed kv s).t_stateDataMap.find? x
      = (SMap.find? kv x).orElse (fun _ => s.t_stateDataMap.find? x) := by
  induction kv generalizing s with
  | nil => rfl
  | cons e tl ih =>
    obtain ⟨k, b⟩ := e
    rw [applyKeyed_cons, ih _ (List.pairwise_cons.1 hinc).2, UpdateStateData_t_state]
    have htl : SMap.find? tl k = none := by
      apply SMap.find?_eq_none_of_forall_ne
      intro e he hek
      have := ((List.pairwise_cons.1 hinc).1 e he).1
      simp only at this
      rw [hek, startsWith_refl] at this
      exact Bool.noConfusion this
    by_cases hk : k = x
    · subst hk
      simp [htl, SMap.find?, SMap.find?_insert]
    · simp [SMap.find?, SMap.find?_insert, hk]

theorem applyKeyed_mem (addr : Address) (name : Bytes) (kv : List (Key × Bytes))
    (s : ContractStorage2) (hform : ∀ e ∈ kv, ∃ tail, e.1 = nameKey addr name ++ tail)
    (x : Key) (h : (applyKeyed kv s).t_indexToBeDeleted.mem x = true) :
    s.t_indexToBeDeleted.mem x = true ∨ ∃ e ∈ kv, startsWith e.1 x = true := by
  induction kv generalizing s with
  | nil => exact Or.inl h
  | cons e tl ih =>
    rw [applyKeyed_cons] at h
    rcases ih _ (fun e he => hform e (List.mem_cons_of_mem _ he)) h with h1 | ⟨e', he', hs⟩
    · rw [UpdateStateData_mem] at h1
      simp only [Bool.and_eq_true] at h1
      obtain ⟨tail, ht⟩ := hform e (List.mem_cons_self _ _)
      have h2 := h1.2
      rw [ht] at h2
      rcases Clean_mem_nameKey s addr name tail x h2 with h3 | h3
      · exact Or.inl h3
      · exact Or.inr ⟨e, List.mem_cons_self _ _, by rw [ht]; exact h3⟩
    · exact Or.inr ⟨e', List.mem_cons_of_mem _ he', hs⟩

theorem applyKeyed_mono (kv : List (Key × Bytes)) (s : ContractStorage2) (x : Key)
    (h : s.t_indexToBeDeleted.mem x = true) (hx : ∀ e ∈ kv, e.1 ≠ x) :
    (applyKeyed kv s).t_indexToBeDeleted.mem x = true := by
  induction kv generalizing s with
  | nil => exact h
  | cons e tl ih =>
    rw [applyKeyed_cons]
    apply ih _ _ (fun e he => hx e (List.mem_cons_of_mem _ he))
    rw [UpdateStateData_mem, Clean_mono s _ x h]
    have := hx e (List.mem_cons_self _ _)
    simp [this]

theorem applyKeyed_written (addr : Address) (name : Bytes) (kv : List (Key × Bytes))
    (s : ContractStorage2) (hform : ∀ e ∈ kv, ∃ tail, e.1 = nameKey addr name ++ tail)
    (hinc : kv.Pairwise (fun a b => incomparable a.1 b.1)) :
    ∀ e ∈ kv, (applyKeyed kv s).t_indexToBeDeleted.mem e.1 = false := by
  induction kv generalizing s with
  | nil => intro e he; cases he
  | cons e tl ih =>
    intro e' he'
    rw [applyKeyed_cons]
    have hform' : ∀ e ∈ tl, ∃ tail, e.1 = nameKey addr name ++ tail :=
      fun e he => hform e (List.mem_cons_of_mem _ he)
    rcases List.mem_cons.1 he' with rfl | hmem
    · cases hm : (applyKeyed tl (UpdateStateData s e'.1 e'.2 true)).t_indexToBeDeleted.mem e'.1
      · rfl
      · rcases applyKeyed_mem addr name tl _ hform' _ hm with h1 | ⟨e2, he2, hs⟩
        · rw [UpdateStateData_t_deleted_key] at h1
          exact Bool.noConfusion h1
        · have := ((List.pairwise_cons.1 hinc).1 e2 he2).1
          rw [hs] at this
          exact Bool.noConfusion this
    · exact ih _ hform' (List.pairwise_cons.1 hinc).2 e' hmem

/-- After `DeleteByPrefix` and a batch of writes to pairwise incomparable keys under the
prefix, the visible entries under the prefix are exactly the writes. -/
theorem visibleEntries_after_writes (addr : Address) (name : Bytes) {s : ContractStorage2}
    (hwf : s.WF) (P : Key) (kv : List (Key × Bytes))
    (hform : ∀ e ∈ kv, ∃ tail, e.1 = nameKey addr name ++ tail)
    (hP : ∀ e ∈ kv, startsWith e.1 P = true)
    (hinc : kv.Pairwise (fun a b => incomparable a.1 b.1)) (x : Key) :
    (visibleEntries (applyKeyed kv (DeleteByPrefix s P)) P).find? x = SMap.find? kv x := by
  have hwf1 := DeleteByPrefix_WF hwf P
  have hwf' := applyKeyed_WF kv hwf1
  obtain ⟨f1, f2, f3⟩ := applyKeyed_frame kv (DeleteByPrefix s P)
  rw [find?_visibleEntries hwf', applyKeyed_t_state kv _ hinc, f1, f2]
  unfold visible
  rw [f3]
  unfold SMap.contains
  rw [applyKeyed_t_state kv _ hinc]
  cases hkv : SMap.find? kv x with
  | some b =>
    have hmem := SMap.mem_of_find? hkv
    have htd := applyKeyed_written addr name kv (DeleteByPrefix s P) hform hinc _ hmem
    have hsw := hP _ hmem
    simp only at htd hsw
    simp [htd, hsw]
  | none =>
    by_cases hsw : startsWith x P = true
    · have hx : ∀ e ∈ kv, e.1 ≠ x := by
        intro e he hex
        have := SMap.find?_ne_none_of_mem he
        rw [hex, hkv] at this
        exact this rfl
      cases hex : ((s.t_stateDataMap.find? x).orElse (fun _ => s.m_stateDataMap.find? x)).orElse
          (fun _ => s.m_stateDataDB.find? x) with
      | none =>
        have h1 : (DeleteByPrefix s P).t_stateDataMap = s.t_stateDataMap := rfl
        have h2 : (DeleteByPrefix s P).m_stateDataMap = s.m_stateDataMap := rfl
        have h3 : (DeleteByPrefix s P).m_stateDataDB = s.m_stateDataDB := rfl
        simp only [h1, h2, h3, Option.orElse, hex, hsw]
        simp only [Option.orElse] at hex
        simp [hex]
      | some w =>
        have hdel : (DeleteByPrefix s P).t_indexToBeDeleted.mem x = true := by
          rw [mem_DeleteByPrefix hwf, hsw]
          unfold SMap.contains
          cases ht : s.t_stateDataMap.find? x <;> cases hm : s.m_stateDataMap.find? x <;>
            cases hdb : s.m_stateDataDB.find? x <;> simp_all
        have := applyKeyed_mono kv _ x hdel hx
        simp [this]
    · simp [hsw]


/-! ## The writes of a well-shaped value -/

theorem writes_nil (c : ProtoCodec) : writes c (.mval []) = [([], c.emptyMapBytes)] := by
  rw [writes]

theorem writes_cons (c : ProtoCodec) (e : Key × ProtoScillaVal)
    (es : List (Key × ProtoScillaVal)) :
    writes c (.mval (e :: es)) = writesEntries c (e :: es) := by
  rw [writes]

theorem writesEntries_nil (c : ProtoCodec) : writesEntries c [] = [] := by
  rw [writesEntries]

theorem writesEntries_mval (c : ProtoCodec) (k : Key) (m : List (Key × ProtoScillaVal))
    (es : List (Key × ProtoScillaVal)) :
    writesEntries c ((k, .mval m) :: es)
      = (writes c (.mval m)).map (fun w => (k :: w.1, w.2)) ++ writesEntries c es := by
  rw [writesEntries]

theorem writesEntries_bval (c : ProtoCodec) (k : Key) (b : Bytes)
    (es : List (Key × ProtoScillaVal)) :
    writesEntries c ((k, .bval b) :: es) = ([k], b) :: writesEntries c es := by
  rw [writesEntries]
  · rfl
  all_goals (intro m h; cases h)

/-- The writes of the entries of a map whose values have depth `D`. -/
theorem writesEntries_good (c : ProtoCodec) (D : Nat)
    (ih : D ≠ 0 → ∀ V, Shaped D V → GoodWrites c D (writes c V))
    (es : List (Key × ProtoScillaVal)) (hes : SMap.WF es)
    (hsh : ∀ e ∈ es, sepFree e.1 ∧ Shaped D e.2) :
    (∀ w ∈ writesEntries c es, ∃ k p, w.1 = k :: p ∧ (∃ v, (k, v) ∈ es) ∧ p.length ≤ D
        ∧ sepFree k ∧ (∀ i ∈ p, sepFree i) ∧ (p.length < D → w.2 = c.emptyMapBytes))
      ∧ (writesEntries c es).Pairwise pathInc
      ∧ (es ≠ [] → writesEntries c es ≠ []) := by
  induction es with
  | nil =>
    rw [writesEntries_nil]
    exact ⟨fun w hw => (by cases hw), List.Pairwise.nil, fun h => absurd rfl h⟩
  | cons e tl iht =>
    obtain ⟨k, v⟩ := e
    obtain ⟨ht1, ht2, _⟩ := iht hes.tail (fun e he => hsh e (List.mem_cons_of_mem _ he))
    have hk := (hsh (k, v) (List.mem_cons_self _ _)).1
    have hv := (hsh (k, v) (List.mem_cons_self _ _)).2
    simp only at hk hv
    have hdist : ∀ w ∈ writesEntries c tl, ∀ p, w.1 ≠ k :: p := by
      intro w hw p hwp
      obtain ⟨k', p', hw1, ⟨v', hmem⟩, _⟩ := ht1 w hw
      rw [hw1] at hwp
      have hkk : k' = k := (List.cons.inj hwp).1
      have := keyLt_ne (hes.head_lt (k', v') hmem)
      exact this hkk.symm
    cases D with
    | zero =>
      obtain ⟨b, rfl⟩ := hv
      rw [writesEntries_bval]
      refine ⟨?_, ?_, fun _ => List.cons_ne_nil _ _⟩
      · intro w hw
        rcases List.mem_cons.1 hw with rfl | hw
        · exact ⟨k, [], rfl, ⟨_, List.mem_cons_self _ _⟩, Nat.le_refl _, hk,
            fun i hi => (by cases hi), fun h => absurd h (Nat.lt_irrefl _)⟩
        · obtain ⟨k', p', h1, ⟨v', h2⟩, h3⟩ := ht1 w hw
          exact ⟨k', p', h1, ⟨v', List.mem_cons_of_mem _ h2⟩, h3⟩
      · refine List.pairwise_cons.2 ⟨?_, ht2⟩
        intro w hw
        obtain ⟨k', p', hw1, _, hp', _⟩ := ht1 w hw
        have hne := hdist w hw
        have hp0 : p' = [] := List.length_eq_zero.1 (Nat.le_zero.1 hp')
        subst hp0
        unfold pathInc
        simp only
        rw [hw1]
        constructor
        · intro hpre
          have := List.IsPrefix.eq_of_length hpre (by simp)
          exact hne [] (by rw [hw1, ← this])
        · intro hpre
          have := List.IsPrefix.eq_of_length hpre (by simp)
          exact hne [] (by rw [hw1, this])
    | succ D =>
      obtain ⟨m, rfl, hm, hme⟩ := hv
      obtain ⟨g1, g2, g3⟩ := ih (Nat.succ_ne_zero D) (.mval m) ⟨m, rfl, hm, hme⟩
      rw [writesEntries_mval]
      refine ⟨?_, ?_, ?_⟩
      · intro w hw
        rcases List.mem_append.1 hw with hw | hw
        · obtain ⟨w0, hw0, rfl⟩ := List.mem_map.1 hw
          obtain ⟨a1, a2, a3⟩ := g1 w0 hw0
          exact ⟨k, w0.1, rfl, ⟨_, List.mem_cons_self _ _⟩, a1, hk, a2, a3⟩
        · obtain ⟨k', p', h1, ⟨v', h2⟩, h3⟩ := ht1 w hw
          exact ⟨k', p', h1, ⟨v', List.mem_cons_of_mem _ h2⟩, h3⟩
      · rw [List.pairwise_append]
        refine ⟨?_, ht2, ?_⟩
        · rw [List.pairwise_map]
          apply g2.imp
          intro a b hab
          unfold pathInc at hab ⊢
          simp only [List.cons_prefix_cons, true_and]
          exact hab
        · intro a ha b hb
          obtain ⟨w0, _, rfl⟩ := List.mem_map.1 ha
          obtain ⟨k', p', hb1, _⟩ := ht1 b hb
          have hne := hdist b hb
          unfold pathInc
          simp only
          rw [hb1]
          simp only [List.cons_prefix_cons, not_and]
          constructor
          · intro hkk; exact absurd (by rw [hb1, hkk]) (hne p')
          · intro hkk; exact absurd (by rw [hb1, ← hkk]) (hne p')
      · intro _ h
        have := List.append_eq_nil.1 h
        exact g3 (List.map_eq_nil_iff.1 this.1)

/-- The writes of a value of map depth `D + 1` in canonical form. -/
theorem writes_good (c : ProtoCodec) : ∀ (D : Nat) (V : ProtoScillaVal),
    Shaped (D + 1) V → GoodWrites c (D + 1) (writes c V) := by
  intro D
  induction D with
  | zero =>
    intro V hV
    obtain ⟨m, rfl, hm, hme⟩ := hV
    cases m with
    | nil =>
      rw [writes_nil]
      exact ⟨fun w hw => by
        rw [List.mem_singleton] at hw; subst hw
        exact ⟨Nat.zero_le _, fun i hi => (by cases hi), fun _ => rfl⟩,
        List.pairwise_singleton _ _, List.cons_ne_nil _ _⟩
    | cons e es =>
      rw [writes_cons]
      obtain ⟨h1, h2, h3⟩ := writesEntries_good c 0 (fun h => absurd rfl h) (e :: es) hm hme
      refine ⟨?_, h2, h3 (List.cons_ne_nil _ _)⟩
      intro w hw
      obtain ⟨k, p, hw1, _, hp, hk, hps, hb⟩ := h1 w hw
      rw [hw1]
      refine ⟨by simp only [List.length_cons]; omega, ?_, ?_⟩
      · intro i hi
        rcases List.mem_cons.1 hi with rfl | hi
        · exact hk
        · exact hps i hi
      · intro hlt
        simp only [List.length_cons] at hlt
        omega
  | succ D ihD =>
    intro V hV
    obtain ⟨m, rfl, hm, hme⟩ := hV
    cases m with
    | nil =>
      rw [writes_nil]
      exact ⟨fun w hw => by
        rw [List.mem_singleton] at hw; subst hw
        exact ⟨Nat.zero_le _, fun i hi => (by cases hi), fun _ => rfl⟩,
        List.pairwise_singleton _ _, List.cons_ne_nil _ _⟩
    | cons e es =>
      rw [writes_cons]
      obtain ⟨h1, h2, h3⟩ := writesEntries_good c (D + 1) (fun _ => ihD) (e :: es) hm hme
      refine ⟨?_, h2, h3 (List.cons_ne_nil _ _)⟩
      intro w hw
      obtain ⟨k, p, hw1, _, hp, hk, hps, hb⟩ := h1 w hw
      rw [hw1]
      refine ⟨by simp only [List.length_cons]; omega, ?_, ?_⟩
      · intro i hi
        rcases List.mem_cons.1 hi with rfl | hi
        · exact hk
        · exact hps i hi
      · intro hlt
        simp only [List.length_cons] at hlt
        exact hb (by omega)


/-! ## Keys of index paths -/

theorem appendIndices_nil_cons (a : Bytes) (r : List Bytes) :
    appendIndices [] (a :: r) = a ++ SCILLA_INDEX_SEPARATOR :: appendIndices [] r := by
  rw [appendIndices_cons, appendIndices_eq_append]
  simp

theorem sepFree_append_inj {a a' X Y : Bytes} (ha : sepFree a) (ha' : sepFree a')
    (h : a ++ SCILLA_INDEX_SEPARATOR :: X = a' ++ SCILLA_INDEX_SEPARATOR :: Y) :
    a = a' ∧ X = Y := by
  induction a generalizing a' with
  | nil =>
    cases a' with
    | nil => simp at h; exact ⟨rfl, h⟩
    | cons c cs =>
      simp only [List.nil_append, List.cons_append, List.cons.injEq] at h
      exact absurd (by rw [← h.1]; exact List.mem_cons_self _ _) ha'
  | cons c cs ih =>
    cases a' with
    | nil =>
      simp only [List.nil_append, List.cons_append, List.cons.injEq] at h
      exact absurd (by rw [h.1]; exact List.mem_cons_self _ _) ha
    | cons c' cs' =>
      simp only [List.cons_append, List.cons.injEq] at h
      have hcs : sepFree cs := fun m => ha (List.mem_cons_of_mem _ m)
      have hcs' : sepFree cs' := fun m => ha' (List.mem_cons_of_mem _ m)
      obtain ⟨h1, h2⟩ := ih hcs hcs' h.2
      exact ⟨by rw [h.1, h1], h2⟩

theorem startsWith_append_left (P a b : Key) :
    startsWith (P ++ a) (P ++ b) = startsWith a b := by
  induction P with
  | nil => rfl
  | cons x xs ih =>
    unfold startsWith at ih ⊢
    simp [List.isPrefixOf, ih]

/-- On separator-free index paths the key encoding reflects the prefix order. -/
theorem prefix_of_startsWith_enc (p1 p2 : List Bytes) (h1 : ∀ i ∈ p1, sepFree i)
    (h2 : ∀ i ∈ p2, sepFree i)
    (h : startsWith (appendIndices [] p2) (appendIndices [] p1) = true) : p1 <+: p2 := by
  induction p1 generalizing p2 with
  | nil => exact List.nil_prefix
  | cons a r1 ih =>
    cases p2 with
    | nil =>
      obtain ⟨t, ht⟩ := startsWith_iff.1 h
      rw [appendIndices_nil_cons] at ht
      have := congrArg List.length ht
      simp [appendIndices] at this
      omega
    | cons a' r2 =>
      obtain ⟨t, ht⟩ := startsWith_iff.1 h
      rw [appendIndices_nil_cons, appendIndices_nil_cons, List.append_assoc,
        List.cons_append] at ht
      obtain ⟨e1, e2⟩ := sepFree_append_inj (h2 a' (List.mem_cons_self _ _))
        (h1 a (List.mem_cons_self _ _)) ht
      subst e1
      rw [List.cons_prefix_cons]
      refine ⟨rfl, ih r2 (fun i hi => h1 i (List.mem_cons_of_mem _ hi))
        (fun i hi => h2 i (List.mem_cons_of_mem _ hi)) (startsWith_iff.2 ⟨t, e2⟩)⟩

theorem split_enc (p : List Bytes) (hp : ∀ i ∈ p, sepFree i) :
    split SCILLA_INDEX_SEPARATOR (appendIndices [] p) = p ++ [[]] := by
  induction p with
  | nil => rfl
  | cons a r ih =>
    rw [appendIndices_nil_cons, split_sepFree_append _ _ _ (hp a (List.mem_cons_self _ _)),
      ih (fun i hi => hp i (List.mem_cons_of_mem _ hi))]
    rfl

theorem popBackIfEmpty_concat_nil (p : List Bytes) : popBackIfEmpty (p ++ [[]]) = p := by
  unfold popBackIfEmpty
  simp

/-- The residual index path of a written key is the path it was written at. -/
theorem residualIndices_appendIndices (P : Key) (p : List Bytes) (hp : ∀ i ∈ p, sepFree i) :
    residualIndices P (appendIndices P p) = p := by
  unfold residualIndices
  rw [appendIndices_eq_append]
  cases p with
  | nil => simp [appendIndices]
  | cons a r =>
    have hlen : (P ++ appendIndices [] (a :: r)).length > P.length := by
      rw [appendIndices_nil_cons]; simp
    simp only [hlen, if_true, List.drop_left]
    rw [split_enc _ hp, popBackIfEmpty_concat_nil]


/-! ## Building the fetched value -/

theorem HWF.mutableM {v : ProtoScillaVal} (h : HWF v) : SMap.WF v.mutableM := by
  cases h with
  | unset => exact SMap.WF.nil
  | bval b => exact SMap.WF.nil
  | mval m hm _ => exact hm

theorem HWF.child {v : ProtoScillaVal} (h : HWF v) (i : Key) :
    HWF ((SMap.find? v.mutableM i).getD .unset) := by
  cases h with
  | unset => exact HWF.unset
  | bval b => exact HWF.unset
  | mval m hm he =>
    simp only [ProtoScillaVal.mutableM]
    cases hf : SMap.find? m i with
    | none => exact HWF.unset
    | some w => exact he (i, w) (SMap.mem_of_find? hf)

theorem HWF.insertChild {v x : ProtoScillaVal} (h : HWF v) (i : Key) (hx : HWF x) :
    HWF (.mval (SMap.insert v.mutableM i x)) := by
  refine HWF.mval _ (h.mutableM.insert i x) ?_
  intro e he
  rcases SMap.mem_insert he with rfl | hmem
  · exact hx
  · cases h with
    | unset => cases hmem
    | bval b => cases hmem
    | mval m hm hall => exact hall e hmem

theorem applyAt_HWF (p : List Bytes) (op : NodeOp) {v : ProtoScillaVal} (h : HWF v) :
    HWF (applyAt p op v) := by
  induction p generalizing v with
  | nil =>
    cases op with
    | createMap =>
      simp only [applyAt]
      cases h with
      | unset => exact HWF.mval _ SMap.WF.nil (fun e he => by cases he)
      | bval b => exact HWF.mval _ SMap.WF.nil (fun e he => by cases he)
      | mval m hm he => exact HWF.mval m hm he
    | setBval b => exact HWF.bval b
  | cons i rest ih =>
    simp only [applyAt]
    exact h.insertChild i (ih (h.child i))

theorem mutableM_mval (m : List (Key × ProtoScillaVal)) :
    (ProtoScillaVal.mval m).mutableM = m := rfl

theorem SMap.insert_comm {β : Type} {m : SMap β} (hm : SMap.WF m) {i j : Key} (hij : i ≠ j)
    (x y : β) : SMap.insert (SMap.insert m i x) j y = SMap.insert (SMap.insert m j y) i x := by
  apply SMap.WF.ext ((hm.insert i x).insert j y) ((hm.insert j y).insert i x)
  intro k
  simp only [SMap.find?_insert]
  by_cases h1 : j = k
  · subst h1
    simp [hij]
  · simp [h1]

theorem SMap.insert_insert {β : Type} (m : SMap β) (i : Key) (x y : β) :
    SMap.insert (SMap.insert m i x) i y = SMap.insert m i y := by
  induction m with
  | nil => simp [SMap.insert, keyLt_irrefl]
  | cons e tl ih =>
    obtain ⟨k, v⟩ := e
    simp only [SMap.insert]
    by_cases h1 : keyLt i k = true
    · simp [h1, SMap.insert, keyLt_irrefl]
    · by_cases h2 : k = i
      · subst h2
        simp [SMap.insert, keyLt_irrefl]
      · simp [h1, h2, SMap.insert, ih]

/-- Operations at incomparable index paths commute. -/
theorem applyAt_comm (p1 p2 : List Bytes) (op1 op2 : NodeOp) (hinc : ¬ p1 <+: p2 ∧ ¬ p2 <+: p1)
    {v : ProtoScillaVal} (h : HWF v) :
    applyAt p2 op2 (applyAt p1 op1 v) = applyAt p1 op1 (applyAt p2 op2 v) := by
  induction p1 generalizing p2 v with
  | nil => exact absurd List.nil_prefix hinc.1
  | cons i r1 ih =>
    cases p2 with
    | nil => exact absurd List.nil_prefix hinc.2
    | cons j r2 =>
      simp only [applyAt, mutableM_mval, SMap.find?_insert]
      by_cases hij : i = j
      · subst hij
        have hinc' : ¬ r1 <+: r2 ∧ ¬ r2 <+: r1 := by
          simp only [List.cons_prefix_cons, true_and] at hinc
          exact hinc
        simp only [if_true, Option.getD_some, SMap.insert_insert]
        rw [ih r2 hinc' (h.child i)]
      · have hji : ¬ j = i := fun e => hij e.symm
        simp only [hij, hji, if_false]
        rw [SMap.insert_comm h.mutableM hij]

theorem buildW_cons (D : Nat) (w : List Bytes × Bytes) (ws : List (List Bytes × Bytes))
    (v : ProtoScillaVal) :
    buildW D (w :: ws) v = buildW D ws (applyAt w.1 (opFor D w) v) := rfl

/-- The value built does not depend on the order of pairwise incomparable entries. -/
theorem buildW_perm (D : Nat) {l1 l2 : List (List Bytes × Bytes)} (hp : l1.Perm l2)
    (hinc : l1.Pairwise pathInc) {v : ProtoScillaVal} (h : HWF v) :
    buildW D l1 v = buildW D l2 v := by
  have hsymm : ∀ {a b : List Bytes × Bytes}, pathInc a b → pathInc b a :=
    fun {a b} hab => ⟨hab.2, hab.1⟩
  induction hp generalizing v with
  | nil => rfl
  | cons x _ ih =>
    rw [buildW_cons, buildW_cons]
    exact ih (List.pairwise_cons.1 hinc).2 (applyAt_HWF _ _ h)
  | swap x y l =>
    rw [buildW_cons, buildW_cons, buildW_cons, buildW_cons]
    have hxy : pathInc y x := (List.pairwise_cons.1 hinc).1 x (List.mem_cons_self _ _)
    rw [applyAt_comm y.1 x.1 _ _ hxy h]
  | trans p1 p2 ih1 ih2 =>
    rw [ih1 hinc h]
    exact ih2 ((p1.pairwise_iff (fun {a b} => hsymm)).1 hinc) h


theorem applyAt_unset (p : List Bytes) (op : NodeOp) :
    applyAt p op .unset = applyAt p op (.mval []) := by
  cases p with
  | nil => cases op <;> rfl
  | cons i r => rfl

theorem buildW_unset (D : Nat) (ws : List (List Bytes × Bytes)) (h : ws ≠ []) :
    buildW D ws .unset = buildW D ws (.mval []) := by
  cases ws with
  | nil => exact absurd rfl h
  | cons w rest => rw [buildW_cons, buildW_cons, applyAt_unset]

theorem buildW_append (D : Nat) (a b : List (List Bytes × Bytes)) (v : ProtoScillaVal) :
    buildW D (a ++ b) v = buildW D b (buildW D a v) := by
  unfold buildW; rw [List.foldl_append]

theorem opFor_cons (D : Nat) (k : Key) (w : List Bytes × Bytes) :
    opFor (D + 1) (k :: w.1, w.2) = opFor D w := by
  unfold opFor
  simp only [List.length_cons, Nat.add_lt_add_iff_right]

/-- The entries below one index build the child value at that index. -/
theorem buildW_lift (D : Nat) (k : Key) (w : List Bytes × Bytes)
    (ws : List (List Bytes × Bytes)) (acc : List (Key × ProtoScillaVal)) :
    buildW (D + 1) ((w :: ws).map (fun w => (k :: w.1, w.2))) (.mval acc)
      = .mval (SMap.insert acc k (buildW D (w :: ws) ((SMap.find? acc k).getD .unset))) := by
  induction ws generalizing w acc with
  | nil =>
    simp only [List.map_cons, List.map_nil, buildW_cons, opFor_cons, applyAt, mutableM_mval]
    rfl
  | cons w2 rest ih =>
    rw [List.map_cons, buildW_cons, opFor_cons]
    simp only [applyAt, mutableM_mval]
    rw [ih w2, SMap.find?_insert, if_pos rfl, Option.getD_some, SMap.insert_insert]
    rfl

theorem SMap.insert_last {β : Type} (acc : SMap β) (k : Key) (v : β)
    (h : ∀ e ∈ acc, keyLt e.1 k = true) : SMap.insert acc k v = acc ++ [(k, v)] := by
  induction acc with
  | nil => rfl
  | cons e tl ih =>
    obtain ⟨k', v'⟩ := e
    have hlt : keyLt k' k = true := h (k', v') (List.mem_cons_self _ _)
    have h1 : keyLt k k' = false := keyLt_asymm hlt
    have h2 : ¬ k' = k := keyLt_ne hlt
    simp only [SMap.insert, h1, Bool.false_eq_true, if_false, h2, List.cons_append]
    rw [ih (fun e he => h e (List.mem_cons_of_mem _ he))]

/-- The writes of the entries of a map, applied in their own order to the entries built
so far, append the entries. -/
theorem buildW_entries (c : ProtoCodec) (D : Nat)
    (ih : D ≠ 0 → ∀ V, Shaped D V → buildW D (writes c V) .unset = V)
    (es : List (Key × ProtoScillaVal)) (hes : SMap.WF es)
    (hsh : ∀ e ∈ es, sepFree e.1 ∧ Shaped D e.2) (acc : List (Key × ProtoScillaVal))
    (hacc : ∀ a ∈ acc, ∀ e ∈ es, keyLt a.1 e.1 = true) :
    buildW (D + 1) (writesEntries c es) (.mval acc) = .mval (acc ++ es) := by
  induction es generalizing acc with
  | nil => rw [writesEntries_nil, List.append_nil]; rfl
  | cons e tl iht =>
    obtain ⟨k, v⟩ := e
    have hv := (hsh (k, v) (List.mem_cons_self _ _)).2
    simp only at hv
    have hacck : ∀ a ∈ acc, keyLt a.1 k = true := fun a ha =>
      hacc a ha (k, v) (List.mem_cons_self _ _)
    have hacc' : ∀ a ∈ acc ++ [(k, v)], ∀ e ∈ tl, keyLt a.1 e.1 = true := by
      intro a ha e he
      rcases List.mem_append.1 ha with ha | ha
      · exact hacc a ha e (List.mem_cons_of_mem _ he)
      · rw [List.mem_singleton] at ha
        subst ha
        exact hes.head_lt e he
    have hnext := iht hes.tail (fun e he => hsh e (List.mem_cons_of_mem _ he))
      (acc ++ [(k, v)]) hacc'
    rw [List.append_assoc, List.singleton_append] at hnext
    cases D with
    | zero =>
      obtain ⟨b, rfl⟩ := hv
      rw [writesEntries_bval, buildW_cons]
      simp only [applyAt, mutableM_mval, opFor, List.length_singleton, Nat.lt_irrefl, if_false,
        Nat.zero_add]
      rw [SMap.insert_last acc k _ hacck]
      exact hnext
    | succ D =>
      obtain ⟨m, rfl, hm, hme⟩ := hv
      have hgood := writes_good c D (.mval m) ⟨m, rfl, hm, hme⟩
      obtain ⟨w, ws, hw⟩ : ∃ w ws, writes c (.mval m) = w :: ws := by
        cases hws : writes c (.mval m) with
        | nil => exact absurd hws hgood.2.2
        | cons w ws => exact ⟨w, ws, rfl⟩
      have hfind : SMap.find? acc k = none :=
        SMap.find?_eq_none_of_forall_ne (fun a ha => keyLt_ne (hacck a ha))
      rw [writesEntries_mval, buildW_append, hw, buildW_lift, hfind, Option.getD_none, ← hw,
        ih (Nat.succ_ne_zero D) (.mval m) ⟨m, rfl, hm, hme⟩, SMap.insert_last acc k _ hacck]
      exact hnext

/-- Building from the writes of a value in canonical form gives the value back. -/
theorem buildW_writes (c : ProtoCodec) : ∀ (D : Nat) (V : ProtoScillaVal),
    Shaped (D + 1) V → buildW (D + 1) (writes c V) .unset = V := by
  intro D
  induction D with
  | zero =>
    intro V hV
    obtain ⟨m, rfl, hm, hme⟩ := hV
    cases m with
    | nil => rw [writes_nil]; rfl
    | cons e es =>
      have hgood := writes_good c 0 (.mval (e :: es)) ⟨_, rfl, hm, hme⟩
      rw [buildW_unset _ _ hgood.2.2, writes_cons,
        buildW_entries c 0 (fun h => absurd rfl h) (e :: es) hm hme []
          (fun a ha => by cases ha)]
      rfl
  | succ D ihD =>
    intro V hV
    obtain ⟨m, rfl, hm, hme⟩ := hV
    cases m with
    | nil => rw [writes_nil]; rfl
    | cons e es =>
      have hgood := writes_good c (D + 1) (.mval (e :: es)) ⟨_, rfl, hm, hme⟩
      rw [buildW_unset _ _ hgood.2.2, writes_cons,
        buildW_entries c (D + 1) (fun _ => ihD) (e :: es) hm hme []
          (fun a ha => by cases ha)]
      rfl


/-- The loop of the map branch over visible entries under the prefix builds the value
from their residual index paths and counts them. -/
theorem fetchLoop_build (c : ProtoCodec) (s : ContractStorage2) (q : ProtoScillaQuery) (P : Key)
    (hq : q.indices.length ≤ q.mapdepth) (l : List (Key × Bytes))
    (hvis : ∀ e ∈ l, visible s e.1 = true) (hsw : ∀ e ∈ l, startsWith e.1 P = true)
    (hemp : ∀ e ∈ l, (residualIndices P e.1).length < q.mapdepth - q.indices.length →
      c.isEmptyMap e.2 = true)
    (v : ProtoScillaVal) (n : Nat) (hn : n < 2 ^ 32) :
    fetchLoop c s q P l v n
      = some (buildW (q.mapdepth - q.indices.length)
          (l.map (fun e => (residualIndices P e.1, e.2))) v, (n + l.length) % 2 ^ 32) := by
  induction l generalizing v n with
  | nil => simp only [fetchLoop, List.map_nil, List.length_nil, Nat.add_zero,
      Nat.mod_eq_of_lt hn]; rfl
  | cons e tl ih =>
    obtain ⟨k, b⟩ := e
    have hv := hvis (k, b) (List.mem_cons_self _ _)
    unfold visible at hv
    simp only [Bool.and_eq_true, Bool.not_eq_true'] at hv
    have hs := hsw (k, b) (List.mem_cons_self _ _)
    simp only at hs
    have hlt : (n + 1) % 2 ^ 32 < 2 ^ 32 := Nat.mod_lt _ (by decide)
    have ih' := fun v => ih (fun e he => hvis e (List.mem_cons_of_mem _ he))
      (fun e he => hsw e (List.mem_cons_of_mem _ he))
      (fun e he => hemp e (List.mem_cons_of_mem _ he)) v ((n + 1) % 2 ^ 32) hlt
    simp only [fetchLoop, hv.1, hv.2, Bool.false_eq_true, if_false, hs, Bool.not_true,
      List.map_cons, buildW_cons, List.length_cons]
    by_cases hc : q.indices.length + (residualIndices P k).length < q.mapdepth
    · have hc' : (residualIndices P k).length < q.mapdepth - q.indices.length := by omega
      have he := hemp (k, b) (List.mem_cons_self _ _) hc'
      simp only at he
      simp only [hc, if_true, he, ih', counter_step, opFor, hc']
    · have hc' : ¬ (residualIndices P k).length < q.mapdepth - q.indices.length := by omega
      simp only [hc, if_false, ih', counter_step, opFor, hc']

theorem SMap.find?_of_mem_incomparable {kv : List (Key × Bytes)}
    (hinc : kv.Pairwise (fun a b => incomparable a.1 b.1)) {e : Key × Bytes} (h : e ∈ kv) :
    SMap.find? kv e.1 = some e.2 := by
  induction kv with
  | nil => cases h
  | cons a tl ih =>
    obtain ⟨ka, va⟩ := a
    simp only [SMap.find?]
    rcases List.mem_cons.1 h with rfl | hmem
    · simp
    · have := ((List.pairwise_cons.1 hinc).1 e hmem).1
      simp only at this
      have hne : ¬ ka = e.1 := by
        intro he
        rw [he, startsWith_refl] at this
        exact Bool.noConfusion this
      simp only [hne, if_false]
      exact ih (List.pairwise_cons.1 hinc).2 hmem

/-- A table in key order and a list with pairwise incomparable keys that agree on every
lookup are permutations of each other. -/
theorem perm_of_find?_eq {L : SMap Bytes} {kv : List (Key × Bytes)} (hL : SMap.WF L)
    (hinc : kv.Pairwise (fun a b => incomparable a.1 b.1))
    (h : ∀ x, SMap.find? L x = SMap.find? kv x) : L.Perm kv := by
  have hL' : L.Nodup := by
    unfold List.Nodup
    apply List.Pairwise.imp _ hL
    intro a b hab e
    rw [e, keyLt_irrefl] at hab
    exact Bool.noConfusion hab
  have hkv : kv.Nodup := by
    unfold List.Nodup
    apply List.Pairwise.imp _ hinc
    intro a b hab e
    have := hab.1
    rw [e, startsWith_refl] at this
    exact Bool.noConfusion this
  rw [List.perm_ext_iff_of_nodup hL' hkv]
  intro e
  constructor
  · intro he
    have := hL.find?_of_mem (k := e.1) (v := e.2) he
    rw [h] at this
    exact SMap.mem_of_find? this
  · intro he
    have := SMap.find?_of_mem_incomparable hinc he
    rw [← h] at this
    exact SMap.mem_of_find? this


/-- The keyed writes of a well-shaped value below a query key: form, prefix and pairwise
incomparability of their keys. -/
theorem keyed_writes_props (c : ProtoCodec) (addr : Address) (q : ProtoScillaQuery) (D : Nat)
    (ws : List (List Bytes × Bytes)) (hgood : GoodWrites c D ws) :
    (∀ e ∈ ws.map (fun w => (appendIndices (queryKey addr q) w.1, w.2)),
        ∃ tail, e.1 = nameKey addr q.name ++ tail)
    ∧ (∀ e ∈ ws.map (fun w => (appendIndices (queryKey addr q) w.1, w.2)),
        startsWith e.1 (queryKey addr q) = true)
    ∧ (ws.map (fun w => (appendIndices (queryKey addr q) w.1, w.2))).Pairwise
        (fun a b => incomparable a.1 b.1) := by
  refine ⟨?_, ?_, ?_⟩
  · intro e he
    obtain ⟨w, _, rfl⟩ := List.mem_map.1 he
    refine ⟨appendIndices [] q.indices ++ appendIndices [] w.1, ?_⟩
    simp only
    rw [appendIndices_eq_append, queryKey, appendIndices_eq_append, List.append_assoc]
  · intro e he
    obtain ⟨w, _, rfl⟩ := List.mem_map.1 he
    exact startsWith_appendIndices _ _
  · rw [List.pairwise_map]
    apply List.Pairwise.imp_of_mem _ hgood.2.1
    intro a b ha hb hab
    have hsa := (hgood.1 a ha).2.1
    have hsb := (hgood.1 b hb).2.1
    unfold incomparable
    simp only
    rw [appendIndices_eq_append _ a.1, appendIndices_eq_append _ b.1, startsWith_append_left,
      startsWith_append_left]
    constructor
    · cases h : startsWith (appendIndices [] b.1) (appendIndices [] a.1) with
      | false => rfl
      | true => exact absurd (prefix_of_startsWith_enc _ _ hsa hsb h) hab.1
    · cases h : startsWith (appendIndices [] a.1) (appendIndices [] b.1) with
      | false => rfl
      | true => exact absurd (prefix_of_startsWith_enc _ _ hsb hsa h) hab.2

/-- C6: for a non-reserved name, an index list with `|indices| < mapdepth` and a map value
`V` in canonical form (ascending separator-free keys, every leaf a `bval` at depth
`mapdepth − |indices|`, shallower nodes maps, possibly empty) that is written to fewer
than 2^32 keys (it is parsed from a message shorter than 2^31 bytes), `UpdateStateValue`
in write mode returns true, and `FetchStateValue` with the same name, indices and mapdepth
then returns found = true with exactly the value `V`: what was stored under the prefix
before and is not in `V` is no longer returned. -/
theorem C6_map_write_round_trip (c : ProtoCodec) (s : ContractStorage2) (addr : Address)
    (q : ProtoScillaQuery) (V : ProtoScillaVal) (hwf : s.WF) (hlaw : c.Lawful)
    (hname : q.name ≠ FIELDS_MAP_DEPTH_INDICATOR ∧ q.name ≠ SHARDING_INFO_INDICATOR)
    (hig : q.ignoreval = false) (hdepth : q.indices.length < q.mapdepth)
    (hV : Shaped (q.mapdepth - q.indices.length) V) (hsize : (writes c V).length < 2 ^ 32) :
    (UpdateStateValue c s addr q V).1 = true
    ∧ FetchStateValue c (UpdateStateValue c s addr q V).2 addr q = ⟨true, true, some V⟩ := by
  obtain ⟨D, hD⟩ : ∃ D, q.mapdepth - q.indices.length = D + 1 :=
    ⟨q.mapdepth - q.indices.length - 1, by omega⟩
  rw [hD] at hV
  have hgood := writes_good c D V hV
  have hbuild := buildW_writes c D V hV
  obtain ⟨hform, hP, hinc⟩ := keyed_writes_props c addr q (D + 1) (writes c V) hgood
  have hupd : UpdateStateValue c s addr q V
      = (true, applyKeyed ((writes c V).map (fun w => (appendIndices (queryKey addr q) w.1, w.2)))
          (DeleteByPrefix s (queryKey addr q))) := by
    obtain ⟨m, rfl, _, _⟩ := hV
    have hne : ¬ q.indices.length = q.mapdepth := Nat.ne_of_lt hdepth
    have hng : ¬ q.indices.length > q.mapdepth := Nat.not_lt.2 (Nat.le_of_lt hdepth)
    unfold UpdateStateValue
    simp only [hname.1, hname.2, or_self, if_false, hig, Bool.false_eq_true, hng, hne]
    rw [mapHandler_eq]
    unfold applyWrites applyKeyed queryKey
    rw [List.foldl_map]
  rw [hupd]
  refine ⟨rfl, ?_⟩
  simp only
  have hfind := visibleEntries_after_writes addr q.name hwf (queryKey addr q) _ hform hP hinc
  have hperm := perm_of_find?_eq (WF_visibleEntries _ _) hinc hfind
  have hlen : (visibleEntries (applyKeyed ((writes c V).map
      (fun w => (appendIndices (queryKey addr q) w.1, w.2)))
      (DeleteByPrefix s (queryKey addr q))) (queryKey addr q)).length = (writes c V).length := by
    rw [hperm.length_eq, List.length_map]
  have hres : ((writes c V).map (fun w => (appendIndices (queryKey addr q) w.1, w.2))).map
      (fun e => (residualIndices (queryKey addr q) e.1, e.2)) = writes c V := by
    rw [List.map_map]
    conv_rhs => rw [← List.map_id (writes c V)]
    apply List.map_congr_left
    intro w hw
    simp only [Function.comp, id]
    rw [residualIndices_appendIndices _ _ (hgood.1 w hw).2.1]
  have hperm2 := (hperm.map (fun e => (residualIndices (queryKey addr q) e.1, e.2))).symm
  rw [hres] at hperm2
  have hloop := fetchLoop_build c (applyKeyed ((writes c V).map
      (fun w => (appendIndices (queryKey addr q) w.1, w.2)))
      (DeleteByPrefix s (queryKey addr q))) q (queryKey addr q) (Nat.le_of_lt hdepth)
    (visibleEntries (applyKeyed ((writes c V).map
      (fun w => (appendIndices (queryKey addr q) w.1, w.2)))
      (DeleteByPrefix s (queryKey addr q))) (queryKey addr q))
    (fun e he => by
      unfold visibleEntries at he
      exact (List.mem_filter.1 he).2)
    (fun e he => hP e (hperm.mem_iff.1 he))
    (fun e he hlt => by
      obtain ⟨w, hw, rfl⟩ := List.mem_map.1 (hperm.mem_iff.1 he)
      simp only at hlt ⊢
      rw [residualIndices_appendIndices _ _ (hgood.1 w hw).2.1, hD] at hlt
      rw [(hgood.1 w hw).2.2 hlt]
      exact hlaw)
    .unset 0 (by decide)
  rw [hD, ← buildW_perm (D + 1) hperm2 hgood.2.1 HWF.unset, hbuild, hlen, Nat.zero_add,
    Nat.mod_eq_of_lt hsize] at hloop
  have hpos : (writes c V).length ≠ 0 := fun h => hgood.2.2 (List.length_eq_zero.1 h)
  have hnonempty : (fetchEntries (applyKeyed ((writes c V).map
      (fun w => (appendIndices (queryKey addr q) w.1, w.2)))
      (DeleteByPrefix s (queryKey addr q))) (queryKey addr q)).isEmpty = false := by
    cases hE : fetchEntries (applyKeyed ((writes c V).map
        (fun w => (appendIndices (queryKey addr q) w.1, w.2)))
        (DeleteByPrefix s (queryKey addr q))) (queryKey addr q) with
    | nil =>
      unfold visibleEntries at hlen
      rw [hE] at hlen
      exact absurd hlen.symm hpos
    | cons a l => rfl
  rw [FetchStateValue_map c _ addr q hname hdepth, fetchMap_eq c _ q _ hig, hnonempty,
    ← fetchLoop_filter_visible]
  unfold visibleEntries at hloop
  rw [hloop]
  simp [hpos]


theorem sampleMap_shaped : Shaped 2 sampleMap := by
  refine ⟨_, rfl, by unfold SMap.WF; decide, ?_⟩
  intro e he
  simp only [List.mem_cons, List.mem_singleton, List.not_mem_nil, or_false] at he
  rcases he with rfl | rfl
  · exact ⟨by unfold sepFree; decide, [], rfl, SMap.WF.nil, fun e he => by cases he⟩
  · refine ⟨by unfold sepFree; decide, _, rfl, List.pairwise_singleton _ _, ?_⟩
    intro e he
    rw [List.mem_singleton] at he
    subst he
    exact ⟨by unfold sepFree; decide, [7], rfl⟩

/-- C6 witness: writing `{a ↦ {}, b ↦ {c ↦ 0x07}}` over the depth-2 map `m` of the sample
store, which held `m[x][y]` and `m[x][z]`, and fetching `m` returns exactly that value. -/
theorem C6_map_write_round_trip_witness :
    (UpdateStateValue wireCodec nestedMapStore addrAA ⟨[109], 2, [], false⟩ sampleMap).1 = true
    ∧ FetchStateValue wireCodec
        (UpdateStateValue wireCodec nestedMapStore addrAA ⟨[109], 2, [], false⟩ sampleMap).2
        addrAA ⟨[109], 2, [], false⟩ = ⟨true, true, some sampleMap⟩ :=
  C6_map_write_round_trip wireCodec nestedMapStore addrAA ⟨[109], 2, [], false⟩ sampleMap
    nestedMapStore_WF wireCodec_Lawful (by decide) rfl (by decide) sampleMap_shaped (by decide)


/-! ## C12: reserved names are rejected -/

/-- C12: for every state, address and query whose name is `_depth` or `_sharding`,
`UpdateStateValue` returns false and leaves the store (every tier of it) as it was, and
`FetchStateValue`, which only reads the store, returns false and writes no value. -/
theorem C12_reserved_rejected (c : ProtoCodec) (s : ContractStorage2) (addr : Address)
    (q : ProtoScillaQuery) (value : ProtoScillaVal)
    (hname : q.name = FIELDS_MAP_DEPTH_INDICATOR ∨ q.name = SHARDING_INFO_INDICATOR) :
    UpdateStateValue c s addr q value = (false, s)
    ∧ (FetchStateValue c s addr q).ok = false
    ∧ (FetchStateValue c s addr q).dst = none := by
  unfold UpdateStateValue FetchStateValue
  simp only [hname, if_true, and_self]

/-- C12 witness: an update and a fetch under the name `_sharding` on the sample store. -/
theorem C12_reserved_rejected_witness :
    UpdateStateValue wireCodec nestedMapStore addrAA ⟨SHARDING_INFO_INDICATOR, 0, [], false⟩
        (.bval [1]) = (false, nestedMapStore)
    ∧ (FetchStateValue wireCodec nestedMapStore addrAA
        ⟨SHARDING_INFO_INDICATOR, 0, [], false⟩).ok = false
    ∧ (FetchStateValue wireCodec nestedMapStore addrAA
        ⟨SHARDING_INFO_INDICATOR, 0, [], false⟩).dst = none :=
  C12_reserved_rejected wireCodec nestedMapStore addrAA ⟨SHARDING_INFO_INDICATOR, 0, [], false⟩
    (.bval [1]) (Or.inr rfl)

/-! ## C16: a scalar fetch that finds nothing -/

/-- C16 (as stated) fails: the depth-0 scalar `c` is stored in no tier and its key is
tombstoned in `m_deleted`; the fetch finds no value, `mapdepth = 0`, and yet the call
returns true (with found = false) rather than an error. -/
theorem C16_counterexample :
    ((⟨[99], 0, [], false⟩ : ProtoScillaQuery).name ≠ FIELDS_MAP_DEPTH_INDICATOR
      ∧ (⟨[99], 0, [], false⟩ : ProtoScillaQuery).name ≠ SHARDING_INFO_INDICATOR)
    ∧ (⟨[99], 0, [], false⟩ : ProtoScillaQuery).indices.length
        = (⟨[99], 0, [], false⟩ : ProtoScillaQuery).mapdepth
    ∧ specLookup committedTombstoneStore (queryKey addrAA ⟨[99], 0, [], false⟩) = none
    ∧ FetchStateValue wireCodec committedTombstoneStore addrAA ⟨[99], 0, [], false⟩
        = ⟨true, false, none⟩
    ∧ ¬ ((FetchStateValue wireCodec committedTombstoneStore addrAA ⟨[99], 0, [], false⟩).ok
          = false ↔ (⟨[99], 0, [], false⟩ : ProtoScillaQuery).mapdepth = 0) := by
  decide

/-- C16 (amended): for a scalar fetch (non-reserved name, `|indices| = mapdepth`), when the
key is hidden by a tombstone the call returns true with found = false whatever the
`mapdepth`; when the key is not hidden and no tier stores it, the call returns false if
`mapdepth = 0` and true with found = false if `mapdepth > 0`. -/
theorem C16_absent_scalar (c : ProtoCodec) (s : ContractStorage2) (addr : Address)
    (q : ProtoScillaQuery)
    (hname : q.name ≠ FIELDS_MAP_DEPTH_INDICATOR ∧ q.name ≠ SHARDING_INFO_INDICATOR)
    (hdepth : q.indices.length = q.mapdepth) :
    (hiddenKey s (queryKey addr q) → FetchStateValue c s addr q = ⟨true, false, none⟩)
    ∧ (¬ hiddenKey s (queryKey addr q) →
        s.t_stateDataMap.find? (queryKey addr q) = none →
        s.m_stateDataMap.find? (queryKey addr q) = none →
        s.m_stateDataDB.find? (queryKey addr q) = none →
        ((FetchStateValue c s addr q).ok = false ↔ q.mapdepth = 0)
        ∧ (FetchStateValue c s addr q).dst = none
        ∧ (q.mapdepth > 0 → FetchStateValue c s addr q = ⟨true, false, none⟩)) := by
  have hn : ¬ (q.name = FIELDS_MAP_DEPTH_INDICATOR ∨ q.name = SHARDING_INFO_INDICATOR) :=
    fun h => h.elim hname.1 hname.2
  have hgt : ¬ q.indices.length > q.mapdepth := by omega
  constructor
  · intro hh
    unfold FetchStateValue
    simp only [hn, if_false, hgt]
    unfold queryKey at hh
    rcases hh with h | ⟨h1, h2⟩
    · simp [h, hdepth]
    · simp [h1, h2, hdepth]
  · intro hh ht hm hdb
    unfold hiddenKey queryKey at hh
    unfold queryKey at ht hm hdb
    have h1 : s.t_indexToBeDeleted.mem (appendIndices (nameKey addr q.name) q.indices) = false := by
      cases h : s.t_indexToBeDeleted.mem (appendIndices (nameKey addr q.name) q.indices)
      · rfl
      · exact absurd (Or.inl h) hh
    have h2 : (s.m_indexToBeDeleted.mem (appendIndices (nameKey addr q.name) q.indices)
        && !s.t_stateDataMap.contains (appendIndices (nameKey addr q.name) q.indices)) = false := by
      cases h : s.m_indexToBeDeleted.mem (appendIndices (nameKey addr q.name) q.indices)
      · rfl
      · cases h' : s.t_stateDataMap.contains (appendIndices (nameKey addr q.name) q.indices)
        · exact absurd (Or.inr ⟨h, h'⟩) hh
        · rfl
    unfold FetchStateValue
    simp only [hn, if_false, hgt, h1, h2, Bool.false_and, Bool.false_eq_true, hdepth, if_true,
      ht, hm, hdb]
    by_cases h0 : q.mapdepth = 0
    · simp [h0]
    · simp [h0]

/-- C16 witness: on the empty store the depth-0 scalar `c` is an error and the depth-1
entry `m[x]` is reported missing. -/
theorem C16_absent_scalar_witness :
    ((FetchStateValue wireCodec ContractStorage2.empty addrAA ⟨[99], 0, [], false⟩).ok = false
      ↔ (⟨[99], 0, [], false⟩ : ProtoScillaQuery).mapdepth = 0)
    ∧ FetchStateValue wireCodec ContractStorage2.empty addrAA ⟨[109], 1, [[120]], false⟩
        = ⟨true, false, none⟩ :=
  ⟨((C16_absent_scalar wireCodec ContractStorage2.empty addrAA ⟨[99], 0, [], false⟩
      (by decide) rfl).2 (by unfold hiddenKey; decide) rfl rfl rfl).1,
    ((C16_absent_scalar wireCodec ContractStorage2.empty addrAA ⟨[109], 1, [[120]], false⟩
      (by decide) rfl).2 (by unfold hiddenKey; decide) rfl rfl rfl).2.2 (by decide)⟩

/-! ## C18: existence queries -/

/-- C18 (the code at the failing input): in the sample store holding `m[x][y]` and
`m[x][z]`, after the tombstone-mode call for `m[x]` the fetch of `m[x]` with
`ignoreval = false` reports found = false, and the same fetch with `ignoreval = true`
reports found = true: the scan of `t_state` returns at its first entry, tombstoned or not. -/
theorem C18_exists_after_delete :
    (UpdateStateValue wireCodec nestedMapStore addrAA ⟨[109], 2, [[120]], true⟩ .unset).1 = true
    ∧ FetchStateValue wireCodec deletedSubmapStore addrAA ⟨[109], 2, [[120]], false⟩
        = ⟨true, false, none⟩
    ∧ FetchStateValue wireCodec deletedSubmapStore addrAA ⟨[109], 2, [[120]], true⟩
        = ⟨true, true, none⟩
    ∧ (∀ e ∈ deletedSubmapStore.t_stateDataMap.scanPrefix
          (queryKey addrAA ⟨[109], 2, [[120]], true⟩),
        visible deletedSubmapStore e.1 = false) := by
  decide


/-! ## C14: the snapshot buffer -/

theorem bufferKept.same (s : ContractStorage2) : bufferKept s s := ⟨rfl, rfl⟩

theorem bufferKept.chain {a b c : ContractStorage2} (h1 : bufferKept a b)
    (h2 : bufferKept b c) : bufferKept a c :=
  ⟨h2.1.trans h1.1, h2.2.trans h1.2⟩

theorem bufferKept_of_onlyTDeleted {s s' : ContractStorage2} (h : onlyTDeletedChanged s s') :
    bufferKept s s' := by
  unfold onlyTDeletedChanged at h
  constructor <;> rw [h]

theorem UpdateStateData_bufferKept (s : ContractStorage2) (key : Key) (value : Bytes)
    (b : Bool) : bufferKept s (UpdateStateData s key value b) := by
  cases b
  · exact ⟨rfl, rfl⟩
  · exact (bufferKept_of_onlyTDeleted (CleanEmptyMapPlaceholders_frame s key)).chain ⟨rfl, rfl⟩

theorem applyWrites_bufferKept (key : Key) (ws : List (List Bytes × Bytes))
    (s : ContractStorage2) : bufferKept s (applyWrites key ws s) := by
  induction ws generalizing s with
  | nil => exact bufferKept.same s
  | cons w tl ih =>
    exact (UpdateStateData_bufferKept s _ _ true).chain (ih _)

theorem mapHandler_bufferKept (c : ProtoCodec) (key : Key) (value : ProtoScillaVal)
    (s : ContractStorage2) : bufferKept s (mapHandler c key value s).2 := by
  cases value with
  | unset =>
    rw [mapHandler]
    · exact bufferKept.same s
    · intro h; cases h
    · intro e es h; cases h
  | bval b =>
    rw [mapHandler]
    · exact bufferKept.same s
    · intro h; cases h
    · intro e es h; cases h
  | mval m => rw [mapHandler_eq]; exact applyWrites_bufferKept _ _ _

theorem UpdateStateValue_bufferKept (c : ProtoCodec) (s : ContractStorage2) (addr : Address)
    (q : ProtoScillaQuery) (value : ProtoScillaVal) :
    bufferKept s (UpdateStateValue c s addr q value).2 := by
  unfold UpdateStateValue
  dsimp only
  split_ifs
  · exact bufferKept.same s
  · exact bufferKept.same s
  · exact (bufferKept_of_onlyTDeleted (DeleteByPrefix_frame s _)).chain
      (UpdateStateData_bufferKept _ _ _ _)
  · exact bufferKept_of_onlyTDeleted (DeleteByPrefix_frame s _)
  · exact bufferKept.same s
  · exact bufferKept.same s
  · exact UpdateStateData_bufferKept _ _ _ _
  · exact (bufferKept_of_onlyTDeleted (DeleteByPrefix_frame s _)).chain
      (mapHandler_bufferKept _ _ _ _)

theorem overwriteTemp_bufferKept (S : List (Key × Bytes)) (s : ContractStorage2) :
    bufferKept s (overwriteTemp S s) := by
  induction S generalizing s with
  | nil => exact bufferKept.same s
  | cons e tl ih =>
    obtain ⟨k, v⟩ := e
    exact bufferKept.chain ⟨rfl, rfl⟩ (ih _)

theorem commitStates_bufferKept (b : Bool) (S : List (Key × Bytes)) (s : ContractStorage2) :
    bufferKept s (commitStates b S s) := by
  induction S generalizing s with
  | nil => exact bufferKept.same s
  | cons e tl ih =>
    obtain ⟨k, v⟩ := e
    unfold commitStates
    by_cases hmem : s.m_indexToBeDeleted.mem k = true
    · simp only [hmem, if_true]
      exact bufferKept.chain ⟨rfl, rfl⟩ (ih _)
    · simp only [hmem, if_false, Bool.false_eq_true]
      exact bufferKept.chain ⟨rfl, rfl⟩ (ih _)

theorem commitDeletes_bufferKept (b : Bool) (D : List Key) (s : ContractStorage2) :
    bufferKept s (commitDeletes b D s) := by
  induction D generalizing s with
  | nil => exact bufferKept.same s
  | cons k tl ih => exact bufferKept.chain ⟨rfl, rfl⟩ (ih _)

theorem UpdateStateDatasAndToDeletes_bufferKept (env : MergeEnv) (sha256 : Bytes → Bytes)
    (s : ContractStorage2) (addr : Address) (S : SMap Bytes) (D : List Key)
    (temp revertible : Bool) (shardId numShards : Nat) (r : ContractStorage2 × Bytes)
    (h : UpdateStateDatasAndToDeletes env sha256 s addr S D temp revertible shardId numShards
      = some r) : bufferKept s r.1 := by
  unfold UpdateStateDatasAndToDeletes at h
  cases temp with
  | false =>
    simp only [Bool.false_eq_true, if_false, Option.some.injEq] at h
    rw [← h]
    exact (commitStates_bufferKept _ _ _).chain (commitDeletes_bufferKept _ _ _)
  | true =>
    simp only [if_true] at h
    split at h
    · split at h
      · simp only [Option.some.injEq] at h
        rw [← h]
        exact ⟨rfl, rfl⟩
      · cases h
    · simp only [Option.some.injEq] at h
      rw [← h]
      exact (overwriteTemp_bufferKept _ _).chain ⟨rfl, rfl⟩

theorem runCalls_bufferKept (c : ProtoCodec) (env : MergeEnv) (sha256 : Bytes → Bytes)
    (calls : List StorageCall) (s s' : ContractStorage2)
    (h : runCalls c env sha256 calls s = some s') : bufferKept s s' := by
  induction calls generalizing s with
  | nil =>
    simp only [runCalls, Option.some.injEq] at h
    rw [← h]
    exact bufferKept.same s
  | cons call tl ih =>
    cases call with
    | updateValue addr q v =>
      simp only [runCalls] at h
      exact (UpdateStateValue_bufferKept c s addr q v).chain (ih _ h)
    | updateDatas addr S D temp revertible shardId numShards =>
      simp only [runCalls] at h
      split at h
      · rename_i r hr
        exact (UpdateStateDatasAndToDeletes_bufferKept _ _ _ _ _ _ _ _ _ _ r hr).chain (ih _ h)
      · cases h

/-- Without semantic sharding no merge is requested and every sequence of calls runs to
its end. -/
theorem runCalls_total (c : ProtoCodec) (env : MergeEnv) (sha256 : Bytes → Bytes)
    (hs : env.SEMANTIC_SHARDING = false) (calls : List StorageCall) (s : ContractStorage2) :
    ∃ s', runCalls c env sha256 calls s = some s' := by
  induction calls generalizing s with
  | nil => exact ⟨s, rfl⟩
  | cons call tl ih =>
    cases call with
    | updateValue addr q v => exact ih _
    | updateDatas addr S D temp revertible shardId numShards =>
      simp only [runCalls]
      unfold UpdateStateDatasAndToDeletes
      cases temp with
      | false => simp only [Bool.false_eq_true, if_false]; exact ih _
      | true => simp only [hs, Bool.false_and, Bool.false_eq_true, if_false, if_true]; exact ih _

/-- C14: `BufferCurrentState`, then any sequence of `UpdateStateValue` and
`UpdateStateDatasAndToDeletes` calls that runs to its end, then `RevertPrevState` leaves
`t_state` and `m_deleted` equal to their values at the time of `BufferCurrentState`; and
without semantic sharding (no merge, hence no fatal abort) every sequence runs to its end. -/
theorem C14_buffer_then_revert (c : ProtoCodec) (env : MergeEnv) (sha256 : Bytes → Bytes)
    (calls : List StorageCall) (s : ContractStorage2) :
    (∀ s', runCalls c env sha256 calls (BufferCurrentState s) = some s' →
      (RevertPrevState s').t_stateDataMap = s.t_stateDataMap
      ∧ (RevertPrevState s').m_indexToBeDeleted = s.m_indexToBeDeleted)
    ∧ (env.SEMANTIC_SHARDING = false →
      ∃ s', runCalls c env sha256 calls (BufferCurrentState s) = some s') := by
  refine ⟨?_, fun hs => runCalls_total c env sha256 hs calls _⟩
  intro s' h
  have hk := runCalls_bufferKept c env sha256 calls _ s' h
  exact ⟨hk.1, hk.2⟩

/-- C14 witness: five calls on the sample store (a scalar write, a map write, a
tombstone-mode call, a temporary overwrite and a revertible commit) between the snapshot
and the revert. -/
theorem C14_buffer_then_revert_witness :
    (runCalls wireCodec noMergeEnv constDigest sampleCalls
        (BufferCurrentState committedStore)).map
      (fun s' => ((RevertPrevState s').t_stateDataMap, (RevertPrevState s').m_indexToBeDeleted))
      = some (committedStore.t_stateDataMap, committedStore.m_indexToBeDeleted)
    ∧ (runCalls wireCodec noMergeEnv constDigest sampleCalls
        (BufferCurrentState committedStore)).map (fun s' => s'.m_indexToBeDeleted)
      ≠ some committedStore.m_indexToBeDeleted := by
  obtain ⟨s', hs'⟩ := (C14_buffer_then_revert wireCodec noMergeEnv constDigest sampleCalls
    committedStore).2 rfl
  have h := (C14_buffer_then_revert wireCodec noMergeEnv constDigest sampleCalls
    committedStore).1 s' hs'
  refine ⟨?_, by decide⟩
  rw [hs', Option.map_some', h.1, h.2]


/-! ## C13: the reserved entries -/

theorem untouched.unchanged (x : Key) (s : ContractStorage2) : untouched x s s := ⟨rfl, rfl⟩

theorem untouched.andThen {x : Key} {a b c : ContractStorage2} (h1 : untouched x a b)
    (h2 : untouched x b c) : untouched x a c :=
  ⟨h2.1.trans h1.1, h2.2.trans h1.2⟩

/-- Keys under two different separator-free names of one contract: neither is a prefix of
the other. -/
theorem nameKey_apart (addr : Address) {name R : Bytes} (hname : sepFree name) (hR : sepFree R)
    (hne : name ≠ R) (tail : Bytes) :
    startsWith (nameKey addr name ++ tail) (nameKey addr R) = false
    ∧ startsWith (nameKey addr R) (nameKey addr name ++ tail) = false := by
  have e1 : ∀ (n t : Bytes), nameKey addr n ++ t
      = addr.hex ++ SCILLA_INDEX_SEPARATOR :: (n ++ SCILLA_INDEX_SEPARATOR :: t) := by
    intro n t; simp [nameKey]
  have e2 : ∀ (n : Bytes), nameKey addr n
      = addr.hex ++ SCILLA_INDEX_SEPARATOR :: (n ++ SCILLA_INDEX_SEPARATOR :: []) := by
    intro n; simp [nameKey]
  constructor
  · cases h : startsWith (nameKey addr name ++ tail) (nameKey addr R)
    · rfl
    · obtain ⟨t, ht⟩ := startsWith_iff.1 h
      rw [e1, e1] at ht
      have ht' := (List.cons.inj (List.append_cancel_left ht)).2
      exact absurd (sepFree_append_inj hname hR ht').1 hne
  · cases h : startsWith (nameKey addr R) (nameKey addr name ++ tail)
    · rfl
    · obtain ⟨t, ht⟩ := startsWith_iff.1 h
      rw [List.append_assoc, e1, e2] at ht
      have ht' := (List.cons.inj (List.append_cancel_left ht)).2
      exact absurd (sepFree_append_inj hR hname ht').1 (Ne.symm hne)

theorem startsWith_of_contains_scanPrefix {β : Type} (m : SMap β) (pre x : Key)
    (h : SMap.contains (m.scanPrefix pre) x = true) : startsWith x pre = true := by
  rw [SMap.contains_iff_mem_keys] at h
  obtain ⟨e, he, rfl⟩ := List.mem_map.1 h
  unfold SMap.scanPrefix at he
  exact @List.mem_takeWhile_imp (Key × β) (fun e => startsWith e.1 pre) _ _ he

theorem DeleteByPrefix_untouched (s : ContractStorage2) (pre x : Key)
    (hx : startsWith x pre = false) : untouched x s (DeleteByPrefix s pre) := by
  refine ⟨rfl, ?_⟩
  have hc : ∀ {β : Type} (m : SMap β), SMap.contains (m.scanPrefix pre) x = false := by
    intro β m
    cases h : SMap.contains (m.scanPrefix pre) x
    · rfl
    · rw [startsWith_of_contains_scanPrefix m pre x h] at hx
      cases hx
  unfold DeleteByPrefix
  simp only [mem_markDeleted, hc, Bool.or_false]

theorem Clean_untouched (s : ContractStorage2) (addr : Address) (name tail x : Bytes)
    (hx : startsWith (nameKey addr name ++ tail) x = false) :
    untouched x s (CleanEmptyMapPlaceholders s (nameKey addr name ++ tail)).2 := by
  constructor
  · have := CleanEmptyMapPlaceholders_frame s (nameKey addr name ++ tail)
    unfold onlyTDeletedChanged at this
    rw [this]
  · cases h : s.t_indexToBeDeleted.mem x
    · cases h' : (CleanEmptyMapPlaceholders s (nameKey addr name ++ tail)).2.t_indexToBeDeleted.mem x
      · rfl
      · rcases Clean_mem_nameKey s addr name tail x h' with h1 | h1
        · rw [h] at h1; cases h1
        · rw [hx] at h1; cases h1
    · exact Clean_mono s _ x h

theorem UpdateStateData_untouched (s : ContractStorage2) (addr : Address) (name tail x : Bytes)
    (value : Bytes) (b : Bool) (hx : startsWith (nameKey addr name ++ tail) x = false) :
    untouched x s (UpdateStateData s (nameKey addr name ++ tail) value b) := by
  have hne : nameKey addr name ++ tail ≠ x := by
    intro h
    rw [h, startsWith_refl] at hx
    cases hx
  constructor
  · rw [UpdateStateData_t_state, SMap.find?_insert, if_neg hne]
  · cases b
    · unfold UpdateStateData
      simp [SSet.mem_remove, hne]
    · rw [UpdateStateData_mem, (Clean_untouched s addr name tail x hx).2]
      simp [hne]

theorem applyWrites_untouched (addr : Address) (name x : Bytes) (tail : Bytes)
    (hx : ∀ t, startsWith (nameKey addr name ++ t) x = false)
    (ws : List (List Bytes × Bytes)) (s : ContractStorage2) :
    untouched x s (applyWrites (nameKey addr name ++ tail) ws s) := by
  induction ws generalizing s with
  | nil => exact untouched.unchanged x s
  | cons w tl ih =>
    refine untouched.andThen ?_ (ih _)
    show untouched x s (UpdateStateData s (appendIndices (nameKey addr name ++ tail) w.1) w.2 true)
    rw [appendIndices_eq_append, List.append_assoc]
    exact UpdateStateData_untouched s addr name _ x _ true (hx _)

theorem mapHandler_untouched (c : ProtoCodec) (addr : Address) (name x : Bytes) (tail : Bytes)
    (hx : ∀ t, startsWith (nameKey addr name ++ t) x = false)
    (value : ProtoScillaVal) (s : ContractStorage2) :
    untouched x s (mapHandler c (nameKey addr name ++ tail) value s).2 := by
  cases value with
  | unset =>
    rw [mapHandler]
    · exact untouched.unchanged x s
    · intro h; cases h
    · intro e es h; cases h
  | bval b =>
    rw [mapHandler]
    · exact untouched.unchanged x s
    · intro h; cases h
    · intro e es h; cases h
  | mval m => rw [mapHandler_eq]; exact applyWrites_untouched addr name x tail hx _ _

/-- An update under one name leaves alone every key that is neither above nor below the
keys of that name. -/
theorem UpdateStateValue_untouched (c : ProtoCodec) (s : ContractStorage2) (addr : Address)
    (q : ProtoScillaQuery) (value : ProtoScillaVal) (x : Key)
    (hx1 : ∀ t, startsWith (nameKey addr q.name ++ t) x = false)
    (hx2 : ∀ t, startsWith x (nameKey addr q.name ++ t) = false) :
    untouched x s (UpdateStateValue c s addr q value).2 := by
  have hkey : ∀ l : List Bytes, appendIndices (nameKey addr q.name) l
      = nameKey addr q.name ++ appendIndices [] l := fun l => appendIndices_eq_append _ l
  unfold UpdateStateValue
  dsimp only
  split_ifs
  all_goals try dsimp only
  all_goals try simp only [hkey, List.append_assoc]
  · exact untouched.unchanged x s
  · exact untouched.unchanged x s
  · exact untouched.andThen (DeleteByPrefix_untouched s _ x (hx2 _))
      (UpdateStateData_untouched _ addr q.name _ x _ _ (hx1 _))
  · exact DeleteByPrefix_untouched s _ x (hx2 _)
  · exact untouched.unchanged x s
  · exact untouched.unchanged x s
  · exact UpdateStateData_untouched _ addr q.name _ x _ _ (hx1 _)
  · exact untouched.andThen (DeleteByPrefix_untouched s _ x (hx2 _))
      (mapHandler_untouched c addr q.name x _ hx1 _ _)

/-- C13 (as stated) fails: the name `_depth`, a separator and `x` is not a reserved name,
and the scalar write under it returns true and adds the key of the `_depth` entry, which
the database holds, to `t_deleted` (the placeholder cleanup takes the first fragment of
the name for the name). -/
theorem C13_counterexample :
    ((⟨FIELDS_MAP_DEPTH_INDICATOR ++ [SCILLA_INDEX_SEPARATOR, 120], 0, [], false⟩ :
        ProtoScillaQuery).name ≠ FIELDS_MAP_DEPTH_INDICATOR
      ∧ (⟨FIELDS_MAP_DEPTH_INDICATOR ++ [SCILLA_INDEX_SEPARATOR, 120], 0, [], false⟩ :
        ProtoScillaQuery).name ≠ SHARDING_INFO_INDICATOR)
    ∧ (UpdateStateValue wireCodec depthEntryStore addrAA
        ⟨FIELDS_MAP_DEPTH_INDICATOR ++ [SCILLA_INDEX_SEPARATOR, 120], 0, [], false⟩
        (.bval [1])).1 = true
    ∧ depthEntryStore.t_indexToBeDeleted.mem (nameKey addrAA FIELDS_MAP_DEPTH_INDICATOR) = false
    ∧ (UpdateStateValue wireCodec depthEntryStore addrAA
        ⟨FIELDS_MAP_DEPTH_INDICATOR ++ [SCILLA_INDEX_SEPARATOR, 120], 0, [], false⟩
        (.bval [1])).2.t_indexToBeDeleted.mem (nameKey addrAA FIELDS_MAP_DEPTH_INDICATOR)
          = true := by
  decide

/-- C13 (amended): for every state, address and `UpdateStateValue` call whose query name
holds no separator byte (any indices, any value, either mode), the `t_state` entry and the
`t_deleted` membership of the keys `addr SEP _depth SEP` and `addr SEP _sharding SEP` are
the same after the call as before it. -/
theorem C13_reserved_untouched (c : ProtoCodec) (s : ContractStorage2) (addr : Address)
    (q : ProtoScillaQuery) (value : ProtoScillaVal) (hsep : sepFree q.name) :
    untouched (nameKey addr FIELDS_MAP_DEPTH_INDICATOR) s (UpdateStateValue c s addr q value).2
    ∧ untouched (nameKey addr SHARDING_INFO_INDICATOR) s
        (UpdateStateValue c s addr q value).2 := by
  by_cases hres : q.name = FIELDS_MAP_DEPTH_INDICATOR ∨ q.name = SHARDING_INFO_INDICATOR
  · have : UpdateStateValue c s addr q value = (false, s) := by
      unfold UpdateStateValue
      simp only [hres, if_true]
    rw [this]
    exact ⟨untouched.unchanged _ s, untouched.unchanged _ s⟩
  · have h1 : q.name ≠ FIELDS_MAP_DEPTH_INDICATOR := fun h => hres (Or.inl h)
    have h2 : q.name ≠ SHARDING_INFO_INDICATOR := fun h => hres (Or.inr h)
    have s1 : sepFree FIELDS_MAP_DEPTH_INDICATOR := by unfold sepFree; decide
    have s2 : sepFree SHARDING_INFO_INDICATOR := by unfold sepFree; decide
    exact ⟨UpdateStateValue_untouched c s addr q value _
        (fun t => (nameKey_apart addr hsep s1 h1 t).1)
        (fun t => by
          have := (nameKey_apart addr hsep s1 h1 t).2
          exact this),
      UpdateStateValue_untouched c s addr q value _
        (fun t => (nameKey_apart addr hsep s2 h2 t).1)
        (fun t => (nameKey_apart addr hsep s2 h2 t).2)⟩

/-- C13 witness: a map write under the name `m` on the store whose database holds the
`_depth` entry. -/
theorem C13_reserved_untouched_witness :
    sepFree (⟨[109], 1, [], false⟩ : ProtoScillaQuery).name
    ∧ untouched (nameKey addrAA FIELDS_MAP_DEPTH_INDICATOR) depthEntryStore
        (UpdateStateValue wireCodec depthEntryStore addrAA ⟨[109], 1, [], false⟩
          (.mval [([120], .bval [1])])).2 :=
  ⟨by unfold sepFree; decide,
    (C13_reserved_untouched wireCodec depthEntryStore addrAA ⟨[109], 1, [], false⟩
      (.mval [([120], .bval [1])]) (by unfold sepFree; decide)).1⟩


/-! ## C15: the state hash -/

theorem FetchStateDataForKey_committed (s : ContractStorage2) (key : Key) :
    FetchStateDataForKey s key false
      = (emplaceAll (emplaceAll [] (s.m_stateDataMap.scanPrefix key))
          (s.m_stateDataDB.scanPrefix key)).filter (fun e => !s.m_indexToBeDeleted.mem e.1) := by
  unfold FetchStateDataForKey
  simp

theorem find?_FetchStateDataForKey {s : ContractStorage2} (h : s.WF) (key : Key) (temp : Bool)
    (x : Key) :
    (FetchStateDataForKey s key temp).find? x
      = if startsWith x key then viewLookup s temp x else none := by
  cases temp with
  | true =>
    rw [FetchStateDataForKey_temp]
    have := find?_visibleEntries h key x
    unfold visibleEntries at this
    rw [this]
    unfold viewLookup
    by_cases h1 : visible s x = true <;> by_cases h2 : startsWith x key = true <;>
      simp [h1, h2]
  | false =>
    rw [FetchStateDataForKey_committed]
    rw [SMap.find?_filter_key _ (fun k => !s.m_indexToBeDeleted.mem k), find?_emplaceAll,
      find?_emplaceAll, SMap.find?_scanPrefix h.m, SMap.find?_scanPrefix h.db]
    unfold viewLookup
    by_cases h1 : s.m_indexToBeDeleted.mem x = true <;> by_cases h2 : startsWith x key = true <;>
      simp [h1, h2, SMap.find?]

theorem WF_FetchStateDataForKey (s : ContractStorage2) (key : Key) (temp : Bool) :
    SMap.WF (FetchStateDataForKey s key temp) := by
  cases temp with
  | true => rw [FetchStateDataForKey_temp]; exact (WF_fetchEntries s key).filter _
  | false =>
    rw [FetchStateDataForKey_committed]
    exact (WF_emplaceAll _ (WF_emplaceAll _ SMap.WF.nil)).filter _

theorem UpdateStateDatasAndToDeletes_hash (env : MergeEnv) (sha256 : Bytes → Bytes)
    (s : ContractStorage2) (addr : Address) (S : SMap Bytes) (D : List Key)
    (temp revertible : Bool) (shardId numShards : Nat) (r : ContractStorage2 × Bytes)
    (h : UpdateStateDatasAndToDeletes env sha256 s addr S D temp revertible shardId numShards
      = some r) : r.2 = GetContractStateHashCore sha256 r.1 addr temp := by
  unfold UpdateStateDatasAndToDeletes at h
  cases temp with
  | false =>
    simp only [Bool.false_eq_true, if_false, Option.some.injEq] at h
    rw [← h]
  | true =>
    simp only [if_true] at h
    split at h
    · split at h
      · simp only [Option.some.injEq] at h
        rw [← h]
      · cases h
    · simp only [Option.some.injEq] at h
      rw [← h]

/-- C15: for every state and address, `GetContractStateHash(addr, temp)` is, for the null
address, the all-zero hash, and otherwise the SHA-256 digest of the concatenation of key
bytes followed by value bytes over a table `L` in ascending byte order of key that holds
exactly the entries visible in the selected view whose key starts with the address hex;
and the hash `UpdateStateDatasAndToDeletes` returns is that of the store it leaves. -/
theorem C15_state_hash (env : MergeEnv) (sha256 : Bytes → Bytes) (s : ContractStorage2)
    (addr : Address) (temp ext : Bool) (hwf : s.WF) :
    (IsNullAddress addr = true →
      GetContractStateHash sha256 s addr temp ext = List.replicate 32 0)
    ∧ (IsNullAddress addr = false →
      ∃ L : SMap Bytes, SMap.WF L
        ∧ (∀ k v, (k, v) ∈ L ↔ (startsWith k addr.hex = true ∧ viewLookup s temp k = some v))
        ∧ GetContractStateHash sha256 s addr temp ext = sha256 (hashInput L))
    ∧ (∀ S D revertible shardId numShards r,
      UpdateStateDatasAndToDeletes env sha256 s addr S D temp revertible shardId numShards
          = some r →
        r.2 = GetContractStateHash sha256 r.1 addr temp ext) := by
  have hG : ∀ s', GetContractStateHash sha256 s' addr temp ext
      = GetContractStateHashCore sha256 s' addr temp := by
    intro s'; unfold GetContractStateHash; cases ext <;> rfl
  refine ⟨?_, ?_, ?_⟩
  · intro hnull
    rw [hG]
    unfold GetContractStateHashCore
    simp only [hnull, if_true]
  · intro hnn
    refine ⟨FetchStateDataForKey s addr.hex temp, WF_FetchStateDataForKey s _ temp, ?_, ?_⟩
    · intro k v
      constructor
      · intro hmem
        have hf := (WF_FetchStateDataForKey s addr.hex temp).find?_of_mem hmem
        rw [find?_FetchStateDataForKey hwf] at hf
        by_cases hsw : startsWith k addr.hex = true
        · rw [if_pos hsw] at hf; exact ⟨hsw, hf⟩
        · rw [if_neg hsw] at hf; cases hf
      · rintro ⟨hsw, hv⟩
        apply SMap.mem_of_find?
        rw [find?_FetchStateDataForKey hwf, if_pos hsw, hv]
    · rw [hG]
      unfold GetContractStateHashCore hashInput GenerateStorageKey
      simp only [hnn, Bool.false_eq_true, if_false, if_true]
  · intro S D revertible shardId numShards r hr
    rw [hG]
    exact UpdateStateDatasAndToDeletes_hash env sha256 s addr S D temp revertible shardId
      numShards r hr

theorem twoContractStore_WF : twoContractStore.WF :=
  ⟨by unfold SMap.WF; decide, by unfold SMap.WF; decide, by unfold SMap.WF; decide,
    by unfold SMap.WF; decide, by unfold SMap.WF; decide, by unfold SMap.WF; decide,
    by unfold SMap.WF; decide, by unfold SMap.WF; decide, by unfold SMap.WF; decide⟩

/-- C15 witness: on the sample store the hash input for `addrAA` in the temporary view is
the keys and values of `c ↦ [4]`, `e ↦ [5]` and `f ↦ [6]`, and in the committed view those
of `c ↦ [4]` and `e ↦ [5]`; the commit of `g ↦ [8]` returns the hash of the store it leaves. -/
theorem C15_state_hash_witness :
    GetContractStateHash idDigest twoContractStore addrAA true false
        = hashInput [(nameKey addrAA [99], [4]), (nameKey addrAA [101], [5]),
            (nameKey addrAA [102], [6])]
    ∧ GetContractStateHash idDigest twoContractStore addrAA false false
        = hashInput [(nameKey addrAA [99], [4]), (nameKey addrAA [101], [5])]
    ∧ (∀ r, UpdateStateDatasAndToDeletes noMergeEnv idDigest twoContractStore addrAA
          [(nameKey addrAA [104], [8])] [] false false 0 1 = some r →
        r.2 = GetContractStateHash idDigest r.1 addrAA false false) :=
  ⟨by rfl, by rfl,
    fun r hr => (C15_state_hash noMergeEnv idDigest twoContractStore addrAA false false
      twoContractStore_WF).2.2 _ _ _ _ _ r hr⟩


/-! ## Hexadecimal strings -/

theorem FromHex_hexDigit : ∀ n, n < 16 → POW.FromHex (hexDigit n) = (n : Int) := by
  decide

theorem hexDigit_ne_x : ∀ n, n < 16 → hexDigit n ≠ 120 := by
  decide

theorem toUint8_hex_pair (b : Nat) :
    POW.toUint8 (POW.FromHex (hexDigit (b % 256 / 16)) * 16
      + POW.FromHex (hexDigit (b % 256 % 16))) = b % 256 := by
  rw [FromHex_hexDigit _ (by omega), FromHex_hexDigit _ (by omega)]
  unfold POW.toUint8
  have h : ((b % 256 / 16 : Nat) : Int) * 16 + ((b % 256 % 16 : Nat) : Int)
      = ((b % 256 : Nat) : Int) := by omega
  rw [h]
  omega

theorem hexPairs_hex (l : Bytes) :
    POW.hexPairs (l.flatMap (fun b => [hexDigit (b % 256 / 16), hexDigit (b % 256 % 16)]))
      = l.map (fun b => b % 256) := by
  induction l with
  | nil => rfl
  | cons x xs ih =>
    rw [List.flatMap_cons, List.map_cons]
    show POW.hexPairs (hexDigit (x % 256 / 16) :: hexDigit (x % 256 % 16)
      :: xs.flatMap (fun b => [hexDigit (b % 256 / 16), hexDigit (b % 256 % 16)])) = _
    rw [POW.hexPairs, toUint8_hex_pair, ih]

theorem length_hex (l : Bytes) :
    (l.flatMap (fun b => [hexDigit (b % 256 / 16), hexDigit (b % 256 % 16)])).length
      = 2 * l.length := by
  induction l with
  | nil => rfl
  | cons x xs ih =>
    rw [List.flatMap_cons, List.length_append, ih]
    simp only [List.length_cons, List.length_nil]
    omega

/-- Decoding the hexadecimal string of the first `s` bytes gives those bytes back. -/
theorem HexStringToBytes_BytesToHexString (b : Bytes) (s : Nat) :
    POW.HexStringToBytes (POW.BytesToHexString b s) = (b.take s).map (fun x => x % 256) := by
  unfold POW.HexStringToBytes POW.BytesToHexString
  have hx : ¬ (((b.take s).flatMap
        (fun b => [hexDigit (b % 256 / 16), hexDigit (b % 256 % 16)])).getD 0 0 = 48
      ∧ ((b.take s).flatMap
        (fun b => [hexDigit (b % 256 / 16), hexDigit (b % 256 % 16)])).getD 1 0 = 120) := by
    rintro ⟨_, h1⟩
    cases hl : b.take s with
    | nil => rw [hl] at h1; simp at h1
    | cons x xs =>
      rw [hl, List.flatMap_cons] at h1
      simp only [List.cons_append, List.nil_append, List.getD_cons_succ, List.getD_cons_zero]
        at h1
      exact hexDigit_ne_x _ (by omega) h1
  have hlen : ¬ ((b.take s).flatMap
      (fun b => [hexDigit (b % 256 / 16), hexDigit (b % 256 % 16)])).length % 2 = 1 := by
    rw [length_hex]; omega
  simp only [hx, if_false, hlen, List.drop_zero]
  exact hexPairs_hex _

/-! ## C19, C20: the difficulty boundary -/

theorem boundary_bytes : ∀ d, d < 256 →
    (((List.range (d % 256 / 8)).foldl (fun b i => b.set i 0)
        (List.replicate UINT256_SIZE 0xFF)).set (d % 256 / 8)
          (POW.masks.getD (d % 256 % 8) 0)).map (fun x => x % 256)
      = (List.range 32).map (boundaryByte d) := by
  set_option maxRecDepth 100000 in decide


theorem DifficultyLevelInInt_eq (d : Nat) (hd : d < 256) :
    POW.DifficultyLevelInInt d = some ((List.range 32).map (boundaryByte d)) := by
  unfold POW.DifficultyLevelInInt POW.StringToBlockhash
  simp only [HexStringToBytes_BytesToHexString]
  have hlen : ∀ k, ((List.range k).foldl (fun (b : List Nat) i => b.set i 0)
      (List.replicate UINT256_SIZE 0xFF)).length = UINT256_SIZE := by
    intro k
    induction k with
    | zero => simp
    | succ k ih => rw [List.range_succ, List.foldl_append]; simp [ih]
  have htake : ∀ l : List Nat, l.length = UINT256_SIZE → l.take UINT256_SIZE = l := by
    intro l hl; rw [← hl]; exact List.take_length l
  rw [htake _ (by rw [List.length_set]; exact hlen _), boundary_bytes d hd]
  simp

/-- C19: for every difficulty `d` in 0..255, `DifficultyLevelInInt(d)` returns the 32-byte
value whose byte at each index `i` is `0x00` for `i < d / 8`, entry `d mod 8` of the table
`{0xFF, 0x7F, 0x3F, 0x1F, 0x0F, 0x07, 0x03, 0x01}` for `i = d / 8` and `0xFF` above, and
the index `d / 8` is inside the 32 bytes. -/
theorem C19_difficulty_pattern (d : Nat) (hd : d < 256) :
    (∃ r, POW.DifficultyLevelInInt d = some r ∧ r.length = 32
      ∧ ∀ i, i < 32 → r.getD i 0 =
          if i < d / 8 then 0x00
          else if i = d / 8 then
            [0xFF, 0x7F, 0x3F, 0x1F, 0x0F, 0x07, 0x03, 0x01].getD (d % 8) 0
          else 0xFF)
    ∧ d / 8 < UINT256_SIZE := by
  refine ⟨⟨_, DifficultyLevelInInt_eq d hd, by simp, ?_⟩, by unfold UINT256_SIZE; omega⟩
  intro i hi
  rw [List.getD_eq_getElem _ _ (by simp; exact hi)]
  simp [boundaryByte]

/-- C19 witness: the boundary for difficulty 10 is `00 3F FF … FF`. -/
theorem C19_difficulty_pattern_witness :
    POW.DifficultyLevelInInt 10 = some (0x00 :: 0x3F :: List.replicate 30 0xFF) := by
  obtain ⟨⟨r, hr, hlen, hb⟩, _⟩ := C19_difficulty_pattern 10 (by decide)
  rw [hr]
  congr 1
  apply List.ext_getElem
  · rw [hlen]; rfl
  · intro i h1 h2
    have hi : i < 32 := by rw [hlen] at h1; exact h1
    have := hb i hi
    rw [List.getD_eq_getElem _ _ h1] at this
    rw [this]
    interval_cases i <;> rfl

/-- C20 (as stated) fails: for difficulty 0 the boundary is 32 bytes `0xFF`, the integer
`2^256 - 1`; no 32-byte value is `2^256`. For difficulty 1 it is `2^255 - 1`. -/
theorem C20_counterexample :
    (POW.DifficultyLevelInInt 0).map beNat = some (2 ^ 256 - 1)
    ∧ (POW.DifficultyLevelInInt 0).map beNat ≠ some (2 ^ (256 - 0))
    ∧ (POW.DifficultyLevelInInt 1).map beNat ≠ some (2 ^ (256 - 1)) := by
  rw [DifficultyLevelInInt_eq 0 (by decide), DifficultyLevelInInt_eq 1 (by decide)]
  decide

theorem beNat_boundary : ∀ d, d < 256 →
    beNat ((List.range 32).map (boundaryByte d)) = 2 ^ (256 - d) - 1 := by
  set_option maxRecDepth 100000 in decide

/-- C20 (amended): for every difficulty `d` in 0..255, the boundary returned by
`DifficultyLevelInInt(d)`, read as a big-endian 256-bit unsigned integer, equals
`2^(256 - d) - 1`. -/
theorem C20_boundary_value (d : Nat) (hd : d < 256) :
    (POW.DifficultyLevelInInt d).map beNat = some (2 ^ (256 - d) - 1) := by
  rw [DifficultyLevelInInt_eq d hd, Option.map_some', beNat_boundary d hd]

/-- C20 witness: the boundary for difficulty 8 is `2^248 - 1`. -/
theorem C20_boundary_value_witness :
    (POW.DifficultyLevelInInt 8).map beNat = some (2 ^ 248 - 1) :=
  C20_boundary_value 8 (by decide)


/-! ## Nodes of the fetched value -/

theorem nodeAt_unset_getD (r : List Bytes) :
    (nodeAt r ProtoScillaVal.unset).getD .unset = .unset := by
  cases r with
  | nil => rfl
  | cons i r => rfl

theorem nodeAt_cons_unset (i : Bytes) (r : List Bytes) :
    nodeAt (i :: r) ProtoScillaVal.unset = none := rfl

/-- The node at `p` after an operation at a path through `p`. -/
theorem nodeAt_applyAt_append (p t : List Bytes) (op : NodeOp) (v : ProtoScillaVal) :
    nodeAt p (applyAt (p ++ t) op v) = some (applyAt t op ((nodeAt p v).getD .unset)) := by
  induction p generalizing v with
  | nil => rfl
  | cons i r ih =>
    rw [List.cons_append, applyAt, nodeAt, mutableM_mval, SMap.find?_insert, if_pos rfl]
    simp only
    rw [ih]
    cases h : SMap.find? v.mutableM i with
    | none =>
      simp only [Option.getD_none, nodeAt, h]
      rw [nodeAt_unset_getD]
    | some x => simp only [Option.getD_some, nodeAt, h]

/-- The node at `p` is not affected by an operation at a path that does not pass through
`p`, unless that operation sets bytes above `p`. -/
theorem nodeAt_applyAt_other (p' : List Bytes) (op : NodeOp) :
    ∀ (p : List Bytes) (v : ProtoScillaVal), ¬ p <+: p' →
      (op = .createMap ∨ ¬ p' <+: p) → nodeAt p (applyAt p' op v) = nodeAt p v := by
  induction p' with
  | nil =>
    intro p v hp hop
    cases p with
    | nil => exact absurd (List.prefix_refl _) hp
    | cons i r =>
      rcases hop with rfl | h
      · rw [applyAt, nodeAt, nodeAt, mutableM_mval]
      · exact absurd List.nil_prefix h
  | cons i' r' ih =>
    intro p v hp hop
    cases p with
    | nil => exact absurd List.nil_prefix hp
    | cons i r =>
      rw [applyAt, nodeAt, nodeAt, mutableM_mval, SMap.find?_insert]
      by_cases hi : i' = i
      · subst hi
        simp only [if_true]
        have hr : ¬ r <+: r' := fun h => hp ((List.cons_prefix_cons).2 ⟨rfl, h⟩)
        have hop' : op = .createMap ∨ ¬ r' <+: r := by
          rcases hop with h | h
          · exact Or.inl h
          · exact Or.inr (fun h' => h ((List.cons_prefix_cons).2 ⟨rfl, h'⟩))
        rw [ih r _ hr hop']
        cases h : SMap.find? v.mutableM i' with
        | none =>
          simp only [Option.getD_none]
          cases r with
          | nil => exact absurd List.nil_prefix hr
          | cons j r2 => rfl
        | some x => simp only [Option.getD_some]
      · simp only [hi, if_false]

/-- An operation of the fetch loop below depth `D` leaves a map at `p` a map, when `p` is
shorter than `D`. -/
theorem isMap_applyAt (D : Nat) (p : List Bytes) (hp : p.length < D) (w : List Bytes × Bytes)
    (v : ProtoScillaVal) (h : ∃ m, nodeAt p v = some (.mval m)) :
    ∃ m, nodeAt p (applyAt w.1 (opFor D w) v) = some (.mval m) := by
  by_cases hpre : p <+: w.1
  · obtain ⟨t, ht⟩ := hpre
    rw [← ht, nodeAt_applyAt_append]
    cases t with
    | nil =>
      have hw : w.1.length < D := by rw [← ht]; simpa using hp
      unfold opFor
      simp only [hw, if_true, applyAt]
      exact ⟨_, rfl⟩
    | cons j t2 => exact ⟨_, by rw [applyAt]⟩
  · rw [nodeAt_applyAt_other _ _ _ _ hpre]
    · exact h
    · unfold opFor
      by_cases hw : w.1.length < D
      · exact Or.inl (by simp only [hw, if_true])
      · exact Or.inr (fun h' => by
          have := h'.length_le
          omega)

theorem isMap_buildW (D : Nat) (p : List Bytes) (hp : p.length < D)
    (ws : List (List Bytes × Bytes)) (v : ProtoScillaVal)
    (h : ∃ m, nodeAt p v = some (.mval m)) :
    ∃ m, nodeAt p (buildW D ws v) = some (.mval m) := by
  induction ws generalizing v with
  | nil => exact h
  | cons w tl ih =>
    rw [buildW_cons]
    exact ih _ (isMap_applyAt D p hp w v h)

/-- An entry above depth `D` leaves a map at its index path in the value built. -/
theorem isMap_buildW_of_mem (D : Nat) (p : List Bytes) (hp : p.length < D)
    (ws : List (List Bytes × Bytes)) (b : Bytes) (hmem : (p, b) ∈ ws) (v : ProtoScillaVal) :
    ∃ m, nodeAt p (buildW D ws v) = some (.mval m) := by
  induction ws generalizing v with
  | nil => cases hmem
  | cons w tl ih =>
    rw [buildW_cons]
    rcases List.mem_cons.1 hmem with h | h
    · apply isMap_buildW D p hp
      rw [← h]
      have := nodeAt_applyAt_append p [] (opFor D (p, b)) v
      rw [List.append_nil] at this
      rw [this]
      unfold opFor
      simp only [hp, if_true, applyAt]
      exact ⟨_, rfl⟩
    · exact ih h _

/-- With no entry strictly below `p`, the node at `p` holds no entry. -/
theorem empty_buildW (D : Nat) (p : List Bytes) (hp : p.length < D)
    (ws : List (List Bytes × Bytes)) (hno : ∀ w ∈ ws, p <+: w.1 → w.1 = p)
    (v : ProtoScillaVal)
    (h : ∀ x, nodeAt p v = some x → x = .unset ∨ x = .mval []) :
    ∀ x, nodeAt p (buildW D ws v) = some x → x = .unset ∨ x = .mval [] := by
  induction ws generalizing v with
  | nil => exact h
  | cons w tl ih =>
    rw [buildW_cons]
    apply ih (fun w' hw' => hno w' (List.mem_cons_of_mem _ hw'))
    intro x hx
    by_cases hpre : p <+: w.1
    · have hw := hno w (List.mem_cons_self _ _) hpre
      have := nodeAt_applyAt_append p [] (opFor D w) v
      rw [List.append_nil] at this
      have hlt : w.1.length < D := by rw [hw]; exact hp
      rw [hw, this] at hx
      unfold opFor at hx
      simp only [hlt, if_true, applyAt, Option.some.injEq] at hx
      right
      rw [← hx]
      cases hn : nodeAt p v with
      | none => rfl
      | some y =>
        rcases h y hn with rfl | rfl
        · rfl
        · rfl
    · rw [nodeAt_applyAt_other _ _ _ _ hpre] at hx
      · exact h x hx
      · unfold opFor
        by_cases hw : w.1.length < D
        · exact Or.inl (by simp only [hw, if_true])
        · exact Or.inr (fun h' => by
            have := h'.length_le
            omega)


/-! ## C17: entries above the leaves -/

/-- The fetch loop fails when a visible entry above the leaves is not an encoded empty map. -/
theorem fetchLoop_bad_entry (c : ProtoCodec) (s : ContractStorage2) (q : ProtoScillaQuery)
    (key : Key) (hq : q.indices.length ≤ q.mapdepth) (l : List (Key × Bytes))
    (hbad : ∃ e ∈ l, visible s e.1 = true ∧ interiorEntry q key e = true
      ∧ c.isEmptyMap e.2 = false)
    (v : ProtoScillaVal) (n : Nat) : fetchLoop c s q key l v n = none := by
  induction l generalizing v n with
  | nil => obtain ⟨e, he, _⟩ := hbad; cases he
  | cons hd tl ih =>
    obtain ⟨k, b⟩ := hd
    obtain ⟨e, he, hv, hint, hemp⟩ := hbad
    rcases List.mem_cons.1 he with rfl | he'
    · unfold visible at hv
      simp only [Bool.and_eq_true, Bool.not_eq_true'] at hv
      unfold interiorEntry at hint
      simp only [decide_eq_true_eq] at hint
      have hc : q.indices.length + (residualIndices key k).length < q.mapdepth := by omega
      simp only at hemp
      simp only [fetchLoop, hv.1, hv.2, Bool.false_eq_true, if_false, hc, if_true, hemp]
      split_ifs <;> rfl
    · have ih' := fun v n => ih ⟨e, he', hv, hint, hemp⟩ v n
      simp only [fetchLoop, ih']
      split_ifs <;> rfl

theorem mem_visibleEntries {s : ContractStorage2} {key : Key} {e : Key × Bytes}
    (h : e ∈ visibleEntries s key) : e ∈ fetchEntries s key ∧ visible s e.1 = true := by
  unfold visibleEntries at h
  exact List.mem_filter.1 h

/-- C17 (as stated) fails: after the write `m := {}` to a depth-2 map and the
tombstone-mode call for `m[x][y]`, the two visible entries under the key of `m` are both
above the leaves and both decode to an empty map, and the fetch of `m` returns `{x ↦ {}}`:
the entry at the empty index path appears in the result as a map that is not empty. -/
theorem C17_counterexample :
    (∀ e ∈ visibleEntries emptyMapThenDelete (queryKey addrAA ⟨[109], 2, [], false⟩),
        interiorEntry ⟨[109], 2, [], false⟩ (queryKey addrAA ⟨[109], 2, [], false⟩) e = true
          ∧ wireCodec.isEmptyMap e.2 = true)
    ∧ (nameKey addrAA [109], wireCodec.emptyMapBytes)
        ∈ visibleEntries emptyMapThenDelete (queryKey addrAA ⟨[109], 2, [], false⟩)
    ∧ residualIndices (queryKey addrAA ⟨[109], 2, [], false⟩) (nameKey addrAA [109]) = []
    ∧ FetchStateValue wireCodec emptyMapThenDelete addrAA ⟨[109], 2, [], false⟩
        = ⟨true, true, some (.mval [([120], .mval [])])⟩
    ∧ nodeAt [] (.mval [([120], .mval [])]) ≠ some (.mval []) := by
  decide

/-- C17 (amended): in a map fetch (`|indices| < mapdepth`, `ignoreval = false`, non-reserved
name), if some visible entry under the queried prefix has fewer residual indices than
`mapdepth - |indices|` and its bytes do not decode to an empty map, `FetchStateValue`
returns false; when every such entry does decode to an empty map, then for each of them
the call returns true, it reports found = true with a value when fewer than 2^32 entries
are visible, and a value it returns holds a map at the index path of the entry, which is
empty when no visible entry lies deeper under that path. -/
theorem C17_interior_entries (c : ProtoCodec) (s : ContractStorage2) (addr : Address)
    (q : ProtoScillaQuery) (hwf : s.WF)
    (hname : q.name ≠ FIELDS_MAP_DEPTH_INDICATOR ∧ q.name ≠ SHARDING_INFO_INDICATOR)
    (hdepth : q.indices.length < q.mapdepth) (hig : q.ignoreval = false) :
    ((∃ e ∈ visibleEntries s (queryKey addr q),
        interiorEntry q (queryKey addr q) e = true ∧ c.isEmptyMap e.2 = false) →
      FetchStateValue c s addr q = ⟨false, true, none⟩)
    ∧ ((∀ e ∈ visibleEntries s (queryKey addr q),
          interiorEntry q (queryKey addr q) e = true → c.isEmptyMap e.2 = true) →
      ∀ e ∈ visibleEntries s (queryKey addr q), interiorEntry q (queryKey addr q) e = true →
        (FetchStateValue c s addr q).ok = true
        ∧ ((visibleEntries s (queryKey addr q)).length < 2 ^ 32 →
            (FetchStateValue c s addr q).foundVal = true
            ∧ (FetchStateValue c s addr q).dst ≠ none)
        ∧ ∀ v, (FetchStateValue c s addr q).dst = some v →
            ∃ m, nodeAt (residualIndices (queryKey addr q) e.1) v = some (.mval m)
              ∧ ((∀ e' ∈ visibleEntries s (queryKey addr q),
                    residualIndices (queryKey addr q) e.1
                        <+: residualIndices (queryKey addr q) e'.1 →
                      residualIndices (queryKey addr q) e'.1
                        = residualIndices (queryKey addr q) e.1) →
                  m = [])) := by
  have hq : q.indices.length ≤ q.mapdepth := Nat.le_of_lt hdepth
  have hnonempty : ∀ e, e ∈ visibleEntries s (queryKey addr q) →
      (fetchEntries s (queryKey addr q)).isEmpty = false := by
    intro e he
    cases hE : fetchEntries s (queryKey addr q) with
    | nil => have h1 := (mem_visibleEntries he).1; rw [hE] at h1; cases h1
    | cons a l => rfl
  constructor
  · rintro ⟨e, he, hint, hemp⟩
    rw [FetchStateValue_map c s addr q hname hdepth, fetchMap_eq c s q _ hig, hnonempty e he,
      fetchLoop_bad_entry c s q _ hq _
        ⟨e, (mem_visibleEntries he).1, (mem_visibleEntries he).2, hint, hemp⟩]
    rfl
  · intro hall e he hint
    have hloop := fetchLoop_build c s q (queryKey addr q) hq (visibleEntries s (queryKey addr q))
      (fun e he => (mem_visibleEntries he).2)
      (fun e he => (stored_of_find?_fetchEntries hwf
        ((WF_fetchEntries s _).find?_of_mem (mem_visibleEntries he).1)).1)
      (fun e he hlt => hall e he (by unfold interiorEntry; simpa using hlt))
      .unset 0 (by decide)
    have hfetch : FetchStateValue c s addr q
        = if ((0 + (visibleEntries s (queryKey addr q)).length) % 2 ^ 32) = 0
          then ⟨true, false, none⟩
          else ⟨true, true, some (buildW (q.mapdepth - q.indices.length)
            ((visibleEntries s (queryKey addr q)).map
              (fun e => (residualIndices (queryKey addr q) e.1, e.2))) .unset)⟩ := by
      rw [FetchStateValue_map c s addr q hname hdepth, fetchMap_eq c s q _ hig,
        hnonempty e he, ← fetchLoop_filter_visible]
      unfold visibleEntries at hloop
      rw [hloop]
      rfl
    have hp : (residualIndices (queryKey addr q) e.1).length < q.mapdepth - q.indices.length := by
      unfold interiorEntry at hint
      simpa using hint
    rw [hfetch]
    refine ⟨by split_ifs <;> rfl, ?_, ?_⟩
    · intro hlen
      have hpos : (visibleEntries s (queryKey addr q)).length ≠ 0 := by
        intro h0
        rw [List.length_eq_zero.1 h0] at he
        cases he
      have : ¬ (0 + (visibleEntries s (queryKey addr q)).length) % 2 ^ 32 = 0 := by
        rw [Nat.zero_add, Nat.mod_eq_of_lt hlen]; exact hpos
      simp only [this, if_false]
      exact ⟨trivial, fun h => by cases h⟩
    · intro v hv
      split_ifs at hv with h0
      · simp only [Option.some.injEq] at hv
        subst hv
        have hmem : (residualIndices (queryKey addr q) e.1, e.2)
            ∈ (visibleEntries s (queryKey addr q)).map
              (fun e => (residualIndices (queryKey addr q) e.1, e.2)) :=
          List.mem_map.2 ⟨e, he, rfl⟩
        obtain ⟨m, hm⟩ := isMap_buildW_of_mem _ _ hp _ _ hmem .unset
        refine ⟨m, hm, ?_⟩
        intro hno
        have hempty := empty_buildW (q.mapdepth - q.indices.length) _ hp
          ((visibleEntries s (queryKey addr q)).map
            (fun e => (residualIndices (queryKey addr q) e.1, e.2)))
          (fun w hw hpre => by
            obtain ⟨e', he', rfl⟩ := List.mem_map.1 hw
            exact hno e' he' hpre)
          .unset
          (fun x hx => by
            cases hr : residualIndices (queryKey addr q) e.1 with
            | nil => rw [hr] at hx; simp only [nodeAt, Option.some.injEq] at hx; exact Or.inl hx.symm
            | cons i r => rw [hr, nodeAt_cons_unset] at hx; cases hx)
          (.mval m) hm
        rcases hempty with h | h
        · cases h
        · injection h


theorem dbOnlyStore_WF : dbOnlyStore.WF :=
  ⟨by unfold SMap.WF; decide, by unfold SMap.WF; decide, by unfold SMap.WF; decide,
    by unfold SMap.WF; decide, by unfold SMap.WF; decide, by unfold SMap.WF; decide,
    by unfold SMap.WF; decide, by unfold SMap.WF; decide, by unfold SMap.WF; decide⟩

theorem emptyMapWritten_WF : emptyMapWritten.WF :=
  ⟨by unfold SMap.WF; decide, by unfold SMap.WF; decide, by unfold SMap.WF; decide,
    by unfold SMap.WF; decide, by unfold SMap.WF; decide, by unfold SMap.WF; decide,
    by unfold SMap.WF; decide, by unfold SMap.WF; decide, by unfold SMap.WF; decide⟩

/-- C17 witness: fetched as a depth-1 map, the scalar `c ↦ [7]` of the sample store is an
entry above the leaves that is not an empty map, and the fetch fails; the placeholder left
by the write `m := {}` is one that is, and the fetch of `m` returns true, found. -/
theorem C17_interior_entries_witness :
    FetchStateValue wireCodec dbOnlyStore addrAA ⟨[99], 1, [], false⟩ = ⟨false, true, none⟩
    ∧ (FetchStateValue wireCodec emptyMapWritten addrAA ⟨[109], 2, [], false⟩).ok = true
    ∧ (FetchStateValue wireCodec emptyMapWritten addrAA ⟨[109], 2, [], false⟩).foundVal = true :=
  ⟨(C17_interior_entries wireCodec dbOnlyStore addrAA ⟨[99], 1, [], false⟩ dbOnlyStore_WF
      (by decide) (by decide) rfl).1 ⟨(nameKey addrAA [99], [7]), by decide, by decide, by decide⟩,
    ((C17_interior_entries wireCodec emptyMapWritten addrAA ⟨[109], 2, [], false⟩
      emptyMapWritten_WF (by decide) (by decide) rfl).2 (by decide)
      (nameKey addrAA [109], wireCodec.emptyMapBytes) (by decide) (by decide)).1,
    (((C17_interior_entries wireCodec emptyMapWritten addrAA ⟨[109], 2, [], false⟩
      emptyMapWritten_WF (by decide) (by decide) rfl).2 (by decide)
      (nameKey addrAA [109], wireCodec.emptyMapBytes) (by decide) (by decide)).2.1
      (by decide)).1⟩


/-! ## What placeholder cleanup does tombstone -/

theorem split_append_sep (x y : Bytes) :
    split SCILLA_INDEX_SEPARATOR (x ++ SCILLA_INDEX_SEPARATOR :: y)
      = split SCILLA_INDEX_SEPARATOR x ++ split SCILLA_INDEX_SEPARATOR y := by
  induction x with
  | nil => simp [split]
  | cons c cs ih =>
    rw [List.cons_append, split, split, ih]
    by_cases hc : c = SCILLA_INDEX_SEPARATOR
    · simp only [hc, if_true, List.cons_append]
    · simp only [hc, if_false]
      cases hs : split SCILLA_INDEX_SEPARATOR cs with
      | nil => exact absurd hs (split_ne_nil _ _)
      | cons t ts => rfl

/-- The fragments of a string, each followed by a separator, give the string and a
separator. -/
theorem appendIndices_split (x : Bytes) :
    appendIndices [] (split SCILLA_INDEX_SEPARATOR x) = x ++ [SCILLA_INDEX_SEPARATOR] := by
  induction x with
  | nil => rfl
  | cons c cs ih =>
    rw [split]
    by_cases hc : c = SCILLA_INDEX_SEPARATOR
    · simp only [hc, if_true]
      rw [appendIndices_nil_cons, ih]
      rfl
    · simp only [hc, if_false]
      cases hs : split SCILLA_INDEX_SEPARATOR cs with
      | nil => exact absurd hs (split_ne_nil _ _)
      | cons t ts =>
        rw [hs, appendIndices_nil_cons] at ih
        simp only
        rw [appendIndices_nil_cons, List.cons_append, ih]
        rfl

theorem take_two_append_take {α : Type} (F : List α) (m : Nat) (h2 : 2 ≤ m)
    (hm : m < F.length) : F.take 2 ++ ((F.drop 2).dropLast).take (m - 2) = F.take m := by
  have h1 : ((F.drop 2).dropLast).take (m - 2) = (F.drop 2).take (m - 2) := by
    rw [List.dropLast_eq_take, List.take_take]
    congr 1
    simp only [List.length_drop]
    omega
  rw [h1, ← List.take_add]
  congr 1
  omega

theorem hiddenOrAbsent_of_frame {s s' : ContractStorage2} {x : Key}
    (hf : onlyTDeletedChanged s s')
    (hm : s.t_indexToBeDeleted.mem x = true → s'.t_indexToBeDeleted.mem x = true)
    (h : hiddenOrAbsent s x) : hiddenOrAbsent s' x := by
  unfold onlyTDeletedChanged at hf
  rcases h with h | h
  · exact Or.inl (hm h)
  · right
    rw [hf]
    exact h

theorem DeleteByIndex_hits (s : ContractStorage2) (x : Key) :
    hiddenOrAbsent (DeleteByIndex s x) x := by
  unfold DeleteByIndex hiddenOrAbsent
  by_cases h1 : s.t_stateDataMap.contains x = true
  · simp only [h1, if_true, SSet.mem_add, decide_True, Bool.true_or, true_or]
  · by_cases h2 : s.m_stateDataMap.contains x = true
    · simp only [h1, h2, if_true, if_false, SSet.mem_add, decide_True, Bool.true_or,
        true_or, Bool.false_eq_true]
    · by_cases h3 : s.m_stateDataDB.contains x = true
      · simp only [h1, h2, h3, if_true, if_false, SSet.mem_add, decide_True, Bool.true_or,
          true_or, Bool.false_eq_true]
      · simp only [Bool.not_eq_true] at h1 h2 h3
        right
        simp [h1, h2, h3]

theorem DeleteByIndex_keeps (s : ContractStorage2) (index x : Key) (h : hiddenOrAbsent s x) :
    hiddenOrAbsent (DeleteByIndex s index) x :=
  hiddenOrAbsent_of_frame (DeleteByIndex_frame s index) (DeleteByIndex_mono s index x) h

theorem cleanLoop_keeps (l : List Bytes) (s : ContractStorage2) (scankey x : Key)
    (h : hiddenOrAbsent s x) : hiddenOrAbsent (cleanLoop s scankey l) x :=
  hiddenOrAbsent_of_frame (cleanLoop_frame l s scankey) (cleanLoop_mono l s scankey x) h

/-- The cleanup loop leaves every key it visits out of the temporary view. -/
theorem cleanLoop_hits (l : List Bytes) : ∀ (s : ContractStorage2) (scankey : Key) (j : Nat),
    j ≤ l.length → hiddenOrAbsent s scankey →
    hiddenOrAbsent (cleanLoop s scankey l) (appendIndices scankey (l.take j)) := by
  induction l with
  | nil =>
    intro s scankey j hj h0
    simpa [cleanLoop, appendIndices] using h0
  | cons i rest ih =>
    intro s scankey j hj h0
    cases j with
    | zero =>
      rw [List.take_zero]
      exact cleanLoop_keeps _ _ _ _ h0
    | succ j =>
      rw [List.take_succ_cons, appendIndices_cons, cleanLoop]
      exact ih _ _ j (by simpa using hj) (DeleteByIndex_hits _ _)

/-- Placeholder cleanup for a key leaves out of the temporary view every proper prefix of
the key that ends at its second separator or at a later one. -/
theorem Clean_hits (s : ContractStorage2) (h0 u t : Bytes) :
    hiddenOrAbsent
      (CleanEmptyMapPlaceholders s
        (h0 ++ SCILLA_INDEX_SEPARATOR :: (u ++ SCILLA_INDEX_SEPARATOR
          :: (t ++ [SCILLA_INDEX_SEPARATOR])))).2
      (h0 ++ SCILLA_INDEX_SEPARATOR :: (u ++ [SCILLA_INDEX_SEPARATOR])) := by
  have hsplit : split SCILLA_INDEX_SEPARATOR
      (h0 ++ SCILLA_INDEX_SEPARATOR :: (u ++ SCILLA_INDEX_SEPARATOR
        :: (t ++ [SCILLA_INDEX_SEPARATOR])))
      = (split SCILLA_INDEX_SEPARATOR h0 ++ split SCILLA_INDEX_SEPARATOR u
          ++ split SCILLA_INDEX_SEPARATOR t) ++ [[]] := by
    rw [split_append_sep, split_append_sep]
    have : t ++ [SCILLA_INDEX_SEPARATOR] = t ++ SCILLA_INDEX_SEPARATOR :: [] := rfl
    rw [this, split_append_sep]
    simp [split]
  obtain ⟨a, A, hA⟩ := List.exists_cons_of_ne_nil (split_ne_nil SCILLA_INDEX_SEPARATOR h0)
  obtain ⟨b, B, hB⟩ := List.exists_cons_of_ne_nil (split_ne_nil SCILLA_INDEX_SEPARATOR u)
  obtain ⟨d, E, hE⟩ := List.exists_cons_of_ne_nil (split_ne_nil SCILLA_INDEX_SEPARATOR t)
  have htarget : h0 ++ SCILLA_INDEX_SEPARATOR :: (u ++ [SCILLA_INDEX_SEPARATOR])
      = appendIndices [] (split SCILLA_INDEX_SEPARATOR h0 ++ split SCILLA_INDEX_SEPARATOR u) := by
    rw [appendIndices_append, appendIndices_eq_append (appendIndices [] _), appendIndices_split,
      appendIndices_split]
    simp
  unfold CleanEmptyMapPlaceholders
  simp only [hsplit, popBackIfEmpty_concat_nil]
  have hlen : ¬ ((split SCILLA_INDEX_SEPARATOR h0 ++ split SCILLA_INDEX_SEPARATOR u
      ++ split SCILLA_INDEX_SEPARATOR t) ++ [[]]).length < 2 := by
    rw [hA]; simp; omega
  simp only [hlen, if_false]
  rw [htarget]
  generalize hF : split SCILLA_INDEX_SEPARATOR h0 ++ split SCILLA_INDEX_SEPARATOR u
    ++ split SCILLA_INDEX_SEPARATOR t = F
  have hFlen : (split SCILLA_INDEX_SEPARATOR h0 ++ split SCILLA_INDEX_SEPARATOR u).length
      < F.length := by
    rw [← hF, hE]; simp
  have hAB : 2 ≤ (split SCILLA_INDEX_SEPARATOR h0 ++ split SCILLA_INDEX_SEPARATOR u).length := by
    rw [hA, hB]; simp; omega
  have htake : split SCILLA_INDEX_SEPARATOR h0 ++ split SCILLA_INDEX_SEPARATOR u
      = F.take (split SCILLA_INDEX_SEPARATOR h0 ++ split SCILLA_INDEX_SEPARATOR u).length := by
    rw [← hF, List.take_left']
    rfl
  generalize hm : (split SCILLA_INDEX_SEPARATOR h0 ++ split SCILLA_INDEX_SEPARATOR u).length = m
    at hFlen hAB htake
  rw [htake, ← take_two_append_take F m hAB hFlen, appendIndices_append]
  have hsk : F.getD 0 [] ++ [SCILLA_INDEX_SEPARATOR] ++ F.getD 1 []
      ++ [SCILLA_INDEX_SEPARATOR] = appendIndices [] (F.take 2) := by
    match F, hFlen with
    | [], h => simp at h
    | [_], h => simp at h; omega
    | f0 :: f1 :: r, _ => simp [appendIndices]
  rw [hsk]
  apply cleanLoop_hits
  · rw [List.length_dropLast, List.length_drop]; omega
  · exact DeleteByIndex_hits _ _


/-! ## The paths a map write goes to -/

theorem writesEntries_unset (c : ProtoCodec) (k : Key) (es : List (Key × ProtoScillaVal)) :
    writesEntries c ((k, .unset) :: es) = ([k], []) :: writesEntries c es := by
  rw [writesEntries]
  · rfl
  all_goals (intro m h; cases h)

mutual
/-- The writes for a map with separator-free, pairwise different keys go to separator-free
index paths none of which is a prefix of another. -/
theorem writes_paths (c : ProtoCodec) :
    ∀ (m : List (Key × ProtoScillaVal)), keysOKEntries m →
      (∀ w ∈ writes c (.mval m), ∀ i ∈ w.1, sepFree i)
      ∧ (writes c (.mval m)).Pairwise pathInc
      ∧ (m ≠ [] → ∀ w ∈ writes c (.mval m), w.1 ≠ [])
  | [], _ => by
    rw [writes_nil]
    refine ⟨?_, List.pairwise_singleton _ _, fun h => absurd rfl h⟩
    intro w hw i hi
    rw [List.mem_singleton] at hw
    subst hw
    cases hi
  | e :: es, h => by
    rw [writes_cons]
    obtain ⟨h1, h2⟩ := writesEntries_paths c (e :: es) h
    refine ⟨?_, h2, ?_⟩
    · intro w hw i hi
      obtain ⟨k, p, hw1, _, hk, hp⟩ := h1 w hw
      rw [hw1] at hi
      rcases List.mem_cons.1 hi with rfl | hi
      · exact hk
      · exact hp i hi
    · intro _ w hw hnil
      obtain ⟨k, p, hw1, _⟩ := h1 w hw
      rw [hw1] at hnil
      cases hnil
theorem writesEntries_paths (c : ProtoCodec) :
    ∀ (es : List (Key × ProtoScillaVal)), keysOKEntries es →
      (∀ w ∈ writesEntries c es, ∃ k p, w.1 = k :: p ∧ (∃ v, (k, v) ∈ es) ∧ sepFree k
        ∧ ∀ i ∈ p, sepFree i)
      ∧ (writesEntries c es).Pairwise pathInc
  | [], _ => by
    rw [writesEntries_nil]
    exact ⟨fun w hw => (by cases hw), List.Pairwise.nil⟩
  | (k, .mval m) :: es, h => by
    rw [keysOKEntries] at h
    obtain ⟨hk, hdist, hv, hes⟩ := h
    rw [keysOK] at hv
    obtain ⟨g1, g2, _⟩ := writes_paths c m hv
    obtain ⟨t1, t2⟩ := writesEntries_paths c es hes
    rw [writesEntries_mval]
    refine ⟨?_, ?_⟩
    · intro w hw
      rcases List.mem_append.1 hw with hw | hw
      · obtain ⟨w0, hw0, rfl⟩ := List.mem_map.1 hw
        exact ⟨k, w0.1, rfl, ⟨_, List.mem_cons_self _ _⟩, hk, g1 w0 hw0⟩
      · obtain ⟨k', p', e1, ⟨v', e2⟩, e3⟩ := t1 w hw
        exact ⟨k', p', e1, ⟨v', List.mem_cons_of_mem _ e2⟩, e3⟩
    · rw [List.pairwise_append]
      refine ⟨?_, t2, ?_⟩
      · rw [List.pairwise_map]
        apply g2.imp
        intro a b hab
        unfold pathInc at hab ⊢
        simp only [List.cons_prefix_cons, true_and]
        exact hab
      · intro a ha b hb
        obtain ⟨w0, _, rfl⟩ := List.mem_map.1 ha
        obtain ⟨k', p', hb1, ⟨v', hmem⟩, _⟩ := t1 b hb
        have hne : k' ≠ k := hdist (k', v') hmem
        unfold pathInc
        simp only
        rw [hb1]
        simp only [List.cons_prefix_cons, not_and]
        exact ⟨fun hkk => absurd hkk.symm hne, fun hkk => absurd hkk hne⟩
  | (k, .bval b) :: es, h => by
    rw [keysOKEntries] at h
    obtain ⟨hk, hdist, _, hes⟩ := h
    obtain ⟨t1, t2⟩ := writesEntries_paths c es hes
    rw [writesEntries_bval]
    refine ⟨?_, ?_⟩
    · intro w hw
      rcases List.mem_cons.1 hw with rfl | hw
      · exact ⟨k, [], rfl, ⟨_, List.mem_cons_self _ _⟩, hk, fun i hi => (by cases hi)⟩
      · obtain ⟨k', p', e1, ⟨v', e2⟩, e3⟩ := t1 w hw
        exact ⟨k', p', e1, ⟨v', List.mem_cons_of_mem _ e2⟩, e3⟩
    · refine List.pairwise_cons.2 ⟨?_, t2⟩
      intro w hw
      obtain ⟨k', p', hw1, ⟨v', hmem⟩, _⟩ := t1 w hw
      have hne : k' ≠ k := hdist (k', v') hmem
      unfold pathInc
      simp only
      rw [hw1]
      simp only [List.cons_prefix_cons, not_and]
      exact ⟨fun hkk => absurd hkk.symm hne, fun hkk => absurd hkk hne⟩
  | (k, .unset) :: es, h => by
    rw [keysOKEntries] at h
    obtain ⟨hk, hdist, _, hes⟩ := h
    obtain ⟨t1, t2⟩ := writesEntries_paths c es hes
    rw [writesEntries_unset]
    refine ⟨?_, ?_⟩
    · intro w hw
      rcases List.mem_cons.1 hw with rfl | hw
      · exact ⟨k, [], rfl, ⟨_, List.mem_cons_self _ _⟩, hk, fun i hi => (by cases hi)⟩
      · obtain ⟨k', p', e1, ⟨v', e2⟩, e3⟩ := t1 w hw
        exact ⟨k', p', e1, ⟨v', List.mem_cons_of_mem _ e2⟩, e3⟩
    · refine List.pairwise_cons.2 ⟨?_, t2⟩
      intro w hw
      obtain ⟨k', p', hw1, ⟨v', hmem⟩, _⟩ := t1 w hw
      have hne : k' ≠ k := hdist (k', v') hmem
      unfold pathInc
      simp only
      rw [hw1]
      simp only [List.cons_prefix_cons, not_and]
      exact ⟨fun hkk => absurd hkk.symm hne, fun hkk => absurd hkk hne⟩
end


/-! ## C11: placeholder cleanup on write -/

theorem appendIndices_nil_eq_nil {L : List Bytes} (h : appendIndices [] L = []) : L = [] := by
  cases L with
  | nil => rfl
  | cons a r => rw [appendIndices_nil_cons] at h; simp at h

theorem appendIndices_ends {L : List Bytes} (h : L ≠ []) :
    ∃ t, appendIndices [] L = t ++ [SCILLA_INDEX_SEPARATOR] := by
  rcases List.eq_nil_or_concat L with h0 | ⟨L', x, rfl⟩
  · exact absurd h0 h
  · refine ⟨appendIndices [] L' ++ x, ?_⟩
    rw [List.concat_eq_append, appendIndices_append]
    rfl

/-- The key of an index list and the key of a proper initial part of it, taken apart at the
separators that end the address, the initial part and the whole. -/
theorem ancestor_form (addr : Address) (name : Bytes) (I : List Bytes) (j : Nat)
    (hj : j < I.length) :
    ∃ u t, appendIndices (nameKey addr name) I
        = addr.hex ++ SCILLA_INDEX_SEPARATOR :: (u ++ SCILLA_INDEX_SEPARATOR
          :: (t ++ [SCILLA_INDEX_SEPARATOR]))
      ∧ appendIndices (nameKey addr name) (I.take j)
        = addr.hex ++ SCILLA_INDEX_SEPARATOR :: (u ++ [SCILLA_INDEX_SEPARATOR]) := by
  have hdrop : I.drop j ≠ [] := by
    intro h
    have := congrArg List.length h
    simp only [List.length_drop, List.length_nil] at this
    omega
  obtain ⟨t, ht⟩ := appendIndices_ends hdrop
  have hI : appendIndices (nameKey addr name) I
      = appendIndices (nameKey addr name) (I.take j) ++ (t ++ [SCILLA_INDEX_SEPARATOR]) := by
    conv_lhs => rw [← List.take_append_drop j I]
    rw [appendIndices_append, appendIndices_eq_append (appendIndices _ _), ht]
  by_cases hnil : I.take j = []
  · refine ⟨name, t, ?_, ?_⟩
    · rw [hI, hnil]; simp [appendIndices, nameKey]
    · rw [hnil]; simp [appendIndices, nameKey]
  · obtain ⟨t1, ht1⟩ := appendIndices_ends hnil
    refine ⟨name ++ SCILLA_INDEX_SEPARATOR :: t1, t, ?_, ?_⟩
    · rw [hI, appendIndices_eq_append, ht1]; simp [nameKey]
    · rw [appendIndices_eq_append, ht1]; simp [nameKey]

theorem UpdateStateData_keeps (s : ContractStorage2) (key : Key) (value : Bytes) (b : Bool)
    (x : Key) (hne : key ≠ x) (h : hiddenOrAbsent s x) :
    hiddenOrAbsent (UpdateStateData s key value b) x := by
  have h1 : hiddenOrAbsent (if b = true then (CleanEmptyMapPlaceholders s key).2 else s) x := by
    cases b
    · exact h
    · exact hiddenOrAbsent_of_frame (CleanEmptyMapPlaceholders_frame s key)
        (Clean_mono s key x) h
  unfold UpdateStateData
  unfold hiddenOrAbsent at h1 ⊢
  simp only [SSet.mem_remove, SMap.contains_insert, hne, decide_False, Bool.not_false,
    Bool.true_and, Bool.false_or]
  exact h1

theorem UpdateStateData_hits (s : ContractStorage2) (addr : Address) (name : Bytes)
    (I : List Bytes) (j : Nat) (hj : j < I.length) (value : Bytes) :
    hiddenOrAbsent (UpdateStateData s (appendIndices (nameKey addr name) I) value true)
      (appendIndices (nameKey addr name) (I.take j)) := by
  obtain ⟨u, t, hK, ha⟩ := ancestor_form addr name I j hj
  have hne : appendIndices (nameKey addr name) I
      ≠ appendIndices (nameKey addr name) (I.take j) := by
    rw [hK, ha]
    intro h
    have := congrArg List.length h
    simp at this
  have hc : hiddenOrAbsent (CleanEmptyMapPlaceholders s (appendIndices (nameKey addr name) I)).2
      (appendIndices (nameKey addr name) (I.take j)) := by
    rw [hK, ha]
    exact Clean_hits s _ _ _
  unfold UpdateStateData
  unfold hiddenOrAbsent at hc ⊢
  simp only [if_true, SSet.mem_remove, SMap.contains_insert, hne, decide_False, Bool.not_false,
    Bool.true_and, Bool.false_or]
  exact hc

theorem DeleteByPrefix_keeps (s : ContractStorage2) (pre x : Key) (h : hiddenOrAbsent s x) :
    hiddenOrAbsent (DeleteByPrefix s pre) x := by
  apply hiddenOrAbsent_of_frame (DeleteByPrefix_frame s pre) _ h
  intro hm
  unfold DeleteByPrefix
  simp only [mem_markDeleted, hm, Bool.true_or]

theorem applyWrites_keeps (P : Key) (ws : List (List Bytes × Bytes)) (s : ContractStorage2)
    (x : Key) (hne : ∀ w ∈ ws, appendIndices P w.1 ≠ x) (h : hiddenOrAbsent s x) :
    hiddenOrAbsent (applyWrites P ws s) x := by
  induction ws generalizing s with
  | nil => exact h
  | cons w tl ih =>
    exact ih (UpdateStateData s (appendIndices P w.1) w.2 true)
      (fun w' hw' => hne w' (List.mem_cons_of_mem _ hw'))
      (UpdateStateData_keeps s _ _ true x (hne w (List.mem_cons_self _ _)) h)

theorem applyWrites_hits (P : Key) (ws : List (List Bytes × Bytes)) (s : ContractStorage2)
    (x : Key) (hne : ∀ w ∈ ws, appendIndices P w.1 ≠ x)
    (hhit : ∃ w ∈ ws, ∀ s', hiddenOrAbsent (UpdateStateData s' (appendIndices P w.1) w.2 true) x) :
    hiddenOrAbsent (applyWrites P ws s) x := by
  induction ws generalizing s with
  | nil => obtain ⟨w, hw, _⟩ := hhit; cases hw
  | cons w0 tl ih =>
    obtain ⟨w, hw, hit⟩ := hhit
    have hne' : ∀ w' ∈ tl, appendIndices P w'.1 ≠ x :=
      fun w' hw' => hne w' (List.mem_cons_of_mem _ hw')
    rcases List.mem_cons.1 hw with rfl | hw'
    · exact applyWrites_keeps P tl _ x hne' (hit s)
    · exact ih (UpdateStateData s (appendIndices P w0.1) w0.2 true) hne' ⟨w, hw', hit⟩

theorem applyWrites_contains (P : Key) (ws : List (List Bytes × Bytes)) (s : ContractStorage2)
    (x : Key) (h : s.t_stateDataMap.contains x = true ∨ ∃ w ∈ ws, appendIndices P w.1 = x) :
    (applyWrites P ws s).t_stateDataMap.contains x = true := by
  induction ws generalizing s with
  | nil =>
    rcases h with h | ⟨w, hw, _⟩
    · exact h
    · cases hw
  | cons w0 tl ih =>
    apply ih (UpdateStateData s (appendIndices P w0.1) w0.2 true)
    rw [UpdateStateData_t_state, SMap.contains_insert]
    rcases h with h | ⟨w, hw, hx⟩
    · left; rw [h]; simp
    · rcases List.mem_cons.1 hw with rfl | hw'
      · left; simp [hx]
      · exact Or.inr ⟨w, hw', hx⟩

theorem viewLookup_of_hiddenOrAbsent {s : ContractStorage2} {x : Key}
    (h : hiddenOrAbsent s x) : viewLookup s true x = none := by
  unfold viewLookup
  simp only [if_true]
  rcases h with h | ⟨h1, h2, h3⟩
  · unfold visible
    simp [h]
  · have hnone : ∀ (m : SMap Bytes), m.contains x = false → m.find? x = none := by
      intro m hm
      cases hf : m.find? x with
      | none => rfl
      | some v => rw [SMap.contains, hf] at hm; cases hm
    rw [hnone _ h1, hnone _ h2, hnone _ h3]
    split_ifs <;> rfl

/-- A key written by a map write is not the key of a proper initial part of the indices of
a key written by it. -/
theorem written_ne_ancestor (c : ProtoCodec) (addr : Address) (q : ProtoScillaQuery)
    (m : List (Key × ProtoScillaVal)) (hok : keysOKEntries m)
    (w w' : List Bytes × Bytes) (hw : w ∈ writes c (.mval m)) (hw' : w' ∈ writes c (.mval m))
    (j : Nat) (hj : j < (q.indices ++ w.1).length) :
    appendIndices (queryKey addr q) w'.1
      ≠ appendIndices (nameKey addr q.name) ((q.indices ++ w.1).take j) := by
  obtain ⟨hsf, hinc, hnn⟩ := writes_paths c m hok
  intro heq
  unfold queryKey at heq
  rw [← appendIndices_append, appendIndices_eq_append, appendIndices_eq_append _ (List.take _ _)]
    at heq
  have heq := List.append_cancel_left heq
  by_cases hcase : j ≤ q.indices.length
  · rw [List.take_append_of_le_length hcase] at heq
    have hsplit : q.indices ++ w'.1 = q.indices.take j ++ (q.indices.drop j ++ w'.1) := by
      rw [← List.append_assoc, List.take_append_drop]
    rw [hsplit, appendIndices_append, appendIndices_eq_append (appendIndices [] _)] at heq
    have hnil := appendIndices_nil_eq_nil (List.append_right_eq_self.1 heq)
    obtain ⟨hd, hw'nil⟩ := List.append_eq_nil.1 hnil
    have hjeq : q.indices.length ≤ j := by
      have := congrArg List.length hd
      simp only [List.length_drop, List.length_nil] at this
      omega
    have hm : m = [] := by
      by_contra hmne
      exact hnn hmne w' hw' hw'nil
    subst hm
    rw [writes_nil, List.mem_singleton] at hw
    rw [hw] at hj
    simp only [List.append_nil] at hj
    omega
  · have hgt : q.indices.length < j := Nat.lt_of_not_le hcase
    have htake : (q.indices ++ w.1).take j = q.indices ++ w.1.take (j - q.indices.length) := by
      rw [List.take_append_eq_append_take, List.take_of_length_le (Nat.le_of_lt hgt)]
    rw [htake, appendIndices_append, appendIndices_append,
      appendIndices_eq_append (appendIndices [] _),
      appendIndices_eq_append (appendIndices [] _) (List.take _ _)] at heq
    have heq := List.append_cancel_left heq
    have hsf' : ∀ i ∈ w.1.take (j - q.indices.length), sepFree i :=
      fun i hi => hsf w hw i (List.mem_of_mem_take hi)
    have hp1 := prefix_of_startsWith_enc _ _ (hsf w' hw') hsf'
      (by rw [heq]; exact startsWith_refl _)
    have hp2 := prefix_of_startsWith_enc _ _ hsf' (hsf w' hw')
      (by rw [heq]; exact startsWith_refl _)
    have hweq : w'.1 = w.1.take (j - q.indices.length) :=
      List.IsPrefix.eq_of_length hp1 (Nat.le_antisymm hp1.length_le hp2.length_le)
    have hlen : w'.1.length < w.1.length := by
      rw [hweq, List.length_take]
      simp only [List.length_append] at hj
      omega
    have hpre : w'.1 <+: w.1 := by rw [hweq]; exact List.take_prefix _ _
    by_cases hww : w' = w
    · rw [hww] at hlen; exact Nat.lt_irrefl _ hlen
    · have hsymm : Symmetric pathInc := fun a b hab => ⟨hab.2, hab.1⟩
      exact (hinc.forall hsymm hw' hw hww).1 hpre


theorem keysOK_bval (b : Bytes) : keysOK (.bval b) := by
  rw [keysOK]
  · trivial
  · intro m h; cases h

/-- C11 (as stated) fails: the write of `{a ↦ {b ↦ {c ↦ 0x01}}, a SEP b ↦ {}}` to the
depth-3 map `m` on the empty store returns true and writes the key of `m[a][b][c]`, and
afterwards its ancestor prefix key, that of `m[a][b]`, is visible in the temporary view:
it is also the key written for the index `a SEP b`, which holds the separator byte. -/
theorem C11_counterexample :
    (⟨[109], 3, [], false⟩ : ProtoScillaQuery).ignoreval = false
    ∧ (UpdateStateValue wireCodec ContractStorage2.empty addrAA ⟨[109], 3, [], false⟩
        sepKeyValue).1 = true
    ∧ [[97], [98], [99]] ∈ writtenPaths wireCodec ⟨[109], 3, [], false⟩ sepKeyValue
    ∧ sepKeyWritten.t_stateDataMap.find? (appendIndices (nameKey addrAA [109])
        [[97], [98], [99]]) = some [1]
    ∧ viewLookup sepKeyWritten true (appendIndices (nameKey addrAA [109])
        ([[97], [98], [99]].take 2)) = some wireCodec.emptyMapBytes := by
  decide

/-- C11 (amended): for every state and every write-mode `UpdateStateValue` that returns
true, with a value whose maps have separator-free, pairwise different keys (any name and
indices in the query), every key it wrote is in `t_state` afterwards and none of the
ancestor prefix keys of such a key (`addr SEP name SEP`, then extended by each index of the
key but the last) is visible in the temporary view afterwards, whichever tier held it. -/
theorem C11_cleanup_on_write (c : ProtoCodec) (s : ContractStorage2) (addr : Address)
    (q : ProtoScillaQuery) (V : ProtoScillaVal) (hig : q.ignoreval = false) (hok : keysOK V)
    (hret : (UpdateStateValue c s addr q V).1 = true) :
    ∀ I ∈ writtenPaths c q V,
      (UpdateStateValue c s addr q V).2.t_stateDataMap.contains
          (appendIndices (nameKey addr q.name) I) = true
      ∧ ∀ j, j < I.length →
          viewLookup (UpdateStateValue c s addr q V).2 true
            (appendIndices (nameKey addr q.name) (I.take j)) = none := by
  by_cases hres : q.name = FIELDS_MAP_DEPTH_INDICATOR ∨ q.name = SHARDING_INFO_INDICATOR
  · have hf : (UpdateStateValue c s addr q V).1 = false := by
      unfold UpdateStateValue
      simp only [hres, if_true]
    rw [hf] at hret
    cases hret
  by_cases hgt : q.indices.length > q.mapdepth
  · have hf : (UpdateStateValue c s addr q V).1 = false := by
      unfold UpdateStateValue
      simp only [hres, if_false, hig, Bool.false_eq_true, hgt, if_true]
    rw [hf] at hret
    cases hret
  by_cases heq : q.indices.length = q.mapdepth
  · by_cases hmv : V.has_mval = true
    · have hf : (UpdateStateValue c s addr q V).1 = false := by
        unfold UpdateStateValue
        simp only [hres, if_false, hig, Bool.false_eq_true, hgt, if_pos heq, if_true, hmv]
      rw [hf] at hret
      cases hret
    · have hU : UpdateStateValue c s addr q V
          = (true, UpdateStateData s (appendIndices (nameKey addr q.name) q.indices)
              V.getBval true) := by
        unfold UpdateStateValue
        simp only [hres, if_false, hig, Bool.false_eq_true, hgt, if_pos heq, hmv]
      intro I hI
      unfold writtenPaths at hI
      simp only [if_pos heq, List.mem_singleton] at hI
      subst hI
      rw [hU]
      refine ⟨?_, fun j hj => viewLookup_of_hiddenOrAbsent
        (UpdateStateData_hits s addr q.name q.indices j hj _)⟩
      simp only [UpdateStateData_t_state, SMap.contains_insert, decide_True, Bool.true_or]
  · cases V with
    | unset =>
      unfold UpdateStateValue at hret
      simp only [hres, if_false, hig, Bool.false_eq_true, hgt, heq] at hret
      rw [mapHandler] at hret
      · cases hret
      · intro h; cases h
      · intro e es h; cases h
    | bval b =>
      unfold UpdateStateValue at hret
      simp only [hres, if_false, hig, Bool.false_eq_true, hgt, heq] at hret
      rw [mapHandler] at hret
      · cases hret
      · intro h; cases h
      · intro e es h; cases h
    | mval m =>
      rw [keysOK] at hok
      have hU : UpdateStateValue c s addr q (.mval m)
          = (true, applyWrites (queryKey addr q) (writes c (.mval m))
              (DeleteByPrefix s (queryKey addr q))) := by
        unfold UpdateStateValue queryKey
        simp only [hres, if_false, hig, Bool.false_eq_true, hgt, heq]
        rw [mapHandler_eq]
      intro I hI
      unfold writtenPaths at hI
      simp only [heq, if_false] at hI
      obtain ⟨w, hw, rfl⟩ := List.mem_map.1 hI
      have hkey : appendIndices (nameKey addr q.name) (q.indices ++ w.1)
          = appendIndices (queryKey addr q) w.1 := by
        unfold queryKey; rw [appendIndices_append]
      rw [hU]
      refine ⟨applyWrites_contains _ _ _ _ (Or.inr ⟨w, hw, hkey.symm⟩), ?_⟩
      intro j hj
      apply viewLookup_of_hiddenOrAbsent
      apply applyWrites_hits
      · intro w' hw'
        exact written_ne_ancestor c addr q m hok w w' hw hw' j hj
      · refine ⟨w, hw, fun s' => ?_⟩
        rw [← hkey]
        exact UpdateStateData_hits s' addr q.name (q.indices ++ w.1) j hj _

/-- C11 witness: in the store where the placeholders of `m` and of `m[x]` are both visible,
the write `m[x][y] := 0x01` takes both out of the temporary view. -/
theorem C11_cleanup_on_write_witness :
    viewLookup emptyMapThenDelete true (nameKey addrAA [109]) = some wireCodec.emptyMapBytes
    ∧ viewLookup emptyMapThenDelete true (nameKey addrAA [109] ++ [120, 22])
        = some wireCodec.emptyMapBytes
    ∧ viewLookup (UpdateStateValue wireCodec emptyMapThenDelete addrAA
        ⟨[109], 2, [[120], [121]], false⟩ (.bval [1])).2 true
        (appendIndices (nameKey addrAA [109]) ([[120], [121]].take 0)) = none
    ∧ viewLookup (UpdateStateValue wireCodec emptyMapThenDelete addrAA
        ⟨[109], 2, [[120], [121]], false⟩ (.bval [1])).2 true
        (appendIndices (nameKey addrAA [109]) ([[120], [121]].take 1)) = none :=
  ⟨by decide, by decide,
    ((C11_cleanup_on_write wireCodec emptyMapThenDelete addrAA
      ⟨[109], 2, [[120], [121]], false⟩ (.bval [1]) rfl (keysOK_bval [1]) (by decide)
      [[120], [121]] (by decide)).2 0 (by decide)),
    ((C11_cleanup_on_write wireCodec emptyMapThenDelete addrAA
      ⟨[109], 2, [[120], [121]], false⟩ (.bval [1]) rfl (keysOK_bval [1]) (by decide)
      [[120], [121]] (by decide)).2 1 (by decide))⟩


/-! ## Hashes as 256-bit integers -/

theorem beNat_append_singleton (l : Bytes) (x : Nat) : beNat (l ++ [x]) = beNat l * 256 + x := by
  unfold beNat
  rw [List.foldl_append]
  rfl

theorem beNat_lt (l : Bytes) (h : ∀ x ∈ l, x < 256) : beNat l < 256 ^ l.length := by
  induction l using List.reverseRecOn with
  | nil => simp [beNat]
  | append_singleton l x ih =>
    rw [beNat_append_singleton, List.length_append, List.length_singleton, Nat.pow_succ]
    have h1 := ih (fun y hy => h y (List.mem_append_left _ hy))
    have h2 := h x (List.mem_append_right _ (List.mem_singleton_self x))
    nlinarith

/-- Bit `j` of the integer is bit `j mod 8` of the byte `j / 8` places from the end. -/
theorem testBit_beNat (l : Bytes) (h : ∀ x ∈ l, x < 256) (j : Nat) :
    (beNat l).testBit j = (l.reverse.getD (j / 8) 0).testBit (j % 8) := by
  induction l using List.reverseRecOn generalizing j with
  | nil => simp [beNat]
  | append_singleton l x ih =>
    have h1 := ih (fun y hy => h y (List.mem_append_left _ hy))
    have h2 : x < 2 ^ 8 := h x (List.mem_append_right _ (List.mem_singleton_self x))
    have hb : beNat (l ++ [x]) = 2 ^ 8 * beNat l + x := by
      rw [beNat_append_singleton]; ring
    rw [hb, Nat.testBit_mul_pow_two_add _ h2, List.reverse_append, List.reverse_singleton,
      List.singleton_append]
    by_cases hj : j < 8
    · have e1 : j / 8 = 0 := by omega
      have e2 : j % 8 = j := by omega
      simp only [hj, if_true, e1, e2, List.getD_cons_zero]
    · have e1 : j / 8 = (j - 8) / 8 + 1 := by omega
      have e2 : j % 8 = (j - 8) % 8 := by omega
      simp only [hj, if_false, e1, List.getD_cons_succ, e2]
      exact h1 (j - 8)

theorem getD_reverse (l : Bytes) (k : Nat) (hk : k < l.length) :
    l.reverse.getD k 0 = l.getD (l.length - 1 - k) 0 := by
  rw [List.getD_eq_getElem _ _ (by simpa using hk), List.getD_eq_getElem _ _ (by omega),
    List.getElem_reverse]

/-- A 32-byte value is below `2^(256 - d)` exactly when its `d` most significant bits are
all zero. -/
theorem lt_two_pow_iff_msbits (h : Bytes) (d : Nat) (hlen : h.length = 32)
    (hb : ∀ x ∈ h, x < 256) (hd : d ≤ 256) :
    beNat h < 2 ^ (256 - d) ↔ ∀ i, i < d → msbit h i = 0 := by
  have hbit : ∀ j, j < 256 →
      (beNat h).testBit j = decide (msbit h (255 - j) = 1) := by
    intro j hj
    rw [testBit_beNat h hb, getD_reverse h _ (by omega), Nat.testBit_to_div_mod]
    unfold msbit
    have e1 : h.length - 1 - j / 8 = (255 - j) / 8 := by omega
    have e2 : 7 - (255 - j) % 8 = j % 8 := by omega
    rw [e1, e2]
  have hlt256 : beNat h < 2 ^ 256 := by
    have := beNat_lt h hb
    rw [hlen] at this
    exact this
  constructor
  · intro hlt i hi
    have hj : (beNat h).testBit (255 - i) = false := by
      apply Nat.testBit_lt_two_pow
      exact Nat.lt_of_lt_of_le hlt (Nat.pow_le_pow_right (by decide) (by omega))
    rw [hbit _ (by omega)] at hj
    have e : 255 - (255 - i) = i := by omega
    rw [e] at hj
    have hm : msbit h i < 2 := by unfold msbit; exact Nat.mod_lt _ (by decide)
    simp only [decide_eq_false_iff_not] at hj
    omega
  · intro hz
    apply Nat.lt_pow_two_of_testBit
    intro j hj
    by_cases hj2 : j < 256
    · rw [hbit j hj2]
      have := hz (255 - j) (by omega)
      simp [this]
    · apply Nat.testBit_lt_two_pow
      exact Nat.lt_of_lt_of_le hlt256 (Nat.pow_le_pow_right (by decide) (by omega))

/-- The test against the boundary for difficulty `d`, on a 32-byte value. -/
theorem le_boundary_iff (h : Bytes) (d : Nat) (hlen : h.length = 32) (hb : ∀ x ∈ h, x < 256)
    (hd : d < 256) :
    beNat h ≤ beNat ((List.range 32).map (boundaryByte d)) ↔ ∀ i, i < d → msbit h i = 0 := by
  rw [beNat_boundary d hd, ← lt_two_pow_iff_msbits h d hlen hb (Nat.le_of_lt hd)]
  have : 0 < 2 ^ (256 - d) := Nat.pow_pos (by decide)
  omega

/-! ## C21: a solution against a difficulty -/

/-- C21: for every 32-byte hash and difficulty `d` in 0..255,
`CheckSolnAgainstsTargetedDifficulty(hash, d)` returns true if and only if
`hash ≤ DifficultyLevelInInt(d)` as big-endian 256-bit integers, which is the case exactly
when the `d` most significant bits of the hash are all zero. -/
theorem C21_check_difficulty (hash : Bytes) (d : Nat) (hlen : hash.length = 32)
    (hb : ∀ x ∈ hash, x < 256) (hd : d < 256) :
    ∃ boundary, POW.DifficultyLevelInInt d = some boundary
      ∧ (POW.CheckSolnAgainstsTargetedDifficulty hash d = some true
          ↔ beNat hash ≤ beNat boundary)
      ∧ (POW.CheckSolnAgainstsTargetedDifficulty hash d = some false
          ↔ ¬ beNat hash ≤ beNat boundary)
      ∧ (beNat hash ≤ beNat boundary ↔ ∀ i, i < d → msbit hash i = 0) := by
  refine ⟨_, DifficultyLevelInInt_eq d hd, ?_, ?_, le_boundary_iff hash d hlen hb hd⟩
  · unfold POW.CheckSolnAgainstsTargetedDifficulty is_less_or_equal
    rw [DifficultyLevelInInt_eq d hd]
    simp
  · unfold POW.CheckSolnAgainstsTargetedDifficulty is_less_or_equal
    rw [DifficultyLevelInInt_eq d hd]
    simp

/-- C21 witness: against difficulty 9, the hash `00 7F 00 … 00` passes and the hash
`00 80 00 … 00`, whose ninth bit is set, does not. -/
theorem C21_check_difficulty_witness :
    POW.CheckSolnAgainstsTargetedDifficulty (0 :: 0x7F :: List.replicate 30 0) 9 = some true
    ∧ POW.CheckSolnAgainstsTargetedDifficulty (0 :: 0x80 :: List.replicate 30 0) 9 = some false
    ∧ msbit (0 :: 0x80 :: List.replicate 30 0) 8 = 1 := by
  obtain ⟨b1, hb1, h1, _, h3⟩ := C21_check_difficulty (0 :: 0x7F :: List.replicate 30 0) 9
    (by decide) (by decide) (by decide)
  obtain ⟨b2, hb2, _, g2, g3⟩ := C21_check_difficulty (0 :: 0x80 :: List.replicate 30 0) 9
    (by decide) (by decide) (by decide)
  refine ⟨h1.2 (h3.2 (by decide)), g2.2 (fun hle => ?_), by decide⟩
  have := g3.1 hle 8 (by decide)
  revert this
  decide


/-! ## C29, C30: the epoch contexts -/

theorem LightInv_new (env : PowEnv) : LightInv env (POW.new env) := rfl

theorem EthashConfigureClient_LightInv (env : PowEnv) (s : POW) (b : Nat) (f : Bool)
    (h : LightInv env s) : LightInv env (POW.EthashConfigureClient env s b f).2 := by
  unfold LightInv at h ⊢
  unfold POW.EthashConfigureClient
  dsimp only
  split_ifs with he
  · rfl
  · rw [h]
    have : env.get_epoch_number b = env.get_epoch_number s.m_currentBlockNum := by
      by_contra hne
      exact he hne
    rw [this]

theorem EthashConfigureClient_currentBlockNum (env : PowEnv) (s : POW) (b : Nat) (f : Bool) :
    (POW.EthashConfigureClient env s b f).2.m_currentBlockNum = b := rfl

theorem EthashConfigureClient_light (env : PowEnv) (s : POW) (b : Nat) (f : Bool)
    (h : LightInv env s) :
    (POW.EthashConfigureClient env s b f).2.m_epochContextLight
      = ⟨env.get_epoch_number b, false⟩ :=
  EthashConfigureClient_LightInv env s b f h

theorem runConfigure_LightInv (env : PowEnv) (calls : List (Nat × Bool)) :
    ∀ s, LightInv env s → LightInv env (POW.runConfigure env calls s) := by
  induction calls with
  | nil => intro s h; exact h
  | cons c rest ih =>
    intro s h
    exact ih _ (EthashConfigureClient_LightInv env s c.1 c.2 h)

theorem runConfigure_currentBlockNum (env : PowEnv) (calls : List (Nat × Bool)) :
    ∀ s, (POW.runConfigure env calls s).m_currentBlockNum
      = (calls.getLast?.map Prod.fst).getD s.m_currentBlockNum := by
  induction calls with
  | nil => intro s; rfl
  | cons c rest ih =>
    intro s
    show (POW.runConfigure env rest (POW.EthashConfigureClient env s c.1 c.2).2).m_currentBlockNum
      = _
    rw [ih]
    cases rest with
    | nil => rfl
    | cons d rest2 =>
      have hl : (d :: rest2).getLast? = some ((d :: rest2).getLast (List.cons_ne_nil _ _)) :=
        List.getLast?_eq_getLast _ _
      rw [List.getLast?_cons_cons, hl]
      rfl

/-- C29: after construction and after every `EthashConfigureClient` call (any sequence of
block numbers and `fullDataset` flags), the light epoch context is the one for
`epoch(m_currentBlockNum)`, `m_currentBlockNum` equals the block number of the most recent
call (0 initially), and the call returns true. -/
theorem C29_light_context_invariant (env : PowEnv) (calls : List (Nat × Bool)) :
    (POW.runConfigure env calls (POW.new env)).m_epochContextLight
        = ⟨env.get_epoch_number (POW.runConfigure env calls (POW.new env)).m_currentBlockNum,
            false⟩
      ∧ (POW.runConfigure env calls (POW.new env)).m_currentBlockNum
          = (calls.getLast?.map Prod.fst).getD 0
      ∧ ∀ block_number fullDataset,
          (POW.EthashConfigureClient env (POW.runConfigure env calls (POW.new env))
            block_number fullDataset).1 = true :=
  ⟨runConfigure_LightInv env calls _ (LightInv_new env),
    runConfigure_currentBlockNum env calls _, fun _ _ => rfl⟩

/-- C30: in the full-dataset CPU configuration, after the calls
`EthashConfigureClient(30000, false)` and `EthashConfigureClient(30001, true)` on a new
engine, the full epoch context is still the one for epoch 0, while block 30001 is in
epoch 1 (as the light context is). -/
theorem C30_stale_full_context :
    POW.EthashConfigureClient fullCpuEnv
        (POW.runConfigure fullCpuEnv [(30000, false)] (POW.new fullCpuEnv)) 30001 true
      = (true, ⟨30001, ⟨1, false⟩, some ⟨0, true⟩⟩)
    ∧ fullCpuEnv.get_epoch_number 30001 = 1
    ∧ fullCpuEnv.FULL_DATASET_MINE = true ∧ fullCpuEnv.CUDA_GPU_MINE = false
    ∧ fullCpuEnv.OPENCL_GPU_MINE = false := by
  decide

/-! ## C24, C25: the mining loops -/

theorem mineLoop_hit (h : Nat → EthashResult) (boundary : Bytes) :
    ∀ (obs : List Bool) (s : Nat) (r : ethash_mining_result_t),
      POW.mineLoop h boundary obs s = some r → r.success = true →
      is_less_or_equal (h r.winning_nonce).final_hash boundary = true
        ∧ r.result = POW.BlockhashToHexString (h r.winning_nonce).final_hash
        ∧ r.mix_hash = POW.BlockhashToHexString (h r.winning_nonce).mix_hash := by
  intro obs
  induction obs with
  | nil => intro s r hr; cases hr
  | cons o rest ih =>
    intro s r hr hs
    cases o with
    | false =>
      rw [POW.mineLoop] at hr
      cases hr
      cases hs
    | true =>
      rw [POW.mineLoop] at hr
      try dsimp only at hr
      split_ifs at hr with hit
      · cases hr
        exact ⟨hit, rfl, rfl⟩
      · exact ih _ r hr hs

theorem mineLoop_failure (h : Nat → EthashResult) (boundary : Bytes) :
    ∀ (obs : List Bool) (s : Nat) (r : ethash_mining_result_t),
      POW.mineLoop h boundary obs s = some r → r.success = false →
      r = POW.failure_result ∧ false ∈ obs := by
  intro obs
  induction obs with
  | nil => intro s r hr; cases hr
  | cons o rest ih =>
    intro s r hr hs
    cases o with
    | false =>
      rw [POW.mineLoop] at hr
      cases hr
      exact ⟨rfl, List.mem_cons_self _ _⟩
    | true =>
      rw [POW.mineLoop] at hr
      try dsimp only at hr
      split_ifs at hr with hit
      · cases hr
        cases hs
      · obtain ⟨h1, h2⟩ := ih _ r hr hs
        exact ⟨h1, List.mem_cons_of_mem _ h2⟩

theorem mineLoop_total (h : Nat → EthashResult) (boundary : Bytes) :
    ∀ (obs : List Bool) (s : Nat), false ∈ obs →
      ∃ r, POW.mineLoop h boundary obs s = some r := by
  intro obs
  induction obs with
  | nil => intro s hm; cases hm
  | cons o rest ih =>
    intro s hm
    cases o with
    | false => exact ⟨_, by rw [POW.mineLoop]⟩
    | true =>
      rw [POW.mineLoop]
      try dsimp only
      split_ifs with hit
      · exact ⟨_, rfl⟩
      · apply ih
        cases hm with
        | tail _ h2 => exact h2

/-- The successful loop stopped at the first of the nonces `s, s + 1, …` (modulo `2^64`)
whose hash is within the boundary. -/
theorem mineLoop_first (h : Nat → EthashResult) (boundary : Bytes) :
    ∀ (obs : List Bool) (s : Nat) (r : ethash_mining_result_t), s < 2 ^ 64 →
      POW.mineLoop h boundary obs s = some r → r.success = true →
      ∃ m, m < obs.length ∧ r.winning_nonce = (s + m) % 2 ^ 64
        ∧ ∀ j, j < m → is_less_or_equal (h ((s + j) % 2 ^ 64)).final_hash boundary = false := by
  intro obs
  induction obs with
  | nil => intro s r _ hr; cases hr
  | cons o rest ih =>
    intro s r hlt hr hs
    cases o with
    | false =>
      rw [POW.mineLoop] at hr
      cases hr
      cases hs
    | true =>
      rw [POW.mineLoop] at hr
      try dsimp only at hr
      split_ifs at hr with hit
      · cases hr
        refine ⟨0, by simp, ?_, ?_⟩
        · show s = (s + 0) % 2 ^ 64
          rw [Nat.add_zero, Nat.mod_eq_of_lt hlt]
        · intro j hj; cases hj
      · obtain ⟨m, hm, hn, hbefore⟩ := ih _ r (Nat.mod_lt _ (by decide)) hr hs
        refine ⟨m + 1, by simp only [List.length_cons]; omega, ?_, ?_⟩
        · rw [hn, Nat.mod_add_mod]
          congr 1
          omega
        · intro j hj
          cases j with
          | zero =>
            rw [Nat.add_zero, Nat.mod_eq_of_lt hlt]
            simpa using hit
          | succ j =>
            have := hbefore j (by omega)
            rw [Nat.mod_add_mod] at this
            rw [← this]
            congr 3
            omega

/-- C24: for `MineLight` and `MineFull`, for every header, boundary and start nonce: a
result with `success = true` carries a nonce `n` and a result string that is the hex of
`ethash.hash(context, header, n).final_hash`, and that hash is `≤ boundary`; a result with
`success = false` is `{"", "", 0, false}` and is returned only when `m_shouldMine` was
observed false. Once `m_shouldMine` is observed false the loop has returned. -/
theorem C24_mining_results (env : PowEnv) (s : POW) (headerHash boundary : Bytes)
    (startNonce : Nat) (shouldMine : List Bool) (r : ethash_mining_result_t) :
    (POW.MineLight env s headerHash boundary startNonce shouldMine = some r →
      (r.success = true →
        r.result = POW.BlockhashToHexString
            (env.hash s.m_epochContextLight headerHash r.winning_nonce).final_hash
          ∧ beNat (env.hash s.m_epochContextLight headerHash r.winning_nonce).final_hash
              ≤ beNat boundary)
      ∧ (r.success = false → r = ⟨[], [], 0, false⟩ ∧ false ∈ shouldMine))
    ∧ (POW.MineFull env s headerHash boundary startNonce shouldMine = some r →
      (r.success = true → ∃ ctx, s.m_epochContextFull = some ctx
          ∧ r.result = POW.BlockhashToHexString
              (env.hash ctx headerHash r.winning_nonce).final_hash
          ∧ beNat (env.hash ctx headerHash r.winning_nonce).final_hash ≤ beNat boundary)
      ∧ (r.success = false → r = ⟨[], [], 0, false⟩ ∧ false ∈ shouldMine))
    ∧ (false ∈ shouldMine →
      (∃ r1, POW.MineLight env s headerHash boundary startNonce shouldMine = some r1)
        ∧ (s.m_epochContextFull.isSome = true →
          ∃ r2, POW.MineFull env s headerHash boundary startNonce shouldMine = some r2)) := by
  refine ⟨fun hr => ⟨fun hs => ?_, fun hs => ?_⟩, fun hr => ⟨fun hs => ?_, fun hs => ?_⟩,
    fun hm => ⟨?_, fun hf => ?_⟩⟩
  · obtain ⟨h1, h2, _⟩ := mineLoop_hit _ _ _ _ _ hr hs
    exact ⟨h2, by simpa [is_less_or_equal] using h1⟩
  · exact mineLoop_failure _ _ _ _ _ hr hs
  · unfold POW.MineFull at hr
    cases hc : s.m_epochContextFull with
    | none =>
      rw [hc] at hr
      try dsimp only at hr
      split at hr
      · cases hr; cases hs
      · cases hr
    | some ctx =>
      rw [hc] at hr
      obtain ⟨h1, h2, _⟩ := mineLoop_hit _ _ _ _ _ hr hs
      exact ⟨ctx, rfl, h2, by simpa [is_less_or_equal] using h1⟩
  · unfold POW.MineFull at hr
    cases hc : s.m_epochContextFull with
    | none =>
      rw [hc] at hr
      try dsimp only at hr
      split at hr
      · cases hr; exact ⟨rfl, List.mem_cons_self _ _⟩
      · cases hr
    | some ctx =>
      rw [hc] at hr
      exact mineLoop_failure _ _ _ _ _ hr hs
  · exact mineLoop_total _ _ _ _ hm
  · unfold POW.MineFull
    cases hc : s.m_epochContextFull with
    | none => rw [hc] at hf; cases hf
    | some ctx => exact mineLoop_total _ _ _ _ hm


/-- C24 witness: on the sample library, `MineLight` from nonce 0 on the header `FF … FF`
against the boundary of difficulty 1 succeeds at nonce 1 with the hash `00 … 00`. -/
theorem C24_mining_results_witness :
    POW.MineLight sampleEnv (POW.new sampleEnv) (List.replicate 32 255)
        ((List.range 32).map (boundaryByte 1)) 0 [true, true, true, true]
      = some ⟨POW.BlockhashToHexString (List.replicate 32 0),
          POW.BlockhashToHexString (List.replicate 32 1), 1, true⟩
    ∧ POW.BlockhashToHexString (List.replicate 32 0)
        = POW.BlockhashToHexString (sampleEnv.hash (POW.new sampleEnv).m_epochContextLight
            (List.replicate 32 255) 1).final_hash
    ∧ beNat (sampleEnv.hash (POW.new sampleEnv).m_epochContextLight
          (List.replicate 32 255) 1).final_hash
        ≤ beNat ((List.range 32).map (boundaryByte 1)) :=
  ⟨by decide,
    ((C24_mining_results sampleEnv (POW.new sampleEnv) (List.replicate 32 255)
      ((List.range 32).map (boundaryByte 1)) 0 [true, true, true, true]
      ⟨POW.BlockhashToHexString (List.replicate 32 0),
        POW.BlockhashToHexString (List.replicate 32 1), 1, true⟩).1 (by decide)).1 rfl⟩

theorem mineLoop_none_before (h : Nat → EthashResult) (boundary : Bytes) (obs : List Bool)
    (s : Nat) (r : ethash_mining_result_t) (hlt : s < 2 ^ 64)
    (hr : POW.mineLoop h boundary obs s = some r) (hs : r.success = true) :
    ∀ k, s ≤ k → k < r.winning_nonce →
      is_less_or_equal (h k).final_hash boundary = false := by
  obtain ⟨m, _, hnm, hb⟩ := mineLoop_first h boundary obs s r hlt hr hs
  intro k hk1 hk2
  have h64 : (2 : Nat) ^ 64 = 18446744073709551616 := by norm_num
  rw [h64] at hnm hlt hb
  have hn64 : r.winning_nonce < 18446744073709551616 := by
    rw [hnm]; exact Nat.mod_lt _ (by decide)
  have hjm : k - s < m := by
    by_contra hc
    have h1 : s + m < 18446744073709551616 := by omega
    rw [Nat.mod_eq_of_lt h1] at hnm
    omega
  have := hb (k - s) hjm
  have e : (s + (k - s)) % 18446744073709551616 = k := by
    rw [Nat.mod_eq_of_lt (by omega)]; omega
  rw [e] at this
  exact this

/-- C25: whenever `MineLight` (or `MineFull`) returns `success = true` with a nonce `n`
reached from the start nonce `s` (a `uint64_t`), no nonce `k` with `s ≤ k < n` has
`ethash.hash(context, header, k).final_hash ≤ boundary`; a run without 64-bit wrap-around
is a case of it. -/
theorem C25_first_hit (env : PowEnv) (s : POW) (headerHash boundary : Bytes)
    (startNonce : Nat) (shouldMine : List Bool) (r : ethash_mining_result_t)
    (hstart : startNonce < 2 ^ 64) (hs : r.success = true) :
    (POW.MineLight env s headerHash boundary startNonce shouldMine = some r →
      ∀ k, startNonce ≤ k → k < r.winning_nonce →
        ¬ beNat (env.hash s.m_epochContextLight headerHash k).final_hash ≤ beNat boundary)
    ∧ (POW.MineFull env s headerHash boundary startNonce shouldMine = some r →
      ∃ ctx, s.m_epochContextFull = some ctx ∧ ∀ k, startNonce ≤ k → k < r.winning_nonce →
        ¬ beNat (env.hash ctx headerHash k).final_hash ≤ beNat boundary) := by
  constructor
  · intro hr k hk1 hk2
    have := mineLoop_none_before _ _ _ _ _ hstart hr hs k hk1 hk2
    simpa [is_less_or_equal] using this
  · intro hr
    unfold POW.MineFull at hr
    cases hc : s.m_epochContextFull with
    | none =>
      rw [hc] at hr
      dsimp only at hr
      split at hr
      · cases hr; cases hs
      · cases hr
    | some ctx =>
      rw [hc] at hr
      refine ⟨ctx, rfl, fun k hk1 hk2 => ?_⟩
      have := mineLoop_none_before _ _ _ _ _ hstart hr hs k hk1 hk2
      simpa [is_less_or_equal] using this

/-- C25 witness: on the sample library `MineLight` from nonce 0 on the header `FF … FF`
returns nonce 1, and the hash of nonce 0 is above the boundary. -/
theorem C25_first_hit_witness :
    POW.MineLight sampleEnv (POW.new sampleEnv) (List.replicate 32 255)
        ((List.range 32).map (boundaryByte 1)) 0 [true, true, true, true]
      = some ⟨POW.BlockhashToHexString (List.replicate 32 0),
          POW.BlockhashToHexString (List.replicate 32 1), 1, true⟩
    ∧ ¬ beNat (sampleEnv.hash (POW.new sampleEnv).m_epochContextLight
          (List.replicate 32 255) 0).final_hash
        ≤ beNat ((List.range 32).map (boundaryByte 1)) :=
  ⟨by decide,
    (C25_first_hit sampleEnv (POW.new sampleEnv) (List.replicate 32 255)
      ((List.range 32).map (boundaryByte 1)) 0 [true, true, true, true]
      ⟨POW.BlockhashToHexString (List.replicate 32 0),
        POW.BlockhashToHexString (List.replicate 32 1), 1, true⟩
      (by decide) rfl).1 (by decide) 0 (by decide) (by decide)⟩


/-! ## C22, C23: verification -/

theorem toUint8_lt (x : Int) : POW.toUint8 x < 256 := by
  unfold POW.toUint8
  omega

theorem hexPairs_lt : ∀ (l : Bytes), ∀ x ∈ POW.hexPairs l, x < 256
  | [], x, hx => by cases hx
  | [a], x, hx => by
    rw [POW.hexPairs, List.mem_singleton] at hx
    rw [hx]
    exact toUint8_lt _
  | a :: b :: rest, x, hx => by
    rw [POW.hexPairs, List.mem_cons] at hx
    rcases hx with hx | hx
    · rw [hx]; exact toUint8_lt _
    · exact hexPairs_lt rest x hx

theorem HexStringToBytes_lt (str : Bytes) : ∀ x ∈ POW.HexStringToBytes str, x < 256 := by
  intro x hx
  unfold POW.HexStringToBytes at hx
  dsimp only at hx
  split_ifs at hx
  all_goals
    first
    | exact hexPairs_lt _ x hx
    | (rw [List.mem_cons] at hx
       rcases hx with hx | hx
       · rw [hx]; exact toUint8_lt _
       · exact hexPairs_lt _ x hx)

theorem StringToBlockhash_IsHash256 (str r : Bytes) (h : POW.StringToBlockhash str = some r) :
    IsHash256 r := by
  unfold POW.StringToBlockhash at h
  dsimp only at h
  split_ifs at h with hl
  cases h
  exact ⟨by simpa using hl, HexStringToBytes_lt str⟩

theorem StringToBlockhash_BlockhashToHexString (b : Bytes) (h : IsHash256 b) :
    POW.StringToBlockhash (POW.BlockhashToHexString b) = some b := by
  have hb : POW.HexStringToBytes (POW.BlockhashToHexString b) = b := by
    unfold POW.BlockhashToHexString
    rw [HexStringToBytes_BytesToHexString, List.take_of_length_le (by rw [h.1])]
    conv_rhs => rw [← List.map_id b]
    apply List.map_congr_left
    intro x hx
    exact Nat.mod_eq_of_lt (h.2 x hx)
  unfold POW.StringToBlockhash
  dsimp only
  rw [hb, if_neg (by rw [h.1]; simp)]

/-- C22: for every block number, difficulty `d`, header, nonce and result / mixhash strings
that decode to 32 bytes, `PoWVerify` returns true if and only if
`result ≤ DifficultyLevelInInt(d)` and `ethash.verify(light context, header, mixhash, nonce,
boundary)` holds, the light context being the one of the engine after the configuration for
the block (the context for the epoch of the block when the engine keeps its invariant); in
particular with `d = 1` it returns false whenever bit 7 of byte 0 of the result is set. -/
theorem C22_verify (env : PowEnv) (s : POW) (blockNum difficulty : Nat) (headerHash : Bytes)
    (winning_nonce : Nat) (winning_result winning_mixhash result mixhash : Bytes)
    (hd : difficulty < 256) (hr : POW.StringToBlockhash winning_result = some result)
    (hm : POW.StringToBlockhash winning_mixhash = some mixhash) :
    ∃ boundary b, POW.DifficultyLevelInInt difficulty = some boundary
      ∧ POW.PoWVerify env s blockNum difficulty headerHash winning_nonce winning_result
          winning_mixhash
        = some (b, (POW.EthashConfigureClient env s blockNum fullDatasetDefault).2)
      ∧ (b = true ↔ beNat result ≤ beNat boundary
          ∧ env.verify
              (POW.EthashConfigureClient env s blockNum fullDatasetDefault).2.m_epochContextLight
              headerHash mixhash winning_nonce boundary = true)
      ∧ (LightInv env s →
          (POW.EthashConfigureClient env s blockNum fullDatasetDefault).2.m_epochContextLight
            = ⟨env.get_epoch_number blockNum, false⟩)
      ∧ (difficulty = 1 → result.getD 0 0 / 2 ^ 7 % 2 = 1 → b = false) := by
  have hD := DifficultyLevelInInt_eq difficulty hd
  have hty := StringToBlockhash_IsHash256 _ _ hr
  by_cases hle : beNat result ≤ beNat ((List.range 32).map (boundaryByte difficulty))
  · refine ⟨(List.range 32).map (boundaryByte difficulty), env.verify
        (POW.EthashConfigureClient env s blockNum fullDatasetDefault).2.m_epochContextLight
        headerHash mixhash winning_nonce ((List.range 32).map (boundaryByte difficulty)),
      hD, ?_, ?_,
      EthashConfigureClient_light env s blockNum _, ?_⟩
    · unfold POW.PoWVerify
      simp only [hD, hr, hm, is_less_or_equal, hle, decide_True, Bool.not_true]
      rfl
    · simp [hle]
    · intro h1 hbit
      exfalso
      rw [h1] at hle
      have h0 := (le_boundary_iff result 1 hty.1 hty.2 (by decide)).1 hle 0 (by decide)
      unfold msbit at h0
      simp only [Nat.zero_div, Nat.zero_mod, Nat.sub_zero] at h0
      omega
  · refine ⟨(List.range 32).map (boundaryByte difficulty), false, hD, ?_, ?_,
      EthashConfigureClient_light env s blockNum _, ?_⟩
    · unfold POW.PoWVerify
      simp only [hD, hr, is_less_or_equal, hle, decide_False, Bool.not_false]
      rfl
    · simp [hle]
    · intro _ _; rfl

theorem sampleEnv_typed : sampleEnv.Typed := by
  intro ctx header nonce
  refine ⟨⟨by simp [sampleEnv, sampleHash], ?_⟩, ⟨by simp [sampleEnv, sampleHash], ?_⟩⟩
  · intro x hx
    simp only [sampleEnv, sampleHash, List.mem_map] at hx
    obtain ⟨i, _, rfl⟩ := hx
    exact Nat.mod_lt _ (by decide)
  · intro x hx
    simp only [sampleEnv, sampleHash, List.mem_map] at hx
    obtain ⟨i, _, rfl⟩ := hx
    exact Nat.mod_lt _ (by decide)

theorem sampleEnv_verify (ctx : EpochContext) (header : Bytes) (nonce : Nat) (boundary : Bytes)
    (h : is_less_or_equal (sampleEnv.hash ctx header nonce).final_hash boundary = true) :
    sampleEnv.verify ctx header (sampleEnv.hash ctx header nonce).mix_hash nonce boundary
      = true := by
  simp only [sampleEnv] at h ⊢
  simp [h]

/-- C22 witness: on the sample library, the solution of the sample mining run (nonce 1 for
the header `FF … FF` at difficulty 1) is verified. -/
theorem C22_verify_witness :
    POW.PoWVerify sampleEnv (POW.new sampleEnv) 0 1 (List.replicate 32 255) 1
        (POW.BlockhashToHexString (List.replicate 32 0))
        (POW.BlockhashToHexString (List.replicate 32 1))
      = some (true, POW.new sampleEnv) := by
  obtain ⟨boundary, b, hb, hv, hiff, _, _⟩ := C22_verify sampleEnv (POW.new sampleEnv) 0 1
    (List.replicate 32 255) 1 (POW.BlockhashToHexString (List.replicate 32 0))
    (POW.BlockhashToHexString (List.replicate 32 1)) (List.replicate 32 0)
    (List.replicate 32 1) (by decide)
    (StringToBlockhash_BlockhashToHexString _ ⟨by decide, by decide⟩)
    (StringToBlockhash_BlockhashToHexString _ ⟨by decide, by decide⟩)
  rw [hv]
  have hb1 : boundary = (List.range 32).map (boundaryByte 1) := by
    rw [DifficultyLevelInInt_eq 1 (by decide)] at hb
    exact (Option.some.inj hb).symm
  have : b = true := by
    rw [hiff, hb1]
    exact ⟨by decide, by decide⟩
  rw [this]
  rfl

/-- C23: mined solutions verify. For every block number, difficulty `d`, header and start
nonce, if light-CPU `PoWMine` returns `r` with `success = true`, then
`PoWVerify(blockNum, d, header, r.winning_nonce, r.result, r.mix_hash)` returns true (on the
mining engine or any other engine that keeps the light-context invariant), assuming
`ethash.verify` accepts `(header, mix, nonce, boundary)` whenever `ethash.hash` under the
same epoch context yields that mix hash and a final hash `≤ boundary`. -/
theorem C23_mined_verifies (env : PowEnv) (hty : env.Typed)
    (hverify : ∀ ctx header nonce boundary,
      beNat (env.hash ctx header nonce).final_hash ≤ beNat boundary →
      env.verify ctx header (env.hash ctx header nonce).mix_hash nonce boundary = true)
    (hremote : env.REMOTE_MINE = false) (hopencl : env.OPENCL_GPU_MINE = false)
    (hcuda : env.CUDA_GPU_MINE = false)
    (s1 s2 : POW) (h1 : LightInv env s1) (h2 : LightInv env s2) (run : MiningRun)
    (blockNum difficulty : Nat) (pubKeyData headerHash : Bytes) (startNonce : Nat)
    (r : ethash_mining_result_t) (s1a : POW)
    (hmine : POW.PoWMine env s1 run blockNum difficulty pubKeyData headerHash false startNonce
      = some (r, s1a))
    (hs : r.success = true) :
    (∃ s2a, POW.PoWVerify env s2 blockNum difficulty headerHash r.winning_nonce r.result
        r.mix_hash = some (true, s2a))
    ∧ ∃ s1b, POW.PoWVerify env s1a blockNum difficulty headerHash r.winning_nonce r.result
        r.mix_hash = some (true, s1b) := by
  unfold POW.PoWMine at hmine
  dsimp only at hmine
  cases hD : POW.DifficultyLevelInInt difficulty with
  | none => rw [hD] at hmine; cases hmine
  | some boundary =>
    rw [hD] at hmine
    simp only [hremote, hopencl, hcuda, Bool.or_self, Bool.false_eq_true, if_false,
      Option.map_eq_some'] at hmine
    obtain ⟨r0, hr0, he⟩ := hmine
    have hra : r0 = r := (Prod.mk.inj he).1
    have hsa : s1a = (POW.EthashConfigureClient env s1 blockNum false).2 :=
      (Prod.mk.inj he).2.symm
    subst hra
    obtain ⟨hit, hres, hmix⟩ := mineLoop_hit _ _ _ _ _ hr0 hs
    rw [EthashConfigureClient_light env s1 blockNum false h1] at hit hres hmix
    have key : ∀ s, LightInv env s →
        POW.PoWVerify env s blockNum difficulty headerHash r0.winning_nonce r0.result
          r0.mix_hash
        = some (true, (POW.EthashConfigureClient env s blockNum fullDatasetDefault).2) := by
      intro s hinv
      unfold POW.PoWVerify
      simp only [hD, hres, hmix,
        StringToBlockhash_BlockhashToHexString _ (hty _ _ _).1,
        StringToBlockhash_BlockhashToHexString _ (hty _ _ _).2, hit, Bool.not_true,
        Bool.false_eq_true, if_false, EthashConfigureClient_light env s blockNum _ hinv]
      rw [hverify _ _ _ _ (by simpa [is_less_or_equal] using hit)]
    refine ⟨⟨_, key s2 h2⟩, ⟨_, key s1a ?_⟩⟩
    rw [hsa]
    exact EthashConfigureClient_LightInv env s1 blockNum false h1

/-- C23 witness: on the sample library the sample mining run succeeds at nonce 1, and its
solution is verified. -/
theorem C23_mined_verifies_witness :
    POW.PoWMine sampleEnv (POW.new sampleEnv) sampleRun 0 1 [] (List.replicate 32 255)
        false 0
      = some (⟨POW.BlockhashToHexString (List.replicate 32 0),
          POW.BlockhashToHexString (List.replicate 32 1), 1, true⟩, POW.new sampleEnv)
    ∧ ∃ s2a, POW.PoWVerify sampleEnv (POW.new sampleEnv) 0 1 (List.replicate 32 255) 1
        (POW.BlockhashToHexString (List.replicate 32 0))
        (POW.BlockhashToHexString (List.replicate 32 1)) = some (true, s2a) :=
  ⟨by decide,
    (C23_mined_verifies sampleEnv sampleEnv_typed
      (fun ctx header nonce boundary h =>
        sampleEnv_verify ctx header nonce boundary (by simpa [is_less_or_equal] using h))
      rfl rfl rfl (POW.new sampleEnv) (POW.new sampleEnv)
      (LightInv_new sampleEnv) (LightInv_new sampleEnv) sampleRun 0 1 []
      (List.replicate 32 255) 0
      ⟨POW.BlockhashToHexString (List.replicate 32 0),
        POW.BlockhashToHexString (List.replicate 32 1), 1, true⟩
      (POW.new sampleEnv) (by decide) rfl).1⟩


/-! ## C26: solutions of the mining proxy -/

/-- C26: on the sample library, `RemoteMine` (and `PoWMine` in the remote configuration) for
block 0, the header `FF … FF` and the boundary of difficulty 1, with a proxy that answers
with nonce 0 for the header `00 … 00`, returns `success = true` with the result
`00 … 00`; the hash of the requested header at nonce 0 is `FF … FF`, above the boundary,
and `PoWVerify` rejects the returned solution for the requested header. -/
theorem C26_remote_other_header :
    POW.RemoteMine remoteEnv (POW.new remoteEnv) otherHeaderRun samplePubKey 0
        (List.replicate 32 255) ((List.range 32).map (boundaryByte 1))
      = some (⟨POW.BlockhashToHexString (List.replicate 32 0),
          POW.BlockhashToHexString (List.replicate 32 0), 0, true⟩, POW.new remoteEnv)
    ∧ POW.PoWMine remoteEnv (POW.new remoteEnv) otherHeaderRun 0 1 samplePubKey
        (List.replicate 32 255) false 0
      = some (⟨POW.BlockhashToHexString (List.replicate 32 0),
          POW.BlockhashToHexString (List.replicate 32 0), 0, true⟩, POW.new remoteEnv)
    ∧ (remoteEnv.hash (POW.new remoteEnv).m_epochContextLight (List.replicate 32 255)
        0).final_hash = List.replicate 32 255
    ∧ ¬ beNat (remoteEnv.hash (POW.new remoteEnv).m_epochContextLight (List.replicate 32 255)
          0).final_hash ≤ beNat ((List.range 32).map (boundaryByte 1))
    ∧ POW.PoWVerify remoteEnv (POW.new remoteEnv) 0 1 (List.replicate 32 255) 0
        (POW.BlockhashToHexString (List.replicate 32 0))
        (POW.BlockhashToHexString (List.replicate 32 0))
      = some (false, POW.new remoteEnv) := by
  refine ⟨by decide, by decide, by decide, by decide, by decide⟩

/-! ## C27, C28: the header hash -/

theorem FromHex_hexDigitUpper : ∀ n, n < 16 → POW.FromHex (hexDigitUpper n) = (n : Int) := by
  decide

theorem hexDigitUpper_ne_x : ∀ n, n < 16 → hexDigitUpper n ≠ 120 := by
  decide

theorem toUint8_upper_pair (b : Nat) :
    POW.toUint8 (POW.FromHex (hexDigitUpper (b % 256 / 16)) * 16
      + POW.FromHex (hexDigitUpper (b % 256 % 16))) = b % 256 := by
  rw [FromHex_hexDigitUpper _ (by omega), FromHex_hexDigitUpper _ (by omega)]
  unfold POW.toUint8
  have h : ((b % 256 / 16 : Nat) : Int) * 16 + ((b % 256 % 16 : Nat) : Int)
      = ((b % 256 : Nat) : Int) := by omega
  rw [h]
  omega

theorem hexPairs_Uint8VecToHexStr (l : Bytes) :
    POW.hexPairs (Uint8VecToHexStr l) = l.map (fun b => b % 256) := by
  induction l with
  | nil => rfl
  | cons x xs ih =>
    unfold Uint8VecToHexStr at ih ⊢
    rw [List.flatMap_cons, List.map_cons]
    show POW.hexPairs (hexDigitUpper (x % 256 / 16) :: hexDigitUpper (x % 256 % 16)
      :: xs.flatMap (fun b => [hexDigitUpper (b % 256 / 16), hexDigitUpper (b % 256 % 16)]))
      = _
    rw [POW.hexPairs, toUint8_upper_pair, ih]

theorem length_Uint8VecToHexStr (l : Bytes) : (Uint8VecToHexStr l).length = 2 * l.length := by
  induction l with
  | nil => rfl
  | cons x xs ih =>
    unfold Uint8VecToHexStr at ih ⊢
    rw [List.flatMap_cons, List.length_append, ih]
    simp only [List.length_cons, List.length_nil]
    omega

/-- Decoding the uppercase hexadecimal string of a vector gives its bytes back. -/
theorem HexStringToBytes_Uint8VecToHexStr (b : Bytes) :
    POW.HexStringToBytes (Uint8VecToHexStr b) = b.map (fun x => x % 256) := by
  unfold POW.HexStringToBytes
  have hx : ¬ ((Uint8VecToHexStr b).getD 0 0 = 48 ∧ (Uint8VecToHexStr b).getD 1 0 = 120) := by
    rintro ⟨_, h1⟩
    cases b with
    | nil => simp [Uint8VecToHexStr] at h1
    | cons x xs =>
      unfold Uint8VecToHexStr at h1
      rw [List.flatMap_cons] at h1
      simp only [List.cons_append, List.nil_append, List.getD_cons_succ, List.getD_cons_zero]
        at h1
      exact hexDigitUpper_ne_x _ (by omega) h1
  have hlen : ¬ (Uint8VecToHexStr b).length % 2 = 1 := by
    rw [length_Uint8VecToHexStr]; omega
  simp only [hx, if_false, hlen, List.drop_zero]
  exact hexPairs_Uint8VecToHexStr _

theorem StringToBlockhash_Uint8VecToHexStr (b : Bytes) (h : IsHash256 b) :
    POW.StringToBlockhash (Uint8VecToHexStr b) = some b := by
  have hb : POW.HexStringToBytes (Uint8VecToHexStr b) = b := by
    rw [HexStringToBytes_Uint8VecToHexStr]
    conv_rhs => rw [← List.map_id b]
    apply List.map_congr_left
    intro x hx
    exact Nat.mod_eq_of_lt (h.2 x hx)
  unfold POW.StringToBlockhash
  dsimp only
  rw [hb, if_neg (by rw [h.1]; simp)]

theorem length_bigEndianBytes (v : Nat) : ∀ n, (bigEndianBytes v n).length = n := by
  intro n
  induction n generalizing v with
  | zero => rfl
  | succ n ih => rw [bigEndianBytes, List.length_append, ih, List.length_singleton]

theorem bigEndianBytes_lt (v : Nat) : ∀ n, ∀ x ∈ bigEndianBytes v n, x < 256 := by
  intro n
  induction n generalizing v with
  | zero => intro x hx; cases hx
  | succ n ih =>
    intro x hx
    rw [bigEndianBytes, List.mem_append, List.mem_singleton] at hx
    rcases hx with hx | hx
    · exact ih _ x hx
    · rw [hx]; exact Nat.mod_lt _ (by decide)

/-- The bytes read back as a big-endian integer give the number modulo `256^size`. -/
theorem beNat_bigEndianBytes (v : Nat) : ∀ n, beNat (bigEndianBytes v n) = v % 256 ^ n := by
  intro n
  induction n generalizing v with
  | zero => simp [bigEndianBytes, beNat, Nat.mod_one]
  | succ n ih =>
    rw [bigEndianBytes, beNat_append_singleton, ih, Nat.pow_succ, Nat.mul_comm (256 ^ n) 256,
      Nat.mod_mul]
    omega

/-- C27: `GenHeaderHash(rand1, rand2, ipAddr, pubKey, lookupId, gasPrice)` equals the
SHA-256 digest of the byte string rand1 ++ rand2 ++ ipAddr as 16 big-endian bytes ++
serialized pubKey ++ lookupId as 4 big-endian bytes ++ gasPrice as 16 big-endian bytes, in
that order, and the 32 digest bytes are returned unchanged (the hex encode/decode step is
the identity). -/
theorem C27_header_hash (sha256 : Bytes → Bytes) (hsha : ∀ x, IsHash256 (sha256 x))
    (rand1 rand2 pubKey : Bytes) (ipAddr lookupId gasPrice : Nat)
    (hip : ipAddr < 2 ^ 128) (hl : lookupId < 2 ^ 32) (hg : gasPrice < 2 ^ 128) :
    ∃ ip lk gp : Bytes,
      (ip.length = 16 ∧ (∀ x ∈ ip, x < 256) ∧ beNat ip = ipAddr)
      ∧ (lk.length = 4 ∧ (∀ x ∈ lk, x < 256) ∧ beNat lk = lookupId)
      ∧ (gp.length = 16 ∧ (∀ x ∈ gp, x < 256) ∧ beNat gp = gasPrice)
      ∧ POW.ConcatAndhash sha256 rand1 rand2 ipAddr pubKey lookupId gasPrice
          = sha256 (rand1 ++ rand2 ++ ip ++ pubKey ++ lk ++ gp)
      ∧ POW.GenHeaderHash sha256 rand1 rand2 ipAddr pubKey lookupId gasPrice
          = some (sha256 (rand1 ++ rand2 ++ ip ++ pubKey ++ lk ++ gp)) := by
  have hv : POW.ConcatAndhashVec rand1 rand2 ipAddr pubKey lookupId gasPrice
      = rand1 ++ rand2 ++ bigEndianBytes ipAddr 16 ++ pubKey ++ bigEndianBytes lookupId 4
        ++ bigEndianBytes gasPrice 16 := by
    unfold POW.ConcatAndhashVec SetNumber UINT128_SIZE
    simp only [List.nil_append]
  refine ⟨bigEndianBytes ipAddr 16, bigEndianBytes lookupId 4, bigEndianBytes gasPrice 16,
    ⟨length_bigEndianBytes _ _, bigEndianBytes_lt _ _, ?_⟩,
    ⟨length_bigEndianBytes _ _, bigEndianBytes_lt _ _, ?_⟩,
    ⟨length_bigEndianBytes _ _, bigEndianBytes_lt _ _, ?_⟩, ?_, ?_⟩
  · rw [beNat_bigEndianBytes]
    exact Nat.mod_eq_of_lt (by norm_num at hip ⊢; exact hip)
  · rw [beNat_bigEndianBytes]
    exact Nat.mod_eq_of_lt (by norm_num at hl ⊢; exact hl)
  · rw [beNat_bigEndianBytes]
    exact Nat.mod_eq_of_lt (by norm_num at hg ⊢; exact hg)
  · unfold POW.ConcatAndhash
    rw [hv]
  · unfold POW.GenHeaderHash POW.ConcatAndhash
    dsimp only
    rw [StringToBlockhash_Uint8VecToHexStr _ (hsha _), hv]

theorem sampleDigest_IsHash256 (x : Bytes) : IsHash256 (sampleDigest x) := by
  refine ⟨by simp [sampleDigest], ?_⟩
  intro y hy
  simp only [sampleDigest, List.mem_map] at hy
  obtain ⟨i, _, rfl⟩ := hy
  exact Nat.mod_lt _ (by decide)

/-- C27 witness: the header hash under the sample digest for `ipAddr = 0x0102`,
`lookupId = 3` and `gasPrice = 0x0405`. -/
theorem C27_header_hash_witness :
    ∃ ip lk gp : Bytes,
      (ip.length = 16 ∧ (∀ x ∈ ip, x < 256) ∧ beNat ip = 0x0102)
      ∧ (lk.length = 4 ∧ (∀ x ∈ lk, x < 256) ∧ beNat lk = 3)
      ∧ (gp.length = 16 ∧ (∀ x ∈ gp, x < 256) ∧ beNat gp = 0x0405)
      ∧ POW.ConcatAndhash sampleDigest (List.replicate 32 7) (List.replicate 32 8) 0x0102
          samplePubKey 3 0x0405
        = sampleDigest (List.replicate 32 7 ++ List.replicate 32 8 ++ ip ++ samplePubKey
            ++ lk ++ gp)
      ∧ POW.GenHeaderHash sampleDigest (List.replicate 32 7) (List.replicate 32 8) 0x0102
          samplePubKey 3 0x0405
        = some (sampleDigest (List.replicate 32 7 ++ List.replicate 32 8 ++ ip
            ++ samplePubKey ++ lk ++ gp)) :=
  C27_header_hash sampleDigest sampleDigest_IsHash256 (List.replicate 32 7)
    (List.replicate 32 8) samplePubKey 0x0102 3 0x0405 (by norm_num) (by norm_num)
    (by norm_num)

/-- C28 (as stated) fails: with zero random values, address, lookup id and gas price and
the sample key, the vector hashed by `ConcatAndhash` has 133 bytes and is not the 97 zero
bytes followed by the key (130 bytes), and with the sample digest the header hash is not
the digest of that string. -/
theorem C28_counterexample :
    POW.ConcatAndhashVec (List.replicate 32 0) (List.replicate 32 0) 0 samplePubKey 0 0
        ≠ List.replicate 97 0 ++ samplePubKey
    ∧ (POW.ConcatAndhashVec (List.replicate 32 0) (List.replicate 32 0) 0 samplePubKey 0
        0).length = 133
    ∧ POW.GenHeaderHash sampleDigest (List.replicate 32 0) (List.replicate 32 0) 0
        samplePubKey 0 0
      ≠ some (sampleDigest (List.replicate 97 0 ++ samplePubKey)) := by
  refine ⟨by decide, by rfl, ?_⟩
  set_option maxRecDepth 100000 in decide

/-- C28 (amended): with `rand1 = rand2 =` 32 zero bytes, `ipAddr = 0`, `lookupId = 0` and
`gasPrice = 0`, for every public key `GenHeaderHash` equals SHA-256 of the byte string made
of 80 zero bytes followed by the serialized public key followed by 20 zero bytes, i.e. that
byte string is exactly the input `ConcatAndhash` feeds to SHA-256. -/
theorem C28_zero_input (sha256 : Bytes → Bytes) (hsha : ∀ x, IsHash256 (sha256 x))
    (pubKey : Bytes) :
    POW.ConcatAndhashVec (List.replicate 32 0) (List.replicate 32 0) 0 pubKey 0 0
        = List.replicate 80 0 ++ pubKey ++ List.replicate 20 0
    ∧ POW.ConcatAndhash sha256 (List.replicate 32 0) (List.replicate 32 0) 0 pubKey 0 0
        = sha256 (List.replicate 80 0 ++ pubKey ++ List.replicate 20 0)
    ∧ POW.GenHeaderHash sha256 (List.replicate 32 0) (List.replicate 32 0) 0 pubKey 0 0
        = some (sha256 (List.replicate 80 0 ++ pubKey ++ List.replicate 20 0)) := by
  have hv : POW.ConcatAndhashVec (List.replicate 32 0) (List.replicate 32 0) 0 pubKey 0 0
      = List.replicate 80 0 ++ pubKey ++ List.replicate 20 0 := by
    unfold POW.ConcatAndhashVec SetNumber UINT128_SIZE
    have h1 : (List.replicate 32 0 ++ List.replicate 32 0 ++ ([] ++ bigEndianBytes 0 16)
        : Bytes) = List.replicate 80 0 := by decide
    have h2 : (bigEndianBytes 0 4 ++ bigEndianBytes 0 16 : Bytes) = List.replicate 20 0 := by
      decide
    dsimp only
    rw [h1, List.append_assoc (List.replicate 80 0 ++ pubKey), h2]
  refine ⟨hv, ?_, ?_⟩
  · unfold POW.ConcatAndhash
    rw [hv]
  · unfold POW.GenHeaderHash POW.ConcatAndhash
    dsimp only
    rw [StringToBlockhash_Uint8VecToHexStr _ (hsha _), hv]

/-- C28 witness: the header hash for the sample key under the sample digest. -/
theorem C28_zero_input_witness :
    POW.GenHeaderHash sampleDigest (List.replicate 32 0) (List.replicate 32 0) 0
        samplePubKey 0 0
      = some (sampleDigest (List.replicate 80 0 ++ samplePubKey ++ List.replicate 20 0)) :=
  (C28_zero_input sampleDigest sampleDigest_IsHash256 samplePubKey).2.2


/-! ## C39: the hexadecimal round trip -/

theorem map_mod_of_lt (b : Bytes) (hb : ∀ x ∈ b, x < 256) : b.map (fun x => x % 256) = b := by
  conv_rhs => rw [← List.map_id b]
  apply List.map_congr_left
  intro x hx
  exact Nat.mod_eq_of_lt (hb x hx)

/-- Decoding the hexadecimal string behind the marker `0x` gives the bytes back. -/
theorem HexStringToBytes_marked (b : Bytes) (s : Nat) :
    POW.HexStringToBytes (48 :: 120 :: POW.BytesToHexString b s)
      = (b.take s).map (fun x => x % 256) := by
  unfold POW.HexStringToBytes POW.BytesToHexString
  have hlen : ¬ (48 :: 120 :: (b.take s).flatMap
      (fun b => [hexDigit (b % 256 / 16), hexDigit (b % 256 % 16)])).length % 2 = 1 := by
    simp only [List.length_cons, length_hex]; omega
  simp only [List.getD_cons_zero, List.getD_cons_succ, and_self, if_true, hlen, if_false,
    List.drop_succ_cons, List.drop_zero]
  exact hexPairs_hex _

/-- C39: for every byte sequence `b`, `HexStringToBytes(BytesToHexString(b)) = b` and
`HexStringToBytes("0x" ++ BytesToHexString(b)) = b`; hence
`StringToBlockhash(BlockhashToHexString(h)) = h` for every 32-byte hash `h`. -/
theorem C39_hex_round_trip (b : Bytes) (hb : ∀ x ∈ b, x < 256) :
    POW.HexStringToBytes (POW.BytesToHexString b b.length) = b
    ∧ POW.HexStringToBytes ([48, 120] ++ POW.BytesToHexString b b.length) = b
    ∧ (b.length = 32 → POW.StringToBlockhash (POW.BlockhashToHexString b) = some b) := by
  refine ⟨?_, ?_, fun hlen => StringToBlockhash_BlockhashToHexString b ⟨hlen, hb⟩⟩
  · rw [HexStringToBytes_BytesToHexString, List.take_length, map_mod_of_lt b hb]
  · show POW.HexStringToBytes (48 :: 120 :: POW.BytesToHexString b b.length) = b
    rw [HexStringToBytes_marked, List.take_length, map_mod_of_lt b hb]

/-- C39 witness: the bytes `00 0A FF` and their strings `000aff` and `0x000aff`. -/
theorem C39_hex_round_trip_witness :
    POW.BytesToHexString [0, 10, 255] 3 = [48, 48, 48, 97, 102, 102]
    ∧ POW.HexStringToBytes [48, 48, 48, 97, 102, 102] = [0, 10, 255]
    ∧ POW.HexStringToBytes [48, 120, 48, 48, 48, 97, 102, 102] = [0, 10, 255] :=
  ⟨by decide, (C39_hex_round_trip [0, 10, 255] (by decide)).1,
    (C39_hex_round_trip [0, 10, 255] (by decide)).2.1⟩

/-! ## C40: storage keys of separator-free names and indices -/

/-- C40: for a fixed address, any two non-empty names and index lists none of whose
components contains the separator byte produce the same key only if the names are equal
and the index lists are equal. -/
theorem C40_storage_key_injective (addr : Address) (vname1 vname2 : Bytes)
    (indices1 indices2 : List Bytes) (hn1 : vname1 ≠ []) (hn2 : vname2 ≠ [])
    (hs1 : sepFree vname1) (hs2 : sepFree vname2) (hi1 : ∀ i ∈ indices1, sepFree i)
    (hi2 : ∀ i ∈ indices2, sepFree i)
    (h : GenerateStorageKey addr vname1 indices1 = GenerateStorageKey addr vname2 indices2) :
    vname1 = vname2 ∧ indices1 = indices2 := by
  unfold GenerateStorageKey at h
  rw [if_neg hn1, if_neg hn2, appendIndices_eq_append _ indices1,
    appendIndices_eq_append _ indices2] at h
  simp only [List.append_assoc, List.singleton_append] at h
  have h1 := List.append_cancel_left h
  have h2 := (List.cons.inj h1).2
  obtain ⟨e1, e2⟩ := sepFree_append_inj hs1 hs2 h2
  refine ⟨e1, ?_⟩
  have e3 := congrArg (split SCILLA_INDEX_SEPARATOR) e2
  rw [split_enc _ hi1, split_enc _ hi2] at e3
  exact List.append_cancel_right e3

/-- C40 witness: the keys of `m[x][y]` and `m[xy]` under `addrAA` differ. -/
theorem C40_storage_key_injective_witness :
    GenerateStorageKey addrAA [109] [[120], [121]] ≠ GenerateStorageKey addrAA [109] [[120, 121]] :=
  fun h => absurd (C40_storage_key_injective addrAA [109] [109] [[120], [121]] [[120, 121]]
    (by decide) (by decide) (by unfold sepFree; decide) (by unfold sepFree; decide)
    (by unfold sepFree; decide) (by unfold sepFree; decide) h).2 (by decide)


/-! ## C31: the move to disk -/

/-- C31: on the sample account store, with `BatchInsert` failing inside `CommitStateDB` and
every other call succeeding, `CommitStateDB` returns false and `MoveUpdatesToDisk` returns
true; the code key it had inserted is deleted again, the init data stays, and the account
map is cleared. -/
theorem C31_commit_failure_masked :
    (CommitStateDB commitFailsRun.batchOk commitFailsRun.deleteOk
        sampleAccountStore.contractStorage).1 = false
    ∧ (AccountStore.MoveUpdatesToDisk commitFailsRun sampleAccountStore).1 = true
    ∧ (AccountStore.MoveUpdatesToDisk commitFailsRun sampleAccountStore).2.m_codeDB = []
    ∧ (AccountStore.MoveUpdatesToDisk commitFailsRun sampleAccountStore).2.m_initDataDB
        = [(addrAA.hex, [4, 5])]
    ∧ (AccountStore.MoveUpdatesToDisk commitFailsRun sampleAccountStore).2.m_addressToAccount
        = []
    ∧ (AccountStore.MoveUpdatesToDisk commitFailsRun sampleAccountStore).2.contractStorage
        = sampleAccountStore.contractStorage := by
  refine ⟨by decide, by decide, by decide, by decide, by decide, by decide⟩

/-! ## C33: the hash of the state delta -/

/-- C33: `GetStateDeltaHash` returns the all-zero `StateHash` when the serialized delta
buffer is empty or consists only of zero bytes, and otherwise returns the SHA-256 digest of
the bytes of the buffer; it does not modify the buffer (nor anything else of the store). -/
theorem C33_state_delta_hash (sha256 : Bytes → Bytes) (a : AccountStore) :
    ((∀ i ∈ a.m_stateDeltaSerialized, i = 0) →
      (AccountStore.GetStateDeltaHash sha256 a).1 = List.replicate 32 0)
    ∧ ((∃ i ∈ a.m_stateDeltaSerialized, i ≠ 0) →
      (AccountStore.GetStateDeltaHash sha256 a).1 = sha256 a.m_stateDeltaSerialized)
    ∧ (AccountStore.GetStateDeltaHash sha256 a).2 = a := by
  unfold AccountStore.GetStateDeltaHash
  refine ⟨fun h => ?_, fun h => ?_, ?_⟩
  · have : a.m_stateDeltaSerialized.all (fun i => !decide (i ≠ 0)) = true := by
      rw [List.all_eq_true]
      intro i hi
      simp [h i hi]
    simp only [this, if_true]
  · have : ¬ a.m_stateDeltaSerialized.all (fun i => !decide (i ≠ 0)) = true := by
      rw [List.all_eq_true]
      intro hall
      obtain ⟨i, hi, hne⟩ := h
      have := hall i hi
      simp [hne] at this
    simp only [this, Bool.false_eq_true, if_false]
  · dsimp only
    split_ifs <;> rfl

/-- C33 witness: the hash of an empty buffer, of a buffer of three zero bytes, and of the
buffer `00 07`, with the identity in the place of SHA-256. -/
theorem C33_state_delta_hash_witness :
    (AccountStore.GetStateDeltaHash idDigest sampleAccountStore).1 = List.replicate 32 0
    ∧ (AccountStore.GetStateDeltaHash idDigest
        { sampleAccountStore with m_stateDeltaSerialized := [0, 0, 0] }).1 = List.replicate 32 0
    ∧ (AccountStore.GetStateDeltaHash idDigest
        { sampleAccountStore with m_stateDeltaSerialized := [0, 7] }).1 = [0, 7] :=
  ⟨(C33_state_delta_hash idDigest sampleAccountStore).1 (by decide),
    (C33_state_delta_hash idDigest
      { sampleAccountStore with m_stateDeltaSerialized := [0, 0, 0] }).1 (by decide),
    (C33_state_delta_hash idDigest
      { sampleAccountStore with m_stateDeltaSerialized := [0, 7] }).2.1 (by decide)⟩


/-! ## C35: the committed view across `CommitStateDB` -/

theorem foldl_insert_WF (l : SMap Bytes) (db : SMap Bytes) (h : SMap.WF db) :
    SMap.WF (l.foldl (fun db i => SMap.insert db i.1 i.2) db) := by
  induction l generalizing db with
  | nil => exact h
  | cons e tl ih => exact ih _ (h.insert _ _)

theorem deleteKeys_WF (deleteOk : Key → Bool) (ks : List Key) (db : SMap Bytes)
    (h : SMap.WF db) : SMap.WF (deleteKeys deleteOk ks db).2 := by
  induction ks generalizing db with
  | nil => exact h
  | cons k rest ih =>
    simp only [deleteKeys]
    split_ifs
    · exact ih _ (h.erase k)
    · exact h

/-- The store that a successful `CommitStateDB` leaves. -/
theorem CommitStateDB_ok (batchOk : Bool) (deleteOk : Key → Bool) (s : ContractStorage2)
    (hok : (CommitStateDB batchOk deleteOk s).1 = true) :
    (deleteKeys deleteOk (s.m_indexToBeDeleted.map Prod.fst)
        (s.m_stateDataMap.foldl (fun db i => SMap.insert db i.1 i.2) s.m_stateDataDB)).1 = true
    ∧ (CommitStateDB batchOk deleteOk s).2
      = { s with
          m_stateDataDB := (deleteKeys deleteOk (s.m_indexToBeDeleted.map Prod.fst)
            (s.m_stateDataMap.foldl (fun db i => SMap.insert db i.1 i.2) s.m_stateDataDB)).2
          m_stateDataMap := []
          m_indexToBeDeleted := []
          t_stateDataMap := []
          t_indexToBeDeleted := [] } := by
  unfold CommitStateDB at hok ⊢
  cases batchOk with
  | false => simp at hok
  | true =>
    simp only [Bool.not_true, Bool.false_eq_true, if_false] at hok ⊢
    generalize deleteKeys deleteOk (s.m_indexToBeDeleted.map Prod.fst)
      (s.m_stateDataMap.foldl (fun db i => SMap.insert db i.1 i.2) s.m_stateDataDB) = r
      at hok ⊢
    obtain ⟨ok, db⟩ := r
    cases ok with
    | false => simp at hok
    | true => exact ⟨rfl, rfl⟩

theorem CommitStateDB_viewLookup (batchOk : Bool) (deleteOk : Key → Bool)
    (s : ContractStorage2) (hwf : s.WF) (hok : (CommitStateDB batchOk deleteOk s).1 = true)
    (k : Key) :
    viewLookup (CommitStateDB batchOk deleteOk s).2 false k = viewLookup s false k := by
  obtain ⟨hdel, hs⟩ := CommitStateDB_ok batchOk deleteOk s hok
  rw [hs]
  unfold viewLookup
  simp only [Bool.false_eq_true, if_false, SSet.mem, SMap.contains, SMap.find?,
    Option.isSome_none]
  have hnone : ∀ o : Option Bytes, (none : Option Bytes).orElse (fun _ => o) = o := fun _ => rfl
  rw [hnone, deleteKeys_find? deleteOk _ _ hdel k, foldl_insert_find? _ hwf.m]
  have hkeys := SMap.contains_iff_mem_keys s.m_indexToBeDeleted k
  unfold SMap.contains at hkeys
  by_cases hm : k ∈ s.m_indexToBeDeleted.map Prod.fst
  · rw [if_pos hm, if_pos (hkeys.2 hm)]
  · have : ¬ (SMap.find? s.m_indexToBeDeleted k).isSome = true := fun h => hm (hkeys.1 h)
    rw [if_neg hm, if_neg this]

theorem CommitStateDB_WF (batchOk : Bool) (deleteOk : Key → Bool) (s : ContractStorage2)
    (hwf : s.WF) : (CommitStateDB batchOk deleteOk s).2.WF := by
  unfold CommitStateDB
  split_ifs
  · exact hwf
  · dsimp only
    have hdb := deleteKeys_WF deleteOk (s.m_indexToBeDeleted.map Prod.fst) _
      (foldl_insert_WF s.m_stateDataMap s.m_stateDataDB hwf.db)
    split
    · rename_i db heq
      rw [heq] at hdb
      exact ⟨hdb, hwf.m, hwf.md, hwf.t, hwf.td, hwf.p, hwf.pd, hwf.r, hwf.rd⟩
    · rename_i db heq
      rw [heq] at hdb
      exact ⟨hdb, SMap.WF.nil, SMap.WF.nil, SMap.WF.nil, SMap.WF.nil, hwf.p, hwf.pd, hwf.r,
        hwf.rd⟩

/-- C35: for every state in which the database operations succeed and every key `k`, the
committed-tier lookup of `k` (`m_state` over the database, hidden when `k` is in
`m_deleted`, as computed by `FetchStateDataForKey` with `temp = false`) is the same before
and after `CommitStateDB`; hence `GetContractStateHash(addr, temp = false)` is unchanged for
every address. -/
theorem C35_commit_keeps_committed_view (sha256 : Bytes → Bytes) (batchOk : Bool)
    (deleteOk : Key → Bool) (s : ContractStorage2) (hwf : s.WF)
    (hok : (CommitStateDB batchOk deleteOk s).1 = true) :
    (∀ k, viewLookup (CommitStateDB batchOk deleteOk s).2 false k = viewLookup s false k)
    ∧ (∀ key, FetchStateDataForKey (CommitStateDB batchOk deleteOk s).2 key false
        = FetchStateDataForKey s key false)
    ∧ (∀ key k, SMap.find? (FetchStateDataForKey s key false) k
        = if startsWith k key then viewLookup s false k else none)
    ∧ ∀ addr callFromExternal,
        GetContractStateHash sha256 (CommitStateDB batchOk deleteOk s).2 addr false
            callFromExternal
          = GetContractStateHash sha256 s addr false callFromExternal := by
  have hview := CommitStateDB_viewLookup batchOk deleteOk s hwf hok
  have hwf2 := CommitStateDB_WF batchOk deleteOk s hwf
  have hfetch : ∀ key, FetchStateDataForKey (CommitStateDB batchOk deleteOk s).2 key false
      = FetchStateDataForKey s key false := by
    intro key
    apply SMap.WF.ext (WF_FetchStateDataForKey _ _ _) (WF_FetchStateDataForKey _ _ _)
    intro x
    rw [find?_FetchStateDataForKey hwf2, find?_FetchStateDataForKey hwf, hview]
  refine ⟨hview, hfetch, fun key k => find?_FetchStateDataForKey hwf key false k, ?_⟩
  intro addr ext
  unfold GetContractStateHash GetContractStateHashCore
  simp only [hfetch, ite_self]

/-- C35 witness: the committed view of the sample store (`c ↦ [5]`, a tombstone for `d`)
across a commit to the database. -/
theorem C35_commit_keeps_committed_view_witness :
    (CommitStateDB true (fun _ => true) committedStore).1 = true
    ∧ FetchStateDataForKey (CommitStateDB true (fun _ => true) committedStore).2 addrAA.hex
        false = [(nameKey addrAA [99], [5])]
    ∧ FetchStateDataForKey committedStore addrAA.hex false = [(nameKey addrAA [99], [5])] := by
  have h := (C35_commit_keeps_committed_view idDigest true (fun _ => true) committedStore
    committedStore_WF (by decide)).2.1 addrAA.hex
  refine ⟨by decide, ?_, by decide⟩
  rw [h]
  decide


/-! ## C32: the revert of a revertible commit -/

theorem foldl_insert_find?_any {β : Type} (l : SMap β) (hl : SMap.WF l) (m : SMap β) (x : Key) :
    SMap.find? (l.foldl (fun m e => SMap.insert m e.1 e.2) m) x
      = (SMap.find? l x).orElse (fun _ => SMap.find? m x) := by
  induction l generalizing m with
  | nil => rfl
  | cons e tl ih =>
    obtain ⟨k, v⟩ := e
    rw [List.foldl_cons, ih hl.tail]
    have htl := hl.find?_tail
    simp only at htl
    by_cases hk : k = x
    · subst hk; simp [htl, SMap.find?, SMap.find?_insert]
    · simp [SMap.find?, SMap.find?_insert, hk]

theorem foldl_erase_find? {β γ : Type} (l : SMap γ) (m : SMap β) (x : Key) :
    SMap.find? (l.foldl (fun m e => SMap.erase m e.1) m) x
      = if SMap.contains l x then none else SMap.find? m x := by
  induction l generalizing m with
  | nil => rfl
  | cons e tl ih =>
    obtain ⟨k, v⟩ := e
    rw [List.foldl_cons, ih, SMap.find?_erase, SMap.contains_cons]
    by_cases hk : k = x
    · subst hk; simp
    · have : ¬ x = k := fun h => hk h.symm
      simp [hk, this]

/-- The first loop of `RevertCommitTemp`, table by table. -/
theorem revertChanged_fields (l : SMap Account) (a : AccountStore) :
    (l.foldl (fun a entry =>
        AccountStore.UpdateStateTrie
          { a with m_addressToAccount := a.m_addressToAccount.insert entry.1 entry.2 }
          entry.1 entry.2) a)
      = { a with
          m_addressToAccount :=
            l.foldl (fun m e => SMap.insert m e.1 e.2) a.m_addressToAccount
          m_state := l.foldl (fun m e => SMap.insert m e.1 e.2) a.m_state } := by
  induction l generalizing a with
  | nil => rfl
  | cons e tl ih => rw [List.foldl_cons, ih]; rfl

/-- The second loop of `RevertCommitTemp`, table by table. -/
theorem revertCreated_fields (l : SMap Account) (a : AccountStore) :
    (l.foldl (fun a entry =>
        AccountStore.RemoveFromTrie (AccountStore.RemoveAccount a entry.1) entry.1) a)
      = { a with
          m_addressToAccount := l.foldl (fun m e => SMap.erase m e.1) a.m_addressToAccount
          m_state := l.foldl (fun m e => SMap.erase m e.1) a.m_state } := by
  induction l generalizing a with
  | nil => rfl
  | cons e tl ih => rw [List.foldl_cons, ih]; rfl

theorem RevertCommitTemp_eq (a : AccountStore) :
    AccountStore.RevertCommitTemp a
      = { a with
          m_addressToAccount :=
            a.m_addressToAccountRevCreated.foldl (fun m e => SMap.erase m e.1)
              (a.m_addressToAccountRevChanged.foldl (fun m e => SMap.insert m e.1 e.2)
                a.m_addressToAccount)
          m_state :=
            a.m_addressToAccountRevCreated.foldl (fun m e => SMap.erase m e.1)
              (a.m_addressToAccountRevChanged.foldl (fun m e => SMap.insert m e.1 e.2)
                a.m_state)
          contractStorage := RevertContractStates a.contractStorage } := by
  unfold AccountStore.RevertCommitTemp
  simp only [revertChanged_fields, revertCreated_fields]

/-- C32: after `RevertCommitTemp` returns, every address in `rev_changed` that is not in
`rev_created` maps, in the account map and in the trie, to its recorded prior account;
every address in `rev_created` is absent from both; accounts at all other addresses are
unchanged; and `RevertContractStates` of the contract storage has been applied. -/
theorem C32_revert_commit_temp (a : AccountStore)
    (hch : SMap.WF a.m_addressToAccountRevChanged) (addr : Address) :
    (∀ acc, SMap.find? a.m_addressToAccountRevChanged addr = some acc →
      SMap.contains a.m_addressToAccountRevCreated addr = false →
      SMap.find? (AccountStore.RevertCommitTemp a).m_addressToAccount addr = some acc
        ∧ SMap.find? (AccountStore.RevertCommitTemp a).m_state addr = some acc)
    ∧ (SMap.contains a.m_addressToAccountRevCreated addr = true →
      SMap.find? (AccountStore.RevertCommitTemp a).m_addressToAccount addr = none
        ∧ SMap.find? (AccountStore.RevertCommitTemp a).m_state addr = none)
    ∧ (SMap.contains a.m_addressToAccountRevChanged addr = false →
      SMap.contains a.m_addressToAccountRevCreated addr = false →
      SMap.find? (AccountStore.RevertCommitTemp a).m_addressToAccount addr
          = SMap.find? a.m_addressToAccount addr
        ∧ SMap.find? (AccountStore.RevertCommitTemp a).m_state addr
          = SMap.find? a.m_state addr)
    ∧ (AccountStore.RevertCommitTemp a).contractStorage
        = RevertContractStates a.contractStorage
    ∧ (AccountStore.RevertCommitTemp a).m_stateDeltaSerialized = a.m_stateDeltaSerialized := by
  rw [RevertCommitTemp_eq]
  simp only [foldl_erase_find?, foldl_insert_find?_any _ hch]
  refine ⟨fun acc hacc hcr => ?_, fun hcr => ?_, fun hch2 hcr => ?_, trivial, trivial⟩
  · simp [hacc, hcr]
  · simp [hcr]
  · unfold SMap.contains at hch2
    cases hf : SMap.find? a.m_addressToAccountRevChanged addr with
    | some v => rw [hf] at hch2; simp at hch2
    | none => simp [hcr]

/-- C32 witness: on the sample store (scenario S4) the revert removes the created account
`0xBB…BB` and gives `addrAA` its prior account back. -/
theorem C32_revert_commit_temp_witness :
    SMap.find? (AccountStore.RevertCommitTemp revertSample).m_addressToAccount addrBB = none
    ∧ SMap.find? (AccountStore.RevertCommitTemp revertSample).m_state addrBB = none
    ∧ SMap.find? (AccountStore.RevertCommitTemp revertSample).m_addressToAccount addrAA
        = some sampleContract
    ∧ SMap.find? revertSample.m_addressToAccount addrBB = some ⟨0, 5, [], [], []⟩ :=
  ⟨((C32_revert_commit_temp revertSample (by unfold SMap.WF; decide) addrBB).2.1
      (by decide)).1,
    ((C32_revert_commit_temp revertSample (by unfold SMap.WF; decide) addrBB).2.1
      (by decide)).2,
    ((C32_revert_commit_temp revertSample (by unfold SMap.WF; decide) addrAA).1 sampleContract
      (by decide) (by decide)).1,
    by decide⟩


/-! ## C36: what a contract reads after a snapshot and a revert -/

/-- C36: on the sample store, whose database holds `m[x] = 0x01`, the fetch of `m[x]`
finds the value; after `BufferCurrentState`, the call `UpdateStateValue` that deletes
`m[x]`, and `RevertPrevState`, `t_state` and `m_deleted` are as before, the key of `m[x]`
is still in `t_deleted`, and the same fetch finds nothing. -/
theorem C36_revert_keeps_tombstone :
    FetchStateValue wireCodec dbMapStore addrAA ⟨[109], 1, [[120]], false⟩
      = ⟨true, true, some (.bval [1])⟩
    ∧ (UpdateStateValue wireCodec (BufferCurrentState dbMapStore) addrAA
        ⟨[109], 1, [[120]], true⟩ .unset).1 = true
    ∧ RevertPrevState (UpdateStateValue wireCodec (BufferCurrentState dbMapStore) addrAA
        ⟨[109], 1, [[120]], true⟩ .unset).2
      = { dbMapStore with t_indexToBeDeleted := [(nameKey addrAA [109] ++ [120, 22], ())] }
    ∧ FetchStateValue wireCodec
        (RevertPrevState (UpdateStateValue wireCodec (BufferCurrentState dbMapStore) addrAA
          ⟨[109], 1, [[120]], true⟩ .unset).2) addrAA ⟨[109], 1, [[120]], false⟩
      = ⟨true, false, none⟩ := by
  refine ⟨by decide, by decide, by decide, by decide⟩

/-! ## C38: an update that is rejected -/

/-- C38: on the sample store, whose temporary overlay holds `m[x][y]` and `m[x][z]`, the
call `UpdateStateValue` for the whole depth-2 map `m` with a value that is not a map
returns false, and yet both keys are in `t_deleted` after it: the fetch of `m[x][y]`,
which found `0x2A` before the call, finds nothing after it. -/
theorem C38_rejected_update_deletes :
    (UpdateStateValue wireCodec nestedMapStore addrAA ⟨[109], 2, [], false⟩ (.bval [1])).1
      = false
    ∧ nestedMapStore.t_indexToBeDeleted = []
    ∧ (UpdateStateValue wireCodec nestedMapStore addrAA ⟨[109], 2, [], false⟩
        (.bval [1])).2.t_indexToBeDeleted
      = [(nameKey addrAA [109] ++ [120, 22, 121, 22], ()),
         (nameKey addrAA [109] ++ [120, 22, 122, 22], ())]
    ∧ FetchStateValue wireCodec nestedMapStore addrAA ⟨[109], 2, [[120], [121]], false⟩
      = ⟨true, true, some (.bval [0x2A])⟩
    ∧ FetchStateValue wireCodec
        (UpdateStateValue wireCodec nestedMapStore addrAA ⟨[109], 2, [], false⟩ (.bval [1])).2
        addrAA ⟨[109], 2, [[120], [121]], false⟩
      = ⟨true, false, none⟩ := by
  refine ⟨by decide, by decide, by decide, by decide, by decide⟩


/-! ## C37: the transfer of the temporary tier of an address -/

theorem overwriteTemp_eq (S : List (Key × Bytes)) (s : ContractStorage2) :
    overwriteTemp S s
      = { s with
          t_stateDataMap := S.foldl (fun m e => SMap.insert m e.1 e.2) s.t_stateDataMap
          t_indexToBeDeleted := S.foldl (fun d e => SSet.remove d e.1) s.t_indexToBeDeleted } := by
  induction S generalizing s with
  | nil => rfl
  | cons e tl ih =>
    obtain ⟨k, v⟩ := e
    rw [overwriteTemp, ih]
    rfl

theorem foldl_remove_mem {β : Type} (l : SMap β) (d : SSet) (x : Key) :
    SSet.mem (l.foldl (fun d e => SSet.remove d e.1) d) x
      = (!SMap.contains l x && SSet.mem d x) := by
  induction l generalizing d with
  | nil => simp [SMap.contains, SMap.find?]
  | cons e tl ih =>
    obtain ⟨k, v⟩ := e
    rw [List.foldl_cons, ih, SSet.mem_remove, SMap.contains_cons]
    by_cases hk : k = x
    · subst hk; simp
    · have : ¬ x = k := fun h => hk h.symm
      simp [hk, this]

theorem foldl_remove_WF {β : Type} (l : SMap β) (d : SSet) (h : SMap.WF d) :
    SMap.WF (l.foldl (fun d e => SSet.remove d e.1) d) := by
  induction l generalizing d with
  | nil => exact h
  | cons e tl ih => exact ih _ (h.erase _)

theorem foldl_add_mem (l : List Key) (d : SSet) (x : Key) :
    SSet.mem (l.foldl SSet.add d) x = (decide (x ∈ l) || SSet.mem d x) := by
  induction l generalizing d with
  | nil => simp
  | cons k tl ih =>
    rw [List.foldl_cons, ih, SSet.mem_add]
    by_cases hk : k = x
    · subst hk; simp
    · have : ¬ x = k := fun h => hk h.symm
      simp [hk, this]

theorem foldl_add_WF (l : List Key) (d : SSet) (h : SMap.WF d) :
    SMap.WF (l.foldl SSet.add d) := by
  induction l generalizing d with
  | nil => exact h
  | cons k tl ih => exact ih _ (h.emplace _ _)

theorem find?_none_of_no_key {β : Type} {m : SMap β} {pre x : Key}
    (h : ∀ e ∈ m, startsWith e.1 pre = false) (hx : startsWith x pre = true) :
    SMap.find? m x = none := by
  apply SMap.find?_eq_none_of_forall_ne
  intro e he heq
  have := h e he
  rw [heq, hx] at this
  cases this

/-- C37 (as stated) fails for the null address: `FetchUpdatedStateValuesForAddress` returns
nothing for it, so the update leaves the empty store `B` empty, while the temporary overlay
of `A` holds a key of that address. -/
theorem C37_counterexample :
    FetchUpdatedStateValuesForAddress nullAddressStore (List.replicate 20 0) true = ([], [])
    ∧ (UpdateStateDatasAndToDeletes noMergeEnv constDigest ContractStorage2.empty
        (List.replicate 20 0)
        (FetchUpdatedStateValuesForAddress nullAddressStore (List.replicate 20 0) true).1
        (FetchUpdatedStateValuesForAddress nullAddressStore (List.replicate 20 0) true).2
        true false noMergeEnv.UNKNOWN_SHARD_ID 1).map
          (fun r => r.1.t_stateDataMap.scanPrefix (Address.hex (List.replicate 20 0)))
      = some []
    ∧ nullAddressStore.t_stateDataMap.scanPrefix (Address.hex (List.replicate 20 0))
      = [(nameKey (List.replicate 20 0) [99], [1])] := by
  refine ⟨by decide, by decide, by decide⟩

/-- C37 (amended): if `addr` is not the null address and `(S, D)` is what
`FetchUpdatedStateValuesForAddress(addr, temp = true)` returns on a store `A`, then on any
store `B` whose `t_state` and `t_deleted` hold no key of `addr`,
`UpdateStateDatasAndToDeletes(addr, S, D, temp = true)` in overwrite mode (unknown shard)
makes `t_state` and `t_deleted` of `B` restricted to the keys of `addr` equal to those of
`A`, and leaves `m_state`, `m_deleted` and the database of `B` unchanged. -/
theorem C37_temp_delta_transfer (env : MergeEnv) (sha256 : Bytes → Bytes)
    (A B : ContractStorage2) (addr : Address) (revertible : Bool) (shardId numShards : Nat)
    (hnn : IsNullAddress addr = false) (hA : A.WF) (hB : B.WF)
    (hBt : ∀ e ∈ B.t_stateDataMap, startsWith e.1 addr.hex = false)
    (hBd : ∀ e ∈ B.t_indexToBeDeleted, startsWith e.1 addr.hex = false)
    (hshard : shardId = env.UNKNOWN_SHARD_ID) :
    ∃ B1 h,
      UpdateStateDatasAndToDeletes env sha256 B addr
          (FetchUpdatedStateValuesForAddress A addr true).1
          (FetchUpdatedStateValuesForAddress A addr true).2 true revertible shardId numShards
        = some (B1, h)
      ∧ B1.t_stateDataMap.scanPrefix addr.hex = A.t_stateDataMap.scanPrefix addr.hex
      ∧ SMap.scanPrefix B1.t_indexToBeDeleted addr.hex
          = SMap.scanPrefix A.t_indexToBeDeleted addr.hex
      ∧ B1.m_stateDataMap = B.m_stateDataMap
      ∧ B1.m_indexToBeDeleted = B.m_indexToBeDeleted
      ∧ B1.m_stateDataDB = B.m_stateDataDB := by
  have hS : (FetchUpdatedStateValuesForAddress A addr true).1
      = A.t_stateDataMap.scanPrefix addr.hex := by
    unfold FetchUpdatedStateValuesForAddress
    simp only [hnn, Bool.false_eq_true, if_false, if_true]
    exact emplaceAll_nil_of_WF (hA.t.scanPrefix _)
  have hD : (FetchUpdatedStateValuesForAddress A addr true).2
      = (SMap.scanPrefix A.t_indexToBeDeleted addr.hex).map Prod.fst := by
    unfold FetchUpdatedStateValuesForAddress
    simp only [hnn, Bool.false_eq_true, if_false, if_true]
  rw [hS, hD]
  have hU : UpdateStateDatasAndToDeletes env sha256 B addr
      (A.t_stateDataMap.scanPrefix addr.hex)
      ((SMap.scanPrefix A.t_indexToBeDeleted addr.hex).map Prod.fst) true revertible shardId
      numShards
      = some (tempDeletes ((SMap.scanPrefix A.t_indexToBeDeleted addr.hex).map Prod.fst)
          (overwriteTemp (A.t_stateDataMap.scanPrefix addr.hex) B),
        GetContractStateHashCore sha256
          (tempDeletes ((SMap.scanPrefix A.t_indexToBeDeleted addr.hex).map Prod.fst)
            (overwriteTemp (A.t_stateDataMap.scanPrefix addr.hex) B)) addr true) := by
    unfold UpdateStateDatasAndToDeletes
    simp [hshard]
  refine ⟨_, _, hU, ?_, ?_, ?_, ?_, ?_⟩
  · rw [overwriteTemp_eq]
    unfold tempDeletes
    dsimp only
    have hwf1 : SMap.WF ((A.t_stateDataMap.scanPrefix addr.hex).foldl
        (fun m e => SMap.insert m e.1 e.2) B.t_stateDataMap) :=
      foldl_insert_WF _ _ hB.t
    apply SMap.WF.ext (hwf1.scanPrefix _) (hA.t.scanPrefix _)
    intro x
    rw [SMap.find?_scanPrefix hwf1, foldl_insert_find? _ (hA.t.scanPrefix _),
      SMap.find?_scanPrefix hA.t]
    by_cases hx : startsWith x addr.hex = true
    · rw [find?_none_of_no_key hBt hx]
      simp only [hx, if_true]
      cases SMap.find? A.t_stateDataMap x <;> rfl
    · simp only [hx, Bool.false_eq_true, if_false]
  · rw [overwriteTemp_eq]
    unfold tempDeletes
    dsimp only
    have hwf1 : SMap.WF (((SMap.scanPrefix A.t_indexToBeDeleted addr.hex).map Prod.fst).foldl
        SSet.add ((A.t_stateDataMap.scanPrefix addr.hex).foldl
          (fun d e => SSet.remove d e.1) B.t_indexToBeDeleted)) :=
      foldl_add_WF _ _ (foldl_remove_WF _ _ hB.td)
    apply SSet.ext_of_mem (hwf1.scanPrefix _) (hA.td.scanPrefix _)
    intro x
    unfold SSet.mem
    rw [SMap.contains_scanPrefix hwf1, SMap.contains_scanPrefix hA.td]
    by_cases hx : startsWith x addr.hex = true
    · have hmem := foldl_add_mem ((SMap.scanPrefix A.t_indexToBeDeleted addr.hex).map Prod.fst)
        ((A.t_stateDataMap.scanPrefix addr.hex).foldl
          (fun d e => SSet.remove d e.1) B.t_indexToBeDeleted) x
      unfold SSet.mem at hmem
      rw [hmem]
      have hrem := foldl_remove_mem (A.t_stateDataMap.scanPrefix addr.hex)
        B.t_indexToBeDeleted x
      unfold SSet.mem at hrem
      rw [hrem]
      have hb : SMap.contains B.t_indexToBeDeleted x = false := by
        unfold SMap.contains
        rw [find?_none_of_no_key hBd hx]
        rfl
      have hk := SMap.contains_iff_mem_keys (SMap.scanPrefix A.t_indexToBeDeleted addr.hex) x
      rw [SMap.contains_scanPrefix hA.td, hx] at hk
      simp only [Bool.true_and] at hk
      rw [hb, hx]
      by_cases hc : SMap.contains A.t_indexToBeDeleted x = true
      · simp [hc, hk.1 hc]
      · have : ¬ x ∈ (SMap.scanPrefix A.t_indexToBeDeleted addr.hex).map Prod.fst :=
          fun h => hc (hk.2 h)
        simp [hc, this]
    · simp [hx]
  · rw [overwriteTemp_eq]; rfl
  · rw [overwriteTemp_eq]; rfl
  · rw [overwriteTemp_eq]; rfl

/-- C37 witness: the temporary tier of `addrAA` in the sample store with two contracts,
transferred to the empty store. -/
theorem C37_temp_delta_transfer_witness :
    ∃ B1 h,
      UpdateStateDatasAndToDeletes noMergeEnv constDigest ContractStorage2.empty addrAA
          (FetchUpdatedStateValuesForAddress twoContractStore addrAA true).1
          (FetchUpdatedStateValuesForAddress twoContractStore addrAA true).2 true false
          noMergeEnv.UNKNOWN_SHARD_ID 1
        = some (B1, h)
      ∧ B1.t_stateDataMap.scanPrefix addrAA.hex
          = twoContractStore.t_stateDataMap.scanPrefix addrAA.hex
      ∧ SMap.scanPrefix B1.t_indexToBeDeleted addrAA.hex
          = SMap.scanPrefix twoContractStore.t_indexToBeDeleted addrAA.hex
      ∧ B1.m_stateDataMap = ContractStorage2.empty.m_stateDataMap
      ∧ B1.m_indexToBeDeleted = ContractStorage2.empty.m_indexToBeDeleted
      ∧ B1.m_stateDataDB = ContractStorage2.empty.m_stateDataDB :=
  C37_temp_delta_transfer noMergeEnv constDigest twoContractStore ContractStorage2.empty addrAA
    false noMergeEnv.UNKNOWN_SHARD_ID 1 (by decide) twoContractStore_WF
    ⟨SMap.WF.nil, SMap.WF.nil, SMap.WF.nil, SMap.WF.nil, SMap.WF.nil, SMap.WF.nil, SMap.WF.nil,
      SMap.WF.nil, SMap.WF.nil⟩
    (fun e he => by cases he) (fun e he => by cases he) rfl


end Zilliqa
